import Mathlib

/-!
# SPGM Delaunay triangulation engine: shallow embedding

Embedding of `src/geometry/Topology.hh`, `src/geometry/Triangulator.cc`,
`src/mem/MemoryPool.hh`, of `GetFieldValueAtTime` and `GetCurrentFieldValue` of
`src/util/TimeSeries.cc`, of `InitializeNetwork` and the bounding box of
`src/mesh/SurfaceTopology.cc`, and of `Split` and `Trim` of `src/parser/Config.cc`.

Conventions.

* Coordinates are integers: binary floating-point coordinates are integer multiples of a common
  power of two, and the predicates are homogeneous polynomials, so the integer multiples decide
  the same signs.  `Site::CCW` and `Site::InCircle` are evaluated as the program evaluates them,
  in double precision with every product, difference and sum rounded to the nearest double
  (`roundDouble`, `ccwDouble`, `inCircleDouble`; 53 significant binary digits, ties to even, one
  rounding per operation; overflow and underflow are not modelled).  `ccwVal` and `inCircleVal`
  are the same expressions without rounding ("exact arithmetic").  Circumcentres, the values of
  a time series and the heights of a mesh are rationals.
* A pointer is an `Option Nat`: `none` is the NULL pointer.  An `Edge*` is the index of an
  Edge record in the chunk of the edge pool (record `4 * q + r` is `m_e[r]` of the quad-edge in
  slot `q`); a `Site*` is an index into `m_sites`; a `VSite*` is a slot of the Voronoi pool.
* A string is a list of characters.
* Every operation returns an `Option`; `none` stands for a run that the C++ program does not
  complete with defined behaviour (NULL or out-of-pool dereference, write past a buffer, access
  to a destroyed chunk) or, for the loops, for an exhausted step budget (`fuel`).
-/

namespace SPGM

/-! ## MemoryPool (Fixed mode) -/

/-- Pointers: `none` is NULL. -/
abbrev Ptr := Option Nat

/-- State of a `MemoryPool` constructed in `Fixed` mode.  In this mode `NewObject` never leaves
chunk 0 (it returns NULL when that chunk has no free slot), so only directory entry 0 is kept:
`chunk0 = none` is `chunks[0].numFree == INVALID`; `chunk0 = some st` is a live chunk whose free
list holds `st`, top of the stack first (`numFree = st.length`, `freeList[numFree-1]` is the
head).  Addresses are counted in elements from the start of the chunk. -/
structure MemoryPool where
  numElementsPerChunk : Nat
  chunkToUse : Option Nat
  chunk0 : Option (List Nat)
deriving DecidableEq

/-- Constructor `MemoryPool(elemSize, numElemsPerChunk, Fixed)`: no chunk yet. -/
def MemoryPool.init (numElemsPerChunk : Nat) : MemoryPool :=
  ⟨numElemsPerChunk, none, none⟩

/-- `CreateChunk(0)`: zero-filled memory, `freeList[j]` = address of element `j`,
`numFree = numElementsPerChunk`. -/
def MemoryPool.CreateChunk (p : MemoryPool) : MemoryPool :=
  { p with chunk0 := some (List.range p.numElementsPerChunk).reverse }

/-- `GetNumFree()`: the sum of `numFree` over the chunks that are not `INVALID`. -/
def MemoryPool.GetNumFree (p : MemoryPool) : Nat :=
  match p.chunk0 with
  | none => 0
  | some st => st.length

/-- `GetDataPointer()`: `chunks[0].memory` when chunk 0 is live, NULL otherwise
(the result is only tested against NULL, so it is a `Bool` here). -/
def MemoryPool.GetDataPointer (p : MemoryPool) : Bool :=
  p.chunk0.isSome

/-- `NewObject()` in Fixed mode.  Returns the new pool state, whether a chunk was created by this
call, and the address (NULL when `chunk->numFree <= 0`). -/
def MemoryPool.NewObject (p : MemoryPool) : MemoryPool × Bool × Ptr :=
  let created := p.chunkToUse.isNone
  let p1 : MemoryPool :=
    if p.chunkToUse.isNone then { p.CreateChunk with chunkToUse := some 0 } else p
  match p1.chunk0 with
  | none => (p1, created, none)
  | some [] => (p1, created, none)
  | some (a :: rest) => ({ p1 with chunk0 := some rest }, created, some a)

/-- `Shrink()`: the first chunk with `numFree == numElementsPerChunk` is released
(`chunkToUse` is left as it is; with the initial `maxChunkEntries` the directory never
shrinks). -/
def MemoryPool.Shrink (p : MemoryPool) : MemoryPool :=
  match p.chunk0 with
  | none => p
  | some st => if st.length = p.numElementsPerChunk then { p with chunk0 := none } else p

/-- `DeleteObject(object)`.  Result `none`: the push would write past the end of `freeList`.
Otherwise the new pool and the returned flag (0 for NULL or an address outside the chunk);
when the flag is 1 the record at `object` has been zero-filled by the caller of this model. -/
def MemoryPool.DeleteObject (p : MemoryPool) (object : Ptr) : Option (MemoryPool × Bool) :=
  match object with
  | none => some (p, false)
  | some a =>
    match p.chunk0 with
    | none => some (p, false)
    | some st =>
      if a < p.numElementsPerChunk then
        if st.length < p.numElementsPerChunk then
          some (({ p with chunk0 := some (a :: st) } : MemoryPool).Shrink, true)
        else none
      else some (p, false)

/-! ## Sites and geometric predicates (Topology.hh) -/

/-- A `Site`: the coordinates it points to and its id. -/
structure Site where
  x : Int
  y : Int
  m_id : Nat
deriving DecidableEq

/-- Polynomial of `Site::CCW` in exact arithmetic (no operation rounds): twice the signed area
of `a b c`. -/
def ccwVal (a b c : Site) : Int :=
  (b.x * c.y - b.y * c.x) - (a.x * c.y - a.y * c.x) + (a.x * b.y - a.y * b.x)

/-- Number of low binary digits of `n` that do not fit in the 53 significant digits of a
double: the least `e` with `n / 2 ^ e < 2 ^ 53`, searched as far as `fuel`. -/
def droppedBits : Nat → Nat → Nat
  | 0, _ => 0
  | fuel + 1, n => if n < 9007199254740992 then 0 else droppedBits fuel (n / 2) + 1

/-- Rounding of the exact result of an arithmetic operation to a `double` (round to nearest,
ties to even), in units of the common power of two.  A magnitude below `2 ^ 53` is a double.
Otherwise the `e` low binary digits beyond the leading 53 are dropped and the kept digits `q`
are rounded up when the dropped part is above half a unit of `q`, or is exactly half and `q` is
odd.  The search of `e` covers every magnitude below `2 ^ 2101`, which is beyond the range of a
double. -/
def roundDouble (z : Int) : Int :=
  if z.natAbs < 9007199254740992 then z
  else
    let e := droppedBits 2048 z.natAbs
    let q := z.natAbs / 2 ^ e
    let r := z.natAbs % 2 ^ e
    let m := if 2 * r > 2 ^ e ∨ (2 * r = 2 ^ e ∧ q % 2 = 1) then q + 1 else q
    z.sign * ((m * 2 ^ e : Nat) : Int)

/-- Value stored by `Site::CCW`: the expression
`((bx*cy-by*cx) - (ax*cy-ay*cx) + (ax*by-ay*bx))` on `double` operands, every operation
rounded. -/
def ccwDouble (a b c : Site) : Int :=
  roundDouble
    (roundDouble
        (roundDouble (roundDouble (b.x * c.y) - roundDouble (b.y * c.x))
          - roundDouble (roundDouble (a.x * c.y) - roundDouble (a.y * c.x)))
      + roundDouble (roundDouble (a.x * b.y) - roundDouble (a.y * b.x)))

/-- Comparison of `Site::InCircle` on four sites in exact arithmetic (no operation rounds). -/
def inCircleVal (a b c d : Site) : Bool :=
  let x1 := a.x; let y1 := a.y
  let x2 := b.x; let y2 := b.y
  let x3 := c.x; let y3 := c.y
  let x4 := d.x; let y4 := d.y
  decide (((y4-y1)*(x2-x3)+(x4-x1)*(y2-y3))*((x4-x3)*(x2-x1)-(y4-y3)*(y2-y1)) >
          ((y4-y3)*(x2-x1)+(x4-x3)*(y2-y1))*((x4-x1)*(x2-x3)-(y4-y1)*(y2-y3)))

/-- Value returned by `Site::InCircle`: the comparison
`((y4-y1)*(x2-x3)+(x4-x1)*(y2-y3))*((x4-x3)*(x2-x1)-(y4-y3)*(y2-y1)) >
 ((y4-y3)*(x2-x1)+(x4-x3)*(y2-y1))*((x4-x1)*(x2-x3)-(y4-y1)*(y2-y3))` on `double` operands,
every operation rounded. -/
def inCircleDouble (a b c d : Site) : Bool :=
  let x1 := a.x; let y1 := a.y
  let x2 := b.x; let y2 := b.y
  let x3 := c.x; let y3 := c.y
  let x4 := d.x; let y4 := d.y
  let d41y := roundDouble (y4 - y1); let d41x := roundDouble (x4 - x1)
  let d23x := roundDouble (x2 - x3); let d23y := roundDouble (y2 - y3)
  let d43x := roundDouble (x4 - x3); let d43y := roundDouble (y4 - y3)
  let d21x := roundDouble (x2 - x1); let d21y := roundDouble (y2 - y1)
  decide
    (roundDouble
        (roundDouble (roundDouble (d41y * d23x) + roundDouble (d41x * d23y))
          * roundDouble (roundDouble (d43x * d21x) - roundDouble (d43y * d21y))) >
      roundDouble
        (roundDouble (roundDouble (d43y * d21x) + roundDouble (d43x * d21y))
          * roundDouble (roundDouble (d41x * d23x) - roundDouble (d41y * d23y))))

/-- Dereference of a `Site*` into `m_sites`. -/
def siteAt (sites : List Site) (p : Ptr) : Option Site :=
  match p with
  | none => none
  | some i => sites[i]?

/-- `Site::CCW(a, b, c, &result)` on site pointers. -/
def CCW (sites : List Site) (a b c : Ptr) : Option Int := do
  let sa ← siteAt sites a
  let sb ← siteAt sites b
  let sc ← siteAt sites c
  pure (ccwDouble sa sb sc)

/-- `Site::InCircle(a, b, c, d)` on site pointers. -/
def InCircle (sites : List Site) (a b c d : Ptr) : Option Bool := do
  let sa ← siteAt sites a
  let sb ← siteAt sites b
  let sc ← siteAt sites c
  let sd ← siteAt sites d
  pure (inCircleDouble sa sb sc sd)

/-- `SiteComparator`: ascending x, then y. -/
def SiteComparator (a b : Site) : Bool :=
  if a.x ≠ b.x then decide (a.x < b.x) else decide (a.y < b.y)

/-- Order used to model `std::sort(…, SiteComparator())`: `a` may precede `b` unless `b`
compares less than `a`. -/
def siteLE (a b : Site) : Prop := SiteComparator b a = false

instance : DecidableRel siteLE := fun a b => by unfold siteLE; infer_instance

/-- `SortSites()`: sites that compare equal keep their relative order in the model. -/
def SortSites (sites : List Site) : List Site := sites.insertionSort siteLE

/-! ## Edge records and the quad-edge store -/

/-- An `Edge` record: `m_num`, `m_next`, `m_data[0]` (origin `Site*`), `m_data[1]`
(`VSite*`). -/
structure Edge where
  m_num : Nat
  m_next : Ptr
  m_data0 : Ptr
  m_data1 : Ptr
deriving DecidableEq

/-- An all-zero record, as left by `memset`. -/
def Edge.zero : Edge := ⟨0, none, none, none⟩

/-- Pointwise update of a memory map. -/
def upd {α : Type} (f : Nat → α) (i : Nat) (v : α) : Nat → α :=
  fun j => if j = i then v else f j

/-- The edge pool `m_dEdgePool` with the contents of its chunk: `edge i` is Edge record `i`
(`i / 4` the quad-edge slot, `i % 4` the position in `m_e`), `attr q` is `m_attributes` of
slot `q`. -/
structure EdgeStore where
  pool : MemoryPool
  edge : Nat → Edge
  attr : Nat → Nat

/-- Edge store right after `AllocateStorage`: the pool has no chunk yet; a chunk is zero-filled
when created. -/
def EdgeStore.init (cap : Nat) : EdgeStore :=
  ⟨MemoryPool.init cap, fun _ => Edge.zero, fun _ => 0⟩

/-- Read of an Edge record through a pointer: the chunk must be live and the record inside. -/
def EdgeStore.rd (s : EdgeStore) (p : Ptr) : Option Edge :=
  match p with
  | none => none
  | some i =>
    if s.pool.chunk0.isSome ∧ i < 4 * s.pool.numElementsPerChunk then some (s.edge i) else none

/-- Write of an Edge record through a pointer. -/
def EdgeStore.wr (s : EdgeStore) (p : Ptr) (f : Edge → Edge) : Option EdgeStore :=
  match p with
  | none => none
  | some i =>
    if s.pool.chunk0.isSome ∧ i < 4 * s.pool.numElementsPerChunk then
      some { s with edge := upd s.edge i (f (s.edge i)) }
    else none

/-- `Edge::Rot`. -/
def Rot (s : EdgeStore) (p : Ptr) : Option Ptr := do
  let e ← s.rd p
  let i ← p
  if e.m_num < 3 then pure (some (i + 1)) else if 3 ≤ i then pure (some (i - 3)) else none

/-- `Edge::Tor`. -/
def Tor (s : EdgeStore) (p : Ptr) : Option Ptr := do
  let e ← s.rd p
  let i ← p
  if e.m_num > 0 then (if 1 ≤ i then pure (some (i - 1)) else none) else pure (some (i + 3))

/-- `Edge::Sym`. -/
def Sym (s : EdgeStore) (p : Ptr) : Option Ptr := do
  let e ← s.rd p
  let i ← p
  if e.m_num < 2 then pure (some (i + 2)) else if 2 ≤ i then pure (some (i - 2)) else none

/-- `Edge::Onext`. -/
def Onext (s : EdgeStore) (p : Ptr) : Option Ptr := do
  let e ← s.rd p
  pure e.m_next

/-- `Edge::Oprev`. -/
def Oprev (s : EdgeStore) (p : Ptr) : Option Ptr := do
  Rot s (← Onext s (← Rot s p))

/-- `Edge::Dnext`. -/
def Dnext (s : EdgeStore) (p : Ptr) : Option Ptr := do
  Sym s (← Onext s (← Sym s p))

/-- `Edge::Lnext`. -/
def Lnext (s : EdgeStore) (p : Ptr) : Option Ptr := do
  Rot s (← Onext s (← Tor s p))

/-- `Edge::Rprev`. -/
def Rprev (s : EdgeStore) (p : Ptr) : Option Ptr := do
  Onext s (← Sym s p)

/-- `Edge::Org`. -/
def Org (s : EdgeStore) (p : Ptr) : Option Ptr := do
  let e ← s.rd p
  pure e.m_data0

/-- `Edge::Dest`. -/
def Dest (s : EdgeStore) (p : Ptr) : Option Ptr := do
  Org s (← Sym s p)

/-- `Edge::VOrg`. -/
def VOrg (s : EdgeStore) (p : Ptr) : Option Ptr := do
  let e ← s.rd p
  pure e.m_data1

/-- `Edge::VDest`. -/
def VDest (s : EdgeStore) (p : Ptr) : Option Ptr := do
  VOrg s (← Sym s p)

/-- `Edge::Qedge`: the slot of the bundle at `this - m_num`. -/
def Qedge (s : EdgeStore) (p : Ptr) : Option Nat := do
  let e ← s.rd p
  let i ← p
  if e.m_num ≤ i ∧ (i - e.m_num) % 4 = 0 then pure ((i - e.m_num) / 4) else none

/-- `Edge::Onext_Set`. -/
def Onext_Set (s : EdgeStore) (p : Ptr) (e : Ptr) : Option EdgeStore :=
  s.wr p (fun r => { r with m_next := e })

/-- `Edge::Org_Set`. -/
def Org_Set (s : EdgeStore) (p : Ptr) (site : Ptr) : Option EdgeStore :=
  s.wr p (fun r => { r with m_data0 := site })

/-- `Edge::Dest_Set`. -/
def Dest_Set (s : EdgeStore) (p : Ptr) (site : Ptr) : Option EdgeStore := do
  Org_Set s (← Sym s p) site

/-- `Edge::VOrg_Set`. -/
def VOrg_Set (s : EdgeStore) (p : Ptr) (vs : Ptr) : Option EdgeStore :=
  s.wr p (fun r => { r with m_data1 := vs })

/-- `Edge::VDest_Set`. -/
def VDest_Set (s : EdgeStore) (p : Ptr) (vs : Ptr) : Option EdgeStore := do
  VOrg_Set s (← Sym s p) vs

/-! ### The packed attribute word of a QuadEdge (32-bit pattern as a natural number) -/

/-- `QuadEdge::Visited`: `(m_attributes & 0xffff0000) >> 16`. -/
def Visited (a : Nat) : Nat := a / 65536

/-- `QuadEdge::ResetVisited`: `m_attributes &= ~0xffff0000`. -/
def ResetVisited (a : Nat) : Nat := a % 65536

/-- `QuadEdge::IncrementVisited`. -/
def IncrementVisited (a : Nat) : Nat := (a % 65536 + (a / 65536 + 1) * 65536) % 4294967296

/-- `QuadEdge::IsFree`: `(m_attributes & 0x0000ffff) == 0`. -/
def IsFree (a : Nat) : Bool := a % 65536 = 0

/-- `QuadEdge::SetFree`: `m_attributes &= ~0x0000ffff`. -/
def SetFree (a : Nat) : Nat := a / 65536 * 65536

/-- `QuadEdge::SetInUse`: `m_attributes |= 1`. -/
def SetInUse (a : Nat) : Nat := if a % 2 = 0 then a + 1 else a

/-! ## Topological operators (Triangulator.cc) -/

/-- `Triangulator::MakeEdge`: placement-new of a `QuadEdge` on a pool slot, then `SetInUse`. -/
def MakeEdge (s : EdgeStore) : Option (Ptr × EdgeStore) :=
  match s.pool.NewObject with
  | (_, _, none) => none
  | (pool1, created, some q) =>
    let edge0 : Nat → Edge := if created then fun _ => Edge.zero else s.edge
    let attr0 : Nat → Nat := if created then fun _ => 0 else s.attr
    let b := 4 * q
    let edge1 := upd (upd (upd (upd edge0
      b ⟨0, some b, none, none⟩)
      (b + 1) ⟨1, some (b + 3), none, none⟩)
      (b + 2) ⟨2, some (b + 2), none, none⟩)
      (b + 3) ⟨3, some (b + 1), none, none⟩
    some (some b, ⟨pool1, edge1, upd attr0 q (SetInUse 0)⟩)

/-- `Triangulator::Splice`. -/
def Splice (s : EdgeStore) (a b : Ptr) : Option EdgeStore := do
  let alpha ← Rot s (← Onext s a)
  let beta ← Rot s (← Onext s b)
  let ta ← Onext s a
  let tb ← Onext s b
  let s ← Onext_Set s a tb
  let s ← Onext_Set s b ta
  let ta ← Onext s alpha
  let tb ← Onext s beta
  let s ← Onext_Set s alpha tb
  let s ← Onext_Set s beta ta
  pure s

/-- `Triangulator::Connect`. -/
def Connect (s : EdgeStore) (a b : Ptr) : Option (Ptr × EdgeStore) := do
  let (e, s) ← MakeEdge s
  let s ← Org_Set s e (← Dest s a)
  let s ← Dest_Set s e (← Org s b)
  let s ← Splice s e (← Lnext s a)
  let s ← Splice s (← Sym s e) b
  pure (e, s)

/-- The statement `if (e->Onext() != e) Splice(e, e->Oprev());` of `Delete`. -/
def detach (s : EdgeStore) (e : Ptr) : Option EdgeStore := do
  if (← Onext s e) ≠ e then Splice s e (← Oprev s e) else pure s

/-- The statements `e->Qedge()->SetFree(); m_dEdgePool->DeleteObject(e->Qedge());` of `Delete`;
`DeleteObject` zero-fills the bundle when the address belongs to the chunk. -/
def release (s : EdgeStore) (e : Ptr) : Option EdgeStore := do
  let q ← Qedge s e
  let s : EdgeStore := { s with attr := upd s.attr q (SetFree (s.attr q)) }
  let (pool1, ok) ← s.pool.DeleteObject (some q)
  if ok then
    let b := 4 * q
    pure ⟨pool1,
      upd (upd (upd (upd s.edge b Edge.zero) (b + 1) Edge.zero) (b + 2) Edge.zero)
        (b + 3) Edge.zero,
      upd s.attr q 0⟩
  else pure { s with pool := pool1 }

/-- `Triangulator::Delete`. -/
def Delete (s : EdgeStore) (e : Ptr) : Option EdgeStore := do
  let f ← Sym s e
  let s ← detach s e
  let s ← detach s f
  release s e

/-- `Triangulator::RightOf`. -/
def RightOf (sites : List Site) (s : EdgeStore) (site : Ptr) (e : Ptr) : Option Bool := do
  let result ← CCW sites site (← Dest s e) (← Org s e)
  pure (decide (result > 0))

/-- `Triangulator::LeftOf`. -/
def LeftOf (sites : List Site) (s : EdgeStore) (site : Ptr) (e : Ptr) : Option Bool := do
  let result ← CCW sites site (← Org s e) (← Dest s e)
  pure (decide (result > 0))

/-! ## Divide and conquer (Triangulator::Delaunay) -/

/-- First `while (1)` of `Delaunay`: walk to the lower common tangent. -/
def tangentLoop (sites : List Site) (s : EdgeStore) : Nat → Ptr → Ptr → Option (Ptr × Ptr)
  | 0, _, _ => none
  | fuel + 1, ldi, rdi => do
    if (← LeftOf sites s (← Org s rdi) ldi) then
      tangentLoop sites s fuel (← Lnext s ldi) rdi
    else if (← RightOf sites s (← Org s ldi) rdi) then
      tangentLoop sites s fuel ldi (← Onext s (← Sym s rdi))
    else pure (ldi, rdi)

/-- Inner `while (Site::InCircle(...))` on the left candidate. -/
def lcandLoop (sites : List Site) (basel : Ptr) : Nat → EdgeStore → Ptr → Option (Ptr × EdgeStore)
  | 0, _, _ => none
  | fuel + 1, s, lcand => do
    if (← InCircle sites (← Dest s basel) (← Org s basel) (← Dest s lcand)
          (← Dest s (← Onext s lcand))) then
      let t ← Onext s lcand
      let s ← Delete s lcand
      lcandLoop sites basel fuel s t
    else pure (lcand, s)

/-- Inner `while (Site::InCircle(...))` on the right candidate. -/
def rcandLoop (sites : List Site) (basel : Ptr) : Nat → EdgeStore → Ptr → Option (Ptr × EdgeStore)
  | 0, _, _ => none
  | fuel + 1, s, rcand => do
    if (← InCircle sites (← Dest s basel) (← Org s basel) (← Dest s rcand)
          (← Dest s (← Oprev s rcand))) then
      let t ← Oprev s rcand
      let s ← Delete s rcand
      rcandLoop sites basel fuel s t
    else pure (rcand, s)

/-- Left candidate of a merge pass: `lcand = basel->Sym()->Onext()` and, when it is valid, the
deletions of the inner loop.  `loopFuel` is the step budget of the inner loop. -/
def leftCandidate (sites : List Site) (loopFuel : Nat) (s : EdgeStore) (basel : Ptr) :
    Option (Ptr × EdgeStore) := do
  let lcand ← Onext s (← Sym s basel)
  if (← RightOf sites s (← Dest s lcand) basel) then lcandLoop sites basel loopFuel s lcand
  else pure (lcand, s)

/-- Right candidate of a merge pass: `rcand = basel->Oprev()` and, when it is valid, the
deletions of the inner loop. -/
def rightCandidate (sites : List Site) (loopFuel : Nat) (s : EdgeStore) (basel : Ptr) :
    Option (Ptr × EdgeStore) := do
  let rcand ← Oprev s basel
  if (← RightOf sites s (← Dest s rcand) basel) then rcandLoop sites basel loopFuel s rcand
  else pure (rcand, s)

/-- The `break` test `!RightOf(lcand->Dest(), basel) && !RightOf(rcand->Dest(), basel)`. -/
def mergeStop (sites : List Site) (s : EdgeStore) (basel lcand rcand : Ptr) : Option Bool := do
  if (← RightOf sites s (← Dest s lcand) basel) then pure false
  else pure (! (← RightOf sites s (← Dest s rcand) basel))

/-- The test that selects `Connect(rcand, basel->Sym())`. -/
def mergeUseRight (sites : List Site) (s : EdgeStore) (basel lcand rcand : Ptr) :
    Option Bool := do
  if ! (← RightOf sites s (← Dest s lcand) basel) then pure true
  else if (← RightOf sites s (← Dest s rcand) basel) then
    InCircle sites (← Dest s lcand) (← Org s lcand) (← Org s rcand) (← Dest s rcand)
  else pure false

/-- The new base edge of a merge pass. -/
def mergeConnect (sites : List Site) (s : EdgeStore) (basel lcand rcand : Ptr) :
    Option (Ptr × EdgeStore) := do
  if (← mergeUseRight sites s basel lcand rcand) then Connect s rcand (← Sym s basel)
  else Connect s (← Sym s basel) (← Sym s lcand)

/-- One pass through the body of the second `while (1)` of `Delaunay`.  The result is the new
store and `none` after `break`, or the new `basel` for the next pass. -/
def mergeStep (sites : List Site) (loopFuel : Nat) (s : EdgeStore) (basel : Ptr) :
    Option (EdgeStore × Option Ptr) := do
  let (lcand, s) ← leftCandidate sites loopFuel s basel
  let (rcand, s) ← rightCandidate sites loopFuel s basel
  if (← mergeStop sites s basel lcand rcand) then pure (s, none)
  else
    let (basel, s) ← mergeConnect sites s basel lcand rcand
    pure (s, some basel)

/-- Second `while (1)` of `Delaunay`: the merge. -/
def mergeLoop (sites : List Site) (loopFuel : Nat) : Nat → EdgeStore → Ptr → Option EdgeStore
  | 0, _, _ => none
  | fuel + 1, s, basel =>
    match mergeStep sites loopFuel s basel with
    | none => none
    | some (s, none) => some s
    | some (s, some basel) => mergeLoop sites loopFuel fuel s basel

/-- `Delaunay`, branch `sh == sl+2`. -/
def Delaunay2 (s : EdgeStore) (sl : Nat) : Option ((Ptr × Ptr) × EdgeStore) := do
  let (a, s) ← MakeEdge s
  let s ← Org_Set s a (some sl)
  let s ← Dest_Set s a (some (sl + 1))
  pure ((a, ← Sym s a), s)

/-- `Delaunay`, branch `sh == sl+3`, up to the test of `ct`: the two edges `a`, `b` spliced
into a chain. -/
def Delaunay3Chain (s : EdgeStore) (sl : Nat) : Option ((Ptr × Ptr) × EdgeStore) := do
  let (a, s) ← MakeEdge s
  let (b, s) ← MakeEdge s
  let s ← Splice s (← Sym s a) b
  let s ← Org_Set s a (some sl)
  let s ← Dest_Set s a (some (sl + 1))
  let s ← Org_Set s b (some (sl + 1))
  let s ← Dest_Set s b (some (sl + 2))
  pure ((a, b), s)

/-- `Delaunay`, branch `sh == sl+3`. -/
def Delaunay3 (sites : List Site) (s : EdgeStore) (sl : Nat) :
    Option ((Ptr × Ptr) × EdgeStore) := do
  let ct ← CCW sites (some sl) (some (sl + 1)) (some (sl + 2))
  let ((a, b), s) ← Delaunay3Chain s sl
  if ct = 0 then pure ((a, ← Sym s b), s)
  else
    let (c, s) ← Connect s b a
    if ct > 0 then pure ((a, ← Sym s b), s)
    else pure ((← Sym s c, c), s)

/-- `Delaunay`, last branch: the two updates of `ldo` and `rdo` after the first base edge. -/
def fixOuter (s : EdgeStore) (basel ldo ldi rdi rdo : Ptr) : Option (Ptr × Ptr) := do
  let ldo ← if (← Org s ldi) = (← Org s ldo) then Sym s basel else pure ldo
  let rdo ← if (← Org s rdi) = (← Org s rdo) then pure basel else pure rdo
  pure (ldo, rdo)

/-- `Delaunay`, last branch after the two recursive calls: tangent, first base edge, merge. -/
def DelaunayMerge (sites : List Site) (fuel : Nat) (s : EdgeStore) (ldo ldi rdi rdo : Ptr) :
    Option ((Ptr × Ptr) × EdgeStore) := do
  let (ldi, rdi) ← tangentLoop sites s fuel ldi rdi
  let (basel, s) ← Connect s (← Sym s rdi) ldi
  let (ldo, rdo) ← fixOuter s basel ldo ldi rdi rdo
  let s ← mergeLoop sites fuel fuel s basel
  pure ((ldo, rdo), s)

/-- `Triangulator::Delaunay(sl, sh, &le, &re)`; returns `(le, re)` and the new store.  `fuel`
bounds the recursion depth and the number of passes of each loop. -/
def Delaunay (sites : List Site) : Nat → EdgeStore → Nat → Nat → Option ((Ptr × Ptr) × EdgeStore)
  | 0, _, _, _ => none
  | fuel + 1, s, sl, sh =>
    if sh = sl + 2 then Delaunay2 s sl
    else if sh = sl + 3 then Delaunay3 sites s sl
    else
      match Delaunay sites fuel s sl ((sl + sh) / 2) with
      | none => none
      | some ((ldo, ldi), s) =>
        match Delaunay sites fuel s ((sl + sh) / 2) sh with
        | none => none
        | some ((rdi, rdo), s) => DelaunayMerge sites fuel s ldo ldi rdi rdo

/-! ## Voronoi vertices -/

/-- A `VSite`: the two coordinates, `none` when they are not finite numbers. -/
structure VSite where
  m_coord : Option (Rat × Rat)
deriving DecidableEq

/-- `Site::Circumcenter(s1, s2, s3, vs)`: the returned flag and the contents of `*vs`.
`0.5 / (x21*y31 - y21*x31)` is computed in IEEE arithmetic: for a zero divisor it is an infinity
(`none` here), which does not compare equal to 0, and the coordinates written are not finite. -/
def Circumcenter (s1 s2 s3 : Site) (vs : VSite) : Bool × VSite :=
  let x1 : Rat := s1.x
  let y1 : Rat := s1.y
  let x21 : Rat := s2.x - s1.x
  let y21 : Rat := s2.y - s1.y
  let x31 : Rat := s3.x - s1.x
  let y31 : Rat := s3.y - s1.y
  let denominator : Option Rat :=
    if x21 * y31 - y21 * x31 = 0 then none else some ((1 / 2) / (x21 * y31 - y21 * x31))
  match denominator with
  | none => (true, ⟨none⟩)
  | some d =>
    if d = 0 then (false, vs)
    else
      let length21 := x21 * x21 + y21 * y21
      let length31 := x31 * x31 + y31 * y31
      let x := (y31 * length21 - y21 * length31) * d
      let y := (x21 * length31 - x31 * length21) * d
      (true, ⟨some (x + x1, y + y1)⟩)

/-! ## The Triangulator -/

/-- Attribute bit `Triangulator_SuperTriangle`. -/
def Triangulator_SuperTriangle : Nat := 1
/-- Attribute bit `Triangulator_TriangleIndices`. -/
def Triangulator_TriangleIndices : Nat := 2
/-- Attribute bit `Triangulator_TriangleNeighbours`. -/
def Triangulator_TriangleNeighbours : Nat := 4
/-- Attribute bit `Triangulator_VoronoiVertices`. -/
def Triangulator_VoronoiVertices : Nat := 8
/-- Attribute bit `Triangulator_VoronoiSides`. -/
def Triangulator_VoronoiSides : Nat := 16
/-- Attribute bit `Triangulator_VoronoiCellAreas`. -/
def Triangulator_VoronoiCellAreas : Nat := 32
/-- Attribute bit `Triangulator_NodeNeighbours`. -/
def Triangulator_NodeNeighbours : Nat := 64

/-- The test `attr & flag`. -/
def hasAttr (attr flag : Nat) : Bool := attr &&& flag ≠ 0

/-- Member variables of a `Triangulator`.  `m_dEdge` is `m_dEdgePool` with the contents of its
chunk, `m_vsite` the contents of the chunk of `m_vEdgePool`.  `m_tIndices` holds the rows of the
triangle-index buffer, `m_neighbours` the flat buffer `m_neighbours[0]` and `m_nbStart` the
offsets of the row pointers `m_neighbours[i]` in it.  The triangle-adjacency buffer is not part
of this model; the Voronoi side lengths and cell areas are kept apart in `VoronoiCells`. -/
structure Triangulator where
  m_attributes : Nat
  m_nSites : Nat
  m_nInputSites : Nat
  m_sites : List Site
  m_dEdge : EdgeStore
  m_vEdgePool : Option MemoryPool
  m_vsite : Nat → VSite
  m_le : Ptr
  m_re : Ptr
  m_nEdges : Int
  m_nFaces : Int
  m_nTriangles : Nat
  m_tIndices : Option (List (List Nat))
  m_nVoronoiVertices : Nat
  m_nNeighbours : List Nat
  m_neighbours : Option (List Nat)
  m_nbStart : List Nat
  m_hull : List Nat
  m_outputHull : List Nat

/-- Write into an `int` array: `none` past the end. -/
def setAt (l : List Nat) (i : Nat) (v : Nat) : Option (List Nat) :=
  if i < l.length then some (l.set i v) else none

/-- `p->m_id` for a `Site*`. -/
def m_id (sites : List Site) (p : Ptr) : Option Nat := do
  let st ← siteAt sites p
  pure st.m_id

/-- `buf[p->m_id]` for a `Site*` and an `int` array. -/
def hullAt (sites : List Site) (hull : List Nat) (p : Ptr) : Option Nat := do
  hull[(← m_id sites p)]?

/-! ### MarkHull -/

/-- First `do … while (le != start)` of `MarkHull`. -/
def hullLoop (sites : List Site) (s : EdgeStore) (start : Ptr) :
    Nat → Ptr → List Nat → Option (List Nat)
  | 0, _, _ => none
  | fuel + 1, le, hull => do
    let hull ← setAt hull (← m_id sites (← Org s le)) 1
    let hull ← setAt hull (← m_id sites (← Dest s le)) 1
    let le ← Rprev s le
    if le ≠ start then hullLoop sites s start fuel le hull else pure hull

/-- Inner `do … while (leDnext != leDnextStart)` of the peel pass. -/
def peelInner (sites : List Site) (s : EdgeStore) (nInput : Nat) (leDnextStart : Ptr) :
    Nat → Ptr → List Nat → Option (List Nat)
  | 0, _, _ => none
  | fuel + 1, leDnext, out => do
    let id ← m_id sites (← Org s leDnext)
    let out ← if id < nInput then setAt out id 1 else pure out
    let leDnext ← Dnext s leDnext
    if leDnext ≠ leDnextStart then peelInner sites s nInput leDnextStart fuel leDnext out
    else pure out

/-- Outer `do … while (le != start)` of the peel pass. -/
def peelOuter (sites : List Site) (s : EdgeStore) (nInput : Nat) (loopFuel : Nat) (start : Ptr) :
    Nat → Ptr → List Nat → Option (List Nat)
  | 0, _, _ => none
  | fuel + 1, le, out => do
    let d ← Dnext s le
    let out ← peelInner sites s nInput d loopFuel d out
    let le ← Rprev s le
    if le ≠ start then peelOuter sites s nInput loopFuel start fuel le out else pure out

/-- `Triangulator::MarkHull`. -/
def MarkHull (fuel : Nat) (t : Triangulator) : Option Triangulator := do
  let zero := List.replicate t.m_nSites 0
  let hull ← hullLoop t.m_sites t.m_dEdge t.m_le fuel t.m_le zero
  if hasAttr t.m_attributes Triangulator_SuperTriangle then
    let out ← peelOuter t.m_sites t.m_dEdge t.m_nInputSites fuel t.m_le fuel t.m_le zero
    pure { t with m_hull := hull, m_outputHull := out }
  else pure { t with m_hull := hull, m_outputHull := hull }

/-! ### The face scan shared by triangle extraction and Voronoi generation -/

/-- The loop `for (i < maxEdges) qedges[i].ResetVisited()`; `qedges` is the data pointer of the
edge pool, NULL when the pool has no live chunk. -/
def resetVisited (s : EdgeStore) (maxEdges : Nat) : Option EdgeStore :=
  if maxEdges = 0 then some s
  else if s.pool.GetDataPointer then
    some { s with attr := fun q => if q < maxEdges then ResetVisited (s.attr q) else s.attr q }
  else none

/-- `e->Qedge()->Visited()`. -/
def visitedOf (s : EdgeStore) (e : Ptr) : Option Nat := do
  pure (Visited (s.attr (← Qedge s e)))

/-- `e->Qedge()->IsFree()`. -/
def isFreeOf (s : EdgeStore) (e : Ptr) : Option Bool := do
  pure (IsFree (s.attr (← Qedge s e)))

/-- `e->Qedge()->IncrementVisited()`. -/
def incVisited (s : EdgeStore) (e : Ptr) : Option EdgeStore := do
  let q ← Qedge s e
  pure { s with attr := upd s.attr q (IncrementVisited (s.attr q)) }

/-- The test `Visited()<2` on `e`, `eLnext`, `eOnext`, in this order with `&&`. -/
def unvisited (s : EdgeStore) (e eOnext eLnext : Ptr) : Option Bool := do
  if (← visitedOf s e) < 2 then
    if (← visitedOf s eLnext) < 2 then pure (decide ((← visitedOf s eOnext) < 2))
    else pure false
  else pure false

/-- The test `(eLnext->Org() == e->Dest()) && (eLnext->Dest() == eOnext->Dest())`. -/
def closes (s : EdgeStore) (e eOnext eLnext : Ptr) : Option Bool := do
  if (← Org s eLnext) = (← Dest s e) then
    pure (decide ((← Dest s eLnext) = (← Dest s eOnext)))
  else pure false

/-- Both tests of the scan: the left face of `e` is taken as a new triangle. -/
def faceTest (s : EdgeStore) (e eOnext eLnext : Ptr) : Option Bool := do
  if (← unvisited s e eOnext eLnext) then closes s e eOnext eLnext else pure false

/-- The three `IncrementVisited` calls on `e`, `eOnext`, `eLnext`. -/
def markFace (s : EdgeStore) (e eOnext eLnext : Ptr) : Option EdgeStore := do
  let s ← incVisited s e
  let s ← incVisited s eOnext
  incVisited s eLnext

/-! ### GenerateTriangleIndices -/

/-- The test `!m_hull[a] && !m_hull[b] && !m_hull[c]` on the ids of the three corners. -/
def noCornerOnHull (t : Triangulator) (e eOnext : Ptr) : Option Bool := do
  let s := t.m_dEdge
  if (← hullAt t.m_sites t.m_hull (← Org s e)) = 0 then
    if (← hullAt t.m_sites t.m_hull (← Dest s e)) = 0 then
      pure (decide ((← hullAt t.m_sites t.m_hull (← Dest s eOnext)) = 0))
    else pure false
  else pure false

/-- Write of row `tCount` of `m_tIndices` and `tCount++` (`m_nTriangles` holds `tCount`). -/
def writeTriangle (t : Triangulator) (e eOnext : Ptr) : Option Triangulator := do
  let s := t.m_dEdge
  let a ← m_id t.m_sites (← Org s e)
  let b ← m_id t.m_sites (← Dest s e)
  let c ← m_id t.m_sites (← Dest s eOnext)
  let rows ← t.m_tIndices
  if t.m_nTriangles < rows.length then
    pure { t with m_tIndices := some (rows.set t.m_nTriangles [a, b, c]),
                  m_nTriangles := t.m_nTriangles + 1 }
  else none

/-- The emission of a triangle, suppressed with the super-triangle option when a corner is
marked in `m_hull`. -/
def emitTriangle (t : Triangulator) (e eOnext : Ptr) : Option Triangulator := do
  if hasAttr t.m_attributes Triangulator_SuperTriangle then
    if (← noCornerOnHull t e eOnext) then writeTriangle t e eOnext else pure t
  else writeTriangle t e eOnext

/-- Body of the `do … while (e != eStart)` loop of `GenerateTriangleIndices` for one `e`;
returns `eOnext` as well. -/
def triVisit (t : Triangulator) (e : Ptr) : Option (Triangulator × Ptr) := do
  let eOnext ← Onext t.m_dEdge e
  let eLnext ← Lnext t.m_dEdge e
  if (← faceTest t.m_dEdge e eOnext eLnext) then
    let t ← emitTriangle t e eOnext
    let s ← markFace t.m_dEdge e eOnext eLnext
    pure ({ t with m_dEdge := s }, eOnext)
  else pure (t, eOnext)

/-- The `do … while (e != eStart)` loop of `GenerateTriangleIndices`. -/
def triRing (eStart : Ptr) : Nat → Triangulator → Ptr → Option Triangulator
  | 0, _, _ => none
  | fuel + 1, t, e =>
    match triVisit t e with
    | none => none
    | some (t, eOnext) => if eOnext ≠ eStart then triRing eStart fuel t eOnext else some t

/-- Body of the `for` loop over the slots of the edge pool in `GenerateTriangleIndices`. -/
def triSlot (fuel : Nat) (t : Triangulator) (i : Nat) : Option Triangulator := do
  let e : Ptr := some (4 * i)
  if (← isFreeOf t.m_dEdge e) then pure t else triRing e fuel t e

/-- Allocation of `m_tIndices`: `m_nFaces` zero rows (`new` with a negative size does not
return). -/
def allocTIndices (t : Triangulator) : Option Triangulator :=
  if 0 ≤ t.m_nFaces then
    some { t with m_tIndices := some (List.replicate t.m_nFaces.toNat [0, 0, 0]) }
  else none

/-- `Triangulator::GenerateTriangleIndices`. -/
def GenerateTriangleIndices (fuel : Nat) (t : Triangulator) : Option Triangulator := do
  let t ← allocTIndices t
  let maxEdges := t.m_nSites * 3
  let s ← resetVisited t.m_dEdge maxEdges
  let t := { t with m_dEdge := s, m_nTriangles := 0 }
  (List.range maxEdges).foldlM (triSlot fuel) t

/-! ### GenerateVoronoiVertices -/

/-- `m_vEdgePool->NewObject()` followed by `Site::Circumcenter(s1, s2, s3, vs)`: the new
`VSite*` and the Triangulator with the vertex written.  A chunk of the Voronoi pool is
zero-filled when created. -/
def newVoronoiVertex (t : Triangulator) (s1 s2 s3 : Ptr) : Option (Ptr × Triangulator) := do
  let pool ← t.m_vEdgePool
  let a ← siteAt t.m_sites s1
  let b ← siteAt t.m_sites s2
  let c ← siteAt t.m_sites s3
  match pool.NewObject with
  | (_, _, none) => none
  | (pool1, created, some v) =>
    let mem : Nat → VSite := if created then fun _ => ⟨some (0, 0)⟩ else t.m_vsite
    pure (some v, { t with m_vEdgePool := some pool1,
                           m_vsite := upd mem v (Circumcenter a b c (mem v)).2 })

/-- The three writes `e->VDest_Set(vs); eOnext->VOrg_Set(vs); eLnext->VDest_Set(vs)`. -/
def attachVertex (s : EdgeStore) (e eOnext eLnext vs : Ptr) : Option EdgeStore := do
  let s ← VDest_Set s e vs
  let s ← VOrg_Set s eOnext vs
  VDest_Set s eLnext vs

/-- The statements executed for a face found by the scan of `GenerateVoronoiVertices`. -/
def emitVertex (t : Triangulator) (e eOnext eLnext : Ptr) : Option Triangulator := do
  let s := t.m_dEdge
  let (vs, t) ← newVoronoiVertex t (← Org s e) (← Dest s eOnext) (← Dest s e)
  let s ← attachVertex t.m_dEdge e eOnext eLnext vs
  let s ← markFace s e eOnext eLnext
  pure { t with m_dEdge := s }

/-- Body of the `do … while (e != eStart)` loop of `GenerateVoronoiVertices` for one `e`;
returns `eOnext` as well. -/
def vorVisit (t : Triangulator) (e : Ptr) : Option (Triangulator × Ptr) := do
  let eOnext ← Onext t.m_dEdge e
  let eLnext ← Lnext t.m_dEdge e
  if (← faceTest t.m_dEdge e eOnext eLnext) then
    let t ← emitVertex t e eOnext eLnext
    pure (t, eOnext)
  else pure (t, eOnext)

/-- The `do … while (e != eStart)` loop of `GenerateVoronoiVertices`. -/
def vorRing (eStart : Ptr) : Nat → Triangulator → Ptr → Option Triangulator
  | 0, _, _ => none
  | fuel + 1, t, e =>
    match vorVisit t e with
    | none => none
    | some (t, eOnext) => if eOnext ≠ eStart then vorRing eStart fuel t eOnext else some t

/-- Body of the `for` loop over the slots of the edge pool in `GenerateVoronoiVertices`. -/
def vorSlot (fuel : Nat) (t : Triangulator) (i : Nat) : Option Triangulator := do
  let e : Ptr := some (4 * i)
  if (← isFreeOf t.m_dEdge e) then pure t else vorRing e fuel t e

/-- `Triangulator::GenerateVoronoiVertices`. -/
def GenerateVoronoiVertices (fuel : Nat) (t : Triangulator) : Option Triangulator := do
  let maxEdges := t.m_nSites * 3
  let s ← resetVisited t.m_dEdge maxEdges
  (List.range maxEdges).foldlM (vorSlot fuel) { t with m_dEdge := s }

/-! ### GenerateNodeNeighbours (neighbour counts and lists) -/

/-- `buf[i]++` on an `unsigned int` array. -/
def incrAt (l : List Nat) (i : Nat) : Option (List Nat) := do
  setAt l i ((← l[i]?) + 1)

/-- First pass, the statements under `Visited() == 0`; `m_nNeighbours` is updated in place. -/
def countEdge (t : Triangulator) (e : Ptr) : Option Triangulator := do
  let src ← m_id t.m_sites (← Org t.m_dEdge e)
  let dst ← m_id t.m_sites (← Dest t.m_dEdge e)
  let s ← incVisited t.m_dEdge e
  if src < t.m_nInputSites ∧ dst < t.m_nInputSites then
    let n ← incrAt t.m_nNeighbours src
    let n ← incrAt n dst
    pure { t with m_nNeighbours := n, m_dEdge := s }
  else pure { t with m_dEdge := s }

/-- Body of the first `for` loop of `GenerateNodeNeighbours`. -/
def countSlot (t : Triangulator) (i : Nat) : Option Triangulator := do
  let e : Ptr := some (4 * i)
  if (← isFreeOf t.m_dEdge e) then pure t
  else if (← visitedOf t.m_dEdge e) = 0 then countEdge t e
  else pure t

/-- The row pointers `m_neighbours[i] = m_neighbours[0] + cp`: offsets of the rows. -/
def rowStarts : List Nat → Nat → List Nat
  | [], _ => []
  | n :: ns, cp => cp :: rowStarts ns (cp + n)

/-- `m_neighbours[a][--nNeighboursTemp[a]] = v`; the result is the buffer and the work array.
`none`: the work counter is already 0 or the write is outside the flat buffer. -/
def pushNeighbour (starts : List Nat) (buf temp : List Nat) (a v : Nat) :
    Option (List Nat × List Nat) := do
  let c ← temp[a]?
  let st ← starts[a]?
  if 0 < c then
    let buf ← setAt buf (st + (c - 1)) v
    let temp ← setAt temp a (c - 1)
    pure (buf, temp)
  else none

/-- Second pass, the statements under `Visited() == 1` for an edge between input sites;
`temp` is `nNeighboursTemp`. -/
def storeEdge (t : Triangulator) (temp : List Nat) (src dst : Nat) :
    Option (Triangulator × List Nat) := do
  if hasAttr t.m_attributes Triangulator_NodeNeighbours then
    let buf ← t.m_neighbours
    let (buf, temp) ← pushNeighbour t.m_nbStart buf temp src dst
    let (buf, temp) ← pushNeighbour t.m_nbStart buf temp dst src
    pure ({ t with m_neighbours := some buf }, temp)
  else pure (t, temp)

/-- Second pass, one in-use slot: the reads of `nNeighboursTemp` come before the test of
`Visited()`. -/
def storeVisit (t : Triangulator) (temp : List Nat) (e : Ptr) :
    Option (Triangulator × List Nat) := do
  let src ← m_id t.m_sites (← Org t.m_dEdge e)
  let dst ← m_id t.m_sites (← Dest t.m_dEdge e)
  let _ ← temp[src]?
  let _ ← temp[dst]?
  if (← visitedOf t.m_dEdge e) = 1 then
    let (t, temp) ← if src < t.m_nInputSites ∧ dst < t.m_nInputSites then storeEdge t temp src dst
      else pure (t, temp)
    let s ← incVisited t.m_dEdge e
    pure ({ t with m_dEdge := s }, temp)
  else pure (t, temp)

/-- Body of the second `for` loop of `GenerateNodeNeighbours`. -/
def storeSlot (st : Triangulator × List Nat) (i : Nat) : Option (Triangulator × List Nat) := do
  let e : Ptr := some (4 * i)
  if (← isFreeOf st.1.m_dEdge e) then pure st else storeVisit st.1 st.2 e

/-- `Triangulator::GenerateNodeNeighbours`, without the Voronoi side lengths and cell areas
(`GenerateNodeNeighboursCells` has them). -/
def GenerateNodeNeighbours (t : Triangulator) : Option Triangulator := do
  let maxEdges := t.m_nSites * 3
  let s ← resetVisited t.m_dEdge maxEdges
  let t := { t with m_dEdge := s, m_nNeighbours := List.replicate t.m_nSites 0 }
  let t ← (List.range maxEdges).foldlM countSlot t
  let t := { t with
    m_neighbours :=
      if hasAttr t.m_attributes Triangulator_NodeNeighbours then
        some (List.replicate t.m_nNeighbours.sum 0)
      else none,
    m_nbStart := rowStarts t.m_nNeighbours 0 }
  let (t, _) ← (List.range maxEdges).foldlM storeSlot (t, t.m_nNeighbours)
  pure t

/-! ### Constructor and accessors -/

/-- The `Site` array filled by the constructor before sorting: the input points with their
positions as ids, then (super-triangle option) three sites that point to
`m_superTriangle[i % 3]`. -/
def initialSites (s : List (Int × Int)) (superTriangle : List (Int × Int)) (attr : Nat) :
    Option (List Site) := do
  let input := (List.range s.length).zipWith (fun i p => (⟨p.1, p.2, i⟩ : Site)) s
  if hasAttr attr Triangulator_SuperTriangle then
    let _ ← s[0]?
    let extra ← (List.range 3).mapM (fun k => do
      let p ← superTriangle[(s.length + k) % 3]?
      pure (⟨p.1, p.2, s.length + k⟩ : Site))
    pure (input ++ extra)
  else pure input

/-- The constructor up to and including the edge accounting.  `ns` is the length of `s`; the
corners `m_superTriangle[0..2]` computed by `InitSuperTriangle` (floating-point `sqrt`, `tan`,
`cos`) are the parameter `superTriangle`. -/
def triangulate (fuel : Nat) (s : List (Int × Int)) (attr : Nat)
    (superTriangle : List (Int × Int)) : Option Triangulator := do
  let unsorted ← initialSites s superTriangle attr
  let nSites := unsorted.length
  let sites := SortSites unsorted
  let ((le, re), es) ← Delaunay sites fuel (EdgeStore.init (nSites * 3)) 0 nSites
  let nEdges : Int := (nSites * 3 : Nat) - (es.pool.GetNumFree : Nat)
  pure {
    m_attributes := attr, m_nSites := nSites, m_nInputSites := s.length, m_sites := sites,
    m_dEdge := es,
    m_vEdgePool :=
      if hasAttr attr Triangulator_VoronoiVertices then some (MemoryPool.init (nSites * 2))
      else none,
    m_vsite := fun _ => ⟨some (0, 0)⟩,
    m_le := le, m_re := re,
    m_nEdges := nEdges, m_nFaces := nEdges - nSites + 2, m_nTriangles := 0,
    m_tIndices := none, m_nVoronoiVertices := 0,
    m_nNeighbours := [], m_neighbours := none, m_nbStart := [],
    m_hull := List.replicate nSites 0, m_outputHull := List.replicate nSites 0 }

/-- The Voronoi part of the constructor: the pass and the count of vertices. -/
def voronoiPart (fuel : Nat) (t : Triangulator) : Option Triangulator := do
  if hasAttr t.m_attributes Triangulator_VoronoiVertices then
    let t ← GenerateVoronoiVertices fuel t
    let pool ← t.m_vEdgePool
    pure { t with m_nVoronoiVertices :=
      if pool.GetDataPointer then t.m_nSites * 2 - pool.GetNumFree else 0 }
  else pure t

/-- `Triangulator::Triangulator(ns, s, attr)`. -/
def Triangulator.construct (fuel : Nat) (s : List (Int × Int)) (attr : Nat)
    (superTriangle : List (Int × Int)) : Option Triangulator := do
  let t ← triangulate fuel s attr superTriangle
  let t ← MarkHull fuel t
  let t ← if hasAttr attr Triangulator_TriangleIndices then GenerateTriangleIndices fuel t
    else pure t
  let t ← voronoiPart fuel t
  GenerateNodeNeighbours t

/-- `GetNumTriangles()`. -/
def Triangulator.GetNumTriangles (t : Triangulator) : Nat := t.m_nTriangles

/-- `GetNumFaces()`. -/
def Triangulator.GetNumFaces (t : Triangulator) : Int := t.m_nFaces

/-- `GetHull()`. -/
def Triangulator.GetHull (t : Triangulator) : List Nat := t.m_outputHull

/-- The rows `GetTriangleIndices()[0 .. GetNumTriangles())`. -/
def Triangulator.GetTriangleIndices (t : Triangulator) : List (List Nat) :=
  match t.m_tIndices with
  | none => []
  | some rows => rows.take t.m_nTriangles

/-- `GetNumVoronoiVertices()`. -/
def Triangulator.GetNumVoronoiVertices (t : Triangulator) : Nat :=
  match t.m_vEdgePool with
  | none => 0
  | some pool => if pool.GetDataPointer then t.m_nVoronoiVertices else 0

/-- `GetNumNeighbours()`. -/
def Triangulator.GetNumNeighbours (t : Triangulator) : List Nat := t.m_nNeighbours

/-- Row `i` of `GetNeighbours()`: the `GetNumNeighbours()[i]` entries at `m_neighbours[i]`. -/
def Triangulator.GetNeighbours (t : Triangulator) (i : Nat) : List Nat :=
  match t.m_neighbours with
  | none => []
  | some buf => (buf.drop (t.m_nbStart.getD i 0)).take (t.m_nNeighbours.getD i 0)

/-- Number of quad-edge slots of the edge pool with `IsFree()` false. -/
def Triangulator.inUseCount (t : Triangulator) : Nat :=
  ((List.range (t.m_nSites * 3)).filter (fun q => ! IsFree (t.m_dEdge.attr q))).length

/-- The in-use quad-edges as pairs of site ids (`Org()->m_id`, `Dest()->m_id` of `m_e[0]`), in
slot order. -/
def Triangulator.edgeList (t : Triangulator) : List (Option Nat × Option Nat) :=
  ((List.range (t.m_nSites * 3)).filter (fun q => ! IsFree (t.m_dEdge.attr q))).map fun q =>
    ((Org t.m_dEdge (some (4 * q))).bind (m_id t.m_sites),
     (Dest t.m_dEdge (some (4 * q))).bind (m_id t.m_sites))

/-! ## Notions of the specification -/

/-- Twice the signed area of the triangle `a b c` (positive: counter-clockwise). -/
def orient (a b c : Int × Int) : Int :=
  (b.1 - a.1) * (c.2 - a.2) - (b.2 - a.2) * (c.1 - a.1)

/-- The in-circle determinant of `d` against `a b c`, rows `(p - d, |p - d|^2)` for
`p = a, b, c`. -/
def inCircleDet (a b c d : Int × Int) : Int :=
  let ax := a.1 - d.1
  let ay := a.2 - d.2
  let bx := b.1 - d.1
  let bY := b.2 - d.2
  let cx := c.1 - d.1
  let cy := c.2 - d.2
  ax * (bY * (cx * cx + cy * cy) - (bx * bx + bY * bY) * cy)
  - ay * (bx * (cx * cx + cy * cy) - (bx * bx + bY * bY) * cx)
  + (ax * ax + ay * ay) * (bx * cy - bY * cx)

/-- The point `d` lies strictly inside the circle through the non-collinear points `a b c`
(either orientation of `a b c`). -/
def StrictlyInsideCircumcircle (a b c d : Int × Int) : Prop :=
  0 < orient a b c * inCircleDet a b c d

instance (a b c d : Int × Int) : Decidable (StrictlyInsideCircumcircle a b c d) := by
  unfold StrictlyInsideCircumcircle; infer_instance

/-- The point `d` lies strictly inside the counter-clockwise triangle `a b c`; such a point is
an interior point of the convex hull of any set that contains `a`, `b`, `c`. -/
def StrictlyInsideTriangle (a b c d : Int × Int) : Prop :=
  0 < orient a b d ∧ 0 < orient b c d ∧ 0 < orient c a d

instance (a b c d : Int × Int) : Decidable (StrictlyInsideTriangle a b c d) := by
  unfold StrictlyInsideTriangle; infer_instance

/-! ## Well-formed edge stores -/

/-- `Rot` on record indices when `m_num` is the position in the bundle. -/
def rotI (x : Nat) : Nat := if x % 4 < 3 then x + 1 else x - 3

/-- `Tor` on record indices when `m_num` is the position in the bundle. -/
def torI (x : Nat) : Nat := if 0 < x % 4 then x - 1 else x + 3

/-- `Sym` on record indices when `m_num` is the position in the bundle. -/
def symI (x : Nat) : Nat := if x % 4 < 2 then x + 2 else x - 2

/-- The stored `m_next` of record `p` as an index (0 for NULL). -/
def nxt (s : EdgeStore) (p : Nat) : Nat := ((s.edge p).m_next).getD 0

/-- Record `p` lies in the pool and its quad-edge is in use. -/
def InUse (s : EdgeStore) (p : Nat) : Prop :=
  p < 4 * s.pool.numElementsPerChunk ∧ IsFree (s.attr (p / 4)) = false

/-- Well-formedness of an edge store whose chunk is live with free stack `st`: the stack lists
the free slots once each; records of free slots have a NULL `m_next`; on the records of in-use
quad-edges `m_num` is the position in the bundle, `Onext` stays among them, keeps the parity
of the position, is injective and satisfies `e.Onext().Rot().Onext().Rot() = e`. -/
structure WF (s : EdgeStore) (st : List Nat) : Prop where
  nodup : st.Nodup
  mem_free : ∀ q, q ∈ st ↔ (q < s.pool.numElementsPerChunk ∧ IsFree (s.attr q) = true)
  free_next : ∀ p, p < 4 * s.pool.numElementsPerChunk → IsFree (s.attr (p / 4)) = true →
    (s.edge p).m_next = none
  num : ∀ p, InUse s p → (s.edge p).m_num = p % 4
  next : ∀ p, InUse s p →
    (s.edge p).m_next = some (nxt s p) ∧ InUse s (nxt s p) ∧ nxt s p % 2 = p % 2
  inj : ∀ p q, InUse s p → InUse s q → nxt s p = nxt s q → p = q
  e8 : ∀ p, InUse s p → rotI (nxt s (rotI (nxt s p))) = p

/-- Invariant of the edge store: well-formed whenever the chunk is live. -/
def Inv (s : EdgeStore) : Prop := ∀ st, s.pool.chunk0 = some st → WF s st

/-- The invariant together with the capacity of the pool. -/
def InvN (n : Nat) (s : EdgeStore) : Prop := Inv s ∧ s.pool.numElementsPerChunk = n

/-- The pointer is NULL or points to a primal record (`m_e[0]` or `m_e[2]`). -/
def EvenPtr (p : Ptr) : Prop := ∀ i, p = some i → i % 2 = 0

/-- The permutation of record indices by which `Splice` on records `a`, `b` with
`alpha = a.Onext().Rot()`, `beta = b.Onext().Rot()` re-routes `Onext`. -/
def spliceSwap (a b alpha beta : Nat) (p : Nat) : Nat :=
  if p = a then b else if p = b then a
  else if p = alpha then beta else if p = beta then alpha else p

/-- Two edge stores with the same pool and the same free/in-use state of every slot. -/
def SameUse (s s' : EdgeStore) : Prop :=
  s'.pool = s.pool ∧ ∀ q, IsFree (s'.attr q) = IsFree (s.attr q)

/-- Fields of the Triangulator that the passes after the triangulation leave alone. -/
def TFrame (t t' : Triangulator) : Prop :=
  t'.m_nEdges = t.m_nEdges ∧ t'.m_nFaces = t.m_nFaces ∧ t'.m_nSites = t.m_nSites ∧
    SameUse t.m_dEdge t'.m_dEdge

/-! ## Runs that differ in coordinates only -/

/-- A site with its coordinates forgotten. -/
def eraseSite (s : Site) : Site := ⟨0, 0, s.m_id⟩

/-- The attribute word reduced to the four flags that the constructor tests. -/
def normAttr (a : Nat) : Nat :=
  (if hasAttr a Triangulator_SuperTriangle then Triangulator_SuperTriangle else 0) +
  (if hasAttr a Triangulator_TriangleIndices then Triangulator_TriangleIndices else 0) +
  (if hasAttr a Triangulator_VoronoiVertices then Triangulator_VoronoiVertices else 0) +
  (if hasAttr a Triangulator_NodeNeighbours then Triangulator_NodeNeighbours else 0)

/-- The Triangulator with the coordinates of its sites and of its Voronoi vertices forgotten and
the attribute word reduced to the flags that are tested. -/
def Triangulator.erase (t : Triangulator) : Triangulator :=
  { t with m_sites := t.m_sites.map eraseSite, m_attributes := normAttr t.m_attributes,
           m_vsite := fun _ => ⟨none⟩ }

/-- The passes of the constructor that follow the edge accounting. -/
def passes (fuel : Nat) (t : Triangulator) : Option Triangulator := do
  let t ← MarkHull fuel t
  let t ← if hasAttr t.m_attributes Triangulator_TriangleIndices then
      GenerateTriangleIndices fuel t
    else pure t
  let t ← voronoiPart fuel t
  GenerateNodeNeighbours t

/-- The state that the constructor has built when the edge accounting is done, from the sorted
sites and the result of `Delaunay`. -/
def accounted (attr nInput : Nat) (sites : List Site) (r : (Ptr × Ptr) × EdgeStore) :
    Triangulator :=
  let nSites := sites.length
  let nEdges : Int := (nSites * 3 : Nat) - (r.2.pool.GetNumFree : Nat)
  { m_attributes := attr, m_nSites := nSites, m_nInputSites := nInput, m_sites := sites,
    m_dEdge := r.2,
    m_vEdgePool :=
      if hasAttr attr Triangulator_VoronoiVertices then some (MemoryPool.init (nSites * 2))
      else none,
    m_vsite := fun _ => ⟨some (0, 0)⟩,
    m_le := r.1.1, m_re := r.1.2,
    m_nEdges := nEdges, m_nFaces := nEdges - nSites + 2, m_nTriangles := 0,
    m_tIndices := none, m_nVoronoiVertices := 0,
    m_nNeighbours := [], m_neighbours := none, m_nbStart := [],
    m_hull := List.replicate nSites 0, m_outputHull := List.replicate nSites 0 }

/-- The constructor from `SortSites()` on: the sites are given sorted. -/
def afterSort (fuel : Nat) (attr nInput : Nat) (sites : List Site) : Option Triangulator := do
  let r ← Delaunay sites fuel (EdgeStore.init (sites.length * 3)) 0 sites.length
  passes fuel (accounted attr nInput sites r)

/-- What the claims on three collinear sites look at: the number of in-use edges and their end
points, `GetNumTriangles()`, `GetNumVoronoiVertices()` and, when the Voronoi pool exists, its
`chunkToUse`, which is `none` as long as no vertex was requested from it. -/
def chainReport (t : Triangulator) :
    (Nat × List (Option Nat × Option Nat)) × (Nat × Nat × Option (Option Nat)) :=
  ((t.inUseCount, t.edgeList),
   (t.GetNumTriangles, t.GetNumVoronoiVertices, t.m_vEdgePool.map fun p => p.chunkToUse))

/-! ## MemoryPool, both modes (MemoryPool.hh) -/

namespace Mem

/-- `MemoryPoolMode`. -/
inductive MemoryPoolMode where
  | Fixed
  | Dynamic
deriving DecidableEq

/-- An object address: the block returned by `malloc` for the chunk memory (blocks are numbered
in the order of allocation; two blocks that are both unfreed do not overlap) and the element
index inside the block. -/
abbrev Addr := Nat × Nat

/-- A live `Chunk`: `memory` is its block, `freeList` the element indices on the free list, top
of the stack first (`numFree` is the length, `freeList[numFree-1]` the head). -/
structure Chunk where
  memory : Nat
  freeList : List Nat
deriving DecidableEq

/-- State of a `MemoryPool`.  `chunks` is the chunk directory (`maxChunkEntries` is its length),
an entry `none` is a `Chunk` with `numFree == INVALID` and `memory == NULL`; `chunkToUse = none`
is `INVALID`; `nextBlock` numbers the blocks handed out by `malloc` so far. -/
structure MemoryPool where
  mode : MemoryPoolMode
  numElementsPerChunk : Nat
  chunks : List (Option Chunk)
  chunkToUse : Option Nat
  numChunks : Int
  nextBlock : Nat
deriving DecidableEq

/-- `CHUNK_ARRAY_DELTA`. -/
def CHUNK_ARRAY_DELTA : Nat := 10

/-- `TWO_EXP16`. -/
def TWO_EXP16 : Nat := 65535

/-- Constructor `MemoryPool(elemSize, numElemsPerChunk, m)`; `none` when
`assert(numElemsPerChunk > 0)` fails. -/
def MemoryPool.init (numElemsPerChunk : Nat) (m : MemoryPoolMode) : Option MemoryPool :=
  if 0 < numElemsPerChunk then
    some { mode := m,
           numElementsPerChunk :=
             if m = MemoryPoolMode.Dynamic ∧ numElemsPerChunk > TWO_EXP16 then TWO_EXP16
             else numElemsPerChunk,
           chunks := List.replicate CHUNK_ARRAY_DELTA none,
           chunkToUse := none, numChunks := 0, nextBlock := 0 }
  else none

/-- The field `numFree` of a directory entry (`INVALID` is -1). -/
def numFree (c : Option Chunk) : Int :=
  match c with
  | none => -1
  | some c => c.freeList.length

/-- `GetNumFree()`. -/
def MemoryPool.GetNumFree (p : MemoryPool) : Nat :=
  match p.mode with
  | MemoryPoolMode.Fixed =>
    (p.chunks.map fun c => match c with
      | none => 0
      | some c => c.freeList.length).sum
  | MemoryPoolMode.Dynamic => 0

/-- `INT_MAX`. -/
def INT_MAX : Int := 2147483647

/-- The loop of `GetChunkWithFreeSlots` from index `i` on, with the current `leastNumFree` and
`leastNumFreeIdx`. -/
def leastFree : List (Option Chunk) → Nat → Int → Option Nat → Option Nat
  | [], _, _, idx => idx
  | c :: cs, i, least, idx =>
    if 0 < numFree c then
      if numFree c < least then leastFree cs (i + 1) (numFree c) (some i)
      else leastFree cs (i + 1) least idx
    else leastFree cs (i + 1) least idx

/-- `GetChunkWithFreeSlots()`. -/
def MemoryPool.GetChunkWithFreeSlots (p : MemoryPool) : Option Nat :=
  leastFree p.chunks 0 INT_MAX none

/-- `GetFreeChunkSlot()`. -/
def MemoryPool.GetFreeChunkSlot (p : MemoryPool) : Option Nat :=
  let i := p.chunks.findIdx (fun c => c.isNone)
  if i < p.chunks.length then some i else none

/-- `CreateChunk(pos)`: the directory grows by `CHUNK_ARRAY_DELTA` entries when `pos` is not
below `maxChunkEntries`; the new chunk gets a fresh block and a full free list.  `none`: the
write to `chunks[pos]` is outside the directory. -/
def MemoryPool.CreateChunk (p : MemoryPool) (pos : Nat) : Option (MemoryPool × Nat) :=
  let chunks :=
    if pos < p.chunks.length then p.chunks
    else p.chunks ++ List.replicate CHUNK_ARRAY_DELTA none
  if pos < chunks.length then
    some ({ p with
      chunks := chunks.set pos
        (some ⟨p.nextBlock, (List.range p.numElementsPerChunk).reverse⟩),
      numChunks := p.numChunks + 1,
      nextBlock := p.nextBlock + 1 }, pos)
  else none

/-- The part of `NewObject` from `label:` on.  `fuel` bounds the number of passes through the
label; `none` stands for a run that does not return (also: a read outside the directory). -/
def newObjectLoop : Nat → MemoryPool → Option (MemoryPool × Option Addr)
  | 0, _ => none
  | fuel + 1, p => do
    let cu ← p.chunkToUse
    let chunk ← p.chunks[cu]?
    match chunk with
    | some ⟨m, a :: rest⟩ =>
      pure ({ p with chunks := p.chunks.set cu (some ⟨m, rest⟩) }, some (m, a))
    | _ =>
      match p.GetChunkWithFreeSlots with
      | some i => newObjectLoop fuel { p with chunkToUse := some i }
      | none =>
        let pos := match p.GetFreeChunkSlot with
          | none => p.chunks.length
          | some slot => slot
        let (p, i) ← p.CreateChunk pos
        newObjectLoop fuel { p with chunkToUse := some i }

/-- The statement `if( chunkToUse == INVALID ) chunkToUse = CreateChunk( 0 );` of
`NewObject`. -/
def MemoryPool.firstChunk (p : MemoryPool) : Option MemoryPool :=
  if p.chunkToUse.isNone then do
    let (p, i) ← p.CreateChunk 0
    pure { p with chunkToUse := some i }
  else pure p

/-- `NewObject()`: the new state and the address returned (`none` inside is NULL). -/
def MemoryPool.NewObject (fuel : Nat) (p : MemoryPool) : Option (MemoryPool × Option Addr) := do
  let p ← p.firstChunk
  let cu ← p.chunkToUse
  let chunk ← p.chunks[cu]?
  if p.mode = MemoryPoolMode.Fixed ∧ numFree chunk ≤ 0 then pure (p, none)
  else newObjectLoop fuel p

/-- The directory cut back by `CHUNK_ARRAY_DELTA` entries (`realloc`), with `chunkToUse` set
anew. -/
def MemoryPool.cutBack (p : MemoryPool) : MemoryPool :=
  let q : MemoryPool := { p with chunks := p.chunks.take (p.chunks.length - CHUNK_ARRAY_DELTA) }
  { q with chunkToUse := q.GetChunkWithFreeSlots }

/-- The part of `Shrink` from `label:` on.  `none`: `assert(0)`. -/
def shrinkLoop : Nat → MemoryPool → Option MemoryPool
  | 0, _ => none
  | fuel + 1, p =>
    if ((p.chunks.drop (p.chunks.length - CHUNK_ARRAY_DELTA)).all fun c => c.isNone) ∧
        p.chunks.length > CHUNK_ARRAY_DELTA then
      if p.numChunks > (p.chunks.length - CHUNK_ARRAY_DELTA : Nat) then none
      else shrinkLoop fuel p.cutBack
    else some p

/-- The test `chunks[i].numFree == numElementsPerChunk` of `Shrink`. -/
def entirelyFree (n : Nat) (c : Option Chunk) : Bool :=
  numFree c = n

/-- `Shrink()`: the first chunk that is entirely free is released, then the directory is cut
back while its last `CHUNK_ARRAY_DELTA` entries are unused. -/
def MemoryPool.Shrink (p : MemoryPool) : Option MemoryPool :=
  let i := p.chunks.findIdx (entirelyFree p.numElementsPerChunk)
  if i < p.chunks.length then
    shrinkLoop (p.chunks.length + 1)
      { p with chunks := p.chunks.set i none, numChunks := p.numChunks - 1 }
  else some p

/-- The test of `DeleteObject` on a directory entry: `memory != NULL` and the address of
element `a` of block `m` lies in `[memory, memory + numElementsPerChunk * elementSize)`. -/
def inChunk (n m a : Nat) (c : Option Chunk) : Bool :=
  match c with
  | none => false
  | some c => c.memory = m ∧ a < n

/-- `DeleteObject(object)`: the new state and the value returned.  `none`: the push is past
the end of `freeList`, or `Shrink` does not return. -/
def MemoryPool.DeleteObject (p : MemoryPool) (object : Option Addr) :
    Option (MemoryPool × Bool) :=
  match object with
  | none => some (p, false)
  | some (m, a) =>
    let i := p.chunks.findIdx (inChunk p.numElementsPerChunk m a)
    match p.chunks[i]? with
    | some (some c) =>
      if c.freeList.length < p.numElementsPerChunk then do
        let p ← ({ p with chunks := p.chunks.set i (some ⟨c.memory, a :: c.freeList⟩) }
          : MemoryPool).Shrink
        pure (p, true)
      else none
    | _ => some (p, false)

/-- A call of the client: `NewObject()`, or `DeleteObject` on one of the pointers it holds. -/
inductive Call where
  | new
  | delete (i : Nat)
deriving DecidableEq

/-- One call of a client that deletes only pointers it holds.  The state is the pool and the
list of outstanding pointers (returned by `NewObject` and not yet passed to a `DeleteObject`
that returned 1), newest first.  `delete i` passes pointer number `i mod n` of the `n`
outstanding ones and does nothing when there is none.  The result also records what the call
returned: the address (`NewObject`) or the flag (`DeleteObject`). -/
def call (fuel : Nat) (st : MemoryPool × List Addr) :
    Call → Option ((MemoryPool × List Addr) × (Option Addr × Bool))
  | Call.new => do
    let (p, r) ← st.1.NewObject fuel
    match r with
    | none => pure ((p, st.2), (none, false))
    | some a => pure ((p, a :: st.2), (some a, false))
  | Call.delete i =>
    match st.2[i % st.2.length]? with
    | none => pure (st, (none, false))
    | some a => do
      let (p, ok) ← st.1.DeleteObject (some a)
      pure ((p, if ok then st.2.erase a else st.2), (none, ok))

/-- A sequence of calls; the results of the calls are collected in order. -/
def calls (fuel : Nat) :
    MemoryPool × List Addr → List Call →
      Option ((MemoryPool × List Addr) × List (Option Addr × Bool))
  | st, [] => some (st, [])
  | st, c :: cs => do
    let (st, r) ← call fuel st c
    let (st, rs) ← calls fuel st cs
    pure (st, r :: rs)

/-- Invariant of a pool `st.1` and the pointers `st.2` held by a client that deletes only
pointers it holds: the free lists of the live chunks are duplicate-free lists of element indices
of their blocks, no address on a free list is held by the client, the live chunks have different
blocks, and every block in use was handed out by `malloc` before. -/
def PoolInv (st : MemoryPool × List Addr) : Prop :=
  0 < st.1.numElementsPerChunk ∧ 0 < st.1.chunks.length ∧
  (∀ cu, st.1.chunkToUse = some cu → cu < st.1.chunks.length) ∧
  (∀ (i : Nat) (ch : Chunk), st.1.chunks[i]? = some (some ch) → ch.memory < st.1.nextBlock ∧ ch.freeList.Nodup ∧
    ∀ a ∈ ch.freeList, a < st.1.numElementsPerChunk ∧ (ch.memory, a) ∉ st.2) ∧
  (∀ (i j : Nat) (ch ch' : Chunk), st.1.chunks[i]? = some (some ch) →
    st.1.chunks[j]? = some (some ch') →
    ch.memory = ch'.memory → i = j) ∧
  (∀ x ∈ st.2, x.1 < st.1.nextBlock) ∧ st.2.Nodup

/-- A Fixed pool of capacity `C` before the first `NewObject`. -/
def fixedNew (C : Nat) : MemoryPool :=
  ⟨MemoryPoolMode.Fixed, C, List.replicate CHUNK_ARRAY_DELTA none, none, 0, 0⟩

/-- A Fixed pool of capacity `C` whose chunk (directory entry 0, block 0) is live with free
list `fl`. -/
def fixedLive (C : Nat) (fl : List Nat) : MemoryPool :=
  ⟨MemoryPoolMode.Fixed, C, some ⟨0, fl⟩ :: List.replicate 9 none, some 0, 1, 1⟩

/-- A Fixed pool of capacity `C` whose chunk has been released by `Shrink`. -/
def fixedDead (C : Nat) : MemoryPool :=
  ⟨MemoryPoolMode.Fixed, C, List.replicate CHUNK_ARRAY_DELTA none, some 0, 0, 1⟩

/-- The states of a Fixed pool of capacity `C` and the pointers held by its client: new with
nothing held; live, the `C` elements of block 0 split between the free list and the client,
who holds at least one; or released with nothing held. -/
def FixedInv (C : Nat) (st : MemoryPool × List Addr) : Prop :=
  (st.1 = fixedNew C ∧ st.2 = []) ∨
  (∃ fl, st.1 = fixedLive C fl ∧ fl.length + st.2.length = C ∧ st.2 ≠ [] ∧
    (∀ a ∈ fl, a < C) ∧ ∀ x ∈ st.2, x.1 = 0 ∧ x.2 < C) ∨
  (st.1 = fixedDead C ∧ st.2 = [])

end Mem

/-- `Triangulator::ComputeBound(minx, miny, maxx, maxy)`: the result is
`(minx, miny, maxx, maxy)`.  `fltMax` is `numeric_limits<float>::max()` on the scale of the
coordinates.  The loop runs over `m_sites[0 .. m_nSites)`. -/
def Triangulator.ComputeBound (fltMax : Int) (t : Triangulator) : Int × Int × Int × Int :=
  (t.m_sites.take t.m_nSites).foldl
    (fun (b : Int × Int × Int × Int) (c : Site) =>
      let maxx := if b.2.2.1 < c.x then c.x else b.2.2.1
      let maxy := if b.2.2.2 < c.y then c.y else b.2.2.2
      let minx := if b.1 > c.x then c.x else b.1
      let miny := if b.2.1 > c.y then c.y else b.2.1
      (minx, miny, maxx, maxy))
    (fltMax, fltMax, -fltMax, -fltMax)

/-! ## GenerateNodeNeighbours with the Voronoi side lengths and cell areas -/

/-- A `float` of `m_voronoiSides`: `zero` as left by `memset`, or a `dist` written by the second
loop of `GenerateNodeNeighbours`, kept as the number `diffx*diffx + diffy*diffy` under the
square root (`none`: a coordinate is not a finite number). -/
inductive SideLength where
  | zero
  | dist (sq : Option Rat)
deriving DecidableEq

/-- A `float` of `m_voronoiArea`: a sum of triangle areas (0 as left by `memset`), the value
`numeric_limits<float>::max()`, or not a finite number. -/
inductive CellArea where
  | sum (a : Rat)
  | fltMax
  | notFinite
deriving DecidableEq

/-- The buffers `m_voronoiArea` and `m_voronoiSides[0]` (`none`: NULL).  The row pointers
`m_voronoiSides[i]` have the same offsets `cp` as the rows of `m_neighbours`, kept in
`m_nbStart`. -/
structure VoronoiCells where
  m_voronoiArea : Option (List CellArea)
  m_voronoiSides : Option (List SideLength)
deriving DecidableEq

/-- The `dist` of two Voronoi vertices. -/
def sideLength (vsrc vdst : VSite) : SideLength :=
  match vsrc.m_coord, vdst.m_coord with
  | some a, some b =>
    SideLength.dist (some ((a.1 - b.1) * (a.1 - b.1) + (a.2 - b.2) * (a.2 - b.2)))
  | _, _ => SideLength.dist none

/-- `Site::CCW(Site *a, VSite *b, VSite *c, &result)` (`none`: not a finite number). -/
def ccwVSite (a : Site) (b c : VSite) : Option Rat :=
  match b.m_coord, c.m_coord with
  | some b, some c =>
    some ((b.1 * c.2 - b.2 * c.1) - (a.x * c.2 - a.y * c.1) + (a.x * b.2 - a.y * b.1))
  | _, _ => none

/-- `m_voronoiSides[a][--count] = dist`, where `count` is the local copy of
`nNeighboursTemp[a]` read at the top of the loop body.  `none`: the write is outside the flat
buffer. -/
def putSide (starts : List Nat) (sides : List SideLength) (temp : List Nat) (a : Nat)
    (d : SideLength) : Option (List SideLength) := do
  let count ← temp[a]?
  let st ← starts[a]?
  if 0 < st + count ∧ st + count - 1 < sides.length then pure (sides.set (st + count - 1) d)
  else none

/-- The statement `if( !m_hull[id] ) { CCW; m_voronoiArea[id] += FABS(vCellArea) * 0.5 } else
m_voronoiArea[id] = numeric_limits<float>::max()` for the site `site`.  The sum of the sentinel
and an area is outside the model (`none`). -/
def addCellArea (t : Triangulator) (areas : List CellArea) (site : Ptr) (vsrc vdst : VSite) :
    Option (List CellArea) := do
  let st ← siteAt t.m_sites site
  let h ← t.m_hull[st.m_id]?
  let cur ← areas[st.m_id]?
  if h = 0 then
    match cur, ccwVSite st vsrc vdst with
    | CellArea.sum a, some v => pure (areas.set st.m_id (CellArea.sum (a + |v| * (1 / 2))))
    | CellArea.fltMax, _ => none
    | _, _ => pure (areas.set st.m_id CellArea.notFinite)
  else pure (areas.set st.m_id CellArea.fltMax)

/-- The statements under `if( m_attributes & Triangulator_VoronoiSides )`. -/
def sidesPart (t : Triangulator) (temp : List Nat) (c : VoronoiCells) (src dst : Nat)
    (d : SideLength) : Option VoronoiCells :=
  if hasAttr t.m_attributes Triangulator_VoronoiSides then do
    let sides ← c.m_voronoiSides
    let sides ← putSide t.m_nbStart sides temp src d
    let sides ← putSide t.m_nbStart sides temp dst d
    pure { c with m_voronoiSides := some sides }
  else pure c

/-- The statements under `if( m_attributes & Triangulator_VoronoiCellAreas )`. -/
def areasPart (t : Triangulator) (c : VoronoiCells) (e : Ptr) (vsrc vdst : VSite) :
    Option VoronoiCells :=
  if hasAttr t.m_attributes Triangulator_VoronoiCellAreas then do
    let areas ← c.m_voronoiArea
    let areas ← addCellArea t areas (← Org t.m_dEdge e) vsrc vdst
    let areas ← addCellArea t areas (← Dest t.m_dEdge e) vsrc vdst
    pure { c with m_voronoiArea := some areas }
  else pure c

/-- Second pass, the statements under `if( m_attributes & Triangulator_VoronoiVertices )` for
an edge between the input sites `src` and `dst`. -/
def cellsEdge (t : Triangulator) (temp : List Nat) (c : VoronoiCells) (e : Ptr)
    (src dst : Nat) : Option VoronoiCells :=
  if hasAttr t.m_attributes Triangulator_VoronoiVertices then do
    let vsrc ← VOrg t.m_dEdge e
    let vdst ← VDest t.m_dEdge e
    match vsrc, vdst with
    | some a, some b =>
      let c ← sidesPart t temp c src dst (sideLength (t.m_vsite a) (t.m_vsite b))
      areasPart t c e (t.m_vsite a) (t.m_vsite b)
    | _, _ => pure c
  else pure c

/-- Second pass, one in-use slot: what it does to the Voronoi buffers.  These statements come
before the writes to `m_neighbours` and `nNeighboursTemp` in the loop body. -/
def cellsVisit (t : Triangulator) (temp : List Nat) (c : VoronoiCells) (e : Ptr) :
    Option VoronoiCells := do
  let src ← m_id t.m_sites (← Org t.m_dEdge e)
  let dst ← m_id t.m_sites (← Dest t.m_dEdge e)
  if (← visitedOf t.m_dEdge e) = 1 then
    if src < t.m_nInputSites ∧ dst < t.m_nInputSites then cellsEdge t temp c e src dst
    else pure c
  else pure c

/-- Body of the second `for` loop of `GenerateNodeNeighbours`: what it does to the Voronoi
buffers. -/
def cellsOfSlot (st : (Triangulator × List Nat) × VoronoiCells) (i : Nat) :
    Option VoronoiCells := do
  let e : Ptr := some (4 * i)
  if (← isFreeOf st.1.1.m_dEdge e) then pure st.2 else cellsVisit st.1.1 st.1.2 st.2 e

/-- Body of the second `for` loop of `GenerateNodeNeighbours` with the Voronoi buffers. -/
def cellsSlot (st : (Triangulator × List Nat) × VoronoiCells) (i : Nat) :
    Option ((Triangulator × List Nat) × VoronoiCells) := do
  let c ← cellsOfSlot st i
  let st1 ← storeSlot st.1 i
  pure (st1, c)

/-- `Triangulator::GenerateNodeNeighbours` with the Voronoi side lengths and cell areas. -/
def GenerateNodeNeighboursCells (t : Triangulator) : Option (Triangulator × VoronoiCells) := do
  let maxEdges := t.m_nSites * 3
  let s ← resetVisited t.m_dEdge maxEdges
  let t := { t with m_dEdge := s, m_nNeighbours := List.replicate t.m_nSites 0 }
  let t ← (List.range maxEdges).foldlM countSlot t
  let c : VoronoiCells := {
    m_voronoiArea :=
      if hasAttr t.m_attributes (Triangulator_VoronoiCellAreas ||| Triangulator_VoronoiVertices)
      then some (List.replicate t.m_nSites (CellArea.sum 0)) else none,
    m_voronoiSides :=
      if hasAttr t.m_attributes (Triangulator_VoronoiSides ||| Triangulator_VoronoiVertices)
      then some (List.replicate t.m_nNeighbours.sum SideLength.zero) else none }
  let t := { t with
    m_neighbours :=
      if hasAttr t.m_attributes Triangulator_NodeNeighbours then
        some (List.replicate t.m_nNeighbours.sum 0)
      else none,
    m_nbStart := rowStarts t.m_nNeighbours 0 }
  let ((t, _), c) ← (List.range maxEdges).foldlM cellsSlot ((t, t.m_nNeighbours), c)
  pure (t, c)

/-- `Triangulator::Triangulator(ns, s, attr)` with the Voronoi side lengths and cell areas. -/
def Triangulator.constructCells (fuel : Nat) (s : List (Int × Int)) (attr : Nat)
    (superTriangle : List (Int × Int)) : Option (Triangulator × VoronoiCells) := do
  let t ← triangulate fuel s attr superTriangle
  let t ← MarkHull fuel t
  let t ← if hasAttr attr Triangulator_TriangleIndices then GenerateTriangleIndices fuel t
    else pure t
  let t ← voronoiPart fuel t
  GenerateNodeNeighboursCells t

/-- Row `i` of `GetVoronoiSides()`: the `GetNumNeighbours()[i]` entries at
`m_voronoiSides[i]`. -/
def GetVoronoiSides (r : Triangulator × VoronoiCells) (i : Nat) : List SideLength :=
  match r.2.m_voronoiSides with
  | none => []
  | some buf => (buf.drop (r.1.m_nbStart.getD i 0)).take (r.1.m_nNeighbours.getD i 0)

/-- `GetVoronoiCellAreas()`. -/
def GetVoronoiCellAreas (r : Triangulator × VoronoiCells) : List CellArea :=
  r.2.m_voronoiArea.getD []

/-! ## Zero-filled free slots -/

/-- State of the attribute words and of the `m_num` fields during the triangulation: every
attribute word is 0 (zero-filled) or 1 (`SetInUse` on a new bundle), and record 0 of every
slot has `m_num = 0` (zero-filled, or set by the `QuadEdge` constructor). -/
def Tidy (s : EdgeStore) : Prop :=
  (∀ q, s.attr q = 0 ∨ s.attr q = 1) ∧ ∀ q, (s.edge (4 * q)).m_num = 0

/-- Every attribute word with `IsFree()` true is all zero, and record 0 of every slot has
`m_num = 0`, so that `qedges[i].m_e->Qedge()` is `&qedges[i]`. -/
def ZeroFree (s : EdgeStore) : Prop :=
  (∀ q, IsFree (s.attr q) = true → s.attr q = 0) ∧ ∀ q, (s.edge (4 * q)).m_num = 0

/-- The pointer points to a record of an in-use quad-edge. -/
def Live (s : EdgeStore) (e : Ptr) : Prop := ∃ i, e = some i ∧ InUse s i

/-- Two edge stores with the same pool, the same free/in-use state of every slot, and the same
`m_num` and `m_next` in every record. -/
def SameShape (s s' : EdgeStore) : Prop :=
  s'.pool = s.pool ∧ (∀ q, IsFree (s'.attr q) = IsFree (s.attr q)) ∧
    ∀ p, (s'.edge p).m_num = (s.edge p).m_num ∧ (s'.edge p).m_next = (s.edge p).m_next

/-- The invariant of the edge store during the passes that follow the triangulation. -/
def Good (s : EdgeStore) : Prop := Inv s ∧ ZeroFree s

/-- `QuadEdge::DecrementVisited`: `val` is an `int`, so it is -1 when the count is 0, and
`val<<16` then sets all sixteen high bits of the 32-bit pattern. -/
def DecrementVisited (a : Nat) : Nat :=
  ((((a % 65536 : Nat) : Int) + (((a / 65536 : Nat) : Int) - 1) * 65536) % 4294967296).toNat

/-! ## The circle through three sites -/

/-- Squared distance of the point `(ox, oy)` to the site `s`. -/
def distSq (ox oy : Rat) (s : Site) : Rat :=
  (ox - s.x) * (ox - s.x) + (oy - s.y) * (oy - s.y)

/-- Modelled from the spec: `d` lies strictly inside the circle through `a`, `b` and `c`, that
is, some point has the same distance to `a`, `b` and `c` and a smaller distance to `d`. -/
def StrictlyInsideCircleThrough (a b c d : Site) : Prop :=
  ∃ ox oy : Rat, distSq ox oy a = distSq ox oy b ∧ distSq ox oy a = distSq ox oy c ∧
    distSq ox oy d < distSq ox oy a

/-! ## TimeSeries (TimeSeries.cc), exact arithmetic -/

/-- Member variables of a `TimeSeries` and what it reads from its surroundings: `nn` is
`st->GetNMeshPoints()`, `O` the array behind `st->O(i)`, and `fieldFiles[idx]` the content of the
file `m_fieldValueFilesAtTimes[idx]` (the number on its first line and the numbers on the lines
that follow). -/
structure TimeSeries where
  nn : Nat
  O : List Nat
  m_isSingleValued : Bool
  m_isTimeSeries : Bool
  m_isFieldTimeSeries : Bool
  m_value : Rat
  m_times : List Rat
  m_values : List Rat
  fieldFiles : List (Nat × List Rat)
  m_fieldValueLo : List Rat
  m_fieldValueHi : List Rat
  m_idxLo : Nat
deriving DecidableEq

/-- `vector<double>::resize(n)`: the first `n` elements are kept, new ones are 0. -/
def resize (v : List Rat) (n : Nat) : List Rat :=
  v.take n ++ List.replicate (n - v.length) 0

/-- The loop `for(int i=0; i<nn; i++) (*result)[i++] = value;` of `GetFieldValueAtTime`, from
index `i` on: the index is incremented twice in each pass. -/
def fillLoop (value : Rat) (nn : Nat) : Nat → Nat → List Rat → List Rat
  | 0, _, result => result
  | fuel + 1, i, result =>
    if i < nn then fillLoop value nn fuel (i + 1 + 1) (result.set i value) else result

/-- The loop `while(getline(ifs, line)) (*result)[i++] = ur;` of `GetFieldValueAtTime`.
`none`: a write past the end of `result`. -/
def readLoop : List Rat → Nat → List Rat → Option (List Rat)
  | [], _, result => some result
  | ur :: rest, i, result =>
    if i < result.length then readLoop rest (i + 1) (result.set i ur) else none

/-- `TimeSeries::GetFieldValueAtTime(idx, result)`: the new contents of `*result`.  `none`:
`exit(EXIT_FAILURE)` or an access outside an array. -/
def TimeSeries.GetFieldValueAtTime (ts : TimeSeries) (idx : Nat) (result : List Rat) :
    Option (List Rat) :=
  if ts.m_isTimeSeries then do
    let value ← ts.m_values[idx]?
    pure (fillLoop value ts.nn ts.nn 0 (resize result ts.nn))
  else if ts.m_isFieldTimeSeries then do
    let file ← ts.fieldFiles[idx]?
    if file.1 ≠ ts.nn then none
    else readLoop file.2 0 (resize result ts.nn)
  else none

/-- The loop `while( (m_idxLo+1) < int(m_times.size()-1) && mt > m_times[m_idxLo+1] )
m_idxLo++;` of `GetCurrentFieldValue`. -/
def advance (times : List Rat) (mt : Rat) : Nat → Nat → Option Nat
  | 0, _ => none
  | fuel + 1, idxLo =>
    if idxLo + 1 < times.length - 1 then do
      let t ← times[idxLo + 1]?
      if mt > t then advance times mt fuel (idxLo + 1) else pure idxLo
    else pure idxLo

/-- The two calls `GetFieldValueAtTime(m_idxLo, &m_fieldValueLo);
GetFieldValueAtTime(m_idxLo+1, &m_fieldValueHi);`. -/
def TimeSeries.load (ts : TimeSeries) : Option TimeSeries := do
  let lo ← ts.GetFieldValueAtTime ts.m_idxLo ts.m_fieldValueLo
  let hi ← ts.GetFieldValueAtTime (ts.m_idxLo + 1) ts.m_fieldValueHi
  pure { ts with m_fieldValueLo := lo, m_fieldValueHi := hi }

/-- First part of the time-series branch of `GetCurrentFieldValue`: the bracketing fields are
loaded on the first time step (`mt == dt`) or when the model time has passed
`m_times[m_idxLo+1]` and `m_idxLo` moves. -/
def TimeSeries.bracket (ts : TimeSeries) (mt dt : Rat) : Option TimeSeries := do
  if mt = dt then ts.load
  else
    let tHi ← ts.m_times[ts.m_idxLo + 1]?
    if mt > tHi then
      let idxLo ← advance ts.m_times mt ts.m_times.length ts.m_idxLo
      if ts.m_idxLo ≠ idxLo then ({ ts with m_idxLo := idxLo } : TimeSeries).load
      else pure ts
    else pure ts

/-- The loops `for(i<nn) (*result)[st->O(i)] = value(i)`.  `none`: an index outside an
array. -/
def scatter (O : List Nat) (value : Nat → Option Rat) : List Nat → List Rat → Option (List Rat)
  | [], result => some result
  | i :: rest, result => do
    let o ← O[i]?
    let v ← value i
    if o < result.length then scatter O value rest (result.set o v) else none

/-- `TimeSeries::GetCurrentFieldValue(result)` at model time `mt` with time step `dt`: the new
state of the object and the new contents of `*result`.  `none`: `exit(EXIT_FAILURE)`, an access
outside an array, or a division by zero. -/
def TimeSeries.GetCurrentFieldValue (ts : TimeSeries) (mt dt : Rat) (result : List Rat) :
    Option (TimeSeries × List Rat) :=
  if ts.m_isSingleValued then
    some (ts, List.replicate ts.nn ts.m_value)
  else do
    let ts ← ts.bracket mt dt
    let result := resize result ts.nn
    let tLo ← ts.m_times[ts.m_idxLo]?
    if mt < tLo then pure (ts, List.replicate ts.nn 0)
    else
      let tHi ← ts.m_times[ts.m_idxLo + 1]?
      if mt > tHi then do
        let r ← scatter ts.O (fun i => ts.m_fieldValueHi[i]?) (List.range ts.nn) result
        pure (ts, r)
      else if tHi - tLo = 0 then none
      else
        let f := (mt - tLo) / (tHi - tLo)
        if f > 1 then none
        else do
          let r ← scatter ts.O (fun i => do
            let lo ← ts.m_fieldValueLo[i]?
            let hi ← ts.m_fieldValueHi[i]?
            pure (f * lo + (1 - f) * hi)) (List.range ts.nn) result
          pure (ts, r)

/-- A field time series on two nodes: field (1, 1) at time 2 and field (3, 5) at time 10. -/
def fieldSeries : TimeSeries :=
  { nn := 2, O := [0, 1], m_isSingleValued := false, m_isTimeSeries := false,
    m_isFieldTimeSeries := true, m_value := 0, m_times := [2, 10], m_values := [],
    fieldFiles := [(2, [1, 1]), (2, [3, 5])], m_fieldValueLo := [0, 0],
    m_fieldValueHi := [0, 0], m_idxLo := 0 }

/-- A 1D time series on three nodes: value 5 at time 0 and value 7 at time 10. -/
def valueSeries : TimeSeries :=
  { nn := 3, O := [0, 1, 2], m_isSingleValued := false, m_isTimeSeries := true,
    m_isFieldTimeSeries := false, m_value := 0, m_times := [0, 10], m_values := [5, 7],
    fieldFiles := [], m_fieldValueLo := [0, 0, 0], m_fieldValueHi := [0, 0, 0], m_idxLo := 0 }

/-! ## Visitation counters during the scans -/

/-- Every slot of the edge pool has a visitation counter of at most `n`. -/
def VisitedAtMost (n : Nat) (s : EdgeStore) : Prop :=
  ∀ q, q < s.pool.numElementsPerChunk → Visited (s.attr q) ≤ n

instance (n : Nat) (s : EdgeStore) : Decidable (VisitedAtMost n s) := by
  unfold VisitedAtMost; infer_instance

/-- The edges of one origin ring agree on `Org()`: on every primal record of an in-use
quad-edge, `Onext()` has the same `m_data0`. -/
def RingOrg (s : EdgeStore) : Prop :=
  ∀ p, p < 4 * s.pool.numElementsPerChunk → IsFree (s.attr (p / 4)) = false → p % 2 = 0 →
    (s.edge (nxt s p)).m_data0 = (s.edge p).m_data0

instance (s : EdgeStore) : Decidable (RingOrg s) := by
  unfold RingOrg; infer_instance

/-- Modelled from the spec: the edges join distinct sites, that is `Org()` and `Dest()` differ
on every primal record of an in-use quad-edge. -/
def DistinctEnds (s : EdgeStore) : Prop :=
  ∀ p, p < 4 * s.pool.numElementsPerChunk → IsFree (s.attr (p / 4)) = false → p % 2 = 0 →
    (s.edge p).m_data0 ≠ (s.edge (symI p)).m_data0

instance (s : EdgeStore) : Decidable (DistinctEnds s) := by
  unfold DistinctEnds; infer_instance

/-- State of `GenerateTriangleIndices` when the `for` loop over the slots of the edge pool has
made `k` rounds; with `k = maxEdges` the state on return. -/
def triScan (fuel : Nat) (t : Triangulator) (k : Nat) : Option Triangulator := do
  let t ← allocTIndices t
  let maxEdges := t.m_nSites * 3
  let s ← resetVisited t.m_dEdge maxEdges
  let t := { t with m_dEdge := s, m_nTriangles := 0 }
  (List.range (min k maxEdges)).foldlM (triSlot fuel) t

/-- State of `GenerateVoronoiVertices` when the `for` loop over the slots of the edge pool has
made `k` rounds; with `k = maxEdges` the state on return. -/
def vorScan (fuel : Nat) (t : Triangulator) (k : Nat) : Option Triangulator := do
  let maxEdges := t.m_nSites * 3
  let s ← resetVisited t.m_dEdge maxEdges
  (List.range (min k maxEdges)).foldlM (vorSlot fuel) { t with m_dEdge := s }

/-- State of `GenerateNodeNeighbours` when its first `for` loop has made `k1` rounds and its
second `for` loop `k2` rounds, with `nNeighboursTemp`; the second loop starts when the first
has made `maxEdges` rounds. -/
def nnScan (t : Triangulator) (k1 k2 : Nat) : Option (Triangulator × List Nat) := do
  let maxEdges := t.m_nSites * 3
  let s ← resetVisited t.m_dEdge maxEdges
  let t := { t with m_dEdge := s, m_nNeighbours := List.replicate t.m_nSites 0 }
  let t ← (List.range (min k1 maxEdges)).foldlM countSlot t
  if k1 < maxEdges then pure (t, [])
  else
    let t := { t with
      m_neighbours :=
        if hasAttr t.m_attributes Triangulator_NodeNeighbours then
          some (List.replicate t.m_nNeighbours.sum 0)
        else none,
      m_nbStart := rowStarts t.m_nNeighbours 0 }
    (List.range (min k2 maxEdges)).foldlM storeSlot (t, t.m_nNeighbours)

/-- The sum of the visitation counters over the in-use quad-edges of the pool. -/
def visitedSum (s : EdgeStore) : Nat :=
  ((List.range s.pool.numElementsPerChunk).map
    (fun q => if IsFree (s.attr q) then 0 else Visited (s.attr q))).sum

/-- Body of the `do … while` loop of `GenerateTriangleIndices` with a count of the faces that
pass both tests of the scan.  The count is not a variable of the program: `tCount` leaves out
the faces suppressed with the super-triangle option. -/
def triVisitN (st : Triangulator × Nat) (e : Ptr) : Option ((Triangulator × Nat) × Ptr) := do
  let eOnext ← Onext st.1.m_dEdge e
  let eLnext ← Lnext st.1.m_dEdge e
  let found ← faceTest st.1.m_dEdge e eOnext eLnext
  let (t, eOnext) ← triVisit st.1 e
  pure ((t, if found then st.2 + 1 else st.2), eOnext)

/-- The `do … while (e != eStart)` loop of `GenerateTriangleIndices` with the count of faces. -/
def triRingN (eStart : Ptr) : Nat → Triangulator × Nat → Ptr → Option (Triangulator × Nat)
  | 0, _, _ => none
  | fuel + 1, st, e =>
    match triVisitN st e with
    | none => none
    | some (st, eOnext) => if eOnext ≠ eStart then triRingN eStart fuel st eOnext else some st

/-- Body of the `for` loop of `GenerateTriangleIndices` with the count of faces. -/
def triSlotN (fuel : Nat) (st : Triangulator × Nat) (i : Nat) : Option (Triangulator × Nat) := do
  let e : Ptr := some (4 * i)
  if (← isFreeOf st.1.m_dEdge e) then pure st else triRingN e fuel st e

/-- `Triangulator::GenerateTriangleIndices` with the count of the faces found by the scan. -/
def GenerateTriangleIndicesN (fuel : Nat) (t : Triangulator) : Option (Triangulator × Nat) := do
  let t ← allocTIndices t
  let maxEdges := t.m_nSites * 3
  let s ← resetVisited t.m_dEdge maxEdges
  let t := { t with m_dEdge := s, m_nTriangles := 0 }
  (List.range maxEdges).foldlM (triSlotN fuel) (t, 0)

/-- Modelled from the spec: an edge from `a` to `b` is an interior, non-boundary edge when
the sites do not all lie on one side of it. -/
def interiorEdge (sites : List Site) (a b : Site) : Bool :=
  sites.any (fun p => decide (0 < ccwVal a b p)) && sites.any (fun p => decide (ccwVal a b p < 0))

/-- Modelled from the spec: the number of in-use quad-edges of the pool that are interior
edges. -/
def Triangulator.interiorEdges (t : Triangulator) : Nat :=
  ((List.range t.m_dEdge.pool.numElementsPerChunk).filter (fun q =>
    !IsFree (t.m_dEdge.attr q) &&
      match siteAt t.m_sites (t.m_dEdge.edge (4 * q)).m_data0,
          siteAt t.m_sites (t.m_dEdge.edge (4 * q + 2)).m_data0 with
      | some a, some b => interiorEdge t.m_sites a b
      | _, _ => false)).length

/-- Two edge stores that differ in the `m_data1` fields (the Voronoi vertices) only. -/
def SameButVoronoi (s s' : EdgeStore) : Prop :=
  s'.pool = s.pool ∧ s'.attr = s.attr ∧
    ∀ p, (s'.edge p).m_num = (s.edge p).m_num ∧ (s'.edge p).m_next = (s.edge p).m_next ∧
      (s'.edge p).m_data0 = (s.edge p).m_data0

/-! ## SurfaceTopology: receivers, donors and catchments -/

namespace Mesh

/-- `SurfaceTopology::DIRICHLET`, compared with the `float` boundary-condition column. -/
def DIRICHLET : Rat := 1

/-- `SurfaceTopology::ORPHAN`. -/
def ORPHAN : Int := -2

/-- `SurfaceTopology::INVALID`. -/
def INVALID : Int := -1

/-- `numeric_limits<float>::max()`, which is (2^24 - 1) * 2^104. -/
def FLT_MAX : Rat := 340282346638528859811704183484516925440

/-- The members of `SurfaceTopology` that `InitializeNetwork` reads and writes.  The rows of
`m_rawGeometry` are x, y, z and the boundary condition; `neighbours` holds the rows of
`m_triangulator->GetNeighbours()`, the length of row `i` being `GetNumNeighbours()[i]`;
row `i` of `m_donors` is the part of `m_donorsStorage` that `m_donors[i]` points to;
`m_catchments` is the `set<int>` in increasing order. -/
structure SurfaceTopology where
  m_nMeshPoints : Nat
  m_rawGeometry : List (List Rat)
  neighbours : List (List Nat)
  m_receivers : List Nat
  m_receiversSillCorrected : List Nat
  m_donorCounts : List Nat
  m_donors : List (List Nat)
  m_stack : List Int
  m_catchmentIds : List Int
  m_catchments : List Int
deriving DecidableEq

/-- `Z(index)`: `m_rawGeometry[index][2]`. -/
def SurfaceTopology.Z (st : SurfaceTopology) (index : Nat) : Option Rat := do
  (← st.m_rawGeometry[index]?)[2]?

/-- `B(index)`: `m_rawGeometry[index][3]`. -/
def SurfaceTopology.B (st : SurfaceTopology) (index : Nat) : Option Rat := do
  (← st.m_rawGeometry[index]?)[3]?

/-- The loop over the neighbours of a node in the search for its receiver; `lowest` is
`lowestNeighbour`. -/
def lowestNeighbour (st : SurfaceTopology) : List Nat → Nat → Option Nat
  | [], lowest => some lowest
  | neighbour :: rest, lowest => do
    if (← st.Z neighbour) < (← st.Z lowest) then lowestNeighbour st rest neighbour
    else lowestNeighbour st rest lowest

/-- Body of the loop "Find receivers": the value written to `m_receivers[i]`. -/
def findReceiver (st : SurfaceTopology) (i : Nat) : Option Nat := do
  if (← st.B i) = DIRICHLET then pure i
  else lowestNeighbour st (← st.neighbours[i]?) i

/-- The loop "Find receivers" over the nodes of a list: the values of `m_receivers`. -/
def receiversFrom (st : SurfaceTopology) : List Nat → Option (List Nat)
  | [] => some []
  | i :: rest => do
    let r ← findReceiver st i
    let rs ← receiversFrom st rest
    pure (r :: rs)

/-- Body of the loop `if (R(i) != i) m_donorCounts[R(i)]++`. -/
def countDonor (R : List Nat) (counts : List Nat) (i : Nat) : Option (List Nat) := do
  let r ← R[i]?
  if r ≠ i then incrAt counts r else pure counts

/-- Body of the loop `if (R(i) != i) m_donors[R(i)][donorsCount[R(i)]++] = i`: node `i` is
written after the donors that row `R(i)` holds already. -/
def fillDonor (R : List Nat) (rows : List (List Nat)) (i : Nat) : Option (List (List Nat)) := do
  let r ← R[i]?
  if r ≠ i then
    let row ← rows[r]?
    pure (rows.set r (row ++ [i]))
  else pure rows

/-- Write into an `int` array: `none` past the end. -/
def setInt (l : List Int) (i : Nat) (v : Int) : Option (List Int) :=
  if i < l.length then some (l.set i v) else none

/-- `SurfaceTopology::InitializeStack`; the state is the written part of `m_stack`, whose
length is `*index`, and `m_catchmentIds`.  The fuel bounds the depth of the recursion. -/
def InitializeStack (st : SurfaceTopology) :
    Nat → List Int × List Int → Nat → Int → Option (List Int × List Int)
  | 0, _, _, _ => none
  | fuel + 1, acc, node, catchmentId => do
    let ids ← setInt acc.2 node catchmentId
    let dn ← st.m_donorCounts[node]?
    (List.range dn).foldlM (fun (a : List Int × List Int) i => do
      let donor ← (← st.m_donors[node]?)[i]?
      let ids ← setInt a.2 donor catchmentId
      InitializeStack st fuel (a.1, ids) donor catchmentId) (acc.1 ++ [(node : Int)], ids)

/-- `SurfaceTopology::PropagateCatchmentTagUpstream`; the state is `m_catchmentIds`.  The fuel
bounds the depth of the recursion. -/
def PropagateCatchmentTagUpstream (st : SurfaceTopology) :
    Nat → List Int → Nat → Int → Option (List Int)
  | 0, _, _, _ => none
  | fuel + 1, ids, node, catchmentId => do
    let ids ← setInt ids node catchmentId
    let dn ← st.m_donorCounts[node]?
    (List.range dn).foldlM (fun (a : List Int) i => do
      let donor ← (← st.m_donors[node]?)[i]?
      let ids ← setInt a donor catchmentId
      PropagateCatchmentTagUpstream st fuel ids donor catchmentId) ids

/-- Body of the loop "Initialize stack" over the nodes. -/
def stackRoot (st : SurfaceTopology) (fuel : Nat) (acc : List Int × List Int) (i : Nat) :
    Option (List Int × List Int) := do
  let b ← st.B i
  let r ← st.m_receivers[i]?
  if b = DIRICHLET ∨ r = i then
    let ids ← (if b = DIRICHLET then setInt acc.2 i i else some acc.2)
    if (← st.m_donorCounts[i]?) ≠ 0 then InitializeStack st fuel (acc.1, ids) i (← ids[i]?)
    else pure (acc.1, ids)
  else pure acc

/-- `SurfaceTopology::CountOrphanNodes`. -/
def CountOrphanNodes (n : Nat) (ids : List Int) : Nat :=
  ((List.range n).filter (fun i => decide (ids[i]? = some ORPHAN))).length

/-- The loop over the neighbours of an orphan node: `sill` (`none` for `INVALID`) and
`sillHeight`. -/
def findSill (st : SurfaceTopology) (ids : List Int) :
    List Nat → Option Nat → Rat → Option (Option Nat)
  | [], sill, _ => some sill
  | neighbour :: rest, sill, sillHeight => do
    if (← ids[neighbour]?) = ORPHAN then findSill st ids rest sill sillHeight
    else
      let z ← st.Z neighbour
      if sillHeight > z then findSill st ids rest (some neighbour) z
      else findSill st ids rest sill sillHeight

/-- Body of the `for` loop inside `while (CountOrphanNodes())`; the state is
`m_receiversSillCorrected` and `m_catchmentIds`. -/
def sweepNode (st : SurfaceTopology) (fuel : Nat) (acc : List Nat × List Int) (i : Nat) :
    Option (List Nat × List Int) := do
  if (← acc.2[i]?) = ORPHAN then
    match (← findSill st acc.2 (← st.neighbours[i]?) none FLT_MAX) with
    | none => pure acc
    | some sill =>
      let c ← acc.2[sill]?
      let ids ← PropagateCatchmentTagUpstream st fuel acc.2 i c
      pure (acc.1.set i sill, ids)
  else pure acc

/-- The loop `while (CountOrphanNodes())`; the first number bounds the rounds of the loop. -/
def orphanLoop (st : SurfaceTopology) (fuel : Nat) :
    Nat → List Nat × List Int → Option (List Nat × List Int)
  | 0, _ => none
  | k + 1, acc =>
    if CountOrphanNodes st.m_nMeshPoints acc.2 ≠ 0 then
      match (List.range st.m_nMeshPoints).foldlM (sweepNode st fuel) acc with
      | none => none
      | some acc => orphanLoop st fuel k acc
    else some acc

/-- `m_catchments.insert(x)` on the `set<int>` in increasing order. -/
def setInsert (x : Int) : List Int → List Int
  | [] => [x]
  | y :: ys => if x < y then x :: y :: ys else if x = y then y :: ys else y :: setInsert x ys

/-- The object with `m_receivers`, `m_donorCounts` and the rows of `m_donors` filled in. -/
def SurfaceTopology.withDonors (st : SurfaceTopology) (R counts : List Nat)
    (rows : List (List Nat)) : SurfaceTopology :=
  { st with m_receivers := R, m_donorCounts := counts, m_donors := rows }

/-- `SurfaceTopology::InitializeNetwork`.  The writes to `m_stack` are kept as a list of the
nodes in the order written (slot `*index` is the length of the list), and the slots not
written hold `INVALID`.  `fuel` bounds the depth of the two recursive functions and the
number of rounds of the `while` loop. -/
def SurfaceTopology.InitializeNetwork (fuel : Nat) (st : SurfaceTopology) :
    Option SurfaceTopology := do
  let n := st.m_nMeshPoints
  let R ← receiversFrom st (List.range n)
  let counts ← (List.range n).foldlM (countDonor R) (List.replicate n 0)
  let rows ← (List.range n).foldlM (fillDonor R) (List.replicate n [])
  let st := st.withDonors R counts rows
  let (stack, ids) ← (List.range n).foldlM (stackRoot st fuel) ([], List.replicate n ORPHAN)
  let (sr, ids) ← orphanLoop st fuel fuel (R, ids)
  let catchments ← (List.range n).foldlM (fun (s : List Int) i => do
    pure (setInsert (← ids[i]?) s)) []
  pure { st with
    m_stack := stack ++ List.replicate (n - stack.length) INVALID,
    m_receiversSillCorrected := sr, m_catchmentIds := ids, m_catchments := catchments }

/-- The nodes whose boundary condition is `DIRICHLET`. -/
def SurfaceTopology.dirichletNodes (st : SurfaceTopology) : List Nat :=
  (List.range st.m_nMeshPoints).filter (fun i => decide (st.B i = some DIRICHLET))

/-- One more step along the neighbour lists from the nodes of a list. -/
def grow (nb : List (List Nat)) (S : List Nat) : List Nat :=
  (S ++ S.flatMap (fun a => nb.getD a [])).dedup

/-- The nodes reached from node `i` in at most `k` steps along the neighbour lists. -/
def reach (nb : List (List Nat)) : Nat → Nat → List Nat
  | 0, i => [i]
  | k + 1, i => grow nb (reach nb k i)

/-- Modelled from the spec: the neighbour graph of the mesh is connected, every node being
reached from every node along the neighbour lists. -/
def SurfaceTopology.Connected (st : SurfaceTopology) : Prop :=
  ∀ i, i < st.m_nMeshPoints → ∀ j, j < st.m_nMeshPoints →
    j ∈ reach st.neighbours st.m_nMeshPoints i

instance (st : SurfaceTopology) : Decidable st.Connected := by
  unfold SurfaceTopology.Connected; infer_instance

/-- The input of `InitializeNetwork` is a mesh: every node has its row of `m_rawGeometry`
with a height below `FLT_MAX` and a boundary condition, and its row of neighbours, which are
nodes of the mesh. -/
def SurfaceTopology.IsMesh (st : SurfaceTopology) : Prop :=
  ∀ i, i < st.m_nMeshPoints →
    (∃ z, st.Z i = some z ∧ z < FLT_MAX) ∧ (st.B i).isSome = true ∧
    ∃ row, st.neighbours[i]? = some row ∧ ∀ j ∈ row, j < st.m_nMeshPoints

/-- The entries of `ids'` are those of `ids`, but for entries set to `id` at nodes that
satisfy `Q`. -/
def Tagged (id : Int) (Q : Nat → Prop) (ids ids' : List Int) : Prop :=
  ids'.length = ids.length ∧
    ∀ k : Nat, ids'[k]? = ids[k]? ∨ (ids'[k]? = some id ∧ Q k)

/-- Node `d` has a receiver other than itself, so that it is a donor of its receiver. -/
def IsDonor (R : List Nat) (d : Nat) : Prop := ∃ r, R[d]? = some r ∧ r ≠ d

/-- State of `m_catchmentIds` from the loop "Initialize stack" on, when the first `m` nodes
have been through that loop: one entry per node, every entry `ORPHAN` or a Dirichlet node,
and a Dirichlet node among the first `m` has itself as entry. -/
def IdsInv (st : SurfaceTopology) (m : Nat) (ids : List Int) : Prop :=
  ids.length = st.m_nMeshPoints ∧
    (∀ (k : Nat) (c : Int), ids[k]? = some c →
      c = ORPHAN ∨ ∃ d ∈ st.dirichletNodes, c = (d : Int)) ∧
    ∀ d ∈ st.dirichletNodes, d < m → ids[d]? = some (d : Int)

/-- The height of a node as a number (0 when the node has no row in `m_rawGeometry`). -/
def SurfaceTopology.height (st : SurfaceTopology) (i : Nat) : Rat := (st.Z i).getD 0

/-- The donors of node `k` among the first `m` nodes, in increasing order: the nodes whose
receiver is `k` and not themselves. -/
def donorsAmong (R : List Nat) (m k : Nat) : List Nat :=
  (List.range m).filter (fun d => decide (R[d]? = some k ∧ k ≠ d))

/-- The number of nodes higher than node `k`; it bounds the length of a chain of donors that
starts at `k`. -/
def SurfaceTopology.rank (st : SurfaceTopology) (k : Nat) : Nat :=
  ((List.range st.m_nMeshPoints).filter (fun j => decide (st.height k < st.height j))).length

/-- State of the object when the receivers and the donors are in place: every receiver is a
node, a receiver other than the node itself is lower than the node, and `m_donorCounts` and
the rows of `m_donors` hold the donors of every node. -/
def SurfaceTopology.HasNetwork (st : SurfaceTopology) : Prop :=
  st.IsMesh ∧ st.m_donors.length = st.m_nMeshPoints ∧
    (∀ i, i < st.m_nMeshPoints → ∃ r, st.m_receivers[i]? = some r ∧ r < st.m_nMeshPoints ∧
      (r = i ∨ st.height r < st.height i)) ∧
    ∀ k, k < st.m_nMeshPoints →
      st.m_donorCounts[k]? = some (donorsAmong st.m_receivers st.m_nMeshPoints k).length ∧
      st.m_donors[k]? = some (donorsAmong st.m_receivers st.m_nMeshPoints k)

/-- A mesh of four nodes in a row, of heights 5, 1, 3 and 0: node 3 is a Dirichlet node and
node 1 a local minimum. -/
def sampleMesh : SurfaceTopology :=
  { m_nMeshPoints := 4,
    m_rawGeometry := [[0, 0, 5, 0], [1, 0, 1, 0], [2, 0, 3, 0], [3, 0, 0, 1]],
    neighbours := [[1], [0, 2], [1, 3], [2]],
    m_receivers := [], m_receiversSillCorrected := [], m_donorCounts := [], m_donors := [],
    m_stack := [], m_catchmentIds := [], m_catchments := [] }


/-! ## The bounding box of a SurfaceTopology (SurfaceTopology.cc) -/

/-- Address of `m_lower[i]` in the memory that holds the bounding box. -/
def lowerAt (i : Nat) : Nat := i

/-- Address of `m_upper[i]` in the memory that holds the bounding box. -/
def upperAt (i : Nat) : Nat := 2 + i

/-- The bounding box as the mesh readers `ReadTextMesh` and `ReadVTUMesh` leave it: `m_upper`
starts at `-FLT_MAX`, `m_lower` at `FLT_MAX`, and each point `(x, y, h, bc)` is compared with
the four entries. -/
def readBounds (points : List (List Rat)) : Nat → Rat :=
  points.foldl
    (fun (m : Nat → Rat) (p : List Rat) =>
      let m := if p.getD 0 0 > m (upperAt 0) then upd m (upperAt 0) (p.getD 0 0) else m
      let m := if p.getD 1 0 > m (upperAt 1) then upd m (upperAt 1) (p.getD 1 0) else m
      let m := if p.getD 0 0 < m (lowerAt 0) then upd m (lowerAt 0) (p.getD 0 0) else m
      let m := if p.getD 1 0 < m (lowerAt 1) then upd m (lowerAt 1) (p.getD 1 0) else m
      m)
    (fun a => if a < 2 then FLT_MAX else -FLT_MAX)

/-- `Triangulator::ComputeBound(minx, miny, maxx, maxy)` with its four arguments as addresses
in the memory `m`; `sites` are the coordinates `*(m_sites[i].m_coord)` for `i < m_nSites`. -/
def ComputeBound (sites : List (Rat × Rat)) (minx miny maxx maxy : Nat) (m : Nat → Rat) :
    Nat → Rat :=
  let m := upd m maxx (-FLT_MAX)
  let m := upd m maxy (-FLT_MAX)
  let m := upd m minx FLT_MAX
  let m := upd m miny FLT_MAX
  sites.foldl
    (fun (m : Nat → Rat) (coord : Rat × Rat) =>
      let m := if m maxx < coord.1 then upd m maxx coord.1 else m
      let m := if m maxy < coord.2 then upd m maxy coord.2 else m
      let m := if m minx > coord.1 then upd m minx coord.1 else m
      let m := if m miny > coord.2 then upd m miny coord.2 else m
      m)
    m

/-- The order of `SiteComparator` on coordinates: ascending x, then y. -/
def coordLE (a b : Rat × Rat) : Prop := a.1 < b.1 ∨ (a.1 = b.1 ∧ a.2 ≤ b.2)

instance : DecidableRel coordLE := fun a b =>
  inferInstanceAs (Decidable (a.1 < b.1 ∨ (a.1 = b.1 ∧ a.2 ≤ b.2)))

/-- The coordinates of the sites of the Triangulator that the constructor builds from the mesh
points (no super-triangle), in the order left by `SortSites`. -/
def siteCoords (points : List (List Rat)) : List (Rat × Rat) :=
  (points.map fun p => (p.getD 0 0, p.getD 1 0)).insertionSort coordLE

/-- `SurfaceTopology::ValidateBoundaryConditions` with a Triangulator in place: the loop over
the mesh points only prints; then
`ComputeBound(&(m_lower[0]), &(m_lower[1]), &(m_upper[0]), &(m_upper[0]))`. -/
def ValidateBoundaryConditions (sites : List (Rat × Rat)) (m : Nat → Rat) : Nat → Rat :=
  ComputeBound sites (lowerAt 0) (lowerAt 1) (upperAt 0) (upperAt 0) m

/-- The bounding box when the constructor of SurfaceTopology returns: `ReadMeshGeometry`, then
the Triangulator, then `ValidateBoundaryConditions`. -/
def constructedBounds (points : List (List Rat)) : Nat → Rat :=
  ValidateBoundaryConditions (siteCoords points) (readBounds points)

/-- `SurfaceTopology::GetBounds(upper, lower)`: the vectors `upper` and `lower`. -/
def GetBounds (m : Nat → Rat) : List Rat × List Rat :=
  ([m (upperAt 0), m (upperAt 1)], [m (lowerAt 0), m (lowerAt 1)])

end Mesh

namespace Config

/-! ## The config parser (Config.cc), strings as lists of characters -/

/-- The character `' '`. -/
def chSpace : Char := Char.ofNat 32
/-- The character `'\t'`. -/
def chTab : Char := Char.ofNat 9
/-- The character `'\n'`. -/
def chNewline : Char := Char.ofNat 10
/-- The character `'\r'`. -/
def chReturn : Char := Char.ofNat 13
/-- The double quote. -/
def chQuote : Char := Char.ofNat 34
/-- The character `'#'`. -/
def chHash : Char := Char.ofNat 35
/-- The character `')'`. -/
def chClose : Char := Char.ofNat 41
/-- The character `'='`. -/
def chEquals : Char := Char.ofNat 61
/-- The character `'['`. -/
def chBracket : Char := Char.ofNat 91

/-- `std::string::find_first_of(c)` for one character; `none` is `npos`. -/
def find_first_of (s : List Char) (c : Char) : Option Nat :=
  if s.indexOf c < s.length then some (s.indexOf c) else none

/-- The first loop of `Trim`: while the string is longer than one character and starts with a
space or a tab, the first character is dropped. -/
def trimFront : List Char → List Char
  | c :: d :: rest =>
    if c = chSpace ∨ c = chTab then trimFront (d :: rest) else c :: d :: rest
  | s => s

/-- The second loop of `Trim` on the reversed string: while the string is longer than one
character and ends with a space, tab, newline or carriage return, the last character is
dropped. -/
def trimBackRev : List Char → List Char
  | c :: d :: rest =>
    if c = chSpace ∨ c = chTab ∨ c = chNewline ∨ c = chReturn then trimBackRev (d :: rest)
    else c :: d :: rest
  | s => s

/-- `Config::Trim`. -/
def Trim (s : List Char) : List Char :=
  let s := trimFront s
  let s := (trimBackRev s.reverse).reverse
  let s := if s.length > 1 ∧ s.head? = some chQuote then s.drop 1 else s
  let s := if s.length > 1 ∧ s.getLast? = some chQuote then s.dropLast else s
  s

/-- `Config::Split(in, left, right, c)`: the pair `(left, right)`. -/
def Split (inp : List Char) (c : Char) : List Char × List Char :=
  match find_first_of inp c with
  | none => (Trim inp, [])
  | some pos =>
    if pos ≤ 1 then ([], Trim (inp.drop (pos + 1)))
    else (Trim (inp.take (pos - 1)), Trim (inp.drop (pos + 1)))

/-- `Config::ProcessInlineComments`. -/
def ProcessInlineComments (line : List Char) : List Char :=
  if line.head? ≠ some chHash then
    match find_first_of line chHash with
    | none => line
    | some found => line.take found
  else line

/-- `Config::Add` on `m_symbols`, a map kept as a list of pairs. -/
def Add (symbols : List (List Char × List Char)) (name value : List Char) :
    List (List Char × List Char) :=
  (name, value) :: symbols.filter (fun e => e.1 ≠ name)

/-- One pass of the `while (fgets …)` loop of the constructor on the root group, for a line
whose value is not `[`, does not contain `%` (`SymbolExpand` leaves such a value as it is) and
that does not contain `]`: the new `m_symbols`. -/
def addLine (symbols : List (List Char × List Char)) (buff : List Char) :
    List (List Char × List Char) :=
  let line := ProcessInlineComments buff
  if line.length > 2 ∧ line.head? ≠ some chHash ∧ chClose ∉ line then
    Add symbols (Split line chEquals).1 (Split line chEquals).2
  else symbols

/-- `Config::PString(name)`; `none`: the name is missing and the program exits. -/
def PString (symbols : List (List Char × List Char)) (name : List Char) :
    Option (List Char) :=
  (symbols.find? (fun e => e.1 = name)).map (fun e => e.2)

end Config

/-! ## The in-circle determinant of four sites -/

/-- Modelled from the spec: the 3 x 3 matrix with the rows
`(p.x - d.x, p.y - d.y, (p.x - d.x)^2 + (p.y - d.y)^2)` for `p = a, b, c`. -/
def inCircleMatrix (a b c d : Site) : Matrix (Fin 3) (Fin 3) Int :=
  !![a.x - d.x, a.y - d.y, (a.x - d.x) ^ 2 + (a.y - d.y) ^ 2;
     b.x - d.x, b.y - d.y, (b.x - d.x) ^ 2 + (b.y - d.y) ^ 2;
     c.x - d.x, c.y - d.y, (c.x - d.x) ^ 2 + (c.y - d.y) ^ 2]

/-! ## The remaining derived operators of the edge algebra (Topology.hh) -/

/-- `Edge::Dprev`. -/
def Dprev (s : EdgeStore) (p : Ptr) : Option Ptr := do
  Tor s (← Onext s (← Tor s p))

/-- `Edge::Lprev`. -/
def Lprev (s : EdgeStore) (p : Ptr) : Option Ptr := do
  Sym s (← Onext s p)

/-- `Edge::Rnext`. -/
def Rnext (s : EdgeStore) (p : Ptr) : Option Ptr := do
  Tor s (← Onext s (← Rot s p))

instance (s : EdgeStore) (p : Nat) : Decidable (InUse s p) :=
  inferInstanceAs
    (Decidable (p < 4 * s.pool.numElementsPerChunk ∧ IsFree (s.attr (p / 4)) = false))

/-- Modelled from the spec: a well-formed edge structure.  The chunk of the edge pool is live,
it is the chunk that `NewObject` uses, and the store is well-formed with the free stack of that
chunk. -/
def WellFormed (s : EdgeStore) : Prop :=
  ∃ st, s.pool.chunk0 = some st ∧ s.pool.chunkToUse.isSome = true ∧ WF s st

/-- Invariant of the edge stores built from the empty pool: the store is well-formed while
the chunk is live, no quad-edge is in use when the chunk has been released, and a live chunk is
the chunk that `NewObject` uses. -/
def Built (s : EdgeStore) : Prop :=
  Inv s ∧ (s.pool.chunk0 = none → ∀ p, ¬ InUse s p) ∧
    (s.pool.chunk0.isSome = true → s.pool.chunkToUse.isSome = true)

/-- Modelled from the spec: the operations by which an edge structure is built. -/
inductive EdgeOp where
  | makeEdge
  | splice (a b : Nat)
  | connect (a b : Nat)
  | delete (e : Nat)
deriving DecidableEq

/-- Modelled from the spec: one building operation.  `Splice(a, b)` is applied to two in-use
records of equal role parity, `Connect(a, b)` to two in-use records and `Delete(e)` to an in-use
record; the result is `none` when the operation is not of this kind or the code fails. -/
def EdgeOp.apply (s : EdgeStore) : EdgeOp → Option EdgeStore
  | EdgeOp.makeEdge => (MakeEdge s).map Prod.snd
  | EdgeOp.splice a b =>
    if InUse s a ∧ InUse s b ∧ a % 2 = b % 2 then Splice s (some a) (some b) else none
  | EdgeOp.connect a b =>
    if InUse s a ∧ InUse s b then (Connect s (some a) (some b)).map Prod.snd else none
  | EdgeOp.delete e => if InUse s e then Delete s (some e) else none

/-- Modelled from the spec: the edge structure reached from the empty pool of capacity `cap`
through the operations `ops`. -/
def buildEdges (cap : Nat) (ops : List EdgeOp) : Option EdgeStore :=
  ops.foldlM EdgeOp.apply (EdgeStore.init cap)

/-- Modelled from the spec: the arguments of a `Connect` are primal records (`m_e[0]` or
`m_e[2]`). -/
def EdgeOp.Primal : EdgeOp → Prop
  | EdgeOp.connect a b => a % 2 = 0 ∧ b % 2 = 0
  | _ => True

instance : DecidablePred EdgeOp.Primal := fun op =>
  match op with
  | EdgeOp.makeEdge => isTrue trivial
  | EdgeOp.splice _ _ => isTrue trivial
  | EdgeOp.connect a b => inferInstanceAs (Decidable (a % 2 = 0 ∧ b % 2 = 0))
  | EdgeOp.delete _ => isTrue trivial

/-- Modelled from the spec: the record that follows `p` on its ring once the records `e` and
`f` are taken out of it, the order of the other records kept. -/
def skipNext (s : EdgeStore) (e f p : Nat) : Nat :=
  if nxt s p ≠ e ∧ nxt s p ≠ f then nxt s p
  else if nxt s (nxt s p) ≠ e ∧ nxt s (nxt s p) ≠ f then nxt s (nxt s p)
  else nxt s (nxt s (nxt s p))

/-! ## The array of Voronoi vertices -/

/-- `GetVoronoiVertices()`: the slot of the Voronoi pool to which the returned pointer
`ptr + numFree` points; `none` is NULL. -/
def Triangulator.GetVoronoiVertices (t : Triangulator) : Option Nat :=
  match t.m_vEdgePool with
  | none => none
  | some pool => if pool.GetDataPointer then some pool.GetNumFree else none

/-- The Fixed pool of capacity `C` after `k` calls of `NewObject` and no `DeleteObject`. -/
def MemoryPool.allocated (C : Nat) : Nat → MemoryPool
  | 0 => MemoryPool.init C
  | k + 1 => (MemoryPool.allocated C k).NewObject.1

/-- Invariant of the Voronoi pass on a pool of capacity `C`: some number `k` of vertices has
been allocated and none deleted, and each of the slots `C - k` to `C - 1` holds what
`Circumcenter` wrote for three of the sites. -/
def VorInv (sites : List Site) (C : Nat) (t : Triangulator) : Prop :=
  t.m_sites = sites ∧ ∃ k, k ≤ C ∧ t.m_vEdgePool = some (MemoryPool.allocated C k) ∧
    ∀ w, C - k ≤ w → w < C → ∃ a b c z, a ∈ sites ∧ b ∈ sites ∧ c ∈ sites ∧
      t.m_vsite w = (Circumcenter a b c z).2

/-! ## The recursion of `Delaunay` -/

/-- The calls of `Delaunay` made, directly or indirectly, by `Delaunay(sl, sh)`, itself
included and first, each with its nesting depth (`depth` for `Delaunay(sl, sh)` itself); the
base cases `sh == sl+2` and `sh == sl+3` make no call, every other call makes the calls
`Delaunay(sl, sm)` and `Delaunay(sm, sh)` with `sm = (sl+sh)/2`.  `fuel` bounds the nesting;
`none`: the fuel runs out. -/
def DelaunayCalls : Nat → Nat → Nat → Nat → Option (List (Nat × Nat × Nat))
  | 0, _, _, _ => none
  | fuel + 1, depth, sl, sh =>
    if sh = sl + 2 then some [(depth, sl, sh)]
    else if sh = sl + 3 then some [(depth, sl, sh)]
    else
      match DelaunayCalls fuel (depth + 1) sl ((sl + sh) / 2) with
      | none => none
      | some l =>
        match DelaunayCalls fuel (depth + 1) ((sl + sh) / 2) sh with
        | none => none
        | some r => some ((depth, sl, sh) :: (l ++ r))

/-! # Theorems -/

/-! ## Runs on concrete inputs -/

set_option maxRecDepth 1000000 in
/-- C1 (code bug): on the four sites (0,0), (4,0), (0,4), (1,1), whose convex hull is a triangle,
the face scan also takes the outer face for a triangle: row 2 of `GetTriangleIndices()` is the
hull triangle of sites 1, 0, 2, and site 3 lies strictly inside its circumcircle. -/
theorem C1_outer_face_is_emitted :
    (Triangulator.construct 20 [(0, 0), (4, 0), (0, 4), (1, 1)] Triangulator_TriangleIndices
        []).map (fun t => (t.GetNumTriangles, t.GetTriangleIndices))
      = some (4, [[1, 2, 3], [1, 3, 0], [1, 0, 2], [3, 2, 0]])
    ∧ StrictlyInsideCircumcircle (4, 0) (0, 0) (0, 4) (1, 1) := by
  decide

set_option maxRecDepth 1000000 in
/-- C2 (code bug): for the three non-collinear sites (0,0), (4,0), (0,4) the construction
reports two triangles, the triangle and the outer face, with 3 in-use edges and all three sites
marked in `GetHull()`. -/
theorem C2_three_sites_two_triangles :
    (Triangulator.construct 20 [(0, 0), (4, 0), (0, 4)] Triangulator_TriangleIndices []).map
        (fun t => (t.GetNumTriangles, t.GetTriangleIndices, t.m_nEdges, t.inUseCount, t.GetHull))
      = some (2, [[1, 0, 2], [1, 2, 0]], 3, 3, [1, 1, 1]) := by
  decide

set_option maxRecDepth 1000000 in
/-- C9 (code bug): input (0,0), (0,2), (1,2), (3,4) with the super-triangle option.  The
coordinates are scaled by 2^21, which makes the corners computed by `InitSuperTriangle` in
single precision, (-7.1602540016, -3), (10.1602544785, -3) and (1.5, 12), integers.  The peel
pass marks all four input sites, although site 2 lies strictly inside the triangle of the
sites 0, 3, 1 and so is not on the boundary of the convex hull. -/
theorem C9_interior_site_marked :
    (Triangulator.construct 30
        [(0, 0), (0, 4194304), (2097152, 4194304), (6291456, 8388608)]
        Triangulator_SuperTriangle
        [(-15016141, -6291456), (21307598, -6291456), (3145728, 25165824)]).map
        (fun t => t.GetHull) = some [1, 1, 1, 1, 0, 0, 0]
    ∧ StrictlyInsideTriangle (0, 0) (6291456, 8388608) (0, 4194304) (2097152, 4194304) := by
  decide

/-! ## Index arithmetic of a bundle -/

theorem rotI_div (x : Nat) : rotI x / 4 = x / 4 := by unfold rotI; split <;> omega
theorem torI_div (x : Nat) : torI x / 4 = x / 4 := by unfold torI; split <;> omega
theorem symI_div (x : Nat) : symI x / 4 = x / 4 := by unfold symI; split <;> omega
theorem rotI_mod2 (x : Nat) : rotI x % 2 = (x + 1) % 2 := by unfold rotI; split <;> omega
theorem torI_mod2 (x : Nat) : torI x % 2 = (x + 1) % 2 := by unfold torI; split <;> omega
theorem symI_mod2 (x : Nat) : symI x % 2 = x % 2 := by unfold symI; split <;> omega
theorem torI_rotI (x : Nat) : torI (rotI x) = x := by unfold torI rotI; split <;> split <;> omega
theorem rotI_torI (x : Nat) : rotI (torI x) = x := by unfold torI rotI; split <;> split <;> omega
theorem rotI_rotI (x : Nat) : rotI (rotI x) = symI x := by
  unfold rotI symI; split <;> split <;> split <;> omega
theorem rotI_symI (x : Nat) : rotI (symI x) = torI x := by
  unfold rotI symI torI; split <;> split <;> split <;> omega
theorem symI_symI (x : Nat) : symI (symI x) = x := by unfold symI; split <;> split <;> omega
theorem rotI_inj {x y : Nat} (h : rotI x = rotI y) : x = y := by
  have := congrArg torI h; simpa [torI_rotI] using this
theorem rotI_lt {x n : Nat} (h : x < 4 * n) : rotI x < 4 * n := by
  have := rotI_div x; omega
theorem symI_lt {x n : Nat} (h : x < 4 * n) : symI x < 4 * n := by
  have := symI_div x; omega
theorem torI_lt {x n : Nat} (h : x < 4 * n) : torI x < 4 * n := by
  have := torI_div x; omega

theorem InUse.rotI {s : EdgeStore} {p : Nat} (h : InUse s p) : InUse s (rotI p) :=
  ⟨rotI_lt h.1, by rw [rotI_div]; exact h.2⟩
theorem InUse.symI {s : EdgeStore} {p : Nat} (h : InUse s p) : InUse s (symI p) :=
  ⟨symI_lt h.1, by rw [symI_div]; exact h.2⟩
theorem InUse.torI {s : EdgeStore} {p : Nat} (h : InUse s p) : InUse s (torI p) :=
  ⟨torI_lt h.1, by rw [torI_div]; exact h.2⟩

/-! ## Reads and writes through pointers -/

theorem rd_eq_some {s : EdgeStore} {p : Ptr} {e : Edge} (h : s.rd p = some e) :
    ∃ i, p = some i ∧ s.pool.chunk0.isSome = true ∧ i < 4 * s.pool.numElementsPerChunk ∧
      e = s.edge i := by
  cases p with
  | none => simp [EdgeStore.rd] at h
  | some i =>
    simp only [EdgeStore.rd] at h
    split at h
    · rename_i hc
      exact ⟨i, rfl, hc.1, hc.2, by simpa using h.symm⟩
    · simp at h

theorem rd_of_lt {s : EdgeStore} {i : Nat} (ha : s.pool.chunk0.isSome = true)
    (hi : i < 4 * s.pool.numElementsPerChunk) : s.rd (some i) = some (s.edge i) := by
  simp [EdgeStore.rd, ha, hi]

theorem wr_eq_some {s s' : EdgeStore} {p : Ptr} {f : Edge → Edge} (h : s.wr p f = some s') :
    ∃ i, p = some i ∧ s.pool.chunk0.isSome = true ∧ i < 4 * s.pool.numElementsPerChunk ∧
      s' = { s with edge := upd s.edge i (f (s.edge i)) } := by
  cases p with
  | none => simp [EdgeStore.wr] at h
  | some i =>
    simp only [EdgeStore.wr] at h
    split at h
    · rename_i hc
      exact ⟨i, rfl, hc.1, hc.2, by simpa using h.symm⟩
    · simp at h

theorem wr_of_lt {s : EdgeStore} {i : Nat} (f : Edge → Edge)
    (ha : s.pool.chunk0.isSome = true) (hi : i < 4 * s.pool.numElementsPerChunk) :
    s.wr (some i) f = some { s with edge := upd s.edge i (f (s.edge i)) } := by
  simp [EdgeStore.wr, ha, hi]

theorem upd_same {α : Type} (f : Nat → α) (i : Nat) (v : α) : upd f i v i = v := by
  simp [upd]

theorem upd_ne {α : Type} (f : Nat → α) {i j : Nat} (v : α) (h : j ≠ i) : upd f i v j = f j := by
  simp [upd, h]

/-! ## The rotations on pointers -/

theorem Rot_eq_some {s : EdgeStore} {p q : Ptr} (h : Rot s p = some q) :
    ∃ i j, p = some i ∧ q = some j ∧ s.pool.chunk0.isSome = true ∧
      i < 4 * s.pool.numElementsPerChunk ∧ j % 2 = (i + 1) % 2 ∧
      ((s.edge i).m_num = i % 4 → j = rotI i) := by
  simp only [Rot, bind, Option.bind] at h
  split at h
  · simp at h
  · rename_i e he
    obtain ⟨i, rfl, ha, hi, rfl⟩ := rd_eq_some he
    simp only [pure] at h
    split at h
    · rename_i hn
      simp at h
      refine ⟨i, i + 1, rfl, h.symm, ha, hi, by omega, ?_⟩
      intro hm; unfold rotI; rw [hm] at hn; simp [hn]
    · rename_i hn
      split at h
      · simp at h
        refine ⟨i, i - 3, rfl, h.symm, ha, hi, by omega, ?_⟩
        intro hm; unfold rotI; rw [hm] at hn; simp [hn]
      · simp at h

theorem Tor_eq_some {s : EdgeStore} {p q : Ptr} (h : Tor s p = some q) :
    ∃ i j, p = some i ∧ q = some j ∧ s.pool.chunk0.isSome = true ∧
      i < 4 * s.pool.numElementsPerChunk ∧ j % 2 = (i + 1) % 2 ∧
      ((s.edge i).m_num = i % 4 → j = torI i) := by
  simp only [Tor, bind, Option.bind] at h
  split at h
  · simp at h
  · rename_i e he
    obtain ⟨i, rfl, ha, hi, rfl⟩ := rd_eq_some he
    simp only [pure] at h
    split at h
    · rename_i hn
      split at h
      · simp at h
        refine ⟨i, i - 1, rfl, h.symm, ha, hi, by omega, ?_⟩
        intro hm; unfold torI; rw [hm] at hn; simp [hn]
      · simp at h
    · rename_i hn
      simp at h
      refine ⟨i, i + 3, rfl, h.symm, ha, hi, by omega, ?_⟩
      intro hm; unfold torI; rw [hm] at hn; simp [hn]

theorem Sym_eq_some {s : EdgeStore} {p q : Ptr} (h : Sym s p = some q) :
    ∃ i j, p = some i ∧ q = some j ∧ s.pool.chunk0.isSome = true ∧
      i < 4 * s.pool.numElementsPerChunk ∧ j % 2 = i % 2 ∧
      ((s.edge i).m_num = i % 4 → j = symI i) := by
  simp only [Sym, bind, Option.bind] at h
  split at h
  · simp at h
  · rename_i e he
    obtain ⟨i, rfl, ha, hi, rfl⟩ := rd_eq_some he
    simp only [pure] at h
    split at h
    · rename_i hn
      simp at h
      refine ⟨i, i + 2, rfl, h.symm, ha, hi, by omega, ?_⟩
      intro hm; unfold symI; rw [hm] at hn; simp [hn]
    · rename_i hn
      split at h
      · simp at h
        refine ⟨i, i - 2, rfl, h.symm, ha, hi, by omega, ?_⟩
        intro hm; unfold symI; rw [hm] at hn; simp [hn]
      · simp at h

theorem Onext_eq_some {s : EdgeStore} {p q : Ptr} (h : Onext s p = some q) :
    ∃ i, p = some i ∧ s.pool.chunk0.isSome = true ∧ i < 4 * s.pool.numElementsPerChunk ∧
      q = (s.edge i).m_next := by
  simp only [Onext, bind, Option.bind] at h
  split at h
  · simp at h
  · rename_i e he
    obtain ⟨i, rfl, ha, hi, rfl⟩ := rd_eq_some he
    simp only [pure] at h
    exact ⟨i, rfl, ha, hi, by simpa using h.symm⟩

theorem Qedge_eq_some {s : EdgeStore} {p : Ptr} {q : Nat} (h : Qedge s p = some q) :
    ∃ i, p = some i ∧ s.pool.chunk0.isSome = true ∧ i < 4 * s.pool.numElementsPerChunk ∧
      ((s.edge i).m_num = i % 4 → q = i / 4) := by
  simp only [Qedge, bind, Option.bind] at h
  split at h
  · simp at h
  · rename_i e he
    obtain ⟨i, rfl, ha, hi, rfl⟩ := rd_eq_some he
    simp only [pure] at h
    split at h
    · rename_i hn
      simp at h
      refine ⟨i, rfl, ha, hi, ?_⟩
      intro hm; rw [hm] at h; omega
    · simp at h

theorem Rot_of_num {s : EdgeStore} {i : Nat} (ha : s.pool.chunk0.isSome = true)
    (hi : i < 4 * s.pool.numElementsPerChunk) (hm : (s.edge i).m_num = i % 4) :
    Rot s (some i) = some (some (rotI i)) := by
  simp only [Rot, bind, Option.bind, rd_of_lt ha hi, hm, pure, rotI]
  split
  · rfl
  · rw [if_pos (by omega)]

theorem Tor_of_num {s : EdgeStore} {i : Nat} (ha : s.pool.chunk0.isSome = true)
    (hi : i < 4 * s.pool.numElementsPerChunk) (hm : (s.edge i).m_num = i % 4) :
    Tor s (some i) = some (some (torI i)) := by
  simp only [Tor, bind, Option.bind, rd_of_lt ha hi, hm, pure, torI]
  split
  · rw [if_pos (by omega)]
  · rfl

theorem Sym_of_num {s : EdgeStore} {i : Nat} (ha : s.pool.chunk0.isSome = true)
    (hi : i < 4 * s.pool.numElementsPerChunk) (hm : (s.edge i).m_num = i % 4) :
    Sym s (some i) = some (some (symI i)) := by
  simp only [Sym, bind, Option.bind, rd_of_lt ha hi, hm, pure, symI]
  split
  · rfl
  · rw [if_pos (by omega)]

theorem Onext_of_lt {s : EdgeStore} {i : Nat} (ha : s.pool.chunk0.isSome = true)
    (hi : i < 4 * s.pool.numElementsPerChunk) :
    Onext s (some i) = some (s.edge i).m_next := by
  simp only [Onext, bind, Option.bind, rd_of_lt ha hi, pure]

theorem Qedge_of_num {s : EdgeStore} {i : Nat} (ha : s.pool.chunk0.isSome = true)
    (hi : i < 4 * s.pool.numElementsPerChunk) (hm : (s.edge i).m_num = i % 4) :
    Qedge s (some i) = some (i / 4) := by
  simp only [Qedge, bind, Option.bind, rd_of_lt ha hi, hm, pure]
  rw [if_pos (by omega)]
  congr 1; omega

theorem Onext_Set_of_lt {s : EdgeStore} {i : Nat} (v : Ptr)
    (ha : s.pool.chunk0.isSome = true) (hi : i < 4 * s.pool.numElementsPerChunk) :
    Onext_Set s (some i) v
      = some { s with edge := upd s.edge i { s.edge i with m_next := v } } := by
  simp only [Onext_Set, wr_of_lt _ ha hi]

/-! ## Consequences of well-formedness -/

theorem WF.alive {s : EdgeStore} {st : List Nat} (hc : s.pool.chunk0 = some st) :
    s.pool.chunk0.isSome = true := by simp [hc]

theorem WF.inUse_of_next {s : EdgeStore} {st : List Nat} (hw : WF s st) {i : Nat}
    (hi : i < 4 * s.pool.numElementsPerChunk) (hn : (s.edge i).m_next ≠ none) : InUse s i := by
  refine ⟨hi, ?_⟩
  cases hf : IsFree (s.attr (i / 4)) with
  | false => rfl
  | true => exact absurd (hw.free_next i hi hf) hn

theorem WF.Onext_inUse {s : EdgeStore} {st : List Nat} (hc : s.pool.chunk0 = some st)
    (hw : WF s st) {i : Nat} (hi : InUse s i) :
    Onext s (some i) = some (some (nxt s i)) := by
  rw [Onext_of_lt (WF.alive hc) hi.1, (hw.next i hi).1]

theorem WF.Rot_inUse {s : EdgeStore} {st : List Nat} (hc : s.pool.chunk0 = some st)
    (hw : WF s st) {i : Nat} (hi : InUse s i) : Rot s (some i) = some (some (rotI i)) :=
  Rot_of_num (WF.alive hc) hi.1 (hw.num i hi)

theorem WF.Tor_inUse {s : EdgeStore} {st : List Nat} (hc : s.pool.chunk0 = some st)
    (hw : WF s st) {i : Nat} (hi : InUse s i) : Tor s (some i) = some (some (torI i)) :=
  Tor_of_num (WF.alive hc) hi.1 (hw.num i hi)

theorem WF.Sym_inUse {s : EdgeStore} {st : List Nat} (hc : s.pool.chunk0 = some st)
    (hw : WF s st) {i : Nat} (hi : InUse s i) : Sym s (some i) = some (some (symI i)) :=
  Sym_of_num (WF.alive hc) hi.1 (hw.num i hi)

/-- `Oprev` inverts `Onext` on in-use records. -/
theorem WF.nxt_oprev {s : EdgeStore} {st : List Nat} (hw : WF s st) {i : Nat}
    (hi : InUse s i) : nxt s (rotI (nxt s (rotI i))) = i := by
  have h := hw.e8 (rotI i) hi.rotI
  exact rotI_inj h

theorem WF.nxt_rot_of_fix {s : EdgeStore} {st : List Nat} (hw : WF s st) {i : Nat}
    (hi : InUse s i) (hfix : nxt s i = i) : nxt s (rotI i) = torI i := by
  have h := hw.e8 i hi
  rw [hfix] at h
  have := congrArg torI h
  rwa [torI_rotI] at this

/-! ## Splice -/

theorem spliceSwap_invol {a b al be : Nat} (h1 : al ≠ a) (h2 : al ≠ b) (h3 : be ≠ a)
    (h4 : be ≠ b) (p : Nat) : spliceSwap a b al be (spliceSwap a b al be p) = p := by
  unfold spliceSwap
  by_cases ha : p = a
  · subst ha; by_cases hab : b = p
    · simp [hab]
    · simp [hab]
  · by_cases hb : p = b
    · subst hb; simp [ha]
    · by_cases hal : p = al
      · subst hal
        by_cases hbe : be = p
        · simp [ha, hb, hbe]
        · simp [ha, hb, hbe, h3, h4]
      · by_cases hbe : p = be
        · subst hbe; simp [ha, hb, hal, h1, h2]
        · simp [ha, hb, hal, hbe]

theorem Splice_spec {s : EdgeStore} {st : List Nat} (hc : s.pool.chunk0 = some st)
    (hw : WF s st) {pa pb : Nat} (ha : InUse s pa) (hb : InUse s pb)
    (hpar : pa % 2 = pb % 2) :
    ∃ s', Splice s (some pa) (some pb) = some s' ∧ s'.pool = s.pool ∧ s'.attr = s.attr ∧
      ∀ p, (s'.edge p).m_num = (s.edge p).m_num ∧ (s'.edge p).m_data0 = (s.edge p).m_data0 ∧
        (s'.edge p).m_data1 = (s.edge p).m_data1 ∧
        (s'.edge p).m_next
          = (s.edge (spliceSwap pa pb (rotI (nxt s pa)) (rotI (nxt s pb)) p)).m_next := by
  have hal := WF.alive hc
  obtain ⟨hna, hxa, hpa⟩ := hw.next pa ha
  obtain ⟨hnb, hxb, hpb⟩ := hw.next pb hb
  have hra := rotI_mod2 (nxt s pa)
  have hrb := rotI_mod2 (nxt s pb)
  have hala : rotI (nxt s pa) ≠ pa := by omega
  have halb : rotI (nxt s pa) ≠ pb := by omega
  have hbea : rotI (nxt s pb) ≠ pa := by omega
  have hbeb : rotI (nxt s pb) ≠ pb := by omega
  have hial := hxa.rotI
  have hibe := hxb.rotI
  obtain ⟨s1, hs1⟩ : ∃ s1 : EdgeStore, s1 =
      { s with edge := upd s.edge pa { s.edge pa with m_next := some (nxt s pb) } } := ⟨_, rfl⟩
  obtain ⟨s2, hs2⟩ : ∃ s2 : EdgeStore, s2 =
      { s1 with edge := upd s1.edge pb { s1.edge pb with m_next := some (nxt s pa) } } :=
    ⟨_, rfl⟩
  obtain ⟨s3, hs3⟩ : ∃ s3 : EdgeStore, s3 =
      { s2 with edge := upd s2.edge (rotI (nxt s pa)) { s2.edge (rotI (nxt s pa)) with m_next := (s2.edge (rotI (nxt s pb))).m_next } } :=
    ⟨_, rfl⟩
  obtain ⟨s4, hs4⟩ : ∃ s4 : EdgeStore, s4 =
      { s3 with edge := upd s3.edge (rotI (nxt s pb)) { s3.edge (rotI (nxt s pb)) with m_next := (s2.edge (rotI (nxt s pa))).m_next } } :=
    ⟨_, rfl⟩
  have hp1 : s1.pool = s.pool := by rw [hs1]
  have hp2 : s2.pool = s.pool := by rw [hs2]; exact hp1
  have hp3 : s3.pool = s.pool := by rw [hs3]; exact hp2
  have h1 : Onext_Set s (some pa) (some (nxt s pb)) = some s1 := by
    rw [hs1]; exact Onext_Set_of_lt _ hal ha.1
  have h2 : Onext_Set s1 (some pb) (some (nxt s pa)) = some s2 := by
    rw [hs2]; exact Onext_Set_of_lt _ (by rw [hp1]; exact hal) (by rw [hp1]; exact hb.1)
  have h3 : Onext s2 (some (rotI (nxt s pa))) = some (s2.edge (rotI (nxt s pa))).m_next :=
    Onext_of_lt (by rw [hp2]; exact hal) (by rw [hp2]; exact hial.1)
  have h4 : Onext s2 (some (rotI (nxt s pb))) = some (s2.edge (rotI (nxt s pb))).m_next :=
    Onext_of_lt (by rw [hp2]; exact hal) (by rw [hp2]; exact hibe.1)
  have h5 : Onext_Set s2 (some (rotI (nxt s pa))) (s2.edge (rotI (nxt s pb))).m_next
      = some s3 := by
    rw [hs3]; exact Onext_Set_of_lt _ (by rw [hp2]; exact hal) (by rw [hp2]; exact hial.1)
  have h6 : Onext_Set s3 (some (rotI (nxt s pb))) (s2.edge (rotI (nxt s pa))).m_next
      = some s4 := by
    rw [hs4]; exact Onext_Set_of_lt _ (by rw [hp3]; exact hal) (by rw [hp3]; exact hibe.1)
  refine ⟨s4, ?_, ?_, ?_, ?_⟩
  · simp only [Splice, WF.Onext_inUse hc hw ha, WF.Onext_inUse hc hw hb, Option.bind_eq_bind,
      Option.some_bind, WF.Rot_inUse hc hw hxa, WF.Rot_inUse hc hw hxb, h1, h2, h3, h4, h5, h6,
      Option.pure_def]
  · rw [hs4]; exact hp3
  · rw [hs4, hs3, hs2, hs1]
  · intro p
    subst hs4 hs3 hs2 hs1
    simp only [upd, spliceSwap]
    by_cases c1 : p = rotI (nxt s pb)
    · by_cases c2 : nxt s pb = nxt s pa
      · simp [c1, c2, hala, halb, hna]
      · have c3 : rotI (nxt s pb) ≠ rotI (nxt s pa) := fun h => c2 (rotI_inj h)
        simp [c1, c3, hala, halb, hbea, hbeb]
    · by_cases c2 : p = rotI (nxt s pa)
      · have c3 : rotI (nxt s pa) ≠ rotI (nxt s pb) := fun h => c1 (c2.trans h)
        simp [c2, c3, hala, halb, hbea, hbeb]
      · by_cases c3 : p = pb
        · by_cases c4 : pb = pa
          · simp [c3, c4, hna, hala, Ne.symm hala]
          · simp [c3, c4, hna, Ne.symm hbeb, Ne.symm halb]
        · by_cases c4 : p = pa
          · have c5 : pa ≠ pb := fun h => c3 (c4.trans h)
            simp [c4, c5, hnb, Ne.symm hbea, Ne.symm hala]
          · simp [c1, c2, c3, c4]

theorem spliceSwap_a (a b al be : Nat) : spliceSwap a b al be a = b := by simp [spliceSwap]

theorem spliceSwap_b (a b al be : Nat) : spliceSwap a b al be b = a := by
  unfold spliceSwap; by_cases h : b = a <;> simp [h]

theorem spliceSwap_al {a b al be : Nat} (h1 : al ≠ a) (h2 : al ≠ b) :
    spliceSwap a b al be al = be := by simp [spliceSwap, h1, h2]

theorem spliceSwap_be {a b al be : Nat} (h3 : be ≠ a) (h4 : be ≠ b) :
    spliceSwap a b al be be = al := by
  unfold spliceSwap; by_cases h : be = al
  · subst h; simp [h3, h4]
  · simp [h, h3, h4]

theorem spliceSwap_other {a b al be p : Nat} (h1 : p ≠ a) (h2 : p ≠ b) (h3 : p ≠ al)
    (h4 : p ≠ be) : spliceSwap a b al be p = p := by simp [spliceSwap, h1, h2, h3, h4]

theorem spliceSwap_cases (a b al be p : Nat) :
    (p = a ∧ spliceSwap a b al be p = b) ∨ (p = b ∧ spliceSwap a b al be p = a) ∨
    (p = al ∧ spliceSwap a b al be p = be ∧ p ≠ a ∧ p ≠ b) ∨
    (p = be ∧ spliceSwap a b al be p = al ∧ p ≠ a ∧ p ≠ b) ∨
    (p ≠ a ∧ p ≠ b ∧ p ≠ al ∧ p ≠ be ∧ spliceSwap a b al be p = p) := by
  by_cases h1 : p = a
  · left; exact ⟨h1, by rw [h1]; exact spliceSwap_a _ _ _ _⟩
  · by_cases h2 : p = b
    · right; left; exact ⟨h2, by rw [h2]; exact spliceSwap_b _ _ _ _⟩
    · by_cases h3 : p = al
      · right; right; left
        exact ⟨h3, by rw [h3]; exact spliceSwap_al (h3 ▸ h1) (h3 ▸ h2), h1, h2⟩
      · by_cases h4 : p = be
        · right; right; right; left
          exact ⟨h4, by rw [h4]; exact spliceSwap_be (h4 ▸ h1) (h4 ▸ h2), h1, h2⟩
        · right; right; right; right
          exact ⟨h1, h2, h3, h4, spliceSwap_other h1 h2 h3 h4⟩

theorem InUse.congr {s s' : EdgeStore} (hp : s'.pool = s.pool) (hat : s'.attr = s.attr)
    (p : Nat) : InUse s' p ↔ InUse s p := by
  unfold InUse; rw [hp, hat]

/-- `Splice` on two in-use records of equal parity keeps the store well-formed and re-routes
`Onext` through `spliceSwap`. -/
theorem Splice_WF {s s' : EdgeStore} {st : List Nat} (hc : s.pool.chunk0 = some st)
    (hw : WF s st) {pa pb : Nat} (ha : InUse s pa) (hb : InUse s pb)
    (hpar : pa % 2 = pb % 2) (hS : Splice s (some pa) (some pb) = some s') :
    WF s' st ∧ s'.pool = s.pool ∧ s'.attr = s.attr ∧
      ∀ p, nxt s' p = nxt s (spliceSwap pa pb (rotI (nxt s pa)) (rotI (nxt s pb)) p) := by
  obtain ⟨s'', hS', hpool, hattr, hrec⟩ := Splice_spec hc hw ha hb hpar
  rw [hS] at hS'
  obtain rfl : s' = s'' := by simpa using hS'
  obtain ⟨hna, hxa, hpa⟩ := hw.next pa ha
  obtain ⟨hnb, hxb, hpb⟩ := hw.next pb hb
  have hra := rotI_mod2 (nxt s pa)
  have hrb := rotI_mod2 (nxt s pb)
  have hala : rotI (nxt s pa) ≠ pa := by omega
  have halb : rotI (nxt s pa) ≠ pb := by omega
  have hbea : rotI (nxt s pb) ≠ pa := by omega
  have hbeb : rotI (nxt s pb) ≠ pb := by omega
  have hial := hxa.rotI
  have hibe := hxb.rotI
  have hiu : ∀ p, InUse s' p ↔ InUse s p := InUse.congr hpool hattr
  have hnx : ∀ p, nxt s' p = nxt s (spliceSwap pa pb (rotI (nxt s pa)) (rotI (nxt s pb)) p) := by
    intro p
    show ((s'.edge p).m_next).getD 0 = _
    rw [(hrec p).2.2.2]; rfl
  -- the swap keeps in-use records and parity
  have hsw : ∀ p, InUse s p →
      InUse s (spliceSwap pa pb (rotI (nxt s pa)) (rotI (nxt s pb)) p) ∧
      spliceSwap pa pb (rotI (nxt s pa)) (rotI (nxt s pb)) p % 2 = p % 2 := by
    intro p hp
    rcases spliceSwap_cases pa pb (rotI (nxt s pa)) (rotI (nxt s pb)) p with
      ⟨h, e⟩ | ⟨h, e⟩ | ⟨h, e, _, _⟩ | ⟨h, e, _, _⟩ | ⟨_, _, _, _, e⟩
    · rw [e]; exact ⟨hb, by omega⟩
    · rw [e]; exact ⟨ha, by omega⟩
    · rw [e]; exact ⟨hibe, by omega⟩
    · rw [e]; exact ⟨hial, by omega⟩
    · rw [e]; exact ⟨hp, rfl⟩
  have hfix : ∀ p, ¬ InUse s p → spliceSwap pa pb (rotI (nxt s pa)) (rotI (nxt s pb)) p = p := by
    intro p hp
    apply spliceSwap_other
    · rintro rfl; exact hp ha
    · rintro rfl; exact hp hb
    · rintro rfl; exact hp hial
    · rintro rfl; exact hp hibe
  -- the swap commutes with `Onext().Rot()`
  have hcomm : ∀ q, InUse s q →
      spliceSwap pa pb (rotI (nxt s pa)) (rotI (nxt s pb)) (rotI (nxt s q))
        = rotI (nxt s (spliceSwap pa pb (rotI (nxt s pa)) (rotI (nxt s pb)) q)) := by
    intro q hq
    have e8a := hw.e8 pa ha
    have e8b := hw.e8 pb hb
    have e8q := hw.e8 q hq
    rcases spliceSwap_cases pa pb (rotI (nxt s pa)) (rotI (nxt s pb)) q with
      ⟨h, e⟩ | ⟨h, e⟩ | ⟨h, e, _, _⟩ | ⟨h, e, _, _⟩ | ⟨h1, h2, h3, h4, e⟩
    · rw [e, h, spliceSwap_al hala halb]
    · rw [e, h, spliceSwap_be hbea hbeb]
    · rw [e, h, e8a, e8b, spliceSwap_a]
    · rw [e, h, e8b, e8a, spliceSwap_b]
    · rw [e]
      apply spliceSwap_other
      · intro h; rw [h] at e8q; exact h3 e8q.symm
      · intro h; rw [h] at e8q; exact h4 e8q.symm
      · intro h; have := rotI_inj h
        exact h1 (hw.inj q pa hq ha this)
      · intro h; have := rotI_inj h
        exact h2 (hw.inj q pb hq hb this)
  refine ⟨⟨hw.nodup, ?_, ?_, ?_, ?_, ?_, ?_⟩, hpool, hattr, hnx⟩
  · intro q; rw [hpool, hattr]; exact hw.mem_free q
  · intro p hp hf
    rw [hpool] at hp; rw [hattr] at hf
    have hnu : ¬ InUse s p := fun h => by rw [h.2] at hf; exact Bool.noConfusion hf
    rw [(hrec p).2.2.2, hfix p hnu]
    exact hw.free_next p hp hf
  · intro p hp
    rw [(hrec p).1]; exact hw.num p ((hiu p).1 hp)
  · intro p hp
    have hp' := (hiu p).1 hp
    obtain ⟨h1, h2⟩ := hsw p hp'
    obtain ⟨g1, g2, g3⟩ := hw.next _ h1
    refine ⟨?_, ?_, ?_⟩
    · rw [(hrec p).2.2.2, hnx p]; exact g1
    · rw [hnx p]; exact (hiu _).2 g2
    · rw [hnx p]; omega
  · intro p q hp hq h
    rw [hnx p, hnx q] at h
    have := hw.inj _ _ (hsw p ((hiu p).1 hp)).1 (hsw q ((hiu q).1 hq)).1 h
    have h2 := congrArg (spliceSwap pa pb (rotI (nxt s pa)) (rotI (nxt s pb))) this
    rwa [spliceSwap_invol hala halb hbea hbeb, spliceSwap_invol hala halb hbea hbeb] at h2
  · intro p hp
    have hp' := (hiu p).1 hp
    rw [hnx p, hnx (rotI _)]
    rw [hcomm _ (hsw p hp').1, spliceSwap_invol hala halb hbea hbeb]
    exact hw.e8 p hp'

theorem Inv.wf {s : EdgeStore} (hI : Inv s) {st : List Nat} (hc : s.pool.chunk0 = some st) :
    WF s st := hI st hc

theorem alive_some {s : EdgeStore} (h : s.pool.chunk0.isSome = true) :
    ∃ st, s.pool.chunk0 = some st := Option.isSome_iff_exists.1 h

theorem not_inUse_iff {s : EdgeStore} {p : Nat} (hp : p < 4 * s.pool.numElementsPerChunk) :
    ¬ InUse s p ↔ IsFree (s.attr (p / 4)) = true := by
  unfold InUse
  cases IsFree (s.attr (p / 4)) <;> simp [hp]

/-- A successful `Splice` on primal pointers acts on two in-use records and keeps the
invariant. -/
theorem Splice_inv {s s' : EdgeStore} (hI : Inv s) {a b : Ptr} (ha : EvenPtr a)
    (hb : EvenPtr b) (hS : Splice s a b = some s') :
    Inv s' ∧ s'.pool = s.pool ∧ s'.attr = s.attr := by
  have hS0 := hS
  simp only [Splice, Option.bind_eq_bind, Option.bind_eq_some] at hS
  obtain ⟨xa, hxa, alpha, hal, xb, hxb, beta, hbe, _⟩ := hS
  obtain ⟨pa, rfl, halive, hpa, rfl⟩ := Onext_eq_some hxa
  obtain ⟨pb, rfl, _, hpb, rfl⟩ := Onext_eq_some hxb
  obtain ⟨st, hc⟩ := alive_some halive
  have hw := hI st hc
  have hua : InUse s pa := by
    apply hw.inUse_of_next hpa
    intro h; rw [h] at hal; simp [Rot, EdgeStore.rd] at hal
  have hub : InUse s pb := by
    apply hw.inUse_of_next hpb
    intro h; rw [h] at hbe; simp [Rot, EdgeStore.rd] at hbe
  have hpar : pa % 2 = pb % 2 := by rw [ha pa rfl, hb pb rfl]
  obtain ⟨h1, h2, h3, _⟩ := Splice_WF hc hw hua hub hpar hS0
  refine ⟨?_, h2, h3⟩
  intro st' hc'
  rw [h2, hc] at hc'
  obtain rfl : st = st' := by simpa using hc'
  exact h1

/-! ## MakeEdge -/

theorem IsFree_SetInUse_zero : IsFree (SetInUse 0) = false := by decide

theorem IsFree_zero : IsFree 0 = true := by decide

/-- The store after `MakeEdge` has taken slot `a` from the free stack `a :: rest`. -/
theorem WF_pop {s0 s' : EdgeStore} {a : Nat} {rest : List Nat}
    (hw : WF s0 (a :: rest))
    (hpool : s'.pool.numElementsPerChunk = s0.pool.numElementsPerChunk)
    (hattr : s'.attr = upd s0.attr a (SetInUse 0))
    (hedge : s'.edge = upd (upd (upd (upd s0.edge
      (4 * a) ⟨0, some (4 * a), none, none⟩)
      (4 * a + 1) ⟨1, some (4 * a + 3), none, none⟩)
      (4 * a + 2) ⟨2, some (4 * a + 2), none, none⟩)
      (4 * a + 3) ⟨3, some (4 * a + 1), none, none⟩) :
    WF s' rest ∧ InUse s' (4 * a) := by
  have hmem := (hw.mem_free a).1 (List.mem_cons_self a rest)
  have haN : a < s0.pool.numElementsPerChunk := hmem.1
  have hnd : a ∉ rest ∧ rest.Nodup := List.nodup_cons.1 hw.nodup
  have hfree : ∀ q, IsFree (s'.attr q) = if q = a then false else IsFree (s0.attr q) := by
    intro q; rw [hattr]; unfold upd
    split
    · exact IsFree_SetInUse_zero
    · rfl
  have hother : ∀ p, p / 4 ≠ a → s'.edge p = s0.edge p := by
    intro p hp; rw [hedge]; unfold upd
    rw [if_neg (by omega), if_neg (by omega), if_neg (by omega), if_neg (by omega)]
  have h0 : s'.edge (4 * a) = ⟨0, some (4 * a), none, none⟩ := by
    rw [hedge]; unfold upd
    rw [if_neg (by omega), if_neg (by omega), if_neg (by omega), if_pos rfl]
  have h1 : s'.edge (4 * a + 1) = ⟨1, some (4 * a + 3), none, none⟩ := by
    rw [hedge]; unfold upd
    rw [if_neg (by omega), if_neg (by omega), if_pos rfl]
  have h2 : s'.edge (4 * a + 2) = ⟨2, some (4 * a + 2), none, none⟩ := by
    rw [hedge]; unfold upd
    rw [if_neg (by omega), if_pos rfl]
  have h3 : s'.edge (4 * a + 3) = ⟨3, some (4 * a + 1), none, none⟩ := by
    rw [hedge]; unfold upd
    rw [if_pos rfl]
  have hiu : ∀ p, InUse s' p ↔ (p / 4 = a ∨ InUse s0 p) := by
    intro p; unfold InUse; rw [hpool, hfree]
    by_cases hp : p / 4 = a
    · simp only [hp, if_true, true_or, iff_true, and_true]; omega
    · simp [hp]
  have hold : ∀ p, InUse s0 p → p / 4 ≠ a := by
    intro p hp h
    have h2 := hp.2
    rw [h, hmem.2] at h2; exact Bool.noConfusion h2
  have hnold : ∀ p, InUse s0 p → nxt s' p = nxt s0 p := by
    intro p hp; unfold nxt; rw [hother p (hold p hp)]
  have n0 : nxt s' (4 * a) = 4 * a := by unfold nxt; rw [h0]; rfl
  have n1 : nxt s' (4 * a + 1) = 4 * a + 3 := by unfold nxt; rw [h1]; rfl
  have n2 : nxt s' (4 * a + 2) = 4 * a + 2 := by unfold nxt; rw [h2]; rfl
  have n3 : nxt s' (4 * a + 3) = 4 * a + 1 := by unfold nxt; rw [h3]; rfl
  have r0 : rotI (4 * a) = 4 * a + 1 := by unfold rotI; rw [if_pos (by omega)]
  have r1 : rotI (4 * a + 1) = 4 * a + 2 := by unfold rotI; rw [if_pos (by omega)]
  have r2 : rotI (4 * a + 2) = 4 * a + 3 := by unfold rotI; rw [if_pos (by omega)]
  have r3 : rotI (4 * a + 3) = 4 * a := by unfold rotI; rw [if_neg (by omega)]; omega
  have hbundle : ∀ p, p / 4 = a → p = 4 * a ∨ p = 4 * a + 1 ∨ p = 4 * a + 2 ∨ p = 4 * a + 3 := by
    intro p hp; omega
  have hnb : ∀ p, p / 4 = a → nxt s' p / 4 = a := by
    intro p hp
    rcases hbundle p hp with h | h | h | h <;> rw [h] <;> simp only [n0, n1, n2, n3] <;> omega
  refine ⟨⟨hnd.2, ?_, ?_, ?_, ?_, ?_, ?_⟩, (hiu _).2 (Or.inl (by omega))⟩
  · intro q; rw [hpool, hfree]
    by_cases hq : q = a
    · subst hq; simp [hnd.1]
    · have := hw.mem_free q
      simp only [List.mem_cons, hq, false_or] at this
      simp [hq, this]
  · intro p hp hf
    rw [hfree] at hf
    have hpa : p / 4 ≠ a := by intro h; rw [if_pos h] at hf; exact Bool.noConfusion hf
    rw [if_neg hpa] at hf
    rw [hother p hpa]
    exact hw.free_next p (by rw [← hpool]; exact hp) hf
  · intro p hp
    rcases (hiu p).1 hp with h | h
    · rcases hbundle p h with h | h | h | h <;> rw [h] <;> simp only [h0, h1, h2, h3] <;> omega
    · rw [hother p (hold p h)]; exact hw.num p h
  · intro p hp
    rcases (hiu p).1 hp with h | h
    · have hx := hnb p h
      refine ⟨?_, (hiu _).2 (Or.inl hx), ?_⟩
      · rcases hbundle p h with h | h | h | h <;> rw [h] <;>
          simp only [h0, h1, h2, h3, n0, n1, n2, n3]
      · rcases hbundle p h with h | h | h | h <;> rw [h] <;>
          simp only [n0, n1, n2, n3] <;> omega
    · obtain ⟨g1, g2, g3⟩ := hw.next p h
      refine ⟨?_, ?_, ?_⟩
      · rw [hother p (hold p h), hnold p h]; exact g1
      · rw [hnold p h]; exact (hiu _).2 (Or.inr g2)
      · rw [hnold p h]; exact g3
  · intro p q hp hq hpq
    rcases (hiu p).1 hp with h | h <;> rcases (hiu q).1 hq with h' | h'
    · rcases hbundle p h with h | h | h | h <;> rcases hbundle q h' with h' | h' | h' | h' <;>
        rw [h, h'] at hpq ⊢ <;> simp only [n0, n1, n2, n3] at hpq <;> omega
    · have := hnb p h
      rw [hpq, hnold q h'] at this
      exact absurd this (hold _ (hw.next q h').2.1)
    · have := hnb q h'
      rw [← hpq, hnold p h] at this
      exact absurd this (hold _ (hw.next p h).2.1)
    · rw [hnold p h, hnold q h'] at hpq
      exact hw.inj p q h h' hpq
  · intro p hp
    rcases (hiu p).1 hp with h | h
    · rcases hbundle p h with h | h | h | h <;> rw [h] <;>
        simp only [n0, n1, n2, n3, r0, r1, r2, r3]
    · have g := hw.next p h
      rw [hnold p h, hnold _ g.2.1.rotI]
      exact hw.e8 p h

theorem WF_fresh (s0 : EdgeStore) (hedge : s0.edge = fun _ => Edge.zero)
    (hattr : s0.attr = fun _ => 0) :
    WF s0 (List.range s0.pool.numElementsPerChunk).reverse := by
  have hnu : ∀ p, ¬ InUse s0 p := by
    intro p hp
    have := hp.2
    rw [hattr] at this
    exact Bool.noConfusion (IsFree_zero.symm.trans this)
  refine ⟨List.nodup_reverse.2 (List.nodup_range _), ?_, ?_, ?_, ?_, ?_, ?_⟩
  · intro q; rw [hattr]; simp [IsFree_zero]
  · intro p _ _; rw [hedge]; rfl
  · intro p hp; exact absurd hp (hnu p)
  · intro p hp; exact absurd hp (hnu p)
  · intro p q hp; exact absurd hp (hnu p)
  · intro p hp; exact absurd hp (hnu p)

/-- `MakeEdge` keeps the invariant and returns a primal pointer to an in-use record. -/
theorem MakeEdge_inv {s s' : EdgeStore} {e : Ptr} (hI : Inv s)
    (h : MakeEdge s = some (e, s')) :
    Inv s' ∧ EvenPtr e ∧ s'.pool.numElementsPerChunk = s.pool.numElementsPerChunk := by
  unfold MakeEdge at h
  cases hcu : s.pool.chunkToUse.isNone with
  | false =>
    cases hc0 : s.pool.chunk0 with
    | none => simp [MemoryPool.NewObject, hcu, hc0] at h
    | some st =>
      cases st with
      | nil => simp [MemoryPool.NewObject, hcu, hc0] at h
      | cons a rest =>
        simp only [MemoryPool.NewObject, hcu, hc0, Bool.false_eq_true, if_false,
          Option.some.injEq, Prod.mk.injEq] at h
        obtain ⟨rfl, rfl⟩ := h
        have hw := hI _ hc0
        have := @WF_pop _ ⟨{ s.pool with chunk0 := some rest }, _, _⟩ _ _ hw rfl rfl rfl
        refine ⟨?_, ?_, rfl⟩
        · intro st' hst'
          obtain rfl : rest = st' := by simpa using hst'
          exact this.1
        · intro i hi
          obtain rfl : 4 * a = i := by simpa using hi
          omega
  | true =>
    cases hl : (List.range s.pool.numElementsPerChunk).reverse with
    | nil => simp [MemoryPool.NewObject, MemoryPool.CreateChunk, hcu, hl] at h
    | cons a rest =>
      simp only [MemoryPool.NewObject, MemoryPool.CreateChunk, hcu, hl, if_true,
        Option.some.injEq, Prod.mk.injEq] at h
      obtain ⟨rfl, rfl⟩ := h
      have hw := WF_fresh ⟨{ s.pool with chunk0 := some (a :: rest), chunkToUse := some 0 },
        fun _ => Edge.zero, fun _ => 0⟩ rfl rfl
      simp only [hl] at hw
      have := @WF_pop _ ⟨{ s.pool with chunk0 := some rest, chunkToUse := some 0 }, _, _⟩ _ _
        hw rfl rfl rfl
      refine ⟨?_, ?_, rfl⟩
      · intro st' hst'
        obtain rfl : rest = st' := by simpa using hst'
        exact this.1
      · intro i hi
        obtain rfl : 4 * a = i := by simpa using hi
        omega

/-! ## Writes that leave `m_num` and `m_next` alone -/

theorem WF_congr {s s' : EdgeStore} {st : List Nat} (hw : WF s st) (hp : s'.pool = s.pool)
    (hat : s'.attr = s.attr)
    (he : ∀ p, (s'.edge p).m_num = (s.edge p).m_num ∧ (s'.edge p).m_next = (s.edge p).m_next) :
    WF s' st := by
  have hiu : ∀ p, InUse s' p ↔ InUse s p := InUse.congr hp hat
  have hnx : ∀ p, nxt s' p = nxt s p := by intro p; unfold nxt; rw [(he p).2]
  refine ⟨hw.nodup, ?_, ?_, ?_, ?_, ?_, ?_⟩
  · intro q; rw [hp, hat]; exact hw.mem_free q
  · intro p h1 h2; rw [(he p).2]; rw [hp] at h1; rw [hat] at h2; exact hw.free_next p h1 h2
  · intro p h; rw [(he p).1]; exact hw.num p ((hiu p).1 h)
  · intro p h
    obtain ⟨g1, g2, g3⟩ := hw.next p ((hiu p).1 h)
    exact ⟨by rw [(he p).2, hnx]; exact g1, by rw [hnx]; exact (hiu _).2 g2, by rw [hnx]; exact g3⟩
  · intro p q h1 h2 h3; rw [hnx, hnx] at h3; exact hw.inj p q ((hiu p).1 h1) ((hiu q).1 h2) h3
  · intro p h; rw [hnx, hnx]; exact hw.e8 p ((hiu p).1 h)

theorem wr_inv {s s' : EdgeStore} {p : Ptr} {f : Edge → Edge} (hI : Inv s)
    (hf : ∀ r, (f r).m_num = r.m_num ∧ (f r).m_next = r.m_next) (h : s.wr p f = some s') :
    Inv s' ∧ s'.pool = s.pool ∧ s'.attr = s.attr := by
  obtain ⟨i, rfl, _, _, rfl⟩ := wr_eq_some h
  refine ⟨?_, rfl, rfl⟩
  intro st hc
  refine WF_congr (hI st hc) rfl rfl ?_
  intro p
  show (upd s.edge i (f (s.edge i)) p).m_num = _ ∧ (upd s.edge i (f (s.edge i)) p).m_next = _
  unfold upd
  split
  · rename_i h; subst h; exact hf _
  · exact ⟨rfl, rfl⟩

theorem Org_Set_inv {s s' : EdgeStore} {p site : Ptr} (hI : Inv s)
    (h : Org_Set s p site = some s') : Inv s' ∧ s'.pool = s.pool ∧ s'.attr = s.attr := by
  have h' : s.wr p (fun r => { r with m_data0 := site }) = some s' := h
  refine wr_inv hI ?_ h'
  intro r; exact ⟨rfl, rfl⟩

theorem VOrg_Set_inv {s s' : EdgeStore} {p vs : Ptr} (hI : Inv s)
    (h : VOrg_Set s p vs = some s') : Inv s' ∧ s'.pool = s.pool ∧ s'.attr = s.attr := by
  have h' : s.wr p (fun r => { r with m_data1 := vs }) = some s' := h
  refine wr_inv hI ?_ h'
  intro r; exact ⟨rfl, rfl⟩

theorem Dest_Set_inv {s s' : EdgeStore} {p site : Ptr} (hI : Inv s)
    (h : Dest_Set s p site = some s') : Inv s' ∧ s'.pool = s.pool ∧ s'.attr = s.attr := by
  simp only [Dest_Set, Option.bind_eq_bind, Option.bind_eq_some] at h
  obtain ⟨q, _, h⟩ := h
  exact Org_Set_inv hI h

theorem VDest_Set_inv {s s' : EdgeStore} {p vs : Ptr} (hI : Inv s)
    (h : VDest_Set s p vs = some s') : Inv s' ∧ s'.pool = s.pool ∧ s'.attr = s.attr := by
  simp only [VDest_Set, Option.bind_eq_bind, Option.bind_eq_some] at h
  obtain ⟨q, _, h⟩ := h
  exact VOrg_Set_inv hI h

/-! ## Parity of the pointers produced by the edge algebra -/

theorem Sym_even {s : EdgeStore} {p q : Ptr} (h : Sym s p = some q) (hp : EvenPtr p) :
    EvenPtr q := by
  obtain ⟨i, j, rfl, rfl, _, _, hj, _⟩ := Sym_eq_some h
  intro k hk
  obtain rfl : j = k := by simpa using hk
  rw [hj]; exact hp i rfl

theorem Onext_par {s : EdgeStore} (hI : Inv s) {p q : Ptr} (h : Onext s p = some q) (k : Nat)
    (hp : ∀ i, p = some i → i % 2 = k) : ∀ j, q = some j → j % 2 = k := by
  obtain ⟨i, rfl, ha, hi, rfl⟩ := Onext_eq_some h
  intro j hj
  obtain ⟨st, hc⟩ := alive_some ha
  have hw := hI st hc
  have hu : InUse s i := hw.inUse_of_next hi (by rw [hj]; simp)
  obtain ⟨g1, _, g3⟩ := hw.next i hu
  rw [g1] at hj
  obtain rfl : nxt s i = j := by simpa using hj
  rw [g3]; exact hp i rfl

theorem Onext_even {s : EdgeStore} (hI : Inv s) {p q : Ptr} (h : Onext s p = some q)
    (hp : EvenPtr p) : EvenPtr q := Onext_par hI h 0 hp

theorem Oprev_even {s : EdgeStore} (hI : Inv s) {p q : Ptr} (h : Oprev s p = some q)
    (hp : EvenPtr p) : EvenPtr q := by
  simp only [Oprev, Option.bind_eq_bind, Option.bind_eq_some] at h
  obtain ⟨r, hr, x, hx, h⟩ := h
  obtain ⟨i, j, rfl, rfl, _, _, hj, _⟩ := Rot_eq_some hr
  have h1 : ∀ k, x = some k → k % 2 = 1 := by
    apply Onext_par hI hx 1
    intro k hk
    obtain rfl : j = k := by simpa using hk
    have := hp i rfl; omega
  obtain ⟨i', j', rfl, rfl, _, _, hj', _⟩ := Rot_eq_some h
  intro k hk
  obtain rfl : j' = k := by simpa using hk
  have := h1 i' rfl; omega

theorem Lnext_even {s : EdgeStore} (hI : Inv s) {p q : Ptr} (h : Lnext s p = some q)
    (hp : EvenPtr p) : EvenPtr q := by
  simp only [Lnext, Option.bind_eq_bind, Option.bind_eq_some] at h
  obtain ⟨r, hr, x, hx, h⟩ := h
  obtain ⟨i, j, rfl, rfl, _, _, hj, _⟩ := Tor_eq_some hr
  have h1 : ∀ k, x = some k → k % 2 = 1 := by
    apply Onext_par hI hx 1
    intro k hk
    obtain rfl : j = k := by simpa using hk
    have := hp i rfl; omega
  obtain ⟨i', j', rfl, rfl, _, _, hj', _⟩ := Rot_eq_some h
  intro k hk
  obtain rfl : j' = k := by simpa using hk
  have := h1 i' rfl; omega

theorem EvenPtr_some {i : Nat} (h : i % 2 = 0) : EvenPtr (some i) := by
  intro j hj; obtain rfl : i = j := by simpa using hj
  exact h

/-! ## Delete -/

theorem Splice_inUse {s s' : EdgeStore} (hI : Inv s) {a b : Ptr}
    (hS : Splice s a b = some s') :
    ∃ pa pb st, a = some pa ∧ b = some pb ∧ s.pool.chunk0 = some st ∧ InUse s pa ∧
      InUse s pb := by
  simp only [Splice, Option.bind_eq_bind, Option.bind_eq_some] at hS
  obtain ⟨xa, hxa, alpha, hal, xb, hxb, beta, hbe, _⟩ := hS
  obtain ⟨pa, rfl, halive, hpa, rfl⟩ := Onext_eq_some hxa
  obtain ⟨pb, rfl, _, hpb, rfl⟩ := Onext_eq_some hxb
  obtain ⟨st, hc⟩ := alive_some halive
  have hw := hI st hc
  refine ⟨pa, pb, st, rfl, rfl, hc, ?_, ?_⟩
  · apply hw.inUse_of_next hpa
    intro h; rw [h] at hal; simp [Rot, EdgeStore.rd] at hal
  · apply hw.inUse_of_next hpb
    intro h; rw [h] at hbe; simp [Rot, EdgeStore.rd] at hbe

theorem WF.Oprev_inUse {s : EdgeStore} {st : List Nat} (hc : s.pool.chunk0 = some st)
    (hw : WF s st) {i : Nat} (hi : InUse s i) :
    Oprev s (some i) = some (some (rotI (nxt s (rotI i)))) := by
  simp only [Oprev, Option.bind_eq_bind, WF.Rot_inUse hc hw hi, Option.some_bind,
    WF.Onext_inUse hc hw hi.rotI, WF.Rot_inUse hc hw (hw.next _ hi.rotI).2.1]

/-- The conditional splice of `Delete` takes an in-use edge out of its origin ring. -/
theorem detach_inv {s s' : EdgeStore} {e : Ptr} (hI : Inv s) (he : EvenPtr e)
    (h : detach s e = some s') :
    Inv s' ∧ s'.pool = s.pool ∧ s'.attr = s.attr ∧
      ∃ pe st, e = some pe ∧ s.pool.chunk0 = some st ∧ InUse s pe ∧ nxt s' pe = pe ∧
        ∀ p, p % 2 = pe % 2 → p ≠ pe → nxt s p = p → nxt s' p = p := by
  simp only [detach, Option.bind_eq_bind, Option.bind_eq_some] at h
  obtain ⟨x, hx, h⟩ := h
  split at h
  · -- the splice is executed
    rename_i hne
    simp only [Option.bind_eq_bind, Option.bind_eq_some] at h
    obtain ⟨y, hy, hS⟩ := h
    obtain ⟨pe, pb, st, rfl, rfl, hc, hue, hub⟩ := Splice_inUse hI hS
    have hw := hI st hc
    rw [WF.Oprev_inUse hc hw hue] at hy
    obtain rfl : rotI (nxt s (rotI pe)) = pb := by simpa using hy
    have hn1 := hw.next _ hue.rotI
    have hr1 := rotI_mod2 pe
    have hr2 := rotI_mod2 (nxt s (rotI pe))
    have hpar : pe % 2 = rotI (nxt s (rotI pe)) % 2 := by omega
    obtain ⟨hw', hp, hat, hnx⟩ := Splice_WF hc hw hue hub hpar hS
    have hback := hw.nxt_oprev hue
    refine ⟨?_, hp, hat, pe, st, rfl, hc, hue, ?_, ?_⟩
    · intro st' hc'
      rw [hp, hc] at hc'
      obtain rfl : st = st' := by simpa using hc'
      exact hw'
    · rw [hnx, spliceSwap_a, hback]
    · intro p hpp hpe hfix
      rw [hnx, spliceSwap_other hpe, hfix]
      · intro h; rw [h, hback] at hfix; exact hpe (h.trans hfix.symm ▸ rfl)
      · have := rotI_mod2 (nxt s pe)
        have := (hw.next pe hue).2.2
        intro h; omega
      · rw [hback]
        intro h; omega
  · rename_i heq
    simp only [Option.pure_def, Option.some.injEq] at h
    subst h
    have heq : x = e := by simpa using heq
    subst heq
    obtain ⟨pe, hpe, halive, hlt, hxe⟩ := Onext_eq_some hx
    subst hpe
    obtain ⟨st, hc⟩ := alive_some halive
    have hw := hI st hc
    have hue : InUse s pe := hw.inUse_of_next hlt (by rw [← hxe]; simp)
    refine ⟨hI, rfl, rfl, pe, st, rfl, hc, hue, ?_, fun p _ _ h => h⟩
    unfold nxt; rw [← hxe]; rfl

theorem bundle_cases (pe b : Nat) (h : b / 4 = pe / 4) :
    b = pe ∨ b = rotI pe ∨ b = symI pe ∨ b = torI pe := by
  unfold rotI symI torI
  split <;> split <;> split <;> omega

/-- The store after `Delete` has released the isolated bundle of `pe` onto the free stack. -/
theorem WF_push {s s' : EdgeStore} {st : List Nat} {pe : Nat} (hw : WF s st)
    (hu : InUse s pe) (h1 : nxt s pe = pe) (h2 : nxt s (symI pe) = symI pe)
    (hpool : s'.pool.numElementsPerChunk = s.pool.numElementsPerChunk)
    (hattr : ∀ q, IsFree (s'.attr q) = if q = pe / 4 then true else IsFree (s.attr q))
    (hzero : ∀ p, p / 4 = pe / 4 → (s'.edge p).m_next = none)
    (hother : ∀ p, p / 4 ≠ pe / 4 → s'.edge p = s.edge p) :
    WF s' (pe / 4 :: st) := by
  have hq : pe / 4 < s.pool.numElementsPerChunk := by have := hu.1; omega
  have hnot : pe / 4 ∉ st := by
    intro h
    have := ((hw.mem_free _).1 h).2
    rw [hu.2] at this; exact Bool.noConfusion this
  have hiu : ∀ p, InUse s' p ↔ (InUse s p ∧ p / 4 ≠ pe / 4) := by
    intro p; unfold InUse; rw [hpool, hattr]
    by_cases hp : p / 4 = pe / 4 <;> simp [hp]
  have hnx : ∀ p, p / 4 ≠ pe / 4 → nxt s' p = nxt s p := by
    intro p hp; unfold nxt; rw [hother p hp]
  have h3 : nxt s (rotI pe) = torI pe := hw.nxt_rot_of_fix hu h1
  have h4 : nxt s (torI pe) = rotI pe := by
    have := hw.nxt_rot_of_fix hu.symI h2
    rwa [rotI_symI, ← rotI_rotI, torI_rotI] at this
  -- `Onext` maps the bundle onto itself, so no other in-use record points into it
  have hclosed : ∀ p, InUse s p → p / 4 ≠ pe / 4 → nxt s p / 4 ≠ pe / 4 := by
    intro p hp hne hx
    rcases bundle_cases pe _ hx with h | h | h | h
    · exact hne (by rw [hw.inj p pe hp hu (h.trans h1.symm)])
    · have := hw.inj p (torI pe) hp hu.torI (h.trans h4.symm)
      exact hne (by rw [this, torI_div])
    · have := hw.inj p (symI pe) hp hu.symI (h.trans h2.symm)
      exact hne (by rw [this, symI_div])
    · have := hw.inj p (rotI pe) hp hu.rotI (h.trans h3.symm)
      exact hne (by rw [this, rotI_div])
  refine ⟨List.nodup_cons.2 ⟨hnot, hw.nodup⟩, ?_, ?_, ?_, ?_, ?_, ?_⟩
  · intro q; rw [hpool, hattr]
    by_cases hqq : q = pe / 4
    · subst hqq; simp [hq]
    · have := hw.mem_free q
      simp [hqq, this]
  · intro p hp hf
    rw [hattr] at hf
    by_cases hpp : p / 4 = pe / 4
    · exact hzero p hpp
    · rw [if_neg hpp] at hf
      rw [hother p hpp]
      exact hw.free_next p (by rw [← hpool]; exact hp) hf
  · intro p hp
    obtain ⟨g1, g2⟩ := (hiu p).1 hp
    rw [hother p g2]; exact hw.num p g1
  · intro p hp
    obtain ⟨g1, g2⟩ := (hiu p).1 hp
    obtain ⟨k1, k2, k3⟩ := hw.next p g1
    rw [hother p g2, hnx p g2]
    exact ⟨k1, (hiu _).2 ⟨k2, hclosed p g1 g2⟩, k3⟩
  · intro p q hp hq hpq
    obtain ⟨g1, g2⟩ := (hiu p).1 hp
    obtain ⟨g3, g4⟩ := (hiu q).1 hq
    rw [hnx p g2, hnx q g4] at hpq
    exact hw.inj p q g1 g3 hpq
  · intro p hp
    obtain ⟨g1, g2⟩ := (hiu p).1 hp
    have hc := hclosed p g1 g2
    rw [hnx p g2, hnx (rotI (nxt s p)) (by rw [rotI_div]; exact hc)]
    exact hw.e8 p g1

theorem IsFree_upd_zero (attr : Nat → Nat) (q0 q : Nat) (v : Nat) :
    IsFree (upd (upd attr q0 v) q0 0 q) = if q = q0 then true else IsFree (attr q) := by
  unfold upd
  split
  · exact IsFree_zero
  · rfl

theorem release_inv {s s' : EdgeStore} {pe : Nat} {st : List Nat} (hI : Inv s)
    (hc : s.pool.chunk0 = some st) (hu : InUse s pe) (h1 : nxt s pe = pe)
    (h2 : nxt s (symI pe) = symI pe) (h : release s (some pe) = some s') :
    Inv s' ∧ s'.pool.numElementsPerChunk = s.pool.numElementsPerChunk := by
  have hw := hI st hc
  have hq : pe / 4 < s.pool.numElementsPerChunk := by have := hu.1; omega
  simp only [release, Qedge_of_num (WF.alive hc) hu.1 (hw.num pe hu), Option.bind_eq_bind,
    Option.some_bind, MemoryPool.DeleteObject, hc, hq, if_true] at h
  split at h
  · simp only [Option.some_bind, if_true, Option.pure_def, Option.some.injEq] at h
    subst h
    refine ⟨?_, ?_⟩
    · intro st' hc'
      simp only [MemoryPool.Shrink] at hc'
      split at hc'
      · simp at hc'
      · rename_i hlen
        obtain rfl : pe / 4 :: st = st' := by simpa using hc'
        refine WF_push hw hu h1 h2 ?_ ?_ ?_ ?_
        · simp only [MemoryPool.Shrink]; rw [if_neg hlen]
        · intro q; exact IsFree_upd_zero _ _ _ _
        · intro p hp
          show (upd (upd (upd (upd s.edge _ _) _ _) _ _) _ _ p).m_next = none
          unfold upd
          split
          · rfl
          · split
            · rfl
            · split
              · rfl
              · split
                · rfl
                · omega
        · intro p hp
          show upd (upd (upd (upd s.edge _ _) _ _) _ _) _ _ p = _
          unfold upd
          rw [if_neg (by omega), if_neg (by omega), if_neg (by omega), if_neg (by omega)]
    · simp only [MemoryPool.Shrink]
      split <;> rfl
  · simp at h

/-- `Delete` on a primal pointer keeps the invariant. -/
theorem Delete_inv {s s' : EdgeStore} {e : Ptr} (hI : Inv s) (he : EvenPtr e)
    (h : Delete s e = some s') :
    Inv s' ∧ s'.pool.numElementsPerChunk = s.pool.numElementsPerChunk := by
  simp only [Delete, Option.bind_eq_bind, Option.bind_eq_some] at h
  obtain ⟨f, hf, s1, hd1, s2, hd2, hr⟩ := h
  obtain ⟨hI1, hp1, hat1, pe, st, rfl, hc, hue, hfix1, _⟩ := detach_inv hI he hd1
  have hw := hI st hc
  rw [WF.Sym_inUse hc hw hue] at hf
  obtain rfl : some (symI pe) = f := by simpa using hf
  have hpe : pe % 2 = 0 := he pe rfl
  have hs2 := symI_mod2 pe
  obtain ⟨hI2, hp2, hat2, pf, st2, hpf, hc2, huf, hfix2, hkeep⟩ :=
    detach_inv hI1 (EvenPtr_some (by omega)) hd2
  obtain rfl : symI pe = pf := by simpa using hpf
  have hne : pe ≠ symI pe := by unfold symI; split <;> omega
  have hfix1' : nxt s2 pe = pe := hkeep pe (by omega) hne hfix1
  have hc2' : s2.pool.chunk0 = some st := by rw [hp2, hp1]; exact hc
  have hue2 : InUse s2 pe := by
    unfold InUse; rw [hp2, hp1, hat2, hat1]; exact hue
  obtain ⟨g1, g2⟩ := release_inv hI2 hc2' hue2 hfix1' hfix2 hr
  exact ⟨g1, by rw [g2, hp2, hp1]⟩

/-! ## Connect -/

/-- `Connect` on primal pointers keeps the invariant and returns a primal pointer. -/
theorem Connect_inv {s s' : EdgeStore} {a b e : Ptr} (hI : Inv s) (ha : EvenPtr a)
    (hb : EvenPtr b) (h : Connect s a b = some (e, s')) :
    Inv s' ∧ EvenPtr e ∧ s'.pool.numElementsPerChunk = s.pool.numElementsPerChunk := by
  simp only [Connect, Option.bind_eq_bind, Option.bind_eq_some] at h
  obtain ⟨⟨e1, s1⟩, hm, h⟩ := h
  simp only [Option.bind_eq_some] at h
  obtain ⟨d, _, s2, ho, o, _, s3, hd, y, hy, s4, hS1, f, hf, s5, hS2, hres⟩ := h
  simp only [Option.pure_def, Option.some.injEq, Prod.mk.injEq] at hres
  obtain ⟨rfl, rfl⟩ := hres
  obtain ⟨hI1, he1, hcap1⟩ := MakeEdge_inv hI hm
  obtain ⟨hI2, hp2, _⟩ := Org_Set_inv hI1 ho
  obtain ⟨hI3, hp3, _⟩ := Dest_Set_inv hI2 hd
  have hy' := Lnext_even hI3 hy ha
  obtain ⟨hI4, hp4, _⟩ := Splice_inv hI3 he1 hy' hS1
  have hf' := Sym_even hf he1
  obtain ⟨hI5, hp5, _⟩ := Splice_inv hI4 hf' hb hS2
  exact ⟨hI5, he1, by rw [hp5, hp4, hp3, hp2, hcap1]⟩

/-! ## The invariant through `Delaunay` -/

theorem tangentLoop_even {sites : List Site} {s : EdgeStore} (hI : Inv s) (fuel : Nat) :
    ∀ {ldi rdi a b : Ptr}, EvenPtr ldi → EvenPtr rdi →
      tangentLoop sites s fuel ldi rdi = some (a, b) → EvenPtr a ∧ EvenPtr b := by
  induction fuel with
  | zero => intro ldi rdi a b _ _ h; simp [tangentLoop] at h
  | succ n ih =>
    intro ldi rdi a b hl hr h
    simp only [tangentLoop, Option.bind_eq_bind, Option.bind_eq_some] at h
    obtain ⟨o, _, c, _, h⟩ := h
    split at h
    · simp only [Option.bind_eq_some] at h
      obtain ⟨l', hl', h⟩ := h
      exact ih (Lnext_even hI hl' hl) hr h
    · simp only [Option.bind_eq_some] at h
      obtain ⟨o', _, c', _, h⟩ := h
      split at h
      · simp only [Option.bind_eq_some] at h
        obtain ⟨f, hf, r', hr', h⟩ := h
        exact ih hl (Onext_even hI hr' (Sym_even hf hr)) h
      · simp only [Option.pure_def, Option.some.injEq, Prod.mk.injEq] at h
        obtain ⟨rfl, rfl⟩ := h
        exact ⟨hl, hr⟩

theorem lcandLoop_inv {sites : List Site} {basel : Ptr} {n : Nat} (fuel : Nat) :
    ∀ {s s' : EdgeStore} {lcand l : Ptr}, InvN n s → EvenPtr lcand →
      lcandLoop sites basel fuel s lcand = some (l, s') → InvN n s' ∧ EvenPtr l := by
  induction fuel with
  | zero => intro s s' lcand l _ _ h; simp [lcandLoop] at h
  | succ k ih =>
    intro s s' lcand l hI hl h
    simp only [lcandLoop, Option.bind_eq_bind, Option.bind_eq_some] at h
    obtain ⟨_, _, _, _, _, _, _, _, _, _, c, _, h⟩ := h
    split at h
    · simp only [Option.bind_eq_some] at h
      obtain ⟨t, ht, s1, hd, h⟩ := h
      obtain ⟨g1, g2⟩ := Delete_inv hI.1 hl hd
      exact ih ⟨g1, g2.trans hI.2⟩ (Onext_even hI.1 ht hl) h
    · simp only [Option.pure_def, Option.some.injEq, Prod.mk.injEq] at h
      obtain ⟨rfl, rfl⟩ := h
      exact ⟨hI, hl⟩

theorem rcandLoop_inv {sites : List Site} {basel : Ptr} {n : Nat} (fuel : Nat) :
    ∀ {s s' : EdgeStore} {rcand r : Ptr}, InvN n s → EvenPtr rcand →
      rcandLoop sites basel fuel s rcand = some (r, s') → InvN n s' ∧ EvenPtr r := by
  induction fuel with
  | zero => intro s s' rcand r _ _ h; simp [rcandLoop] at h
  | succ k ih =>
    intro s s' rcand r hI hl h
    simp only [rcandLoop, Option.bind_eq_bind, Option.bind_eq_some] at h
    obtain ⟨_, _, _, _, _, _, _, _, _, _, c, _, h⟩ := h
    split at h
    · simp only [Option.bind_eq_some] at h
      obtain ⟨t, ht, s1, hd, h⟩ := h
      obtain ⟨g1, g2⟩ := Delete_inv hI.1 hl hd
      exact ih ⟨g1, g2.trans hI.2⟩ (Oprev_even hI.1 ht hl) h
    · simp only [Option.pure_def, Option.some.injEq, Prod.mk.injEq] at h
      obtain ⟨rfl, rfl⟩ := h
      exact ⟨hI, hl⟩

theorem leftCandidate_inv {sites : List Site} {loopFuel n : Nat} {s s' : EdgeStore}
    {basel l : Ptr} (hI : InvN n s) (hb : EvenPtr basel)
    (h : leftCandidate sites loopFuel s basel = some (l, s')) : InvN n s' ∧ EvenPtr l := by
  simp only [leftCandidate, Option.bind_eq_bind, Option.bind_eq_some] at h
  obtain ⟨f, hf, lc, hlc, _, _, c, _, h⟩ := h
  have hl := Onext_even hI.1 hlc (Sym_even hf hb)
  split at h
  · exact lcandLoop_inv _ hI hl h
  · simp only [Option.pure_def, Option.some.injEq, Prod.mk.injEq] at h
    obtain ⟨rfl, rfl⟩ := h
    exact ⟨hI, hl⟩

theorem rightCandidate_inv {sites : List Site} {loopFuel n : Nat} {s s' : EdgeStore}
    {basel r : Ptr} (hI : InvN n s) (hb : EvenPtr basel)
    (h : rightCandidate sites loopFuel s basel = some (r, s')) : InvN n s' ∧ EvenPtr r := by
  simp only [rightCandidate, Option.bind_eq_bind, Option.bind_eq_some] at h
  obtain ⟨rc, hrc, _, _, c, _, h⟩ := h
  have hl := Oprev_even hI.1 hrc hb
  split at h
  · exact rcandLoop_inv _ hI hl h
  · simp only [Option.pure_def, Option.some.injEq, Prod.mk.injEq] at h
    obtain ⟨rfl, rfl⟩ := h
    exact ⟨hI, hl⟩

theorem mergeConnect_inv {sites : List Site} {n : Nat} {s s' : EdgeStore}
    {basel lcand rcand e : Ptr} (hI : InvN n s) (hb : EvenPtr basel) (hl : EvenPtr lcand)
    (hr : EvenPtr rcand) (h : mergeConnect sites s basel lcand rcand = some (e, s')) :
    InvN n s' ∧ EvenPtr e := by
  simp only [mergeConnect, Option.bind_eq_bind, Option.bind_eq_some] at h
  obtain ⟨c, _, h⟩ := h
  split at h
  · simp only [Option.bind_eq_some] at h
    obtain ⟨f, hf, h⟩ := h
    obtain ⟨g1, g2, g3⟩ := Connect_inv hI.1 hr (Sym_even hf hb) h
    exact ⟨⟨g1, g3.trans hI.2⟩, g2⟩
  · simp only [Option.bind_eq_some] at h
    obtain ⟨f, hf, f', hf', h⟩ := h
    obtain ⟨g1, g2, g3⟩ := Connect_inv hI.1 (Sym_even hf hb) (Sym_even hf' hl) h
    exact ⟨⟨g1, g3.trans hI.2⟩, g2⟩

theorem mergeStep_inv {sites : List Site} {loopFuel n : Nat} {s s' : EdgeStore}
    {basel : Ptr} {r : Option Ptr} (hI : InvN n s) (hb : EvenPtr basel)
    (h : mergeStep sites loopFuel s basel = some (s', r)) :
    InvN n s' ∧ ∀ b, r = some b → EvenPtr b := by
  simp only [mergeStep, Option.bind_eq_bind, Option.bind_eq_some] at h
  obtain ⟨⟨l, s1⟩, h1, h⟩ := h
  simp only [Option.bind_eq_some] at h
  obtain ⟨⟨rc, s2⟩, h2, h⟩ := h
  simp only [Option.bind_eq_some] at h
  obtain ⟨c, _, h⟩ := h
  obtain ⟨hI1, hl⟩ := leftCandidate_inv hI hb h1
  obtain ⟨hI2, hr⟩ := rightCandidate_inv hI1 hb h2
  split at h
  · simp only [Option.pure_def, Option.some.injEq, Prod.mk.injEq] at h
    obtain ⟨rfl, rfl⟩ := h
    exact ⟨hI2, fun b hb => by simp at hb⟩
  · simp only [Option.bind_eq_some] at h
    obtain ⟨⟨e, s3⟩, h3, h⟩ := h
    simp only [Option.pure_def, Option.some.injEq, Prod.mk.injEq] at h
    obtain ⟨rfl, rfl⟩ := h
    obtain ⟨g1, g2⟩ := mergeConnect_inv hI2 hb hl hr h3
    refine ⟨g1, fun b hb => ?_⟩
    obtain rfl : e = b := by simpa using hb
    exact g2

theorem mergeLoop_inv {sites : List Site} {loopFuel n : Nat} (fuel : Nat) :
    ∀ {s s' : EdgeStore} {basel : Ptr}, InvN n s → EvenPtr basel →
      mergeLoop sites loopFuel fuel s basel = some s' → InvN n s' := by
  induction fuel with
  | zero => intro s s' basel _ _ h; simp [mergeLoop] at h
  | succ k ih =>
    intro s s' basel hI hb h
    simp only [mergeLoop] at h
    split at h
    · simp at h
    · rename_i s1 hs
      obtain rfl : s1 = s' := by simpa using h
      exact (mergeStep_inv hI hb hs).1
    · rename_i s1 b1 hs
      obtain ⟨g1, g2⟩ := mergeStep_inv hI hb hs
      exact ih g1 (g2 b1 rfl) h

theorem MakeEdge_invN {n : Nat} {s s' : EdgeStore} {e : Ptr} (hI : InvN n s)
    (h : MakeEdge s = some (e, s')) : InvN n s' ∧ EvenPtr e := by
  obtain ⟨g1, g2, g3⟩ := MakeEdge_inv hI.1 h
  exact ⟨⟨g1, g3.trans hI.2⟩, g2⟩

theorem Org_Set_invN {n : Nat} {s s' : EdgeStore} {p site : Ptr} (hI : InvN n s)
    (h : Org_Set s p site = some s') : InvN n s' := by
  obtain ⟨g1, g2, _⟩ := Org_Set_inv hI.1 h
  exact ⟨g1, by rw [g2]; exact hI.2⟩

theorem Dest_Set_invN {n : Nat} {s s' : EdgeStore} {p site : Ptr} (hI : InvN n s)
    (h : Dest_Set s p site = some s') : InvN n s' := by
  obtain ⟨g1, g2, _⟩ := Dest_Set_inv hI.1 h
  exact ⟨g1, by rw [g2]; exact hI.2⟩

theorem Splice_invN {n : Nat} {s s' : EdgeStore} {a b : Ptr} (hI : InvN n s)
    (ha : EvenPtr a) (hb : EvenPtr b) (h : Splice s a b = some s') : InvN n s' := by
  obtain ⟨g1, g2, _⟩ := Splice_inv hI.1 ha hb h
  exact ⟨g1, by rw [g2]; exact hI.2⟩

theorem Connect_invN {n : Nat} {s s' : EdgeStore} {a b e : Ptr} (hI : InvN n s)
    (ha : EvenPtr a) (hb : EvenPtr b) (h : Connect s a b = some (e, s')) :
    InvN n s' ∧ EvenPtr e := by
  obtain ⟨g1, g2, g3⟩ := Connect_inv hI.1 ha hb h
  exact ⟨⟨g1, g3.trans hI.2⟩, g2⟩

theorem Delaunay2_inv {n : Nat} {s s' : EdgeStore} {sl : Nat} {le re : Ptr} (hI : InvN n s)
    (h : Delaunay2 s sl = some ((le, re), s')) : InvN n s' ∧ EvenPtr le ∧ EvenPtr re := by
  simp only [Delaunay2, Option.bind_eq_bind, Option.bind_eq_some] at h
  obtain ⟨⟨a, s1⟩, hm, h⟩ := h
  simp only [Option.bind_eq_some] at h
  obtain ⟨s2, h2, s3, h3, f, hf, h⟩ := h
  simp only [Option.pure_def, Option.some.injEq, Prod.mk.injEq] at h
  obtain ⟨⟨rfl, rfl⟩, rfl⟩ := h
  obtain ⟨hI1, ha⟩ := MakeEdge_invN hI hm
  exact ⟨Dest_Set_invN (Org_Set_invN hI1 h2) h3, ha, Sym_even hf ha⟩

theorem Delaunay3Chain_inv {n : Nat} {s s' : EdgeStore} {sl : Nat} {a b : Ptr}
    (hI : InvN n s) (h : Delaunay3Chain s sl = some ((a, b), s')) :
    InvN n s' ∧ EvenPtr a ∧ EvenPtr b := by
  simp only [Delaunay3Chain, Option.bind_eq_bind, Option.bind_eq_some] at h
  obtain ⟨⟨a1, s1⟩, hm1, h⟩ := h
  simp only [Option.bind_eq_some] at h
  obtain ⟨⟨b1, s2⟩, hm2, h⟩ := h
  simp only [Option.bind_eq_some] at h
  obtain ⟨f, hf, s3, hS, s4, h4, s5, h5, s6, h6, s7, h7, h⟩ := h
  simp only [Option.pure_def, Option.some.injEq, Prod.mk.injEq] at h
  obtain ⟨⟨rfl, rfl⟩, rfl⟩ := h
  obtain ⟨hI1, ha⟩ := MakeEdge_invN hI hm1
  obtain ⟨hI2, hb⟩ := MakeEdge_invN hI1 hm2
  have hI3 := Splice_invN hI2 (Sym_even hf ha) hb hS
  exact ⟨Dest_Set_invN (Org_Set_invN (Dest_Set_invN (Org_Set_invN hI3 h4) h5) h6) h7, ha, hb⟩

theorem Delaunay3_inv {sites : List Site} {n : Nat} {s s' : EdgeStore} {sl : Nat}
    {le re : Ptr} (hI : InvN n s) (h : Delaunay3 sites s sl = some ((le, re), s')) :
    InvN n s' ∧ EvenPtr le ∧ EvenPtr re := by
  simp only [Delaunay3, Option.bind_eq_bind, Option.bind_eq_some] at h
  obtain ⟨ct, _, ⟨⟨a, b⟩, s1⟩, hch, h⟩ := h
  obtain ⟨hI1, ha, hb⟩ := Delaunay3Chain_inv hI hch
  simp only [] at h
  split at h
  · simp only [Option.bind_eq_some] at h
    obtain ⟨f, hf, h⟩ := h
    simp only [Option.pure_def, Option.some.injEq, Prod.mk.injEq] at h
    obtain ⟨⟨rfl, rfl⟩, rfl⟩ := h
    exact ⟨hI1, ha, Sym_even hf hb⟩
  · simp only [Option.bind_eq_some] at h
    obtain ⟨⟨c, s2⟩, hc, h⟩ := h
    obtain ⟨hI2, hcE⟩ := Connect_invN hI1 hb ha hc
    simp only [] at h
    split at h
    · simp only [Option.bind_eq_some] at h
      obtain ⟨f, hf, h⟩ := h
      simp only [Option.pure_def, Option.some.injEq, Prod.mk.injEq] at h
      obtain ⟨⟨rfl, rfl⟩, rfl⟩ := h
      exact ⟨hI2, ha, Sym_even hf hb⟩
    · simp only [Option.bind_eq_some] at h
      obtain ⟨f, hf, h⟩ := h
      simp only [Option.pure_def, Option.some.injEq, Prod.mk.injEq] at h
      obtain ⟨⟨rfl, rfl⟩, rfl⟩ := h
      exact ⟨hI2, Sym_even hf hcE, hcE⟩

theorem fixOuter_even {s : EdgeStore} {basel ldo ldi rdi rdo a b : Ptr} (hb : EvenPtr basel)
    (hl : EvenPtr ldo) (hr : EvenPtr rdo)
    (h : fixOuter s basel ldo ldi rdi rdo = some (a, b)) : EvenPtr a ∧ EvenPtr b := by
  simp only [fixOuter, Option.bind_eq_bind, Option.bind_eq_some] at h
  obtain ⟨o1, _, o2, _, h⟩ := h
  split at h
  · simp only [Option.bind_eq_some] at h
    obtain ⟨x, hx, o3, _, o4, _, h⟩ := h
    have hx' := Sym_even hx hb
    split at h
    · simp only [Option.pure_def, Option.some_bind, Option.some.injEq, Prod.mk.injEq] at h
      obtain ⟨rfl, rfl⟩ := h
      exact ⟨hx', hb⟩
    · simp only [Option.pure_def, Option.some_bind, Option.some.injEq, Prod.mk.injEq] at h
      obtain ⟨rfl, rfl⟩ := h
      exact ⟨hx', hr⟩
  · simp only [Option.pure_def, Option.some_bind, Option.bind_eq_some] at h
    obtain ⟨o3, _, o4, _, h⟩ := h
    split at h
    · simp only [Option.some.injEq, Prod.mk.injEq] at h
      obtain ⟨rfl, rfl⟩ := h
      exact ⟨hl, hb⟩
    · simp only [Option.some.injEq, Prod.mk.injEq] at h
      obtain ⟨rfl, rfl⟩ := h
      exact ⟨hl, hr⟩

theorem DelaunayMerge_inv {sites : List Site} {n fuel : Nat} {s s' : EdgeStore}
    {ldo ldi rdi rdo le re : Ptr} (hI : InvN n s) (h1 : EvenPtr ldo) (h2 : EvenPtr ldi)
    (h3 : EvenPtr rdi) (h4 : EvenPtr rdo)
    (h : DelaunayMerge sites fuel s ldo ldi rdi rdo = some ((le, re), s')) :
    InvN n s' ∧ EvenPtr le ∧ EvenPtr re := by
  simp only [DelaunayMerge, Option.bind_eq_bind, Option.bind_eq_some] at h
  obtain ⟨⟨l, r⟩, ht, h⟩ := h
  simp only [Option.bind_eq_some] at h
  obtain ⟨f, hf, ⟨basel, s1⟩, hc, h⟩ := h
  simp only [Option.bind_eq_some] at h
  obtain ⟨⟨a, b⟩, hfo, h⟩ := h
  simp only [Option.bind_eq_some] at h
  obtain ⟨s2, hm, h⟩ := h
  simp only [Option.pure_def, Option.some.injEq, Prod.mk.injEq] at h
  obtain ⟨⟨rfl, rfl⟩, rfl⟩ := h
  obtain ⟨hl, hr⟩ := tangentLoop_even hI.1 _ h2 h3 ht
  obtain ⟨hI1, hb⟩ := Connect_invN hI (Sym_even hf hr) hl hc
  obtain ⟨ha, hb'⟩ := fixOuter_even hb h1 h4 hfo
  exact ⟨mergeLoop_inv _ hI1 hb hm, ha, hb'⟩

/-- `Delaunay` keeps the invariant of the edge store and returns primal pointers. -/
theorem Delaunay_inv {sites : List Site} {n : Nat} (fuel : Nat) :
    ∀ {s s' : EdgeStore} {sl sh : Nat} {le re : Ptr}, InvN n s →
      Delaunay sites fuel s sl sh = some ((le, re), s') →
      InvN n s' ∧ EvenPtr le ∧ EvenPtr re := by
  induction fuel with
  | zero => intro s s' sl sh le re _ h; simp [Delaunay] at h
  | succ k ih =>
    intro s s' sl sh le re hI h
    simp only [Delaunay] at h
    split at h
    · exact Delaunay2_inv hI h
    · split at h
      · exact Delaunay3_inv hI h
      · split at h
        · simp at h
        · rename_i ldo ldi s1 h1
          obtain ⟨hI1, e1, e2⟩ := ih hI h1
          split at h
          · simp at h
          · rename_i rdi rdo s2 h2
            obtain ⟨hI2, e3, e4⟩ := ih hI1 h2
            exact DelaunayMerge_inv hI2 e1 e2 e3 e4 h

/-! ## The passes after the triangulation leave the free/in-use state alone -/

theorem SameUse.useRefl (s : EdgeStore) : SameUse s s := ⟨rfl, fun _ => rfl⟩

theorem SameUse.useTrans {a b c : EdgeStore} (h1 : SameUse a b) (h2 : SameUse b c) :
    SameUse a c := ⟨h2.1.trans h1.1, fun q => (h2.2 q).trans (h1.2 q)⟩

theorem TFrame.frameRefl (t : Triangulator) : TFrame t t := ⟨rfl, rfl, rfl, SameUse.useRefl _⟩

theorem TFrame.frameTrans {a b c : Triangulator} (h1 : TFrame a b) (h2 : TFrame b c) :
    TFrame a c :=
  ⟨h2.1.trans h1.1, h2.2.1.trans h1.2.1, h2.2.2.1.trans h1.2.2.1, h1.2.2.2.useTrans h2.2.2.2⟩

theorem foldlM_rel {σ : Type} (R : σ → σ → Prop) (hrefl : ∀ a, R a a)
    (htrans : ∀ a b c, R a b → R b c → R a c) (f : σ → Nat → Option σ)
    (hf : ∀ a i b, f a i = some b → R a b) :
    ∀ (l : List Nat) (a b : σ), l.foldlM f a = some b → R a b := by
  intro l
  induction l with
  | nil => intro a b h; simp only [List.foldlM_nil, Option.pure_def, Option.some.injEq] at h
           subst h; exact hrefl a
  | cons i l ih =>
    intro a b h
    simp only [List.foldlM_cons, Option.bind_eq_bind, Option.bind_eq_some] at h
    obtain ⟨c, hc, h⟩ := h
    exact htrans _ _ _ (hf a i c hc) (ih c b h)

theorem IsFree_ResetVisited (a : Nat) : IsFree (ResetVisited a) = IsFree a := by
  unfold IsFree ResetVisited; simp

theorem IsFree_IncrementVisited (a : Nat) : IsFree (IncrementVisited a) = IsFree a := by
  unfold IsFree IncrementVisited
  have : (a % 65536 + (a / 65536 + 1) * 65536) % 4294967296 % 65536 = a % 65536 := by omega
  rw [this]

theorem resetVisited_sameUse {s s' : EdgeStore} {m : Nat} (h : resetVisited s m = some s') :
    SameUse s s' := by
  unfold resetVisited at h
  split at h
  · obtain rfl : s = s' := by simpa using h
    exact SameUse.useRefl _
  · split at h
    · obtain rfl := Option.some.inj h
      refine ⟨rfl, fun q => ?_⟩
      show IsFree (if q < m then ResetVisited (s.attr q) else s.attr q) = _
      split
      · exact IsFree_ResetVisited _
      · rfl
    · simp at h

theorem incVisited_sameUse {s s' : EdgeStore} {e : Ptr} (h : incVisited s e = some s') :
    SameUse s s' := by
  simp only [incVisited, Option.bind_eq_bind, Option.bind_eq_some] at h
  obtain ⟨q, _, h⟩ := h
  simp only [Option.pure_def, Option.some.injEq] at h
  subst h
  refine ⟨rfl, fun q' => ?_⟩
  show IsFree (upd s.attr q (IncrementVisited (s.attr q)) q') = _
  unfold upd
  split
  · rename_i hq; subst hq; exact IsFree_IncrementVisited _
  · rfl

theorem markFace_sameUse {s s' : EdgeStore} {e eo el : Ptr}
    (h : markFace s e eo el = some s') : SameUse s s' := by
  simp only [markFace, Option.bind_eq_bind, Option.bind_eq_some] at h
  obtain ⟨s1, h1, s2, h2, h3⟩ := h
  exact (incVisited_sameUse h1).useTrans ((incVisited_sameUse h2).useTrans (incVisited_sameUse h3))

theorem wr_sameUse {s s' : EdgeStore} {p : Ptr} {f : Edge → Edge} (h : s.wr p f = some s') :
    SameUse s s' := by
  obtain ⟨i, rfl, _, _, rfl⟩ := wr_eq_some h
  exact ⟨rfl, fun _ => rfl⟩

theorem VOrg_Set_sameUse {s s' : EdgeStore} {p vs : Ptr} (h : VOrg_Set s p vs = some s') :
    SameUse s s' := wr_sameUse h

theorem VDest_Set_sameUse {s s' : EdgeStore} {p vs : Ptr} (h : VDest_Set s p vs = some s') :
    SameUse s s' := by
  simp only [VDest_Set, Option.bind_eq_bind, Option.bind_eq_some] at h
  obtain ⟨q, _, h⟩ := h
  exact VOrg_Set_sameUse h

theorem attachVertex_sameUse {s s' : EdgeStore} {e eo el vs : Ptr}
    (h : attachVertex s e eo el vs = some s') : SameUse s s' := by
  simp only [attachVertex, Option.bind_eq_bind, Option.bind_eq_some] at h
  obtain ⟨s1, h1, s2, h2, h3⟩ := h
  exact (VDest_Set_sameUse h1).useTrans ((VOrg_Set_sameUse h2).useTrans (VDest_Set_sameUse h3))

/-! ### MarkHull -/

theorem hullLoop_alive {sites : List Site} {s : EdgeStore} {start le : Ptr} {fuel : Nat}
    {hull hull' : List Nat} (h : hullLoop sites s start fuel le hull = some hull') :
    s.pool.chunk0.isSome = true := by
  cases fuel with
  | zero => simp [hullLoop] at h
  | succ n =>
    simp only [hullLoop, Option.bind_eq_bind, Option.bind_eq_some] at h
    obtain ⟨o, ho, _⟩ := h
    simp only [Org, Option.bind_eq_bind, Option.bind_eq_some] at ho
    obtain ⟨r, hr, _⟩ := ho
    obtain ⟨_, _, ha, _⟩ := rd_eq_some hr
    exact ha

theorem MarkHull_frame {fuel : Nat} {t t' : Triangulator} (h : MarkHull fuel t = some t') :
    TFrame t t' ∧ t.m_dEdge.pool.chunk0.isSome = true := by
  simp only [MarkHull, Option.bind_eq_bind, Option.bind_eq_some] at h
  obtain ⟨hull, hh, h⟩ := h
  refine ⟨?_, hullLoop_alive hh⟩
  split at h
  · simp only [Option.bind_eq_some] at h
    obtain ⟨out, _, h⟩ := h
    simp only [Option.pure_def, Option.some.injEq] at h
    subst h; exact ⟨rfl, rfl, rfl, SameUse.useRefl _⟩
  · simp only [Option.pure_def, Option.some.injEq] at h
    subst h; exact ⟨rfl, rfl, rfl, SameUse.useRefl _⟩

/-! ### GenerateTriangleIndices -/

theorem writeTriangle_frame {t t' : Triangulator} {e eo : Ptr}
    (h : writeTriangle t e eo = some t') : TFrame t t' ∧ t'.m_dEdge = t.m_dEdge := by
  simp only [writeTriangle, Option.bind_eq_bind, Option.bind_eq_some] at h
  obtain ⟨_, _, _, _, _, _, _, _, _, _, _, _, rows, _, h⟩ := h
  split at h
  · simp only [Option.pure_def, Option.some.injEq] at h
    subst h; exact ⟨⟨rfl, rfl, rfl, SameUse.useRefl _⟩, rfl⟩
  · simp at h

theorem emitTriangle_frame {t t' : Triangulator} {e eo : Ptr}
    (h : emitTriangle t e eo = some t') : TFrame t t' ∧ t'.m_dEdge = t.m_dEdge := by
  simp only [emitTriangle] at h
  split at h
  · simp only [Option.bind_eq_bind, Option.bind_eq_some] at h
    obtain ⟨c, _, h⟩ := h
    split at h
    · exact writeTriangle_frame h
    · simp only [Option.pure_def, Option.some.injEq] at h
      subst h; exact ⟨TFrame.frameRefl _, rfl⟩
  · exact writeTriangle_frame h

theorem triVisit_frame {t t' : Triangulator} {e eo : Ptr}
    (h : triVisit t e = some (t', eo)) : TFrame t t' := by
  simp only [triVisit, Option.bind_eq_bind, Option.bind_eq_some] at h
  obtain ⟨eOnext, _, eLnext, _, c, _, h⟩ := h
  split at h
  · simp only [Option.bind_eq_some] at h
    obtain ⟨t1, h1, s1, h2, h⟩ := h
    simp only [Option.pure_def, Option.some.injEq, Prod.mk.injEq] at h
    obtain ⟨rfl, rfl⟩ := h
    obtain ⟨g1, g2⟩ := emitTriangle_frame h1
    rw [g2] at h2
    have := markFace_sameUse h2
    exact ⟨g1.1, g1.2.1, g1.2.2.1, this⟩
  · simp only [Option.pure_def, Option.some.injEq, Prod.mk.injEq] at h
    obtain ⟨rfl, rfl⟩ := h
    exact TFrame.frameRefl _

theorem triRing_frame {eStart : Ptr} (fuel : Nat) :
    ∀ {t t' : Triangulator} {e : Ptr}, triRing eStart fuel t e = some t' → TFrame t t' := by
  induction fuel with
  | zero => intro t t' e h; simp [triRing] at h
  | succ n ih =>
    intro t t' e h
    simp only [triRing] at h
    split at h
    · simp at h
    · rename_i t1 eo hv
      have g := triVisit_frame hv
      split at h
      · exact g.frameTrans (ih h)
      · obtain rfl : t1 = t' := by simpa using h
        exact g

theorem triSlot_frame {fuel : Nat} {t t' : Triangulator} {i : Nat}
    (h : triSlot fuel t i = some t') : TFrame t t' := by
  simp only [triSlot, Option.bind_eq_bind, Option.bind_eq_some] at h
  obtain ⟨c, _, h⟩ := h
  split at h
  · simp only [Option.pure_def, Option.some.injEq] at h
    subst h; exact TFrame.frameRefl _
  · exact triRing_frame _ h

theorem GenerateTriangleIndices_frame {fuel : Nat} {t t' : Triangulator}
    (h : GenerateTriangleIndices fuel t = some t') : TFrame t t' := by
  simp only [GenerateTriangleIndices, Option.bind_eq_bind, Option.bind_eq_some] at h
  obtain ⟨t1, h1, s1, h2, h3⟩ := h
  have g1 : TFrame t t1 := by
    unfold allocTIndices at h1
    split at h1
    · simp only [Option.some.injEq] at h1
      subst h1; exact ⟨rfl, rfl, rfl, SameUse.useRefl _⟩
    · simp at h1
  have g2 := resetVisited_sameUse h2
  have g3 := foldlM_rel TFrame TFrame.frameRefl (fun _ _ _ => TFrame.frameTrans) (triSlot fuel)
    (fun _ _ _ => triSlot_frame) _ _ _ h3
  have g2' : TFrame t1 { t1 with m_dEdge := s1, m_nTriangles := 0 } := ⟨rfl, rfl, rfl, g2⟩
  exact g1.frameTrans (g2'.frameTrans g3)

/-! ### GenerateVoronoiVertices -/

theorem newVoronoiVertex_frame {t t' : Triangulator} {s1 s2 s3 vs : Ptr}
    (h : newVoronoiVertex t s1 s2 s3 = some (vs, t')) :
    TFrame t t' ∧ t'.m_dEdge = t.m_dEdge := by
  simp only [newVoronoiVertex, Option.bind_eq_bind, Option.bind_eq_some] at h
  obtain ⟨pool, _, a, _, b, _, c, _, h⟩ := h
  split at h
  · simp at h
  · simp only [Option.pure_def, Option.some.injEq, Prod.mk.injEq] at h
    obtain ⟨_, rfl⟩ := h
    exact ⟨⟨rfl, rfl, rfl, SameUse.useRefl _⟩, rfl⟩

theorem emitVertex_frame {t t' : Triangulator} {e eo el : Ptr}
    (h : emitVertex t e eo el = some t') : TFrame t t' := by
  simp only [emitVertex, Option.bind_eq_bind, Option.bind_eq_some] at h
  obtain ⟨_, _, _, _, _, _, ⟨vs, t1⟩, h1, h⟩ := h
  simp only [Option.bind_eq_some] at h
  obtain ⟨s1, h2, s2, h3, h⟩ := h
  simp only [Option.pure_def, Option.some.injEq] at h
  subst h
  obtain ⟨g1, g2⟩ := newVoronoiVertex_frame h1
  rw [g2] at h2
  exact ⟨g1.1, g1.2.1, g1.2.2.1, (attachVertex_sameUse h2).useTrans (markFace_sameUse h3)⟩

theorem vorVisit_frame {t t' : Triangulator} {e eo : Ptr}
    (h : vorVisit t e = some (t', eo)) : TFrame t t' := by
  simp only [vorVisit, Option.bind_eq_bind, Option.bind_eq_some] at h
  obtain ⟨eOnext, _, eLnext, _, c, _, h⟩ := h
  split at h
  · simp only [Option.bind_eq_some] at h
    obtain ⟨t1, h1, h⟩ := h
    simp only [Option.pure_def, Option.some.injEq, Prod.mk.injEq] at h
    obtain ⟨rfl, rfl⟩ := h
    exact emitVertex_frame h1
  · simp only [Option.pure_def, Option.some.injEq, Prod.mk.injEq] at h
    obtain ⟨rfl, rfl⟩ := h
    exact TFrame.frameRefl _

theorem vorRing_frame {eStart : Ptr} (fuel : Nat) :
    ∀ {t t' : Triangulator} {e : Ptr}, vorRing eStart fuel t e = some t' → TFrame t t' := by
  induction fuel with
  | zero => intro t t' e h; simp [vorRing] at h
  | succ n ih =>
    intro t t' e h
    simp only [vorRing] at h
    split at h
    · simp at h
    · rename_i t1 eo hv
      have g := vorVisit_frame hv
      split at h
      · exact g.frameTrans (ih h)
      · obtain rfl : t1 = t' := by simpa using h
        exact g

theorem vorSlot_frame {fuel : Nat} {t t' : Triangulator} {i : Nat}
    (h : vorSlot fuel t i = some t') : TFrame t t' := by
  simp only [vorSlot, Option.bind_eq_bind, Option.bind_eq_some] at h
  obtain ⟨c, _, h⟩ := h
  split at h
  · simp only [Option.pure_def, Option.some.injEq] at h
    subst h; exact TFrame.frameRefl _
  · exact vorRing_frame _ h

theorem GenerateVoronoiVertices_frame {fuel : Nat} {t t' : Triangulator}
    (h : GenerateVoronoiVertices fuel t = some t') : TFrame t t' := by
  simp only [GenerateVoronoiVertices, Option.bind_eq_bind, Option.bind_eq_some] at h
  obtain ⟨s1, h2, h3⟩ := h
  have g2 := resetVisited_sameUse h2
  have g2' : TFrame t { t with m_dEdge := s1 } := ⟨rfl, rfl, rfl, g2⟩
  have g3 := foldlM_rel TFrame TFrame.frameRefl (fun _ _ _ => TFrame.frameTrans) (vorSlot fuel)
    (fun _ _ _ => vorSlot_frame) _ _ _ h3
  exact g2'.frameTrans g3

theorem voronoiPart_frame {fuel : Nat} {t t' : Triangulator}
    (h : voronoiPart fuel t = some t') : TFrame t t' := by
  simp only [voronoiPart] at h
  split at h
  · simp only [Option.bind_eq_bind, Option.bind_eq_some] at h
    obtain ⟨t1, h1, pool, _, h⟩ := h
    simp only [Option.pure_def, Option.some.injEq] at h
    subst h
    exact (GenerateVoronoiVertices_frame h1).frameTrans ⟨rfl, rfl, rfl, SameUse.useRefl _⟩
  · simp only [Option.pure_def, Option.some.injEq] at h
    subst h; exact TFrame.frameRefl _

/-! ### GenerateNodeNeighbours -/

theorem countEdge_frame {t t' : Triangulator} {e : Ptr} (h : countEdge t e = some t') :
    TFrame t t' := by
  simp only [countEdge, Option.bind_eq_bind, Option.bind_eq_some] at h
  obtain ⟨_, _, src, _, _, _, dst, _, s1, hs, h⟩ := h
  have g := incVisited_sameUse hs
  split at h
  · simp only [Option.bind_eq_some] at h
    obtain ⟨n1, _, n2, _, h⟩ := h
    simp only [Option.pure_def, Option.some.injEq] at h
    subst h; exact ⟨rfl, rfl, rfl, g⟩
  · simp only [Option.pure_def, Option.some.injEq] at h
    subst h; exact ⟨rfl, rfl, rfl, g⟩

theorem countSlot_frame {t t' : Triangulator} {i : Nat} (h : countSlot t i = some t') :
    TFrame t t' := by
  simp only [countSlot, Option.bind_eq_bind, Option.bind_eq_some] at h
  obtain ⟨c, _, h⟩ := h
  split at h
  · simp only [Option.pure_def, Option.some.injEq] at h
    subst h; exact TFrame.frameRefl _
  · simp only [Option.bind_eq_some] at h
    obtain ⟨v, _, h⟩ := h
    split at h
    · exact countEdge_frame h
    · simp only [Option.pure_def, Option.some.injEq] at h
      subst h; exact TFrame.frameRefl _

theorem storeEdge_frame {t t' : Triangulator} {temp temp' : List Nat} {src dst : Nat}
    (h : storeEdge t temp src dst = some (t', temp')) :
    TFrame t t' ∧ t'.m_dEdge = t.m_dEdge := by
  simp only [storeEdge] at h
  split at h
  · simp only [Option.bind_eq_bind, Option.bind_eq_some] at h
    obtain ⟨buf, _, ⟨b1, t1⟩, _, ⟨b2, t2⟩, _, h⟩ := h
    simp only [Option.pure_def, Option.some.injEq, Prod.mk.injEq] at h
    obtain ⟨rfl, rfl⟩ := h
    exact ⟨⟨rfl, rfl, rfl, SameUse.useRefl _⟩, rfl⟩
  · simp only [Option.pure_def, Option.some.injEq, Prod.mk.injEq] at h
    obtain ⟨rfl, rfl⟩ := h
    exact ⟨TFrame.frameRefl _, rfl⟩

theorem storeVisit_frame {t t' : Triangulator} {temp temp' : List Nat} {e : Ptr}
    (h : storeVisit t temp e = some (t', temp')) : TFrame t t' := by
  simp only [storeVisit, Option.bind_eq_bind, Option.bind_eq_some] at h
  obtain ⟨_, _, src, _, _, _, dst, _, _, _, _, _, v, _, h⟩ := h
  split at h
  · split at h
    · simp only [Option.bind_eq_some] at h
      obtain ⟨⟨t1, temp1⟩, h1, s1, hs, h⟩ := h
      simp only [Option.pure_def, Option.some.injEq, Prod.mk.injEq] at h
      obtain ⟨rfl, rfl⟩ := h
      obtain ⟨g1, g1'⟩ := storeEdge_frame h1
      have g2 := incVisited_sameUse hs
      simp only [g1'] at g2
      exact ⟨g1.1, g1.2.1, g1.2.2.1, g2⟩
    · simp only [Option.pure_def, Option.some_bind, Option.bind_eq_some] at h
      obtain ⟨s1, hs, h⟩ := h
      simp only [Option.some.injEq, Prod.mk.injEq] at h
      obtain ⟨rfl, rfl⟩ := h
      exact ⟨rfl, rfl, rfl, incVisited_sameUse hs⟩
  · simp only [Option.pure_def, Option.some.injEq, Prod.mk.injEq] at h
    obtain ⟨rfl, rfl⟩ := h
    exact TFrame.frameRefl _

theorem storeSlot_frame {st st' : Triangulator × List Nat} {i : Nat}
    (h : storeSlot st i = some st') : TFrame st.1 st'.1 := by
  simp only [storeSlot, Option.bind_eq_bind, Option.bind_eq_some] at h
  obtain ⟨c, _, h⟩ := h
  split at h
  · simp only [Option.pure_def, Option.some.injEq] at h
    subst h; exact TFrame.frameRefl _
  · exact storeVisit_frame h

theorem GenerateNodeNeighbours_frame {t t' : Triangulator}
    (h : GenerateNodeNeighbours t = some t') : TFrame t t' := by
  simp only [GenerateNodeNeighbours, Option.bind_eq_bind, Option.bind_eq_some] at h
  obtain ⟨s1, h1, t1, h2, ⟨t2, temp⟩, h3, h⟩ := h
  simp only [Option.pure_def, Option.some.injEq] at h
  subst h
  have g1 := resetVisited_sameUse h1
  have g1' : TFrame t { t with m_dEdge := s1, m_nNeighbours := List.replicate t.m_nSites 0 } :=
    ⟨rfl, rfl, rfl, g1⟩
  have g2 := foldlM_rel TFrame TFrame.frameRefl (fun _ _ _ => TFrame.frameTrans) countSlot
    (fun _ _ _ => countSlot_frame) _ _ _ h2
  have g3 := foldlM_rel (fun (a b : Triangulator × List Nat) => TFrame a.1 b.1)
    (fun _ => TFrame.frameRefl _) (fun _ _ _ => TFrame.frameTrans) storeSlot
    (fun _ _ _ => storeSlot_frame) _ _ _ h3
  have g2' : TFrame t1 { t1 with
      m_neighbours :=
        if hasAttr t1.m_attributes Triangulator_NodeNeighbours then
          some (List.replicate t1.m_nNeighbours.sum 0)
        else none,
      m_nbStart := rowStarts t1.m_nNeighbours 0 } := ⟨rfl, rfl, rfl, SameUse.useRefl _⟩
  exact g1'.frameTrans (g2.frameTrans (g2'.frameTrans g3))

/-! ## Edge accounting -/

theorem WF.count {s : EdgeStore} {st : List Nat} (hw : WF s st) :
    ((List.range s.pool.numElementsPerChunk).filter
        (fun q => ! IsFree (s.attr q))).length + st.length
      = s.pool.numElementsPerChunk := by
  have hperm : st.Perm ((List.range s.pool.numElementsPerChunk).filter
      (fun q => IsFree (s.attr q))) := by
    apply (List.perm_ext_iff_of_nodup hw.nodup ((List.nodup_range _).filter _)).2
    intro q
    rw [hw.mem_free q, List.mem_filter, List.mem_range]
  have h1 : (List.range s.pool.numElementsPerChunk).length = _ :=
    List.length_eq_length_filter_add (fun q => IsFree (s.attr q))
  rw [List.length_range] at h1
  rw [hperm.length_eq]
  omega

theorem Inv_init (cap : Nat) : InvN cap (EdgeStore.init cap) := by
  refine ⟨?_, rfl⟩
  intro st h
  simp [EdgeStore.init, MemoryPool.init] at h

theorem triangulate_spec {fuel : Nat} {s : List (Int × Int)} {attr : Nat}
    {sup : List (Int × Int)} {t : Triangulator} (h : triangulate fuel s attr sup = some t) :
    InvN (t.m_nSites * 3) t.m_dEdge ∧
      t.m_nEdges = ((t.m_nSites * 3 : Nat) : Int) - (t.m_dEdge.pool.GetNumFree : Nat) ∧
      t.m_nFaces = t.m_nEdges - t.m_nSites + 2 := by
  simp only [triangulate, Option.bind_eq_bind, Option.bind_eq_some] at h
  obtain ⟨unsorted, _, ⟨⟨le, re⟩, es⟩, hD, h⟩ := h
  simp only [Option.pure_def, Option.some.injEq] at h
  subst h
  exact ⟨(Delaunay_inv _ (Inv_init _) hD).1, rfl, rfl⟩

theorem construct_frame {fuel : Nat} {s : List (Int × Int)} {attr : Nat}
    {sup : List (Int × Int)} {t : Triangulator}
    (h : Triangulator.construct fuel s attr sup = some t) :
    ∃ t0, triangulate fuel s attr sup = some t0 ∧ TFrame t0 t ∧
      t0.m_dEdge.pool.chunk0.isSome = true := by
  simp only [Triangulator.construct, Option.bind_eq_bind, Option.bind_eq_some] at h
  obtain ⟨t0, h0, t1, h1, h⟩ := h
  obtain ⟨g1, ha⟩ := MarkHull_frame h1
  refine ⟨t0, h0, ?_, ha⟩
  split at h
  · simp only [Option.bind_eq_some] at h
    obtain ⟨t2, h2, t3, h3, h4⟩ := h
    exact g1.frameTrans ((GenerateTriangleIndices_frame h2).frameTrans ((voronoiPart_frame h3).frameTrans
      (GenerateNodeNeighbours_frame h4)))
  · simp only [Option.pure_def, Option.bind_eq_some, Option.some.injEq] at h
    obtain ⟨t2, h2, t3, h3, h4⟩ := h
    subst h2
    exact g1.frameTrans ((voronoiPart_frame h3).frameTrans (GenerateNodeNeighbours_frame h4))

/-! ## The attribute words and `m_num` during the triangulation -/

theorem wr_tidy {s s' : EdgeStore} {p : Ptr} {f : Edge → Edge} (hT : Tidy s)
    (hf : ∀ r, (f r).m_num = r.m_num) (h : s.wr p f = some s') : Tidy s' := by
  obtain ⟨i, rfl, _, _, rfl⟩ := wr_eq_some h
  refine ⟨hT.1, fun q => ?_⟩
  show (upd s.edge i (f (s.edge i)) (4 * q)).m_num = 0
  unfold upd
  split
  · rename_i hq
    rw [hf, ← hq]
    exact hT.2 q
  · exact hT.2 q

theorem Onext_Set_tidy {s s' : EdgeStore} {p e : Ptr} (hT : Tidy s)
    (h : Onext_Set s p e = some s') : Tidy s' := by
  have h' : s.wr p (fun r => { r with m_next := e }) = some s' := h
  refine wr_tidy hT ?_ h'
  intro r
  rfl

theorem Org_Set_tidy {s s' : EdgeStore} {p e : Ptr} (hT : Tidy s)
    (h : Org_Set s p e = some s') : Tidy s' := by
  have h' : s.wr p (fun r => { r with m_data0 := e }) = some s' := h
  refine wr_tidy hT ?_ h'
  intro r
  rfl

theorem Dest_Set_tidy {s s' : EdgeStore} {p e : Ptr} (hT : Tidy s)
    (h : Dest_Set s p e = some s') : Tidy s' := by
  simp only [Dest_Set, Option.bind_eq_bind, Option.bind_eq_some] at h
  obtain ⟨q, _, h⟩ := h
  exact Org_Set_tidy hT h

theorem Splice_tidy {s s' : EdgeStore} {a b : Ptr} (hT : Tidy s)
    (h : Splice s a b = some s') : Tidy s' := by
  simp only [Splice, Option.bind_eq_bind, Option.bind_eq_some] at h
  obtain ⟨_, _, _, _, _, _, _, _, _, _, _, _, s1, h1, s2, h2, _, _, _, _, s3, h3, s4, h4, h⟩ := h
  simp only [Option.pure_def, Option.some.injEq] at h
  subst h
  exact Onext_Set_tidy (Onext_Set_tidy (Onext_Set_tidy (Onext_Set_tidy hT h1) h2) h3) h4

theorem MakeEdge_tidy {s s' : EdgeStore} {e : Ptr} (hT : Tidy s)
    (h : MakeEdge s = some (e, s')) : Tidy s' := by
  unfold MakeEdge at h
  split at h
  · simp at h
  · rename_i pool1 created q _
    simp only [Option.some.injEq, Prod.mk.injEq] at h
    obtain ⟨_, rfl⟩ := h
    refine ⟨fun q' => ?_, fun q' => ?_⟩
    · show upd _ q (SetInUse 0) q' = 0 ∨ upd _ q (SetInUse 0) q' = 1
      unfold upd
      split
      · right; rfl
      · split
        · left; rfl
        · exact hT.1 q'
    · dsimp only
      unfold upd
      rw [if_neg (by omega), if_neg (by omega), if_neg (by omega)]
      split
      · rfl
      · split
        · rfl
        · exact hT.2 q'

theorem SetFree_bit {a : Nat} (h : a = 0 ∨ a = 1) : SetFree a = 0 := by
  rcases h with rfl | rfl <;> rfl

theorem release_tidy {s s' : EdgeStore} {e : Ptr} (hT : Tidy s)
    (h : release s e = some s') : Tidy s' := by
  simp only [release, Option.bind_eq_bind, Option.bind_eq_some] at h
  obtain ⟨q, _, ⟨pool1, ok⟩, _, h⟩ := h
  split at h
  · simp only [Option.pure_def, Option.some.injEq] at h
    subst h
    refine ⟨fun q' => ?_, fun q' => ?_⟩
    · show upd _ q 0 q' = 0 ∨ upd _ q 0 q' = 1
      unfold upd
      split
      · left; rfl
      · exact hT.1 q'
    · show (upd (upd (upd (upd s.edge _ _) _ _) _ _) _ _ (4 * q')).m_num = 0
      unfold upd
      split
      · rfl
      · split
        · rfl
        · split
          · rfl
          · split
            · rfl
            · exact hT.2 q'
  · simp only [Option.pure_def, Option.some.injEq] at h
    subst h
    refine ⟨fun q' => ?_, hT.2⟩
    show upd s.attr q (SetFree (s.attr q)) q' = 0 ∨ upd s.attr q (SetFree (s.attr q)) q' = 1
    unfold upd
    split
    · left; exact SetFree_bit (hT.1 q)
    · exact hT.1 q'

theorem detach_tidy {s s' : EdgeStore} {e : Ptr} (hT : Tidy s)
    (h : detach s e = some s') : Tidy s' := by
  simp only [detach, Option.bind_eq_bind, Option.bind_eq_some] at h
  obtain ⟨_, _, h⟩ := h
  split at h
  · simp only [Option.bind_eq_some] at h
    obtain ⟨_, _, h⟩ := h
    exact Splice_tidy hT h
  · simp only [Option.pure_def, Option.some.injEq] at h
    subst h
    exact hT

theorem Delete_tidy {s s' : EdgeStore} {e : Ptr} (hT : Tidy s)
    (h : Delete s e = some s') : Tidy s' := by
  simp only [Delete, Option.bind_eq_bind, Option.bind_eq_some] at h
  obtain ⟨f, _, s1, hd1, s2, hd2, hr⟩ := h
  exact release_tidy (detach_tidy (detach_tidy hT hd1) hd2) hr

theorem Connect_tidy {s s' : EdgeStore} {a b e : Ptr} (hT : Tidy s)
    (h : Connect s a b = some (e, s')) : Tidy s' := by
  simp only [Connect, Option.bind_eq_bind, Option.bind_eq_some] at h
  obtain ⟨⟨e1, s1⟩, hm, h⟩ := h
  simp only [Option.bind_eq_some] at h
  obtain ⟨d, _, s2, ho, o, _, s3, hd, y, hy, s4, hS1, f, hf, s5, hS2, hres⟩ := h
  simp only [Option.pure_def, Option.some.injEq, Prod.mk.injEq] at hres
  obtain ⟨rfl, rfl⟩ := hres
  exact Splice_tidy (Splice_tidy (Dest_Set_tidy (Org_Set_tidy (MakeEdge_tidy hT hm) ho) hd) hS1)
    hS2

theorem lcandLoop_tidy {sites : List Site} {basel : Ptr} (fuel : Nat) :
    ∀ {s s' : EdgeStore} {lcand l : Ptr}, Tidy s →
      lcandLoop sites basel fuel s lcand = some (l, s') → Tidy s' := by
  induction fuel with
  | zero => intro s s' lcand l _ h; simp [lcandLoop] at h
  | succ k ih =>
    intro s s' lcand l hT h
    simp only [lcandLoop, Option.bind_eq_bind, Option.bind_eq_some] at h
    obtain ⟨_, _, _, _, _, _, _, _, _, _, c, _, h⟩ := h
    split at h
    · simp only [Option.bind_eq_some] at h
      obtain ⟨t, ht, s1, hd, h⟩ := h
      exact ih (Delete_tidy hT hd) h
    · simp only [Option.pure_def, Option.some.injEq, Prod.mk.injEq] at h
      obtain ⟨rfl, rfl⟩ := h
      exact hT

theorem rcandLoop_tidy {sites : List Site} {basel : Ptr} (fuel : Nat) :
    ∀ {s s' : EdgeStore} {rcand r : Ptr}, Tidy s →
      rcandLoop sites basel fuel s rcand = some (r, s') → Tidy s' := by
  induction fuel with
  | zero => intro s s' rcand r _ h; simp [rcandLoop] at h
  | succ k ih =>
    intro s s' rcand r hT h
    simp only [rcandLoop, Option.bind_eq_bind, Option.bind_eq_some] at h
    obtain ⟨_, _, _, _, _, _, _, _, _, _, c, _, h⟩ := h
    split at h
    · simp only [Option.bind_eq_some] at h
      obtain ⟨t, ht, s1, hd, h⟩ := h
      exact ih (Delete_tidy hT hd) h
    · simp only [Option.pure_def, Option.some.injEq, Prod.mk.injEq] at h
      obtain ⟨rfl, rfl⟩ := h
      exact hT

theorem leftCandidate_tidy {sites : List Site} {loopFuel : Nat} {s s' : EdgeStore}
    {basel l : Ptr} (hT : Tidy s)
    (h : leftCandidate sites loopFuel s basel = some (l, s')) : Tidy s' := by
  simp only [leftCandidate, Option.bind_eq_bind, Option.bind_eq_some] at h
  obtain ⟨f, hf, lc, hlc, _, _, c, _, h⟩ := h
  split at h
  · exact lcandLoop_tidy _ hT h
  · simp only [Option.pure_def, Option.some.injEq, Prod.mk.injEq] at h
    obtain ⟨rfl, rfl⟩ := h
    exact hT

theorem rightCandidate_tidy {sites : List Site} {loopFuel : Nat} {s s' : EdgeStore}
    {basel r : Ptr} (hT : Tidy s)
    (h : rightCandidate sites loopFuel s basel = some (r, s')) : Tidy s' := by
  simp only [rightCandidate, Option.bind_eq_bind, Option.bind_eq_some] at h
  obtain ⟨rc, hrc, _, _, c, _, h⟩ := h
  split at h
  · exact rcandLoop_tidy _ hT h
  · simp only [Option.pure_def, Option.some.injEq, Prod.mk.injEq] at h
    obtain ⟨rfl, rfl⟩ := h
    exact hT

theorem mergeConnect_tidy {sites : List Site} {s s' : EdgeStore}
    {basel lcand rcand e : Ptr} (hT : Tidy s)
    (h : mergeConnect sites s basel lcand rcand = some (e, s')) : Tidy s' := by
  simp only [mergeConnect, Option.bind_eq_bind, Option.bind_eq_some] at h
  obtain ⟨c, _, h⟩ := h
  split at h
  · simp only [Option.bind_eq_some] at h
    obtain ⟨f, hf, h⟩ := h
    exact Connect_tidy hT h
  · simp only [Option.bind_eq_some] at h
    obtain ⟨f, hf, f', hf', h⟩ := h
    exact Connect_tidy hT h

theorem mergeStep_tidy {sites : List Site} {loopFuel : Nat} {s s' : EdgeStore}
    {basel : Ptr} {r : Option Ptr} (hT : Tidy s)
    (h : mergeStep sites loopFuel s basel = some (s', r)) : Tidy s' := by
  simp only [mergeStep, Option.bind_eq_bind, Option.bind_eq_some] at h
  obtain ⟨⟨l, s1⟩, h1, h⟩ := h
  simp only [Option.bind_eq_some] at h
  obtain ⟨⟨rc, s2⟩, h2, h⟩ := h
  simp only [Option.bind_eq_some] at h
  obtain ⟨c, _, h⟩ := h
  have hT2 := rightCandidate_tidy (leftCandidate_tidy hT h1) h2
  split at h
  · simp only [Option.pure_def, Option.some.injEq, Prod.mk.injEq] at h
    obtain ⟨rfl, rfl⟩ := h
    exact hT2
  · simp only [Option.bind_eq_some] at h
    obtain ⟨⟨e, s3⟩, h3, h⟩ := h
    simp only [Option.pure_def, Option.some.injEq, Prod.mk.injEq] at h
    obtain ⟨rfl, rfl⟩ := h
    exact mergeConnect_tidy hT2 h3

theorem mergeLoop_tidy {sites : List Site} {loopFuel : Nat} (fuel : Nat) :
    ∀ {s s' : EdgeStore} {basel : Ptr}, Tidy s →
      mergeLoop sites loopFuel fuel s basel = some s' → Tidy s' := by
  induction fuel with
  | zero => intro s s' basel _ h; simp [mergeLoop] at h
  | succ k ih =>
    intro s s' basel hT h
    simp only [mergeLoop] at h
    split at h
    · simp at h
    · rename_i s1 hs
      obtain rfl : s1 = s' := by simpa using h
      exact mergeStep_tidy hT hs
    · rename_i s1 b1 hs
      exact ih (mergeStep_tidy hT hs) h

theorem Delaunay2_tidy {s s' : EdgeStore} {sl : Nat} {le re : Ptr} (hT : Tidy s)
    (h : Delaunay2 s sl = some ((le, re), s')) : Tidy s' := by
  simp only [Delaunay2, Option.bind_eq_bind, Option.bind_eq_some] at h
  obtain ⟨⟨a, s1⟩, hm, h⟩ := h
  simp only [Option.bind_eq_some] at h
  obtain ⟨s2, h2, s3, h3, f, hf, h⟩ := h
  simp only [Option.pure_def, Option.some.injEq, Prod.mk.injEq] at h
  obtain ⟨⟨rfl, rfl⟩, rfl⟩ := h
  exact Dest_Set_tidy (Org_Set_tidy (MakeEdge_tidy hT hm) h2) h3

theorem Delaunay3Chain_tidy {s s' : EdgeStore} {sl : Nat} {a b : Ptr}
    (hT : Tidy s) (h : Delaunay3Chain s sl = some ((a, b), s')) : Tidy s' := by
  simp only [Delaunay3Chain, Option.bind_eq_bind, Option.bind_eq_some] at h
  obtain ⟨⟨a1, s1⟩, hm1, h⟩ := h
  simp only [Option.bind_eq_some] at h
  obtain ⟨⟨b1, s2⟩, hm2, h⟩ := h
  simp only [Option.bind_eq_some] at h
  obtain ⟨f, hf, s3, hS, s4, h4, s5, h5, s6, h6, s7, h7, h⟩ := h
  simp only [Option.pure_def, Option.some.injEq, Prod.mk.injEq] at h
  obtain ⟨⟨rfl, rfl⟩, rfl⟩ := h
  have hT3 := Splice_tidy (MakeEdge_tidy (MakeEdge_tidy hT hm1) hm2) hS
  exact Dest_Set_tidy (Org_Set_tidy (Dest_Set_tidy (Org_Set_tidy hT3 h4) h5) h6) h7

theorem Delaunay3_tidy {sites : List Site} {s s' : EdgeStore} {sl : Nat}
    {le re : Ptr} (hT : Tidy s) (h : Delaunay3 sites s sl = some ((le, re), s')) :
    Tidy s' := by
  simp only [Delaunay3, Option.bind_eq_bind, Option.bind_eq_some] at h
  obtain ⟨ct, _, ⟨⟨a, b⟩, s1⟩, hch, h⟩ := h
  have hT1 := Delaunay3Chain_tidy hT hch
  simp only [] at h
  split at h
  · simp only [Option.bind_eq_some] at h
    obtain ⟨f, hf, h⟩ := h
    simp only [Option.pure_def, Option.some.injEq, Prod.mk.injEq] at h
    obtain ⟨⟨rfl, rfl⟩, rfl⟩ := h
    exact hT1
  · simp only [Option.bind_eq_some] at h
    obtain ⟨⟨c, s2⟩, hc, h⟩ := h
    have hT2 := Connect_tidy hT1 hc
    simp only [] at h
    split at h
    · simp only [Option.bind_eq_some] at h
      obtain ⟨f, hf, h⟩ := h
      simp only [Option.pure_def, Option.some.injEq, Prod.mk.injEq] at h
      obtain ⟨⟨rfl, rfl⟩, rfl⟩ := h
      exact hT2
    · simp only [Option.bind_eq_some] at h
      obtain ⟨f, hf, h⟩ := h
      simp only [Option.pure_def, Option.some.injEq, Prod.mk.injEq] at h
      obtain ⟨⟨rfl, rfl⟩, rfl⟩ := h
      exact hT2

theorem DelaunayMerge_tidy {sites : List Site} {fuel : Nat} {s s' : EdgeStore}
    {ldo ldi rdi rdo le re : Ptr} (hT : Tidy s)
    (h : DelaunayMerge sites fuel s ldo ldi rdi rdo = some ((le, re), s')) : Tidy s' := by
  simp only [DelaunayMerge, Option.bind_eq_bind, Option.bind_eq_some] at h
  obtain ⟨⟨l, r⟩, ht, h⟩ := h
  simp only [Option.bind_eq_some] at h
  obtain ⟨f, hf, ⟨basel, s1⟩, hc, h⟩ := h
  simp only [Option.bind_eq_some] at h
  obtain ⟨⟨a, b⟩, hfo, h⟩ := h
  simp only [Option.bind_eq_some] at h
  obtain ⟨s2, hm, h⟩ := h
  simp only [Option.pure_def, Option.some.injEq, Prod.mk.injEq] at h
  obtain ⟨⟨rfl, rfl⟩, rfl⟩ := h
  exact mergeLoop_tidy _ (Connect_tidy hT hc) hm

theorem Delaunay_tidy {sites : List Site} (fuel : Nat) :
    ∀ {s s' : EdgeStore} {sl sh : Nat} {le re : Ptr}, Tidy s →
      Delaunay sites fuel s sl sh = some ((le, re), s') → Tidy s' := by
  induction fuel with
  | zero => intro s s' sl sh le re _ h; simp [Delaunay] at h
  | succ k ih =>
    intro s s' sl sh le re hT h
    simp only [Delaunay] at h
    split at h
    · exact Delaunay2_tidy hT h
    · split at h
      · exact Delaunay3_tidy hT h
      · split at h
        · simp at h
        · rename_i ldo ldi s1 h1
          have hT1 := ih hT h1
          split at h
          · simp at h
          · rename_i rdi rdo s2 h2
            exact DelaunayMerge_tidy (ih hT1 h2) h

theorem init_tidy (cap : Nat) : Tidy (EdgeStore.init cap) :=
  ⟨fun _ => Or.inl rfl, fun _ => rfl⟩

theorem triangulate_tidy {fuel : Nat} {s : List (Int × Int)} {attr : Nat}
    {sup : List (Int × Int)} {t : Triangulator} (h : triangulate fuel s attr sup = some t) :
    Tidy t.m_dEdge := by
  simp only [triangulate, Option.bind_eq_bind, Option.bind_eq_some] at h
  obtain ⟨unsorted, _, ⟨⟨le, re⟩, es⟩, hD, h⟩ := h
  simp only [Option.pure_def, Option.some.injEq] at h
  subst h
  exact Delaunay_tidy _ (init_tidy _) hD

theorem Tidy.zeroFree {s : EdgeStore} (hT : Tidy s) : ZeroFree s := by
  refine ⟨fun q hq => ?_, hT.2⟩
  rcases hT.1 q with h | h
  · exact h
  · rw [h] at hq
    exact absurd hq (by decide)

theorem SameShape.shapeRefl (s : EdgeStore) : SameShape s s :=
  ⟨rfl, fun _ => rfl, fun _ => ⟨rfl, rfl⟩⟩

theorem SameShape.shapeTrans {a b c : EdgeStore} (h1 : SameShape a b) (h2 : SameShape b c) :
    SameShape a c :=
  ⟨h2.1.trans h1.1, fun q => (h2.2.1 q).trans (h1.2.1 q),
    fun p => ⟨((h2.2.2 p).1).trans ((h1.2.2 p).1), ((h2.2.2 p).2).trans ((h1.2.2 p).2)⟩⟩

theorem SameShape.inUse {s s' : EdgeStore} (h : SameShape s s') (p : Nat) :
    InUse s' p ↔ InUse s p := by
  unfold InUse
  rw [h.1, h.2.1]

theorem SameShape.live {s s' : EdgeStore} (h : SameShape s s') {e : Ptr} (hl : Live s e) :
    Live s' e := by
  obtain ⟨i, hi, hu⟩ := hl
  exact ⟨i, hi, (h.inUse i).2 hu⟩

theorem WF_shape {s s' : EdgeStore} {st : List Nat} (hw : WF s st) (h : SameShape s s') :
    WF s' st := by
  have hiu := h.inUse
  have he := h.2.2
  have hnx : ∀ p, nxt s' p = nxt s p := by intro p; unfold nxt; rw [(he p).2]
  refine ⟨hw.nodup, ?_, ?_, ?_, ?_, ?_, ?_⟩
  · intro q; rw [h.1, h.2.1]; exact hw.mem_free q
  · intro p h1 h2; rw [(he p).2]; rw [h.1] at h1; rw [h.2.1] at h2; exact hw.free_next p h1 h2
  · intro p hp; rw [(he p).1]; exact hw.num p ((hiu p).1 hp)
  · intro p hp
    obtain ⟨g1, g2, g3⟩ := hw.next p ((hiu p).1 hp)
    exact ⟨by rw [(he p).2, hnx]; exact g1, by rw [hnx]; exact (hiu _).2 g2, by rw [hnx]; exact g3⟩
  · intro p q h1 h2 h3; rw [hnx, hnx] at h3; exact hw.inj p q ((hiu p).1 h1) ((hiu q).1 h2) h3
  · intro p hp; rw [hnx, hnx]; exact hw.e8 p ((hiu p).1 hp)

theorem Inv_shape {s s' : EdgeStore} (hI : Inv s) (h : SameShape s s') : Inv s' := by
  intro st hc
  rw [h.1] at hc
  exact WF_shape (hI st hc) h

theorem Live_Onext {s : EdgeStore} (hI : Inv s) {e p : Ptr} (hl : Live s e)
    (h : Onext s e = some p) : Live s p := by
  obtain ⟨i, rfl, hu⟩ := hl
  obtain ⟨_, _, ha, _, _⟩ := Onext_eq_some h
  obtain ⟨st, hc⟩ := alive_some ha
  have hw := hI st hc
  rw [WF.Onext_inUse hc hw hu] at h
  obtain rfl : some (nxt s i) = p := by simpa using h
  exact ⟨_, rfl, (hw.next i hu).2.1⟩

theorem Live_Lnext {s : EdgeStore} (hI : Inv s) {e p : Ptr} (hl : Live s e)
    (h : Lnext s e = some p) : Live s p := by
  obtain ⟨i, rfl, hu⟩ := hl
  simp only [Lnext, Option.bind_eq_bind, Option.bind_eq_some] at h
  obtain ⟨a, ha, b, hb, h⟩ := h
  obtain ⟨_, _, _, _, hal, _⟩ := Tor_eq_some ha
  obtain ⟨st, hc⟩ := alive_some hal
  have hw := hI st hc
  rw [WF.Tor_inUse hc hw hu] at ha
  obtain rfl : some (torI i) = a := by simpa using ha
  rw [WF.Onext_inUse hc hw hu.torI] at hb
  obtain rfl : some (nxt s (torI i)) = b := by simpa using hb
  have hu2 := (hw.next _ hu.torI).2.1
  rw [WF.Rot_inUse hc hw hu2] at h
  obtain rfl : some (rotI (nxt s (torI i))) = p := by simpa using h
  exact ⟨_, rfl, hu2.rotI⟩

theorem Live_of_notFree {s : EdgeStore} (hZ : ZeroFree s) {i : Nat}
    (h : isFreeOf s (some (4 * i)) = some false) : Live s (some (4 * i)) := by
  simp only [isFreeOf, Option.bind_eq_bind, Option.bind_eq_some, Option.pure_def,
    Option.some.injEq] at h
  obtain ⟨q, hq, hf⟩ := h
  obtain ⟨j, hj, _, hlt, hnum⟩ := Qedge_eq_some hq
  obtain rfl : 4 * i = j := by simpa using hj
  have := hnum (by rw [hZ.2 i]; omega)
  subst this
  exact ⟨_, rfl, hlt, hf⟩

theorem incVisited_good {s s' : EdgeStore} {e : Ptr} (hG : Good s) (hl : Live s e)
    (h : incVisited s e = some s') : Good s' ∧ SameShape s s' := by
  simp only [incVisited, Option.bind_eq_bind, Option.bind_eq_some] at h
  obtain ⟨q, hq, h⟩ := h
  simp only [Option.pure_def, Option.some.injEq] at h
  subst h
  obtain ⟨i, rfl, hu⟩ := hl
  obtain ⟨j, hj, ha, _, hnum⟩ := Qedge_eq_some hq
  obtain rfl : i = j := by simpa using hj
  obtain ⟨st, hc⟩ := alive_some ha
  have hw := hG.1 st hc
  have := hnum (hw.num i hu)
  subst this
  have hsh : SameShape s { s with attr := upd s.attr (i / 4) (IncrementVisited (s.attr (i / 4))) } := by
    refine ⟨rfl, fun q' => ?_, fun _ => ⟨rfl, rfl⟩⟩
    show IsFree (upd s.attr (i / 4) (IncrementVisited (s.attr (i / 4))) q') = _
    unfold upd
    split
    · rename_i hq'; subst hq'; exact IsFree_IncrementVisited _
    · rfl
  refine ⟨⟨Inv_shape hG.1 hsh, ?_, hG.2.2⟩, hsh⟩
  intro q' hf
  have hf0 := hf
  rw [hsh.2.1 q'] at hf0
  show upd s.attr (i / 4) (IncrementVisited (s.attr (i / 4))) q' = 0
  unfold upd
  split
  · rename_i hq'
    subst hq'
    rw [hu.2] at hf0
    cases hf0
  · exact hG.2.1 q' hf0

theorem ResetVisited_zero : ResetVisited 0 = 0 := rfl

theorem resetVisited_good {s s' : EdgeStore} {m : Nat} (hG : Good s)
    (h : resetVisited s m = some s') : Good s' ∧ SameShape s s' := by
  unfold resetVisited at h
  split at h
  · obtain rfl : s = s' := by simpa using h
    exact ⟨hG, SameShape.shapeRefl _⟩
  · split at h
    · obtain rfl := Option.some.inj h
      have hsh : SameShape s
          { s with attr := fun q => if q < m then ResetVisited (s.attr q) else s.attr q } := by
        refine ⟨rfl, fun q => ?_, fun _ => ⟨rfl, rfl⟩⟩
        show IsFree (if q < m then ResetVisited (s.attr q) else s.attr q) = _
        split
        · exact IsFree_ResetVisited _
        · rfl
      refine ⟨⟨Inv_shape hG.1 hsh, ?_, hG.2.2⟩, hsh⟩
      intro q hf
      have hf0 := hf
      rw [hsh.2.1 q] at hf0
      have h0 := hG.2.1 q hf0
      show (if q < m then ResetVisited (s.attr q) else s.attr q) = 0
      rw [h0]
      split <;> rfl
    · simp at h

theorem markFace_good {s s' : EdgeStore} {e eo el : Ptr} (hG : Good s) (h1 : Live s e)
    (h2 : Live s eo) (h3 : Live s el) (h : markFace s e eo el = some s') :
    Good s' ∧ SameShape s s' := by
  simp only [markFace, Option.bind_eq_bind, Option.bind_eq_some] at h
  obtain ⟨s1, g1, s2, g2, g3⟩ := h
  obtain ⟨a1, b1⟩ := incVisited_good hG h1 g1
  obtain ⟨a2, b2⟩ := incVisited_good a1 (b1.live h2) g2
  obtain ⟨a3, b3⟩ := incVisited_good a2 (b2.live (b1.live h3)) g3
  exact ⟨a3, b1.shapeTrans (b2.shapeTrans b3)⟩

theorem wr_good {s s' : EdgeStore} {p : Ptr} {f : Edge → Edge} (hG : Good s)
    (hf : ∀ r, (f r).m_num = r.m_num ∧ (f r).m_next = r.m_next) (h : s.wr p f = some s') :
    Good s' ∧ SameShape s s' := by
  obtain ⟨hI, hp, hat⟩ := wr_inv hG.1 hf h
  obtain ⟨i, rfl, _, _, rfl⟩ := wr_eq_some h
  have he : ∀ p, ((upd s.edge i (f (s.edge i))) p).m_num = (s.edge p).m_num ∧
      ((upd s.edge i (f (s.edge i))) p).m_next = (s.edge p).m_next := by
    intro p
    unfold upd
    split
    · rename_i hpi; subst hpi; exact hf _
    · exact ⟨rfl, rfl⟩
  refine ⟨⟨hI, hG.2.1, fun q => ?_⟩, rfl, fun _ => rfl, he⟩
  exact ((he (4 * q)).1).trans (hG.2.2 q)

theorem VOrg_Set_good {s s' : EdgeStore} {p vs : Ptr} (hG : Good s)
    (h : VOrg_Set s p vs = some s') : Good s' ∧ SameShape s s' := by
  have h' : s.wr p (fun r => { r with m_data1 := vs }) = some s' := h
  refine wr_good hG ?_ h'
  intro r; exact ⟨rfl, rfl⟩

theorem VDest_Set_good {s s' : EdgeStore} {p vs : Ptr} (hG : Good s)
    (h : VDest_Set s p vs = some s') : Good s' ∧ SameShape s s' := by
  simp only [VDest_Set, Option.bind_eq_bind, Option.bind_eq_some] at h
  obtain ⟨q, _, h⟩ := h
  exact VOrg_Set_good hG h

theorem attachVertex_good {s s' : EdgeStore} {e eo el vs : Ptr} (hG : Good s)
    (h : attachVertex s e eo el vs = some s') : Good s' ∧ SameShape s s' := by
  simp only [attachVertex, Option.bind_eq_bind, Option.bind_eq_some] at h
  obtain ⟨s1, h1, s2, h2, h3⟩ := h
  obtain ⟨a1, b1⟩ := VDest_Set_good hG h1
  obtain ⟨a2, b2⟩ := VOrg_Set_good a1 h2
  obtain ⟨a3, b3⟩ := VDest_Set_good a2 h3
  exact ⟨a3, b1.shapeTrans (b2.shapeTrans b3)⟩

theorem foldlM_inv {σ : Type} (P : σ → Prop) (f : σ → Nat → Option σ)
    (hf : ∀ a i b, P a → f a i = some b → P b) :
    ∀ (l : List Nat) (a b : σ), P a → l.foldlM f a = some b → P b := by
  intro l
  induction l with
  | nil =>
    intro a b hP h
    simp only [List.foldlM_nil, Option.pure_def, Option.some.injEq] at h
    subst h
    exact hP
  | cons i l ih =>
    intro a b hP h
    simp only [List.foldlM_cons, Option.bind_eq_bind, Option.bind_eq_some] at h
    obtain ⟨c, hc, h⟩ := h
    exact ih c b (hf a i c hP hc) h

theorem MarkHull_dEdge {fuel : Nat} {t t' : Triangulator} (h : MarkHull fuel t = some t') :
    t'.m_dEdge = t.m_dEdge := by
  simp only [MarkHull, Option.bind_eq_bind, Option.bind_eq_some] at h
  obtain ⟨hull, hh, h⟩ := h
  split at h
  · simp only [Option.bind_eq_some] at h
    obtain ⟨out, _, h⟩ := h
    simp only [Option.pure_def, Option.some.injEq] at h
    subst h; rfl
  · simp only [Option.pure_def, Option.some.injEq] at h
    subst h; rfl

/-! ### GenerateTriangleIndices -/

theorem triVisit_good {t t' : Triangulator} {e eo : Ptr} (hG : Good t.m_dEdge)
    (hl : Live t.m_dEdge e) (h : triVisit t e = some (t', eo)) :
    Good t'.m_dEdge ∧ Live t'.m_dEdge eo := by
  simp only [triVisit, Option.bind_eq_bind, Option.bind_eq_some] at h
  obtain ⟨eOnext, hon, eLnext, hln, c, _, h⟩ := h
  have l2 := Live_Onext hG.1 hl hon
  have l3 := Live_Lnext hG.1 hl hln
  split at h
  · simp only [Option.bind_eq_some] at h
    obtain ⟨t1, h1, s1, h2, h⟩ := h
    simp only [Option.pure_def, Option.some.injEq, Prod.mk.injEq] at h
    obtain ⟨rfl, rfl⟩ := h
    obtain ⟨_, g2⟩ := emitTriangle_frame h1
    rw [g2] at h2
    obtain ⟨a, b⟩ := markFace_good hG hl l2 l3 h2
    exact ⟨a, b.live l2⟩
  · simp only [Option.pure_def, Option.some.injEq, Prod.mk.injEq] at h
    obtain ⟨rfl, rfl⟩ := h
    exact ⟨hG, l2⟩

theorem countEdge_good {t t' : Triangulator} {e : Ptr} (hG : Good t.m_dEdge)
    (hl : Live t.m_dEdge e) (h : countEdge t e = some t') : Good t'.m_dEdge := by
  simp only [countEdge, Option.bind_eq_bind, Option.bind_eq_some] at h
  obtain ⟨_, _, src, _, _, _, dst, _, s1, hs, h⟩ := h
  have g := (incVisited_good hG hl hs).1
  split at h
  · simp only [Option.bind_eq_some] at h
    obtain ⟨n1, _, n2, _, h⟩ := h
    simp only [Option.pure_def, Option.some.injEq] at h
    subst h; exact g
  · simp only [Option.pure_def, Option.some.injEq] at h
    subst h; exact g

theorem countSlot_good {t t' : Triangulator} {i : Nat} (hG : Good t.m_dEdge)
    (h : countSlot t i = some t') : Good t'.m_dEdge := by
  simp only [countSlot, Option.bind_eq_bind, Option.bind_eq_some] at h
  obtain ⟨c, hc, h⟩ := h
  split at h
  · simp only [Option.pure_def, Option.some.injEq] at h
    subst h; exact hG
  · rename_i hcf
    have hc' : isFreeOf t.m_dEdge (some (4 * i)) = some false := by
      rw [hc]; simpa using hcf
    simp only [Option.bind_eq_some] at h
    obtain ⟨v, _, h⟩ := h
    split at h
    · exact countEdge_good hG (Live_of_notFree hG.2 hc') h
    · simp only [Option.pure_def, Option.some.injEq] at h
      subst h; exact hG

theorem storeVisit_good {t t' : Triangulator} {temp temp' : List Nat} {e : Ptr}
    (hG : Good t.m_dEdge) (hl : Live t.m_dEdge e)
    (h : storeVisit t temp e = some (t', temp')) : Good t'.m_dEdge := by
  simp only [storeVisit, Option.bind_eq_bind, Option.bind_eq_some] at h
  obtain ⟨_, _, src, _, _, _, dst, _, _, _, _, _, v, _, h⟩ := h
  split at h
  · split at h
    · simp only [Option.bind_eq_some] at h
      obtain ⟨⟨t1, temp1⟩, h1, s1, hs, h⟩ := h
      simp only [Option.pure_def, Option.some.injEq, Prod.mk.injEq] at h
      obtain ⟨rfl, rfl⟩ := h
      obtain ⟨_, g1'⟩ := storeEdge_frame h1
      simp only [g1'] at hs
      exact (incVisited_good hG hl hs).1
    · simp only [Option.pure_def, Option.some_bind, Option.bind_eq_some] at h
      obtain ⟨s1, hs, h⟩ := h
      simp only [Option.some.injEq, Prod.mk.injEq] at h
      obtain ⟨rfl, rfl⟩ := h
      exact (incVisited_good hG hl hs).1
  · simp only [Option.pure_def, Option.some.injEq, Prod.mk.injEq] at h
    obtain ⟨rfl, rfl⟩ := h
    exact hG

theorem storeSlot_good {st st' : Triangulator × List Nat} {i : Nat}
    (hG : Good st.1.m_dEdge) (h : storeSlot st i = some st') : Good st'.1.m_dEdge := by
  simp only [storeSlot, Option.bind_eq_bind, Option.bind_eq_some] at h
  obtain ⟨c, hc, h⟩ := h
  split at h
  · simp only [Option.pure_def, Option.some.injEq] at h
    subst h; exact hG
  · rename_i hcf
    have hc' : isFreeOf st.1.m_dEdge (some (4 * i)) = some false := by
      rw [hc]; simpa using hcf
    exact storeVisit_good hG (Live_of_notFree hG.2 hc') h

theorem triangulate_good {fuel : Nat} {s : List (Int × Int)} {attr : Nat}
    {sup : List (Int × Int)} {t : Triangulator} (h : triangulate fuel s attr sup = some t) :
    Good t.m_dEdge :=
  ⟨(triangulate_spec h).1.1, (triangulate_tidy h).zeroFree⟩

theorem MarkHull_attr {fuel : Nat} {t t' : Triangulator} (h : MarkHull fuel t = some t') :
    t'.m_attributes = t.m_attributes := by
  simp only [MarkHull, Option.bind_eq_bind, Option.bind_eq_some] at h
  obtain ⟨hull, _, h⟩ := h
  split at h
  · simp only [Option.bind_eq_some, Option.pure_def, Option.some.injEq] at h
    obtain ⟨out, _, rfl⟩ := h
    rfl
  · simp only [Option.pure_def, Option.some.injEq] at h
    subst h
    rfl

theorem construct_eq_afterSort (fuel : Nat) (s : List (Int × Int)) (attr : Nat)
    (sup : List (Int × Int)) :
    Triangulator.construct fuel s attr sup =
      (initialSites s sup attr).bind fun u => afterSort fuel attr s.length (SortSites u) := by
  unfold Triangulator.construct triangulate afterSort passes
  cases initialSites s sup attr with
  | none => rfl
  | some u =>
    simp only [Option.bind_eq_bind, Option.some_bind, List.length_insertionSort, SortSites]
    cases Delaunay (List.insertionSort siteLE u) fuel (EdgeStore.init (u.length * 3)) 0 u.length with
    | none => rfl
    | some r =>
      obtain ⟨⟨le, re⟩, es⟩ := r
      simp only [Option.some_bind, Option.pure_def]
      cases hM : MarkHull fuel (accounted attr s.length (List.insertionSort siteLE u) ((le, re), es)) with
      | none =>
        have hM' := hM
        unfold accounted at hM'
        simp only [List.length_insertionSort] at hM'
        rw [hM']
        rfl
      | some t1 =>
        have ha := MarkHull_attr hM
        have hM' := hM
        unfold accounted at hM'
        simp only [List.length_insertionSort] at hM'
        rw [hM']
        simp only [Option.some_bind]
        rw [ha]
        rfl

/-! ## Erasure of coordinates -/

theorem siteAt_erase (sites : List Site) (p : Ptr) :
    siteAt (sites.map eraseSite) p = (siteAt sites p).map eraseSite := by
  cases p with
  | none => rfl
  | some i => simp [siteAt]

theorem m_id_erase (sites : List Site) (p : Ptr) :
    m_id (sites.map eraseSite) p = m_id sites p := by
  unfold m_id
  rw [siteAt_erase]
  cases siteAt sites p <;> rfl

theorem hullAt_erase (sites : List Site) (hull : List Nat) (p : Ptr) :
    hullAt (sites.map eraseSite) hull p = hullAt sites hull p := by
  unfold hullAt
  rw [m_id_erase]

theorem hasAttr_normAttr (a : Nat) :
    hasAttr (normAttr a) Triangulator_SuperTriangle = hasAttr a Triangulator_SuperTriangle ∧
    hasAttr (normAttr a) Triangulator_TriangleIndices
      = hasAttr a Triangulator_TriangleIndices ∧
    hasAttr (normAttr a) Triangulator_VoronoiVertices
      = hasAttr a Triangulator_VoronoiVertices ∧
    hasAttr (normAttr a) Triangulator_NodeNeighbours
      = hasAttr a Triangulator_NodeNeighbours := by
  unfold normAttr
  cases hasAttr a Triangulator_SuperTriangle <;> cases hasAttr a Triangulator_TriangleIndices <;>
    cases hasAttr a Triangulator_VoronoiVertices <;>
    cases hasAttr a Triangulator_NodeNeighbours <;> decide

theorem normAttr_normAttr (a : Nat) : normAttr (normAttr a) = normAttr a := by
  obtain ⟨h1, h2, h3, h4⟩ := hasAttr_normAttr a
  conv_lhs => rw [normAttr]
  rw [h1, h2, h3, h4]
  rfl

theorem eraseSite_eraseSite (s : Site) : eraseSite (eraseSite s) = eraseSite s := rfl

theorem map_erase_erase (l : List Site) :
    (l.map eraseSite).map eraseSite = l.map eraseSite := by
  rw [List.map_map]
  rfl

theorem erase_erase (t : Triangulator) : t.erase.erase = t.erase := by
  unfold Triangulator.erase
  simp only [map_erase_erase, normAttr_normAttr]

theorem hullLoop_erase (sites : List Site) (s : EdgeStore) (start : Ptr) (fuel : Nat) (le : Ptr)
    (hull : List Nat) :
    hullLoop (sites.map eraseSite) s start fuel le hull = hullLoop sites s start fuel le hull := by
  induction fuel generalizing le hull with
  | zero => rfl
  | succ n ih =>
    unfold hullLoop
    simp only [m_id_erase, ih]

theorem peelInner_erase (sites : List Site) (s : EdgeStore) (nInput : Nat) (st : Ptr) (fuel : Nat)
    (p : Ptr) (out : List Nat) :
    peelInner (sites.map eraseSite) s nInput st fuel p out
      = peelInner sites s nInput st fuel p out := by
  induction fuel generalizing p out with
  | zero => rfl
  | succ n ih =>
    unfold peelInner
    simp only [m_id_erase, ih]

theorem peelOuter_erase (sites : List Site) (s : EdgeStore) (nInput lf : Nat) (st : Ptr)
    (fuel : Nat) (p : Ptr) (out : List Nat) :
    peelOuter (sites.map eraseSite) s nInput lf st fuel p out
      = peelOuter sites s nInput lf st fuel p out := by
  induction fuel generalizing p out with
  | zero => rfl
  | succ n ih =>
    unfold peelOuter
    simp only [peelInner_erase, ih]

theorem MarkHull_erase (fuel : Nat) (t : Triangulator) :
    (MarkHull fuel t.erase).map Triangulator.erase
      = (MarkHull fuel t).map Triangulator.erase := by
  unfold MarkHull
  simp only [Triangulator.erase, hullLoop_erase, peelOuter_erase, (hasAttr_normAttr _).1]
  cases hullLoop t.m_sites t.m_dEdge t.m_le fuel t.m_le (List.replicate t.m_nSites 0) with
  | none => rfl
  | some hull =>
    simp only [Option.bind_eq_bind, Option.some_bind]
    split
    · cases peelOuter t.m_sites t.m_dEdge t.m_nInputSites fuel t.m_le fuel t.m_le
        (List.replicate t.m_nSites 0) with
      | none => rfl
      | some out =>
        simp only [Triangulator.erase, Option.some_bind, Option.pure_def, Option.map_some',
          map_erase_erase, normAttr_normAttr]
    · simp only [Triangulator.erase, Option.pure_def, Option.map_some', map_erase_erase,
        normAttr_normAttr]

theorem optMap_ite {α β : Type} (f : α → β) (c : Prop) [Decidable c] (a b : Option α) :
    (if c then a else b).map f = if c then a.map f else b.map f := by
  split <;> rfl

theorem bind_erase {β γ : Type} {x x' : Option Triangulator} {k : Triangulator → Option β}
    {g : β → γ} (hx : x'.map Triangulator.erase = x.map Triangulator.erase)
    (hk : ∀ r, (k r.erase).map g = (k r).map g) : (x'.bind k).map g = (x.bind k).map g := by
  cases x with
  | none =>
    cases x' with
    | none => rfl
    | some r' => simp at hx
  | some r =>
    cases x' with
    | none => simp at hx
    | some r' =>
      simp only [Option.map_some', Option.some.injEq] at hx
      simp only [Option.some_bind]
      rw [← hk r', ← hk r, hx]

theorem erase_m_dEdge (t : Triangulator) : t.erase.m_dEdge = t.m_dEdge := rfl
theorem erase_m_sites (t : Triangulator) : t.erase.m_sites = t.m_sites.map eraseSite := rfl
theorem erase_m_attributes (t : Triangulator) :
    t.erase.m_attributes = normAttr t.m_attributes := rfl
theorem erase_m_hull (t : Triangulator) : t.erase.m_hull = t.m_hull := rfl
theorem erase_m_nSites (t : Triangulator) : t.erase.m_nSites = t.m_nSites := rfl
theorem erase_m_nInputSites (t : Triangulator) : t.erase.m_nInputSites = t.m_nInputSites := rfl
theorem erase_m_nFaces (t : Triangulator) : t.erase.m_nFaces = t.m_nFaces := rfl
theorem erase_m_vEdgePool (t : Triangulator) : t.erase.m_vEdgePool = t.m_vEdgePool := rfl
theorem erase_m_nNeighbours (t : Triangulator) : t.erase.m_nNeighbours = t.m_nNeighbours := rfl
theorem erase_m_neighbours (t : Triangulator) : t.erase.m_neighbours = t.m_neighbours := rfl
theorem erase_m_nbStart (t : Triangulator) : t.erase.m_nbStart = t.m_nbStart := rfl

theorem noCornerOnHull_erase (t : Triangulator) (e eo : Ptr) :
    noCornerOnHull t.erase e eo = noCornerOnHull t e eo := by
  unfold noCornerOnHull
  simp only [Triangulator.erase, hullAt_erase]

theorem writeTriangle_erase (t : Triangulator) (e eo : Ptr) :
    (writeTriangle t.erase e eo).map Triangulator.erase
      = (writeTriangle t e eo).map Triangulator.erase := by
  unfold writeTriangle
  simp only [Triangulator.erase, m_id_erase, Option.bind_eq_bind, Option.map_bind,
    Option.pure_def, Option.map_some', map_erase_erase, normAttr_normAttr, apply_ite,
    Function.comp_def, Option.map_none']

theorem emitTriangle_erase (t : Triangulator) (e eo : Ptr) :
    (emitTriangle t.erase e eo).map Triangulator.erase
      = (emitTriangle t e eo).map Triangulator.erase := by
  unfold emitTriangle
  simp only [erase_m_attributes, (hasAttr_normAttr _).1, noCornerOnHull_erase,
    Option.bind_eq_bind, Option.pure_def]
  split
  · cases noCornerOnHull t e eo with
    | none => rfl
    | some b =>
      cases b with
      | true => simpa using writeTriangle_erase t e eo
      | false => simp [erase_erase]
  · exact writeTriangle_erase t e eo

theorem triVisit_erase (t : Triangulator) (e : Ptr) :
    (triVisit t.erase e).map (Prod.map Triangulator.erase id)
      = (triVisit t e).map (Prod.map Triangulator.erase id) := by
  unfold triVisit
  simp only [erase_m_dEdge, Option.bind_eq_bind, Option.pure_def]
  cases Onext t.m_dEdge e with
  | none => rfl
  | some eo =>
    cases Lnext t.m_dEdge e with
    | none => rfl
    | some el =>
      simp only [Option.some_bind]
      cases faceTest t.m_dEdge e eo el with
      | none => rfl
      | some b =>
        cases b with
        | false => simp [erase_erase]
        | true =>
          simp only [Option.some_bind, if_true]
          refine bind_erase (emitTriangle_erase t e eo) ?_
          intro r
          simp only [erase_m_dEdge, Option.map_bind, Function.comp_def, Option.map_some',
            Prod.map, id, Triangulator.erase, map_erase_erase, normAttr_normAttr]

theorem triRing_erase (eStart : Ptr) (fuel : Nat) (t : Triangulator) (e : Ptr) :
    (triRing eStart fuel t.erase e).map Triangulator.erase
      = (triRing eStart fuel t e).map Triangulator.erase := by
  induction fuel generalizing t e with
  | zero => rfl
  | succ n ih =>
    unfold triRing
    have h := triVisit_erase t e
    cases h1 : triVisit t e with
    | none =>
      cases h2 : triVisit t.erase e with
      | none => rfl
      | some r2 => rw [h1, h2] at h; simp at h
    | some r1 =>
      cases h2 : triVisit t.erase e with
      | none => rw [h1, h2] at h; simp at h
      | some r2 =>
        rw [h1, h2] at h
        obtain ⟨t1, eo1⟩ := r1
        obtain ⟨t2, eo2⟩ := r2
        simp only [Option.map_some', Prod.map, id, Option.some.injEq, Prod.mk.injEq] at h
        obtain ⟨ht, rfl⟩ := h
        simp only
        split
        · rw [← ih t2, ← ih t1, ht]
        · simp only [Option.map_some', ht]

theorem triSlot_erase (fuel : Nat) (t : Triangulator) (i : Nat) :
    (triSlot fuel t.erase i).map Triangulator.erase
      = (triSlot fuel t i).map Triangulator.erase := by
  unfold triSlot
  simp only [erase_m_dEdge, Option.bind_eq_bind, Option.pure_def]
  cases isFreeOf t.m_dEdge (some (4 * i)) with
  | none => rfl
  | some b =>
    cases b with
    | true => simp [erase_erase]
    | false => simpa using triRing_erase (some (4 * i)) fuel t (some (4 * i))

theorem foldlM_erase {g : Triangulator → Nat → Option Triangulator}
    (hg : ∀ t i, (g t.erase i).map Triangulator.erase = (g t i).map Triangulator.erase)
    (l : List Nat) (t : Triangulator) :
    (l.foldlM g t.erase).map Triangulator.erase = (l.foldlM g t).map Triangulator.erase := by
  induction l generalizing t with
  | nil => simp [erase_erase]
  | cons i l ih =>
    simp only [List.foldlM_cons, Option.bind_eq_bind]
    exact bind_erase (hg t i) (fun r => ih r)

theorem allocTIndices_erase (t : Triangulator) :
    (allocTIndices t.erase).map Triangulator.erase
      = (allocTIndices t).map Triangulator.erase := by
  unfold allocTIndices
  simp only [erase_m_nFaces]
  split
  · simp only [Option.map_some', Triangulator.erase, map_erase_erase, normAttr_normAttr]
  · rfl

theorem GenerateTriangleIndices_erase (fuel : Nat) (t : Triangulator) :
    (GenerateTriangleIndices fuel t.erase).map Triangulator.erase
      = (GenerateTriangleIndices fuel t).map Triangulator.erase := by
  unfold GenerateTriangleIndices
  simp only [Option.bind_eq_bind]
  refine bind_erase (allocTIndices_erase t) ?_
  intro r
  simp only [erase_m_dEdge, erase_m_nSites]
  cases resetVisited r.m_dEdge (r.m_nSites * 3) with
  | none => rfl
  | some s =>
    simp only [Option.some_bind]
    exact foldlM_erase (triSlot_erase fuel) _ { r with m_dEdge := s, m_nTriangles := 0 }

theorem newVoronoiVertex_erase (t : Triangulator) (s1 s2 s3 : Ptr) :
    (newVoronoiVertex t.erase s1 s2 s3).map (Prod.map id Triangulator.erase)
      = (newVoronoiVertex t s1 s2 s3).map (Prod.map id Triangulator.erase) := by
  unfold newVoronoiVertex
  simp only [erase_m_vEdgePool, erase_m_sites, siteAt_erase, Option.bind_eq_bind]
  cases t.m_vEdgePool with
  | none => rfl
  | some pool =>
    cases siteAt t.m_sites s1 with
    | none => rfl
    | some a =>
      cases siteAt t.m_sites s2 with
      | none => rfl
      | some b =>
        cases siteAt t.m_sites s3 with
        | none => rfl
        | some c =>
          simp only [Option.some_bind, Option.map_some']
          rcases hN : pool.NewObject with ⟨pool1, created, v⟩
          cases v with
          | none => rfl
          | some v =>
            simp only [Option.pure_def, Option.map_some', Prod.map, id, Triangulator.erase,
              map_erase_erase, normAttr_normAttr]

theorem emitVertex_erase (t : Triangulator) (e eo el : Ptr) :
    (emitVertex t.erase e eo el).map Triangulator.erase
      = (emitVertex t e eo el).map Triangulator.erase := by
  unfold emitVertex
  simp only [erase_m_dEdge, Option.bind_eq_bind, Option.pure_def]
  cases Org t.m_dEdge e with
  | none => rfl
  | some a =>
    cases Dest t.m_dEdge eo with
    | none => rfl
    | some b =>
      cases Dest t.m_dEdge e with
      | none => rfl
      | some c =>
        simp only [Option.some_bind]
        have h := newVoronoiVertex_erase t a b c
        cases h1 : newVoronoiVertex t a b c with
        | none =>
          cases h2 : newVoronoiVertex t.erase a b c with
          | none => rfl
          | some r2 => rw [h1, h2] at h; simp at h
        | some r1 =>
          cases h2 : newVoronoiVertex t.erase a b c with
          | none => rw [h1, h2] at h; simp at h
          | some r2 =>
            rw [h1, h2] at h
            obtain ⟨v1, t1⟩ := r1
            obtain ⟨v2, t2⟩ := r2
            simp only [Option.map_some', Prod.map, id, Option.some.injEq, Prod.mk.injEq] at h
            obtain ⟨rfl, ht⟩ := h
            have hd : t2.m_dEdge = t1.m_dEdge := by
              have := congrArg Triangulator.m_dEdge ht
              exact this
            simp only [Option.some_bind, hd]
            cases attachVertex t1.m_dEdge e eo el v2 with
            | none => rfl
            | some s =>
              simp only [Option.some_bind]
              cases markFace s e eo el with
              | none => rfl
              | some s' =>
                simp only [Option.some_bind, Option.map_some', Option.some.injEq]
                have := congrArg (fun r : Triangulator => ({ r with m_dEdge := s' } : Triangulator)) ht
                exact this

theorem vorVisit_erase (t : Triangulator) (e : Ptr) :
    (vorVisit t.erase e).map (Prod.map Triangulator.erase id)
      = (vorVisit t e).map (Prod.map Triangulator.erase id) := by
  unfold vorVisit
  simp only [erase_m_dEdge, Option.bind_eq_bind, Option.pure_def]
  cases Onext t.m_dEdge e with
  | none => rfl
  | some eo =>
    cases Lnext t.m_dEdge e with
    | none => rfl
    | some el =>
      simp only [Option.some_bind]
      cases faceTest t.m_dEdge e eo el with
      | none => rfl
      | some b =>
        cases b with
        | false => simp [erase_erase]
        | true =>
          simp only [Option.some_bind, if_true]
          refine bind_erase (emitVertex_erase t e eo el) ?_
          intro r
          simp only [Option.map_some', Prod.map, id, erase_erase]

theorem vorRing_erase (eStart : Ptr) (fuel : Nat) (t : Triangulator) (e : Ptr) :
    (vorRing eStart fuel t.erase e).map Triangulator.erase
      = (vorRing eStart fuel t e).map Triangulator.erase := by
  induction fuel generalizing t e with
  | zero => rfl
  | succ n ih =>
    unfold vorRing
    have h := vorVisit_erase t e
    cases h1 : vorVisit t e with
    | none =>
      cases h2 : vorVisit t.erase e with
      | none => rfl
      | some r2 => rw [h1, h2] at h; simp at h
    | some r1 =>
      cases h2 : vorVisit t.erase e with
      | none => rw [h1, h2] at h; simp at h
      | some r2 =>
        rw [h1, h2] at h
        obtain ⟨t1, eo1⟩ := r1
        obtain ⟨t2, eo2⟩ := r2
        simp only [Option.map_some', Prod.map, id, Option.some.injEq, Prod.mk.injEq] at h
        obtain ⟨ht, rfl⟩ := h
        simp only
        split
        · rw [← ih t2, ← ih t1, ht]
        · simp only [Option.map_some', ht]

theorem vorSlot_erase (fuel : Nat) (t : Triangulator) (i : Nat) :
    (vorSlot fuel t.erase i).map Triangulator.erase
      = (vorSlot fuel t i).map Triangulator.erase := by
  unfold vorSlot
  simp only [erase_m_dEdge, Option.bind_eq_bind, Option.pure_def]
  cases isFreeOf t.m_dEdge (some (4 * i)) with
  | none => rfl
  | some b =>
    cases b with
    | true => simp [erase_erase]
    | false => simpa using vorRing_erase (some (4 * i)) fuel t (some (4 * i))

theorem GenerateVoronoiVertices_erase (fuel : Nat) (t : Triangulator) :
    (GenerateVoronoiVertices fuel t.erase).map Triangulator.erase
      = (GenerateVoronoiVertices fuel t).map Triangulator.erase := by
  unfold GenerateVoronoiVertices
  simp only [Option.bind_eq_bind, erase_m_dEdge, erase_m_nSites]
  cases resetVisited t.m_dEdge (t.m_nSites * 3) with
  | none => rfl
  | some s =>
    simp only [Option.some_bind]
    exact foldlM_erase (vorSlot_erase fuel) _ { t with m_dEdge := s }

theorem voronoiPart_erase (fuel : Nat) (t : Triangulator) :
    (voronoiPart fuel t.erase).map Triangulator.erase
      = (voronoiPart fuel t).map Triangulator.erase := by
  unfold voronoiPart
  simp only [erase_m_attributes, (hasAttr_normAttr _).2.2.1, Option.bind_eq_bind,
    Option.pure_def]
  split
  · refine bind_erase (GenerateVoronoiVertices_erase fuel t) ?_
    intro r
    simp only [erase_m_vEdgePool, erase_m_nSites]
    cases r.m_vEdgePool with
    | none => rfl
    | some pool =>
      simp only [Option.some_bind, Option.map_some', Triangulator.erase, map_erase_erase,
        normAttr_normAttr]
  · simp only [Option.map_some', erase_erase]

theorem countEdge_erase (t : Triangulator) (e : Ptr) :
    (countEdge t.erase e).map Triangulator.erase
      = (countEdge t e).map Triangulator.erase := by
  unfold countEdge
  simp only [erase_m_dEdge, erase_m_sites, erase_m_nInputSites, erase_m_nNeighbours, m_id_erase,
    Option.bind_eq_bind, Option.map_bind, Function.comp_def, Option.pure_def, optMap_ite,
    Option.map_some', Triangulator.erase, map_erase_erase, normAttr_normAttr]

theorem countSlot_erase (t : Triangulator) (i : Nat) :
    (countSlot t.erase i).map Triangulator.erase
      = (countSlot t i).map Triangulator.erase := by
  unfold countSlot
  simp only [erase_m_dEdge, Option.bind_eq_bind, Option.pure_def]
  cases isFreeOf t.m_dEdge (some (4 * i)) with
  | none => rfl
  | some b =>
    cases b with
    | true => simp [erase_erase]
    | false =>
      simp only [Option.some_bind, Bool.false_eq_true, if_false]
      cases visitedOf t.m_dEdge (some (4 * i)) with
      | none => rfl
      | some v =>
        simp only [Option.some_bind]
        split
        · exact countEdge_erase t (some (4 * i))
        · simp only [Option.map_some', erase_erase]

theorem storeEdge_erase (t : Triangulator) (temp : List Nat) (src dst : Nat) :
    (storeEdge t.erase temp src dst).map (Prod.map Triangulator.erase id)
      = (storeEdge t temp src dst).map (Prod.map Triangulator.erase id) := by
  unfold storeEdge
  simp only [erase_m_attributes, (hasAttr_normAttr _).2.2.2, erase_m_neighbours, erase_m_nbStart,
    Option.bind_eq_bind, Option.pure_def]
  split
  · simp only [Option.map_bind, Function.comp_def, Option.map_some', Prod.map, id,
      Triangulator.erase, map_erase_erase, normAttr_normAttr]
  · simp only [Option.map_some', Prod.map, id, erase_erase]

theorem pair_erase {β : Type} {x x' : Option (Triangulator × List Nat)}
    {k : Triangulator × List Nat → Option β} {γ : Type} {g : β → γ}
    (hx : x'.map (Prod.map Triangulator.erase id) = x.map (Prod.map Triangulator.erase id))
    (hk : ∀ r l, (k (r.erase, l)).map g = (k (r, l)).map g) :
    (x'.bind k).map g = (x.bind k).map g := by
  cases x with
  | none =>
    cases x' with
    | none => rfl
    | some r' => simp at hx
  | some r =>
    cases x' with
    | none => simp at hx
    | some r' =>
      obtain ⟨r, l⟩ := r
      obtain ⟨r', l'⟩ := r'
      simp only [Option.map_some', Prod.map, id, Option.some.injEq, Prod.mk.injEq] at hx
      obtain ⟨hx, rfl⟩ := hx
      simp only [Option.some_bind]
      rw [← hk r', ← hk r, hx]

theorem storeVisit_erase (t : Triangulator) (temp : List Nat) (e : Ptr) :
    (storeVisit t.erase temp e).map (Prod.map Triangulator.erase id)
      = (storeVisit t temp e).map (Prod.map Triangulator.erase id) := by
  unfold storeVisit
  simp only [erase_m_dEdge, erase_m_sites, erase_m_nInputSites, m_id_erase, Option.bind_eq_bind,
    Option.pure_def]
  cases Org t.m_dEdge e with
  | none => rfl
  | some o =>
    simp only [Option.some_bind]
    cases m_id t.m_sites o with
    | none => rfl
    | some src =>
      simp only [Option.some_bind]
      cases Dest t.m_dEdge e with
      | none => rfl
      | some d =>
        simp only [Option.some_bind]
        cases m_id t.m_sites d with
        | none => rfl
        | some dst =>
          simp only [Option.some_bind]
          cases temp[src]? with
          | none => rfl
          | some _ =>
            simp only [Option.some_bind]
            cases temp[dst]? with
            | none => rfl
            | some _ =>
              simp only [Option.some_bind]
              cases visitedOf t.m_dEdge e with
              | none => rfl
              | some v =>
                simp only [Option.some_bind]
                split
                · split
                  · refine pair_erase (storeEdge_erase t temp src dst) ?_
                    intro r l
                    simp only [erase_m_dEdge, Option.map_bind, Function.comp_def,
                      Option.map_some', Prod.map, id, Triangulator.erase, map_erase_erase,
                      normAttr_normAttr]
                  · simp only [Option.some_bind, erase_m_dEdge, Option.map_bind,
                      Function.comp_def, Option.map_some', Prod.map, id, Triangulator.erase,
                      map_erase_erase, normAttr_normAttr]
                · simp only [Option.map_some', Prod.map, id, erase_erase]

theorem storeSlot_erase (t : Triangulator) (temp : List Nat) (i : Nat) :
    (storeSlot (t.erase, temp) i).map (Prod.map Triangulator.erase id)
      = (storeSlot (t, temp) i).map (Prod.map Triangulator.erase id) := by
  unfold storeSlot
  simp only [erase_m_dEdge, Option.bind_eq_bind, Option.pure_def]
  cases isFreeOf t.m_dEdge (some (4 * i)) with
  | none => rfl
  | some b =>
    cases b with
    | true => simp [erase_erase]
    | false => simpa using storeVisit_erase t temp (some (4 * i))

theorem foldlM_pair_erase (l : List Nat) (t : Triangulator) (temp : List Nat) :
    (l.foldlM storeSlot (t.erase, temp)).map (Prod.map Triangulator.erase id)
      = (l.foldlM storeSlot (t, temp)).map (Prod.map Triangulator.erase id) := by
  induction l generalizing t temp with
  | nil => simp [erase_erase]
  | cons i l ih =>
    simp only [List.foldlM_cons, Option.bind_eq_bind]
    exact pair_erase (storeSlot_erase t temp i) (fun r l' => ih r l')

theorem GenerateNodeNeighbours_erase (t : Triangulator) :
    (GenerateNodeNeighbours t.erase).map Triangulator.erase
      = (GenerateNodeNeighbours t).map Triangulator.erase := by
  unfold GenerateNodeNeighbours
  simp only [erase_m_dEdge, erase_m_nSites, Option.bind_eq_bind, Option.pure_def]
  cases resetVisited t.m_dEdge (t.m_nSites * 3) with
  | none => rfl
  | some s =>
    simp only [Option.some_bind]
    refine bind_erase (foldlM_erase countSlot_erase _
      { t with m_dEdge := s, m_nNeighbours := List.replicate t.m_nSites 0 }) ?_
    intro r
    simp only [erase_m_attributes, (hasAttr_normAttr _).2.2.2, erase_m_nNeighbours]
    have h := foldlM_pair_erase (List.range (t.m_nSites * 3))
      { r with
        m_neighbours :=
          if hasAttr r.m_attributes Triangulator_NodeNeighbours then
            some (List.replicate r.m_nNeighbours.sum 0)
          else none,
        m_nbStart := rowStarts r.m_nNeighbours 0 } r.m_nNeighbours
    refine pair_erase h ?_
    intro r' l'
    simp only [Option.map_some', erase_erase]

theorem passes_erase (fuel : Nat) (t : Triangulator) :
    (passes fuel t.erase).map Triangulator.erase = (passes fuel t).map Triangulator.erase := by
  unfold passes
  simp only [Option.bind_eq_bind]
  refine bind_erase (MarkHull_erase fuel t) ?_
  intro r
  simp only [erase_m_attributes, (hasAttr_normAttr _).2.1, Option.pure_def]
  have hk : ∀ r1 : Triangulator,
      Option.map Triangulator.erase
        ((voronoiPart fuel r1.erase).bind fun t => GenerateNodeNeighbours t) =
      Option.map Triangulator.erase
        ((voronoiPart fuel r1).bind fun t => GenerateNodeNeighbours t) :=
    fun r1 => bind_erase (voronoiPart_erase fuel r1) GenerateNodeNeighbours_erase
  split
  · exact bind_erase (GenerateTriangleIndices_erase fuel r) hk
  · simp only [Option.some_bind]
    exact hk r

/-! ## Runs on sites with the same geometry -/

theorem Delaunay3_congr {a b : List Site} (s : EdgeStore) (sl : Nat)
    (h : (CCW a (some sl) (some (sl + 1)) (some (sl + 2))).map Int.sign
       = (CCW b (some sl) (some (sl + 1)) (some (sl + 2))).map Int.sign) :
    Delaunay3 a s sl = Delaunay3 b s sl := by
  unfold Delaunay3
  cases ha : CCW a (some sl) (some (sl + 1)) (some (sl + 2)) with
  | none =>
    cases hb : CCW b (some sl) (some (sl + 1)) (some (sl + 2)) with
    | none => rfl
    | some y => rw [ha, hb] at h; simp at h
  | some x =>
    cases hb : CCW b (some sl) (some (sl + 1)) (some (sl + 2)) with
    | none => rw [ha, hb] at h; simp at h
    | some y =>
      rw [ha, hb] at h
      simp only [Option.map_some', Option.some.injEq] at h
      have h0 : x = 0 ↔ y = 0 := by
        rw [← Int.sign_eq_zero_iff_zero, ← Int.sign_eq_zero_iff_zero (a := y), h]
      have h1 : x > 0 ↔ y > 0 := by
        show 0 < x ↔ 0 < y
        rw [← Int.sign_eq_one_iff_pos, ← Int.sign_eq_one_iff_pos (a := y), h]
      simp only [Option.bind_eq_bind, Option.some_bind, h0, h1]

theorem Delaunay_three (sites : List Site) (fuel : Nat) (s : EdgeStore) (sl : Nat) :
    Delaunay sites (fuel + 1) s sl (sl + 3) = Delaunay3 sites s sl := by
  unfold Delaunay
  simp

theorem accounted_erase {attr attr' : Nat} {L L' : List Site} (n : Nat)
    (r : (Ptr × Ptr) × EdgeStore)
    (hL : L.map eraseSite = L'.map eraseSite) (ha : normAttr attr = normAttr attr') :
    (accounted attr n L r).erase = (accounted attr' n L' r).erase := by
  have hlen : L.length = L'.length := by
    have := congrArg List.length hL
    simpa using this
  have hv : hasAttr attr Triangulator_VoronoiVertices
      = hasAttr attr' Triangulator_VoronoiVertices := by
    rw [← (hasAttr_normAttr attr).2.2.1, ← (hasAttr_normAttr attr').2.2.1, ha]
  unfold accounted Triangulator.erase
  simp only [hlen, hv, hL, ha]

theorem afterSort_congr {attr attr' : Nat} {L L' : List Site} (fuel n : Nat)
    (hL : L.map eraseSite = L'.map eraseSite) (ha : normAttr attr = normAttr attr')
    (hD : Delaunay L fuel (EdgeStore.init (L.length * 3)) 0 L.length
        = Delaunay L' fuel (EdgeStore.init (L'.length * 3)) 0 L'.length) :
    (afterSort fuel attr n L).map Triangulator.erase
      = (afterSort fuel attr' n L').map Triangulator.erase := by
  unfold afterSort
  rw [hD]
  cases Delaunay L' fuel (EdgeStore.init (L'.length * 3)) 0 L'.length with
  | none => rfl
  | some r =>
    simp only [Option.bind_eq_bind, Option.some_bind]
    rw [← passes_erase, accounted_erase n r hL ha, passes_erase]

theorem chainReport_erase (t : Triangulator) : chainReport t.erase = chainReport t := by
  unfold chainReport Triangulator.inUseCount Triangulator.edgeList
    Triangulator.GetNumTriangles Triangulator.GetNumVoronoiVertices
  simp only [erase_m_dEdge, erase_m_nSites, erase_m_sites, m_id_erase, erase_m_vEdgePool]
  rfl

/-! ## Three collinear sites -/

set_option maxRecDepth 1000000 in
theorem chain_runs :
    ((List.permutations' [0, 1, 2]).all fun (ids : List Nat) =>
      [0, 2, 8, 10, 64, 66, 72, 74].all fun (a : Nat) =>
      decide ((afterSort 20 a 3 (ids.map fun i => ⟨0, 0, i⟩)).map chainReport
        = some ((2, [(ids[1]?, ids[2]?), (ids[0]?, ids[1]?)]), (0, 0,
            if hasAttr a Triangulator_VoronoiVertices then some none else none)))) = true := by
  decide

theorem normAttr_mem {attr : Nat} (h : hasAttr attr Triangulator_SuperTriangle = false) :
    normAttr attr ∈ [0, 2, 8, 10, 64, 66, 72, 74] := by
  unfold normAttr
  rw [h]
  cases hasAttr attr Triangulator_TriangleIndices <;>
    cases hasAttr attr Triangulator_VoronoiVertices <;>
    cases hasAttr attr Triangulator_NodeNeighbours <;> decide

theorem map_erase_eq_ids (L : List Site) :
    L.map eraseSite = (L.map Site.m_id).map fun i => ⟨0, 0, i⟩ := by
  rw [List.map_map]
  rfl

theorem chain_general {L : List Site} {attr : Nat}
    (hids : (L.map Site.m_id).Perm [0, 1, 2])
    (hST : hasAttr attr Triangulator_SuperTriangle = false)
    (hccw : CCW L (some 0) (some 1) (some 2) = some 0) :
    (afterSort 20 attr 3 L).map chainReport
      = some ((2, [((L.map Site.m_id)[1]?, (L.map Site.m_id)[2]?),
                   ((L.map Site.m_id)[0]?, (L.map Site.m_id)[1]?)]),
              (0, 0, if hasAttr attr Triangulator_VoronoiVertices then some none else none)) := by
  have hlen : L.length = 3 := by
    have := hids.length_eq
    simpa using this
  have hlen' : ((L.map Site.m_id).map fun i => (⟨0, 0, i⟩ : Site)).length = 3 := by
    simp [hlen]
  have hrun := List.all_eq_true.1 (List.all_eq_true.1 chain_runs _
    (List.mem_permutations'.2 hids)) _ (normAttr_mem hST)
  have hrun := of_decide_eq_true hrun
  rw [(hasAttr_normAttr attr).2.2.1] at hrun
  rw [← hrun]
  have hD : Delaunay L 20 (EdgeStore.init (L.length * 3)) 0 L.length
      = Delaunay ((L.map Site.m_id).map fun i => (⟨0, 0, i⟩ : Site)) 20
          (EdgeStore.init (((L.map Site.m_id).map fun i => (⟨0, 0, i⟩ : Site)).length * 3)) 0
          ((L.map Site.m_id).map fun i => (⟨0, 0, i⟩ : Site)).length := by
    rw [hlen, hlen']
    rw [Delaunay_three _ 19 _ 0, Delaunay_three _ 19 _ 0]
    apply Delaunay3_congr
    rw [hccw, ← map_erase_eq_ids]
    unfold CCW
    simp only [siteAt_erase]
    have h0 : (siteAt L (some 0)).isSome := by simp [siteAt, hlen]
    have h1 : (siteAt L (some (0 + 1))).isSome := by simp [siteAt, hlen]
    have h2 : (siteAt L (some (0 + 2))).isSome := by simp [siteAt, hlen]
    obtain ⟨a, ha⟩ := Option.isSome_iff_exists.1 h0
    obtain ⟨b, hb⟩ := Option.isSome_iff_exists.1 h1
    obtain ⟨c, hc⟩ := Option.isSome_iff_exists.1 h2
    rw [ha, hb, hc]
    rfl
  have hL : L.map eraseSite
      = ((L.map Site.m_id).map fun i => (⟨0, 0, i⟩ : Site)).map eraseSite := by
    rw [← map_erase_eq_ids, map_erase_erase]
  have hc := afterSort_congr 20 3 hL (normAttr_normAttr attr).symm hD
  have := congrArg (Option.map chainReport) hc
  simp only [Option.map_map] at this
  have hco : chainReport ∘ Triangulator.erase = chainReport := by
    funext t
    exact chainReport_erase t
  rw [hco] at this
  exact this

theorem initialSites_plain {attr : Nat} (s sup : List (Int × Int))
    (hST : hasAttr attr Triangulator_SuperTriangle = false) :
    initialSites s sup attr
      = some ((List.range s.length).zipWith (fun i p => (⟨p.1, p.2, i⟩ : Site)) s) := by
  unfold initialSites
  rw [hST]
  rfl

theorem perm_three {α : Type} {a b c : α} {L : List α} (hL : L.Perm [a, b, c]) :
    L = [a, b, c] ∨ L = [b, a, c] ∨ L = [b, c, a] ∨ L = [a, c, b] ∨ L = [c, a, b]
      ∨ L = [c, b, a] := by
  have hm := List.mem_permutations'.2 hL
  have hp : List.permutations' [a, b, c]
      = [[a, b, c], [b, a, c], [b, c, a], [a, c, b], [c, a, b], [c, b, a]] := rfl
  rw [hp] at hm
  simpa only [List.mem_cons, List.mem_singleton, List.not_mem_nil, or_false] using hm

/-! ## Rounding to double -/

theorem roundDouble_of_lt {z : Int} (h : |z| < 9007199254740992) : roundDouble z = z := by
  unfold roundDouble
  rw [if_pos]
  rw [Int.abs_eq_natAbs] at h
  exact_mod_cast h

theorem abs_mul_lt_of_lt {x y A B : Int} (hx : |x| < A) (hy : |y| < B) : |x * y| < A * B := by
  rw [abs_mul]
  exact mul_lt_mul'' hx hy (abs_nonneg x) (abs_nonneg y)

theorem abs_sub_lt_of_lt {x y A B : Int} (hx : |x| < A) (hy : |y| < B) : |x - y| < A + B := by
  rw [abs_lt] at *
  constructor <;> linarith [hx.1, hx.2, hy.1, hy.2]

theorem abs_add_lt_of_lt {x y A B : Int} (hx : |x| < A) (hy : |y| < B) : |x + y| < A + B := by
  rw [abs_lt] at *
  constructor <;> linarith [hx.1, hx.2, hy.1, hy.2]

/-- Rounding at the first magnitudes that are not all doubles: between `2 ^ 53` and `2 ^ 54`
the doubles are the even integers and a tie goes to the multiple of 4; between `2 ^ 54` and
`2 ^ 55` they are the multiples of 4 and a tie goes to the multiple of 8; a product of two
24-digit coordinates is a double. -/
theorem roundDouble_samples :
    roundDouble 9007199254740991 = 9007199254740991 ∧
    roundDouble 9007199254740993 = 9007199254740992 ∧
    roundDouble 9007199254740995 = 9007199254740996 ∧
    roundDouble (-9007199254740993) = -9007199254740992 ∧
    roundDouble 18014398509481985 = 18014398509481984 ∧
    roundDouble 18014398509481986 = 18014398509481984 ∧
    roundDouble 18014398509481987 = 18014398509481988 ∧
    roundDouble (-18014398509481990) = -18014398509481992 ∧
    roundDouble 18014398509481983 = 18014398509481984 ∧
    roundDouble (13421773 * 549822922752) = 13421773 * 549822922752 := by
  decide

/-- On integer coordinates of magnitude below `2 ^ 25` no operation of `Site::CCW` rounds: the
value computed in double precision is the exact one. -/
theorem ccwDouble_eq_ccwVal {a b c : Site}
    (hax : |a.x| < 33554432) (hay : |a.y| < 33554432)
    (hbx : |b.x| < 33554432) (hby : |b.y| < 33554432)
    (hcx : |c.x| < 33554432) (hcy : |c.y| < 33554432) :
    ccwDouble a b c = ccwVal a b c := by
  have lt {z B : Int} (h : |z| < B) (hB : B ≤ 9007199254740992) : roundDouble z = z :=
    roundDouble_of_lt (lt_of_lt_of_le h hB)
  have p1 := abs_mul_lt_of_lt hbx hcy
  have p2 := abs_mul_lt_of_lt hby hcx
  have p3 := abs_mul_lt_of_lt hax hcy
  have p4 := abs_mul_lt_of_lt hay hcx
  have p5 := abs_mul_lt_of_lt hax hby
  have p6 := abs_mul_lt_of_lt hay hbx
  have d1 := abs_sub_lt_of_lt p1 p2
  have d2 := abs_sub_lt_of_lt p3 p4
  have d3 := abs_sub_lt_of_lt p5 p6
  have e1 := abs_sub_lt_of_lt d1 d2
  have e2 := abs_add_lt_of_lt e1 d3
  unfold ccwDouble ccwVal
  rw [lt p1 (by norm_num), lt p2 (by norm_num), lt p3 (by norm_num), lt p4 (by norm_num),
    lt p5 (by norm_num), lt p6 (by norm_num), lt d1 (by norm_num), lt d2 (by norm_num),
    lt d3 (by norm_num), lt e1 (by norm_num), lt e2 (by norm_num)]

/-- On integer coordinates of magnitude below `2 ^ 11` no operation of `Site::InCircle` rounds:
the comparison computed in double precision is the exact one. -/
theorem inCircleDouble_eq_inCircleVal {a b c d : Site}
    (hax : |a.x| < 2048) (hay : |a.y| < 2048) (hbx : |b.x| < 2048) (hby : |b.y| < 2048)
    (hcx : |c.x| < 2048) (hcy : |c.y| < 2048) (hdx : |d.x| < 2048) (hdy : |d.y| < 2048) :
    inCircleDouble a b c d = inCircleVal a b c d := by
  have lt {z B : Int} (h : |z| < B) (hB : B ≤ 9007199254740992) : roundDouble z = z :=
    roundDouble_of_lt (lt_of_lt_of_le h hB)
  have d41y := abs_sub_lt_of_lt hdy hay
  have d41x := abs_sub_lt_of_lt hdx hax
  have d23x := abs_sub_lt_of_lt hbx hcx
  have d23y := abs_sub_lt_of_lt hby hcy
  have d43x := abs_sub_lt_of_lt hdx hcx
  have d43y := abs_sub_lt_of_lt hdy hcy
  have d21x := abs_sub_lt_of_lt hbx hax
  have d21y := abs_sub_lt_of_lt hby hay
  have m1 := abs_mul_lt_of_lt d41y d23x
  have m2 := abs_mul_lt_of_lt d41x d23y
  have m3 := abs_mul_lt_of_lt d43x d21x
  have m4 := abs_mul_lt_of_lt d43y d21y
  have m5 := abs_mul_lt_of_lt d43y d21x
  have m6 := abs_mul_lt_of_lt d43x d21y
  have m7 := abs_mul_lt_of_lt d41x d23x
  have m8 := abs_mul_lt_of_lt d41y d23y
  have s1 := abs_add_lt_of_lt m1 m2
  have s2 := abs_sub_lt_of_lt m3 m4
  have s3 := abs_add_lt_of_lt m5 m6
  have s4 := abs_sub_lt_of_lt m7 m8
  have q1 := abs_mul_lt_of_lt s1 s2
  have q2 := abs_mul_lt_of_lt s3 s4
  unfold inCircleDouble inCircleVal
  simp only
  rw [lt d41y (by norm_num), lt d41x (by norm_num), lt d23x (by norm_num), lt d23y (by norm_num),
    lt d43x (by norm_num), lt d43y (by norm_num), lt d21x (by norm_num), lt d21y (by norm_num),
    lt m1 (by norm_num), lt m2 (by norm_num), lt m3 (by norm_num), lt m4 (by norm_num),
    lt m5 (by norm_num), lt m6 (by norm_num), lt m7 (by norm_num), lt m8 (by norm_num),
    lt s1 (by norm_num), lt s2 (by norm_num), lt s3 (by norm_num), lt s4 (by norm_num),
    lt q1 (by norm_num), lt q2 (by norm_num)]

/-- For three collinear sites with integer coordinates of magnitude below `2 ^ 25`,
`Site::CCW` stores 0 on every arrangement of the three sites. -/
theorem ccw_of_perm_collinear {a b c : Site} (h : ccwVal a b c = 0)
    (hax : |a.x| < 33554432) (hay : |a.y| < 33554432)
    (hbx : |b.x| < 33554432) (hby : |b.y| < 33554432)
    (hcx : |c.x| < 33554432) (hcy : |c.y| < 33554432) {L : List Site}
    (hL : L.Perm [a, b, c]) : CCW L (some 0) (some 1) (some 2) = some 0 := by
  unfold ccwVal at h
  rcases perm_three hL with rfl | rfl | rfl | rfl | rfl | rfl <;>
    simp only [CCW, siteAt, List.getElem?_cons_zero, List.getElem?_cons_succ,
      Option.bind_eq_bind, Option.some_bind, Option.pure_def, Option.some.injEq] <;>
    rw [ccwDouble_eq_ccwVal] <;> first | assumption | (unfold ccwVal; linarith)

namespace Mem

/-! ## The pool and the pointers held by its client -/

theorem leastFree_spec (cs : List (Option Chunk)) (i : Nat) (least : Int) (idx : Option Nat)
    (j : Nat) (h : leastFree cs i least idx = some j) :
    idx = some j ∨ (i ≤ j ∧ ∃ ch, cs[j - i]? = some (some ch) ∧ ch.freeList ≠ []) := by
  induction cs generalizing i least idx with
  | nil => left; simpa [leastFree] using h
  | cons c cs ih =>
    have hstep : ∀ {least' idx'}, leastFree cs (i + 1) least' idx' = some j →
        idx' = some j ∨ (i ≤ j ∧ ∃ ch, (c :: cs)[j - i]? = some (some ch) ∧ ch.freeList ≠ []) := by
      intro least' idx' h'
      rcases ih (i + 1) least' idx' h' with h1 | ⟨h1, ch, h2, h3⟩
      · exact Or.inl h1
      · right
        refine ⟨by omega, ch, ?_, h3⟩
        have : j - i = (j - (i + 1)) + 1 := by omega
        rw [this, List.getElem?_cons_succ]
        exact h2
    unfold leastFree at h
    split at h
    · rename_i hpos
      split at h
      · rcases hstep h with h1 | h1
        · right
          simp only [Option.some.injEq] at h1
          subst h1
          cases c with
          | none => simp [numFree] at hpos
          | some ch =>
            refine ⟨le_refl _, ch, by simp, ?_⟩
            intro hnil
            simp [numFree, hnil] at hpos
        · exact Or.inr h1
      · exact hstep h
    · exact hstep h

theorem GetChunkWithFreeSlots_spec {p : MemoryPool} {j : Nat}
    (h : p.GetChunkWithFreeSlots = some j) :
    j < p.chunks.length ∧ ∃ ch, p.chunks[j]? = some (some ch) ∧ ch.freeList ≠ [] := by
  rcases leastFree_spec _ _ _ _ _ h with h1 | ⟨_, ch, h2, h3⟩
  · simp at h1
  · simp only [Nat.sub_zero] at h2
    refine ⟨?_, ch, h2, h3⟩
    by_contra hc
    rw [List.getElem?_eq_none (by omega)] at h2
    simp at h2


theorem PoolInv_sub {p p' : MemoryPool} {out : List Addr} (hI : PoolInv (p, out))
    (hsub : ∀ (i : Nat) (ch : Chunk), p'.chunks[i]? = some (some ch) → p.chunks[i]? = some (some ch))
    (hn : p'.numElementsPerChunk = p.numElementsPerChunk) (hb : p'.nextBlock = p.nextBlock)
    (hlen : 0 < p'.chunks.length)
    (hcu : ∀ cu, p'.chunkToUse = some cu → cu < p'.chunks.length) : PoolInv (p', out) := by
  obtain ⟨h1, _, _, h4, h5, h6, h7⟩ := hI
  refine ⟨by rw [hn]; exact h1, hlen, hcu, ?_, ?_, ?_, h7⟩
  · intro i ch hc
    have := h4 i ch (hsub i ch hc)
    simpa only [hn, hb] using this
  · intro i j ch ch' hi hj
    exact h5 i j ch ch' (hsub i ch hi) (hsub j ch' hj)
  · intro x hx
    have := h6 x hx
    simpa only [hb] using this

theorem CreateChunk_spec {p p' : MemoryPool} {out : List Addr} {pos i : Nat}
    (hI : PoolInv (p, out)) (h : p.CreateChunk pos = some (p', i)) :
    PoolInv (p', out) ∧ i < p'.chunks.length ∧
      p'.chunks[i]? = some (some ⟨p.nextBlock, (List.range p.numElementsPerChunk).reverse⟩) ∧
      p'.chunkToUse = p.chunkToUse ∧ p'.mode = p.mode ∧
      p'.numElementsPerChunk = p.numElementsPerChunk := by
  obtain ⟨hn, hlen, hcu, hch, hdist, hout, hnd⟩ := hI
  simp only at hn hlen hcu hch hdist hout hnd
  simp only [MemoryPool.CreateChunk] at h
  generalize hcs : (if pos < p.chunks.length then p.chunks
      else p.chunks ++ List.replicate CHUNK_ARRAY_DELTA none) = cs at h
  have hge : p.chunks.length ≤ cs.length := by
    rw [← hcs]
    split
    · exact le_refl _
    · simp
  have hsub : ∀ (j : Nat) (ch : Chunk), cs[j]? = some (some ch) → p.chunks[j]? = some (some ch) := by
    intro j ch h1
    rw [← hcs] at h1
    split at h1
    · exact h1
    · rw [List.getElem?_append] at h1
      split at h1
      · exact h1
      · rw [List.getElem?_replicate] at h1
        split at h1 <;> simp at h1
  split at h
  · rename_i hpos
    simp only [Option.some.injEq, Prod.mk.injEq] at h
    obtain ⟨rfl, rfl⟩ := h
    have hget : ∀ (j : Nat) (ch : Chunk), (cs.set pos
        (some ⟨p.nextBlock, (List.range p.numElementsPerChunk).reverse⟩))[j]? = some (some ch) →
        (j = pos ∧ ch = ⟨p.nextBlock, (List.range p.numElementsPerChunk).reverse⟩) ∨
        (j ≠ pos ∧ p.chunks[j]? = some (some ch)) := by
      intro j ch hj
      rw [List.getElem?_set] at hj
      split at hj
      · rename_i hpj
        left
        simp only [hpj ▸ hpos, if_true, Option.some.injEq] at hj
        exact ⟨hpj.symm, hj.symm⟩
      · rename_i hpj
        exact Or.inr ⟨fun hc => hpj hc.symm, hsub j ch hj⟩
    refine ⟨⟨hn, ?_, ?_, ?_, ?_, ?_, hnd⟩, ?_, ?_, rfl, rfl, rfl⟩
    · show 0 < (List.set _ _ _).length
      rw [List.length_set]
      exact lt_of_lt_of_le hlen hge
    · intro cu hc
      have := hcu cu hc
      show cu < (List.set _ _ _).length
      rw [List.length_set]
      exact lt_of_lt_of_le this hge
    · intro j ch hj
      rcases hget j ch hj with ⟨_, rfl⟩ | ⟨_, h1⟩
      · refine ⟨Nat.lt_succ_self _, ?_, ?_⟩
        · exact List.nodup_reverse.2 (List.nodup_range _)
        · intro a ha
          simp only [List.mem_reverse, List.mem_range] at ha
          refine ⟨ha, ?_⟩
          intro hc
          have := hout _ hc
          simp at this
      · obtain ⟨g1, g2, g3⟩ := hch j ch h1
        exact ⟨Nat.lt_succ_of_lt g1, g2, g3⟩
    · intro j k ch ch' hj hk hm
      rcases hget j ch hj with ⟨rfl, rfl⟩ | ⟨hjn, h1⟩
      · rcases hget k ch' hk with ⟨rfl, _⟩ | ⟨_, h2⟩
        · rfl
        · have := (hch k ch' h2).1
          simp only at hm
          omega
      · rcases hget k ch' hk with ⟨rfl, rfl⟩ | ⟨_, h2⟩
        · have := (hch j ch h1).1
          simp only at hm
          omega
        · exact hdist j k ch ch' h1 h2 hm
    · intro x hx
      exact Nat.lt_succ_of_lt (hout x hx)
    · show pos < (List.set _ _ _).length
      rw [List.length_set]; exact hpos
    · show (List.set _ _ _)[pos]? = _
      rw [List.getElem?_set_self hpos]
  · simp at h


theorem getElem?_set_cases {cs : List (Option Chunk)} {pos : Nat} {x : Option Chunk} {j : Nat}
    {ch : Chunk} (h : (cs.set pos x)[j]? = some (some ch)) :
    (j = pos ∧ x = some ch ∧ pos < cs.length) ∨ (j ≠ pos ∧ cs[j]? = some (some ch)) := by
  rw [List.getElem?_set] at h
  split at h
  · rename_i hpj
    left
    split at h
    · rename_i hlt
      simp only [Option.some.injEq] at h
      exact ⟨hpj.symm, h, hlt⟩
    · simp at h
  · rename_i hpj
    exact Or.inr ⟨fun hc => hpj hc.symm, h⟩

theorem pop_inv {p : MemoryPool} {out : List Addr} {cu m a : Nat} {rest : List Nat}
    (hI : PoolInv (p, out)) (hc : p.chunks[cu]? = some (some ⟨m, a :: rest⟩)) :
    (m, a) ∉ out ∧
      PoolInv ({ p with chunks := p.chunks.set cu (some ⟨m, rest⟩) }, (m, a) :: out) := by
  obtain ⟨hn, hlen, hcu, hch, hdist, hout, hnd⟩ := hI
  simp only at hn hlen hcu hch hdist hout hnd
  obtain ⟨g1, g2, g3⟩ := hch cu _ hc
  simp only at g1 g2 g3
  have hnot : (m, a) ∉ out := (g3 a (List.mem_cons_self _ _)).2
  have hnd2 := List.nodup_cons.1 g2
  refine ⟨hnot, hn, ?_, ?_, ?_, ?_, ?_, ?_⟩
  · show 0 < (List.set _ _ _).length
    rw [List.length_set]; exact hlen
  · intro c h
    show c < (List.set _ _ _).length
    rw [List.length_set]; exact hcu c h
  · intro j ch hj
    rcases getElem?_set_cases hj with ⟨rfl, hx, _⟩ | ⟨hne, hj'⟩
    · simp only [Option.some.injEq] at hx
      subst hx
      refine ⟨g1, hnd2.2, ?_⟩
      intro b hb
      refine ⟨(g3 b (List.mem_cons_of_mem _ hb)).1, ?_⟩
      intro hmem
      rcases List.mem_cons.1 hmem with h1 | h1
      · simp only [Prod.mk.injEq, true_and] at h1
        subst h1
        exact hnd2.1 hb
      · exact (g3 b (List.mem_cons_of_mem _ hb)).2 h1
    · obtain ⟨k1, k2, k3⟩ := hch j ch hj'
      refine ⟨k1, k2, ?_⟩
      intro b hb
      refine ⟨(k3 b hb).1, ?_⟩
      intro hmem
      rcases List.mem_cons.1 hmem with h1 | h1
      · simp only [Prod.mk.injEq] at h1
        exact hne (hdist j cu ch _ hj' hc h1.1)
      · exact (k3 b hb).2 h1
  · intro i j ch ch' hi hj hm
    rcases getElem?_set_cases hi with ⟨rfl, hx, _⟩ | ⟨hne, hi'⟩
    · rcases getElem?_set_cases hj with ⟨rfl, _, _⟩ | ⟨hne', hj'⟩
      · rfl
      · simp only [Option.some.injEq] at hx
        subst hx
        exact (hdist _ _ _ _ hc hj' hm)
    · rcases getElem?_set_cases hj with ⟨rfl, hx, _⟩ | ⟨hne', hj'⟩
      · simp only [Option.some.injEq] at hx
        subst hx
        exact (hdist _ _ _ _ hi' hc hm)
      · exact hdist _ _ _ _ hi' hj' hm
  · intro x hx
    rcases List.mem_cons.1 hx with h1 | h1
    · subst h1; exact g1
    · exact hout x h1
  · exact List.nodup_cons.2 ⟨hnot, hnd⟩

theorem newObjectLoop_spec (fuel : Nat) {p' : MemoryPool} {out : List Addr}
    {r : Option Addr} : ∀ (p : MemoryPool), PoolInv (p, out) →
      newObjectLoop fuel p = some (p', r) →
    ∃ a, r = some a ∧ a ∉ out ∧ PoolInv (p', a :: out) ∧ p'.mode = p.mode ∧
      p'.numElementsPerChunk = p.numElementsPerChunk := by
  induction fuel with
  | zero => intro p _ h; simp [newObjectLoop] at h
  | succ n ih =>
    intro p hI h
    unfold newObjectLoop at h
    simp only [Option.bind_eq_bind, Option.bind_eq_some] at h
    obtain ⟨cu, hcu, chunk, hchunk, h⟩ := h
    have hrange : ∀ (q : MemoryPool), q.chunks = p.chunks → q.nextBlock = p.nextBlock →
        q.numElementsPerChunk = p.numElementsPerChunk →
        (∀ c, q.chunkToUse = some c → c < q.chunks.length) → PoolInv (q, out) := by
      intro q h1 h2 h3 h4
      refine PoolInv_sub hI ?_ h3 h2 ?_ h4
      · intro i ch hc; rw [h1] at hc; exact hc
      · rw [h1]; exact hI.2.1
    have hother : (match p.GetChunkWithFreeSlots with
        | some i => newObjectLoop n { p with chunkToUse := some i }
        | none =>
          (p.CreateChunk (match p.GetFreeChunkSlot with
            | none => p.chunks.length
            | some slot => slot)).bind fun x =>
              newObjectLoop n { x.1 with chunkToUse := some x.2 }) = some (p', r) →
        ∃ a, r = some a ∧ a ∉ out ∧ PoolInv (p', a :: out) ∧ p'.mode = p.mode ∧
          p'.numElementsPerChunk = p.numElementsPerChunk := by
      intro h
      split at h
      · rename_i i hi
        have hs := GetChunkWithFreeSlots_spec hi
        have hq := hrange { p with chunkToUse := some i } rfl rfl rfl (by
          intro c hc
          simp only [Option.some.injEq] at hc
          subst hc
          exact hs.1)
        have := ih _ hq h
        exact this
      · simp only [Option.bind_eq_some] at h
        obtain ⟨⟨p1, i⟩, hc, h⟩ := h
        obtain ⟨hI1, hi, _, _, hm, hn⟩ := CreateChunk_spec hI hc
        have hq : PoolInv ({ p1 with chunkToUse := some i }, out) := by
          refine PoolInv_sub hI1 (fun _ _ h => h) rfl rfl hI1.2.1 ?_
          intro c hc
          simp only [Option.some.injEq] at hc
          subst hc
          exact hi
        obtain ⟨a, g1, g2, g3, g4, g5⟩ := ih _ hq h
        exact ⟨a, g1, g2, g3, g4.trans hm, g5.trans hn⟩
    split at h
    · rename_i m a rest
      simp only [Option.pure_def, Option.some.injEq, Prod.mk.injEq] at h
      obtain ⟨rfl, rfl⟩ := h
      obtain ⟨g1, g2⟩ := pop_inv hI hchunk
      exact ⟨(m, a), rfl, g1, g2, rfl, rfl⟩
    · exact hother h


theorem CreateChunk_total (p : MemoryPool) {pos : Nat} (h : pos ≤ p.chunks.length) :
    ∃ p', p.CreateChunk pos = some (p', pos) := by
  simp only [MemoryPool.CreateChunk]
  have : pos < (if pos < p.chunks.length then p.chunks
      else p.chunks ++ List.replicate CHUNK_ARRAY_DELTA none).length := by
    split
    · assumption
    · simp [CHUNK_ARRAY_DELTA]; omega
  rw [if_pos this]
  exact ⟨_, rfl⟩

theorem firstChunk_spec {p p1 : MemoryPool} {out : List Addr} (hI : PoolInv (p, out))
    (h : p.firstChunk = some p1) :
    PoolInv (p1, out) ∧ p1.mode = p.mode ∧ p1.numElementsPerChunk = p.numElementsPerChunk ∧
      p1.chunkToUse.isSome = true := by
  unfold MemoryPool.firstChunk at h
  split at h
  · simp only [Option.bind_eq_bind, Option.bind_eq_some, Option.pure_def,
      Option.some.injEq] at h
    obtain ⟨⟨q, i⟩, hc, rfl⟩ := h
    obtain ⟨hq, hi, _, _, hm, hn⟩ := CreateChunk_spec hI hc
    refine ⟨PoolInv_sub hq (fun _ _ h => h) rfl rfl hq.2.1 ?_, hm, hn, rfl⟩
    intro c hc'
    simp only [Option.some.injEq] at hc'
    subst hc'
    exact hi
  · rename_i hn
    simp only [Option.pure_def, Option.some.injEq] at h
    subst h
    refine ⟨hI, rfl, rfl, ?_⟩
    cases h : p.chunkToUse with
    | none => simp [h] at hn
    | some _ => rfl

theorem firstChunk_total (p : MemoryPool) : ∃ p1, p.firstChunk = some p1 := by
  unfold MemoryPool.firstChunk
  split
  · obtain ⟨q, hc⟩ := CreateChunk_total p (Nat.zero_le _)
    rw [hc]
    exact ⟨_, rfl⟩
  · exact ⟨_, rfl⟩

theorem NewObject_spec {fuel : Nat} {p p' : MemoryPool} {out : List Addr} {r : Option Addr}
    (hI : PoolInv (p, out)) (h : p.NewObject fuel = some (p', r)) :
    p'.mode = p.mode ∧ p'.numElementsPerChunk = p.numElementsPerChunk ∧
    ((r = none ∧ p.mode = MemoryPoolMode.Fixed ∧ PoolInv (p', out)) ∨
      ∃ a, r = some a ∧ a ∉ out ∧ PoolInv (p', a :: out)) := by
  simp only [MemoryPool.NewObject, Option.bind_eq_bind, Option.bind_eq_some] at h
  obtain ⟨p1, hp1, cu, hcu, chunk, hchunk, h⟩ := h
  obtain ⟨hI1, hm1, hn1, _⟩ := firstChunk_spec hI hp1
  split at h
  · rename_i hfix
    simp only [Option.pure_def, Option.some.injEq, Prod.mk.injEq] at h
    obtain ⟨rfl, rfl⟩ := h
    exact ⟨hm1, hn1, Or.inl ⟨rfl, hm1 ▸ hfix.1, hI1⟩⟩
  · obtain ⟨a, g1, g2, g3, g4, g5⟩ := newObjectLoop_spec fuel p1 hI1 h
    exact ⟨g4.trans hm1, g5.trans hn1, Or.inr ⟨a, g1, g2, g3⟩⟩

theorem newObjectLoop_pop (k : Nat) {p : MemoryPool} {cu : Nat} {ch : Chunk}
    (hcu : p.chunkToUse = some cu) (hc : p.chunks[cu]? = some (some ch))
    (hne : ch.freeList ≠ []) : ∃ res, newObjectLoop (k + 1) p = some res := by
  obtain ⟨m, fl⟩ := ch
  cases fl with
  | nil => exact absurd rfl hne
  | cons a rest =>
    unfold newObjectLoop
    simp only [hcu, hc, Option.bind_eq_bind, Option.some_bind, Option.pure_def]
    exact ⟨_, rfl⟩

theorem GetFreeChunkSlot_le {p : MemoryPool} :
    (match p.GetFreeChunkSlot with
      | none => p.chunks.length
      | some slot => slot) ≤ p.chunks.length := by
  unfold MemoryPool.GetFreeChunkSlot
  simp only
  split
  · exact le_refl _
  · rename_i slot h
    split at h
    · simp only [Option.some.injEq] at h
      omega
    · simp at h

theorem newObjectLoop_total (k : Nat) {p : MemoryPool} {out : List Addr}
    (hI : PoolInv (p, out)) (hsome : p.chunkToUse.isSome = true) :
    ∃ res, newObjectLoop (k + 2) p = some res := by
  obtain ⟨cu, hcu⟩ := Option.isSome_iff_exists.1 hsome
  have hlt := hI.2.2.1 cu hcu
  have hget : p.chunks[cu]? = some p.chunks[cu] := List.getElem?_eq_getElem hlt
  have hother : ∃ res, (match p.GetChunkWithFreeSlots with
        | some i => newObjectLoop (k + 1) { p with chunkToUse := some i }
        | none =>
          (p.CreateChunk (match p.GetFreeChunkSlot with
            | none => p.chunks.length
            | some slot => slot)).bind fun x =>
              newObjectLoop (k + 1) { x.1 with chunkToUse := some x.2 }) = some res := by
    split
    · rename_i i hi
      obtain ⟨_, ch, h2, h3⟩ := GetChunkWithFreeSlots_spec hi
      exact newObjectLoop_pop k rfl h2 h3
    · obtain ⟨p1, hc⟩ := CreateChunk_total p (GetFreeChunkSlot_le (p := p))
      rw [hc]
      simp only [Option.some_bind]
      obtain ⟨_, _, h3, _, _, _⟩ := CreateChunk_spec hI hc
      refine newObjectLoop_pop k rfl h3 ?_
      simp only [ne_eq, List.reverse_eq_nil_iff, List.range_eq_nil]
      exact Nat.pos_iff_ne_zero.1 hI.1
  unfold newObjectLoop
  simp only [hcu, hget, Option.bind_eq_bind, Option.some_bind, Option.pure_def]
  split
  · exact ⟨_, rfl⟩
  · exact hother

theorem NewObject_total (k : Nat) {p : MemoryPool} {out : List Addr}
    (hI : PoolInv (p, out)) : ∃ res, p.NewObject (k + 2) = some res := by
  obtain ⟨p1, hp1⟩ := firstChunk_total p
  obtain ⟨hI1, _, _, hs⟩ := firstChunk_spec hI hp1
  obtain ⟨cu, hcu⟩ := Option.isSome_iff_exists.1 hs
  have hlt := hI1.2.2.1 cu hcu
  have hget : p1.chunks[cu]? = some p1.chunks[cu] := List.getElem?_eq_getElem hlt
  simp only [MemoryPool.NewObject, Option.bind_eq_bind, Option.pure_def, hp1,
    Option.some_bind, hcu, hget]
  split
  · exact ⟨_, rfl⟩
  · exact newObjectLoop_total k hI1 hs


theorem cutBack_inv {p : MemoryPool} {out : List Addr} (hI : PoolInv (p, out))
    (hlen : p.chunks.length > CHUNK_ARRAY_DELTA) : PoolInv (p.cutBack, out) := by
  refine PoolInv_sub hI ?_ rfl rfl ?_ ?_
  · intro i ch hi
    have hi' : (p.chunks.take (p.chunks.length - CHUNK_ARRAY_DELTA))[i]?
        = some (some ch) := hi
    rw [List.getElem?_take] at hi'
    split at hi'
    · exact hi'
    · simp at hi'
  · show 0 < (p.chunks.take (p.chunks.length - CHUNK_ARRAY_DELTA)).length
    rw [List.length_take]
    simp only [CHUNK_ARRAY_DELTA] at hlen ⊢
    omega
  · intro cu hcu
    exact (GetChunkWithFreeSlots_spec hcu).1

theorem shrinkLoop_spec (fuel : Nat) {p' : MemoryPool} {out : List Addr} :
    ∀ (p : MemoryPool), PoolInv (p, out) → shrinkLoop fuel p = some p' →
      PoolInv (p', out) ∧ p'.mode = p.mode ∧
        p'.numElementsPerChunk = p.numElementsPerChunk := by
  induction fuel with
  | zero => intro p _ h; simp [shrinkLoop] at h
  | succ n ih =>
    intro p hI h
    unfold shrinkLoop at h
    split at h
    · rename_i hc
      split at h
      · simp at h
      · have := ih _ (cutBack_inv hI hc.2) h
        exact this
    · simp only [Option.some.injEq] at h
      subst h
      exact ⟨hI, rfl, rfl⟩

theorem Shrink_spec {p p' : MemoryPool} {out : List Addr} (hI : PoolInv (p, out))
    (h : p.Shrink = some p') :
    PoolInv (p', out) ∧ p'.mode = p.mode ∧
      p'.numElementsPerChunk = p.numElementsPerChunk := by
  unfold MemoryPool.Shrink at h
  simp only at h
  split at h
  · have hq : PoolInv (({ p with
        chunks := p.chunks.set (p.chunks.findIdx (entirelyFree p.numElementsPerChunk)) none,
        numChunks := p.numChunks - 1 } : MemoryPool), out) := by
      refine PoolInv_sub hI ?_ rfl rfl ?_ ?_
      · intro i ch hi
        rcases getElem?_set_cases hi with ⟨_, hx, _⟩ | ⟨_, hi'⟩
        · simp at hx
        · exact hi'
      · show 0 < (List.set _ _ _).length
        rw [List.length_set]; exact hI.2.1
      · intro cu hcu
        show cu < (List.set _ _ _).length
        rw [List.length_set]; exact hI.2.2.1 cu hcu
    have := shrinkLoop_spec _ _ hq h
    exact this
  · simp only [Option.some.injEq] at h
    subst h
    exact ⟨hI, rfl, rfl⟩

theorem push_inv {p : MemoryPool} {out : List Addr} {i a : Nat} {c : Chunk}
    (hI : PoolInv (p, out)) (hc : p.chunks[i]? = some (some c))
    (ha : a < p.numElementsPerChunk) (hmem : (c.memory, a) ∈ out) :
    PoolInv ({ p with chunks := p.chunks.set i (some ⟨c.memory, a :: c.freeList⟩) },
      out.erase (c.memory, a)) := by
  obtain ⟨hn, hlen, hcu, hch, hdist, hout, hnd⟩ := hI
  simp only at hn hlen hcu hch hdist hout hnd
  obtain ⟨g1, g2, g3⟩ := hch i c hc
  refine ⟨hn, ?_, ?_, ?_, ?_, ?_, hnd.erase _⟩
  · show 0 < (List.set _ _ _).length
    rw [List.length_set]; exact hlen
  · intro cu h
    show cu < (List.set _ _ _).length
    rw [List.length_set]; exact hcu cu h
  · intro j ch hj
    rcases getElem?_set_cases hj with ⟨rfl, hx, _⟩ | ⟨hne, hj'⟩
    · simp only [Option.some.injEq] at hx
      subst hx
      refine ⟨g1, ?_, ?_⟩
      · refine List.nodup_cons.2 ⟨?_, g2⟩
        intro hin
        exact (g3 a hin).2 hmem
      · intro b hb
        rcases List.mem_cons.1 hb with h1 | h1
        · subst h1
          exact ⟨ha, hnd.not_mem_erase⟩
        · exact ⟨(g3 b h1).1, fun h => (g3 b h1).2 (List.mem_of_mem_erase h)⟩
    · obtain ⟨k1, k2, k3⟩ := hch j ch hj'
      exact ⟨k1, k2, fun b hb => ⟨(k3 b hb).1, fun h => (k3 b hb).2 (List.mem_of_mem_erase h)⟩⟩
  · intro j k ch ch' hj hk hm
    rcases getElem?_set_cases hj with ⟨rfl, hx, _⟩ | ⟨hne, hj'⟩
    · rcases getElem?_set_cases hk with ⟨rfl, _, _⟩ | ⟨hne', hk'⟩
      · rfl
      · simp only [Option.some.injEq] at hx
        subst hx
        exact hdist _ _ _ _ hc hk' hm
    · rcases getElem?_set_cases hk with ⟨rfl, hx, _⟩ | ⟨hne', hk'⟩
      · simp only [Option.some.injEq] at hx
        subst hx
        exact hdist _ _ _ _ hj' hc hm
      · exact hdist _ _ _ _ hj' hk' hm
  · intro x hx
    exact hout x (List.mem_of_mem_erase hx)

theorem DeleteObject_spec {p p' : MemoryPool} {out : List Addr} {x : Addr} {ok : Bool}
    (hI : PoolInv (p, out)) (hx : x ∈ out) (h : p.DeleteObject (some x) = some (p', ok)) :
    PoolInv (p', if ok then out.erase x else out) ∧ p'.mode = p.mode ∧
      p'.numElementsPerChunk = p.numElementsPerChunk := by
  obtain ⟨m, a⟩ := x
  simp only [MemoryPool.DeleteObject] at h
  split at h
  · rename_i c hc
    split at h
    · simp only [Option.bind_eq_bind, Option.bind_eq_some, Option.pure_def, Option.some.injEq,
        Prod.mk.injEq] at h
      obtain ⟨q, hq, rfl, rfl⟩ := h
      have hlt : p.chunks.findIdx (inChunk p.numElementsPerChunk m a) < p.chunks.length := by
        by_contra hcon
        rw [List.getElem?_eq_none (by omega)] at hc
        simp at hc
      have hp := List.findIdx_getElem (w := hlt)
      have hcc : p.chunks[p.chunks.findIdx (inChunk p.numElementsPerChunk m a)] = some c := by
        rw [List.getElem?_eq_getElem hlt] at hc
        simpa using hc
      rw [hcc] at hp
      simp only [inChunk, decide_eq_true_eq] at hp
      obtain ⟨rfl, ha⟩ := hp
      have hpush := push_inv hI hc ha hx
      have := Shrink_spec hpush hq
      simpa using this
    · simp at h
  · simp only [Option.some.injEq, Prod.mk.injEq] at h
    obtain ⟨rfl, rfl⟩ := h
    exact ⟨by simpa using hI, rfl, rfl⟩

theorem call_spec {fuel : Nat} {st st' : MemoryPool × List Addr} {c : Call}
    {r : Option Addr × Bool} (hI : PoolInv st) (h : call fuel st c = some (st', r)) :
    PoolInv st' ∧ st'.1.mode = st.1.mode ∧
      st'.1.numElementsPerChunk = st.1.numElementsPerChunk := by
  obtain ⟨p, out⟩ := st
  cases c with
  | new =>
    simp only [call, Option.bind_eq_bind, Option.bind_eq_some] at h
    obtain ⟨⟨p1, r1⟩, hN, h⟩ := h
    obtain ⟨hm, hn, hcase⟩ := NewObject_spec hI hN
    cases r1 with
    | none =>
      simp only [Option.pure_def, Option.some.injEq, Prod.mk.injEq] at h
      obtain ⟨rfl, _⟩ := h
      rcases hcase with ⟨_, _, h3⟩ | ⟨a, h1, _⟩
      · exact ⟨h3, hm, hn⟩
      · simp at h1
    | some a =>
      simp only [Option.pure_def, Option.some.injEq, Prod.mk.injEq] at h
      obtain ⟨rfl, _⟩ := h
      rcases hcase with ⟨h1, _⟩ | ⟨b, h1, _, h3⟩
      · simp at h1
      · simp only [Option.some.injEq] at h1
        subst h1
        exact ⟨h3, hm, hn⟩
  | delete i =>
    simp only [call] at h
    split at h
    · simp only [Option.pure_def, Option.some.injEq, Prod.mk.injEq] at h
      obtain ⟨rfl, _⟩ := h
      exact ⟨hI, rfl, rfl⟩
    · rename_i a ha
      simp only [Option.bind_eq_bind, Option.bind_eq_some, Option.pure_def, Option.some.injEq,
        Prod.mk.injEq] at h
      obtain ⟨⟨p1, ok⟩, hD, rfl, _⟩ := h
      have hmem : a ∈ out := List.getElem?_mem ha
      exact DeleteObject_spec hI hmem hD

theorem calls_spec (fuel : Nat) (cs : List Call) :
    ∀ (st st' : MemoryPool × List Addr) (rs : List (Option Addr × Bool)), PoolInv st →
      calls fuel st cs = some (st', rs) →
      PoolInv st' ∧ st'.1.mode = st.1.mode ∧
        st'.1.numElementsPerChunk = st.1.numElementsPerChunk := by
  induction cs with
  | nil =>
    intro st st' rs hI h
    simp only [calls, Option.some.injEq, Prod.mk.injEq] at h
    obtain ⟨rfl, _⟩ := h
    exact ⟨hI, rfl, rfl⟩
  | cons c cs ih =>
    intro st st' rs hI h
    simp only [calls, Option.bind_eq_bind, Option.bind_eq_some, Option.pure_def,
      Option.some.injEq, Prod.mk.injEq] at h
    obtain ⟨⟨st1, r⟩, h1, ⟨st2, rs2⟩, h2, rfl, _⟩ := h
    obtain ⟨g1, g2, g3⟩ := call_spec hI h1
    obtain ⟨k1, k2, k3⟩ := ih st1 st2 rs2 g1 h2
    exact ⟨k1, k2.trans g2, k3.trans g3⟩

theorem init_spec {n : Nat} {m : MemoryPoolMode} {p : MemoryPool}
    (h : MemoryPool.init n m = some p) : PoolInv (p, []) ∧ p.mode = m := by
  unfold MemoryPool.init at h
  split at h
  · rename_i hn
    simp only [Option.some.injEq] at h
    subst h
    refine ⟨⟨?_, by simp [CHUNK_ARRAY_DELTA], by simp, ?_, ?_, by simp, List.nodup_nil⟩, rfl⟩
    · show 0 < (if _ then _ else _)
      split
      · simp [TWO_EXP16]
      · exact hn
    · intro i ch hi
      simp only [List.getElem?_replicate] at hi
      split at hi <;> simp at hi
    · intro i j ch ch' hi
      simp only [List.getElem?_replicate] at hi
      split at hi <;> simp at hi
  · simp at h


/-! ## Fixed pools -/

theorem init_fixed {C : Nat} (hC : 0 < C) :
    MemoryPool.init C MemoryPoolMode.Fixed = some (fixedNew C) := by
  simp [MemoryPool.init, hC, fixedNew]

theorem range_reverse_succ (j : Nat) :
    (List.range (j + 1)).reverse = j :: (List.range j).reverse := by
  rw [List.range_succ, List.reverse_append]
  rfl

theorem NewObject_fixedNew (k : Nat) (C : Nat) :
    (fixedNew (C + 1)).NewObject (k + 1)
      = some (fixedLive (C + 1) (List.range C).reverse, some (0, C)) := by
  simp only [MemoryPool.NewObject, MemoryPool.firstChunk, fixedNew, MemoryPool.CreateChunk,
    CHUNK_ARRAY_DELTA, List.replicate, List.length_cons, List.length_nil, Option.isNone_none,
    if_true, Option.bind_eq_bind, Option.some_bind, Option.pure_def, List.set_cons_zero,
    range_reverse_succ, Nat.reduceAdd, Nat.zero_lt_succ, Nat.reduceLT,
    List.getElem?_cons_zero, numFree, List.length_reverse, List.length_range]
  rw [if_neg (by simp)]
  simp only [newObjectLoop, Option.bind_eq_bind, Option.some_bind, List.getElem?_cons_zero,
    Option.pure_def, List.set_cons_zero, zero_add, fixedLive, List.replicate]

theorem NewObject_fixedLive_cons (k : Nat) (C a : Nat) (fl : List Nat) :
    (fixedLive C (a :: fl)).NewObject (k + 1) = some (fixedLive C fl, some (0, a)) := by
  simp only [MemoryPool.NewObject, MemoryPool.firstChunk, fixedLive, Option.isNone_some,
    Bool.false_eq_true, if_false, Option.bind_eq_bind, Option.some_bind, Option.pure_def,
    List.getElem?_cons_zero, numFree, List.length_cons]
  rw [if_neg (by simp)]
  simp only [newObjectLoop, Option.bind_eq_bind, Option.some_bind, List.getElem?_cons_zero,
    Option.pure_def, List.set_cons_zero]

theorem NewObject_fixedLive_nil (k : Nat) (C : Nat) :
    (fixedLive C []).NewObject k = some (fixedLive C [], none) := by
  simp [MemoryPool.NewObject, MemoryPool.firstChunk, fixedLive, numFree]

theorem NewObject_fixedDead (k : Nat) (C : Nat) :
    (fixedDead C).NewObject k = some (fixedDead C, none) := by
  simp [MemoryPool.NewObject, MemoryPool.firstChunk, fixedDead, numFree, CHUNK_ARRAY_DELTA,
    List.replicate]

theorem DeleteObject_fixedLive (C a : Nat) (fl : List Nat) (ha : a < C)
    (hfl : fl.length < C) :
    (fixedLive C fl).DeleteObject (some (0, a))
      = some (if fl.length + 1 = C then fixedDead C else fixedLive C (a :: fl), true) := by
  have hidx : List.findIdx (inChunk C 0 a) (some ⟨0, fl⟩ :: List.replicate 9 none) = 0 := by
    simp [List.findIdx_cons, inChunk, ha]
  simp only [MemoryPool.DeleteObject, fixedLive, hidx, List.getElem?_cons_zero, hfl, if_true,
    List.set_cons_zero, Option.bind_eq_bind, Option.pure_def]
  by_cases hfull : fl.length + 1 = C
  · have h2 : List.findIdx (entirelyFree C)
        (some ⟨0, a :: fl⟩ :: List.replicate 9 none) = 0 := by
      simp [List.findIdx_cons, entirelyFree, numFree, hfull]
    simp only [MemoryPool.Shrink, h2, List.length_cons, List.length_replicate, Nat.zero_lt_succ,
      if_true, List.set_cons_zero, hfull]
    simp [shrinkLoop, CHUNK_ARRAY_DELTA, fixedDead, List.replicate]
  · have h2 : ¬ List.findIdx (entirelyFree C)
        (some ⟨0, a :: fl⟩ :: List.replicate 9 none) < 10 := by
      have h3 : ∀ x ∈ (some ⟨0, a :: fl⟩ :: List.replicate 9 none : List (Option Chunk)),
          entirelyFree C x = false := by
        intro x hx
        rcases List.mem_cons.1 hx with h | h
        · subst h
          simp only [entirelyFree, numFree, List.length_cons, decide_eq_false_iff_not]
          intro hc
          apply hfull
          exact_mod_cast hc
        · rw [List.mem_replicate] at h
          rw [h.2]
          simp [entirelyFree, numFree]
      rw [List.findIdx_eq_length_of_false h3]
      simp
    simp only [MemoryPool.Shrink, List.length_cons, List.length_replicate, h2, if_false,
      Option.some_bind, hfull]

theorem GetNumFree_fixedLive (C : Nat) (fl : List Nat) :
    (fixedLive C fl).GetNumFree = fl.length := by
  simp [MemoryPool.GetNumFree, fixedLive, List.replicate]

theorem GetNumFree_fixedDead (C : Nat) : (fixedDead C).GetNumFree = 0 := by
  simp [MemoryPool.GetNumFree, fixedDead, CHUNK_ARRAY_DELTA, List.replicate]

theorem GetNumFree_fixedNew (C : Nat) : (fixedNew C).GetNumFree = 0 := by
  simp [MemoryPool.GetNumFree, fixedNew, CHUNK_ARRAY_DELTA, List.replicate]


theorem call_new_fixed (k : Nat) {C : Nat} (hC : 0 < C) {st : MemoryPool × List Addr}
    (hF : FixedInv C st) :
    ∃ st' r, call (k + 1) st Call.new = some (st', r) ∧ FixedInv C st' ∧
      (st.2.length < C → st.1 ≠ fixedDead C →
        ∃ a, r = (some a, false) ∧ st'.2 = a :: st.2 ∧ st'.1 ≠ fixedDead C) ∧
      (st.2.length = C → r = (none, false) ∧ st' = st) := by
  obtain ⟨p, out⟩ := st
  rcases hF with ⟨hp, ho⟩ | ⟨fl, hp, hlen, hne, hfl, hout⟩ | ⟨hp, ho⟩
  · simp only at hp ho
    subst hp ho
    obtain ⟨c, rfl⟩ : ∃ c, C = c + 1 := ⟨C - 1, by omega⟩
    refine ⟨(fixedLive (c + 1) (List.range c).reverse, [(0, c)]), (some (0, c), false), ?_, ?_,
      ?_, ?_⟩
    · simp only [call, NewObject_fixedNew, Option.bind_eq_bind, Option.some_bind,
        Option.pure_def]
    · right; left
      refine ⟨_, rfl, by simp, by simp, ?_, ?_⟩
      · intro a ha
        simp only [List.mem_reverse, List.mem_range] at ha
        omega
      · intro x hx
        simp only [List.mem_singleton] at hx
        subst hx
        simp
    · intro _ _
      refine ⟨(0, c), rfl, rfl, ?_⟩
      simp [fixedLive, fixedDead]
    · intro h
      simp at h
  · simp only at hp hlen hne hfl hout
    subst hp
    cases fl with
    | nil =>
      refine ⟨(fixedLive C [], out), (none, false), ?_, ?_, ?_, ?_⟩
      · simp only [call, NewObject_fixedLive_nil, Option.bind_eq_bind, Option.some_bind,
          Option.pure_def]
      · right; left
        exact ⟨[], rfl, hlen, hne, hfl, hout⟩
      · intro h
        simp at hlen
        simp only at h
        omega
      · intro _
        exact ⟨rfl, rfl⟩
    | cons a rest =>
      refine ⟨(fixedLive C rest, (0, a) :: out), (some (0, a), false), ?_, ?_, ?_, ?_⟩
      · simp only [call, NewObject_fixedLive_cons, Option.bind_eq_bind, Option.some_bind,
          Option.pure_def]
      · right; left
        refine ⟨rest, rfl, ?_, by simp, ?_, ?_⟩
        · simp only [List.length_cons] at hlen ⊢
          omega
        · intro b hb
          exact hfl b (List.mem_cons_of_mem _ hb)
        · intro x hx
          rcases List.mem_cons.1 hx with h | h
          · subst h
            exact ⟨rfl, hfl a (List.mem_cons_self _ _)⟩
          · exact hout x h
      · intro _ _
        refine ⟨(0, a), rfl, rfl, ?_⟩
        simp [fixedLive, fixedDead]
      · intro h
        simp only [List.length_cons] at hlen h
        omega
  · simp only at hp ho
    subst hp ho
    refine ⟨(fixedDead C, []), (none, false), ?_, Or.inr (Or.inr ⟨rfl, rfl⟩), ?_, ?_⟩
    · simp only [call, NewObject_fixedDead, Option.bind_eq_bind, Option.some_bind,
        Option.pure_def]
    · intro _ h
      exact absurd rfl h
    · intro _
      exact ⟨rfl, rfl⟩

theorem call_delete_fixed (k : Nat) {C : Nat} {st : MemoryPool × List Addr}
    (hF : FixedInv C st) (i : Nat) :
    ∃ st' r, call k st (Call.delete i) = some (st', r) ∧ FixedInv C st' ∧
      (st.2 ≠ [] → r = (none, true) ∧ st'.2.length + 1 = st.2.length) ∧
      (st.2 = [] → st' = st) := by
  obtain ⟨p, out⟩ := st
  have hempty : ∀ (q : MemoryPool), call k (q, []) (Call.delete i) = some ((q, []), (none, false)) := by
    intro q
    simp [call]
  rcases hF with ⟨hp, ho⟩ | ⟨fl, hp, hlen, hne, hfl, hout⟩ | ⟨hp, ho⟩
  · simp only at hp ho
    subst hp ho
    exact ⟨_, _, hempty _, Or.inl ⟨rfl, rfl⟩, fun h => absurd rfl h, fun _ => rfl⟩
  · simp only at hp hlen hne hfl hout
    subst hp
    have hpos : 0 < out.length := List.length_pos.2 hne
    have hlt : i % out.length < out.length := Nat.mod_lt _ hpos
    have hget : out[i % out.length]? = some out[i % out.length] := List.getElem?_eq_getElem hlt
    have hmem : out[i % out.length] ∈ out := List.getElem_mem _
    obtain ⟨h0, ha⟩ := hout _ hmem
    have hx : out[i % out.length] = (0, (out[i % out.length]).2) := by
      rw [← h0]
    have hfll : fl.length < C := by omega
    refine ⟨(if fl.length + 1 = C then fixedDead C
        else fixedLive C ((out[i % out.length]).2 :: fl), out.erase out[i % out.length]),
      (none, true), ?_, ?_, ?_, ?_⟩
    · simp only [call, hget]
      rw [hx, DeleteObject_fixedLive C _ fl ha hfll]
      simp only [Option.bind_eq_bind, Option.some_bind, Option.pure_def, if_true]
    · have hlen' : (out.erase out[i % out.length]).length + 1 = out.length := by
        rw [List.length_erase_of_mem hmem]
        omega
      by_cases hfull : fl.length + 1 = C
      · right; right
        simp only [hfull, if_true, true_and]
        apply List.eq_nil_of_length_eq_zero
        omega
      · right; left
        simp only [hfull, if_false]
        refine ⟨_, rfl, ?_, ?_, ?_, ?_⟩
        · simp only [List.length_cons]
          omega
        · intro hnil
          rw [hnil] at hlen'
          simp at hlen'
          omega
        · intro b hb
          rcases List.mem_cons.1 hb with h | h
          · subst h; exact ha
          · exact hfl b h
        · intro y hy
          exact hout y (List.mem_of_mem_erase hy)
    · intro _
      refine ⟨rfl, ?_⟩
      simp only
      rw [List.length_erase_of_mem hmem]
      omega
    · intro h
      exact absurd h hne
  · simp only at hp ho
    subst hp ho
    exact ⟨_, _, hempty _, Or.inr (Or.inr ⟨rfl, rfl⟩), fun h => absurd rfl h, fun _ => rfl⟩


theorem calls_fixed (k : Nat) {C : Nat} (hC : 0 < C) (cs : List Call) :
    ∀ (st : MemoryPool × List Addr), FixedInv C st →
      ∃ st' rs, calls (k + 1) st cs = some (st', rs) ∧ FixedInv C st' := by
  induction cs with
  | nil => intro st hF; exact ⟨st, [], rfl, hF⟩
  | cons c cs ih =>
    intro st hF
    have h1 : ∃ st1 r, call (k + 1) st c = some (st1, r) ∧ FixedInv C st1 := by
      cases c with
      | new =>
        obtain ⟨st1, r, h, hF1, _⟩ := call_new_fixed k hC hF
        exact ⟨st1, r, h, hF1⟩
      | delete i =>
        obtain ⟨st1, r, h, hF1, _⟩ := call_delete_fixed (k + 1) hF i
        exact ⟨st1, r, h, hF1⟩
    obtain ⟨st1, r, h, hF1⟩ := h1
    obtain ⟨st2, rs, h2, hF2⟩ := ih st1 hF1
    refine ⟨st2, r :: rs, ?_, hF2⟩
    simp only [calls, h, h2, Option.bind_eq_bind, Option.some_bind, Option.pure_def]

theorem news_fixed (k : Nat) {C : Nat} (hC : 0 < C) (n : Nat) :
    ∀ (st : MemoryPool × List Addr), FixedInv C st → st.1 ≠ fixedDead C →
      st.2.length + n ≤ C →
      ∃ st' rs, calls (k + 1) st (List.replicate n Call.new) = some (st', rs) ∧
        FixedInv C st' ∧ st'.1 ≠ fixedDead C ∧
        ∃ ptrs : List Addr, rs = ptrs.map (fun a => (some a, false)) ∧ ptrs.length = n ∧
          st'.2 = ptrs.reverse ++ st.2 := by
  induction n with
  | zero =>
    intro st hF hnd _
    exact ⟨st, [], rfl, hF, hnd, [], rfl, rfl, rfl⟩
  | succ n ih =>
    intro st hF hnd hlen
    obtain ⟨st1, r, h, hF1, hnew, _⟩ := call_new_fixed k hC hF
    obtain ⟨a, hr, hout, hnd1⟩ := hnew (by omega) hnd
    obtain ⟨st2, rs, h2, hF2, hnd2, ptrs, hrs, hpl, hout2⟩ := ih st1 hF1 hnd1 (by
      rw [hout]; simp only [List.length_cons]; omega)
    refine ⟨st2, r :: rs, ?_, hF2, hnd2, a :: ptrs, ?_, ?_, ?_⟩
    · simp only [List.replicate_succ, calls, h, h2, Option.bind_eq_bind, Option.some_bind,
        Option.pure_def]
    · rw [hr, hrs]; rfl
    · simp [hpl]
    · rw [hout2, hout]
      simp

theorem FixedInv_new (C : Nat) : FixedInv C (fixedNew C, []) := Or.inl ⟨rfl, rfl⟩

theorem fixedNew_ne_dead (C : Nat) : fixedNew C ≠ fixedDead C := by
  simp [fixedNew, fixedDead]

theorem GetNumFree_fixed {C : Nat} {st : MemoryPool × List Addr} (hF : FixedInv C st) :
    st.1.GetNumFree = if st.2 = [] then 0 else C - st.2.length := by
  rcases hF with ⟨hp, ho⟩ | ⟨fl, hp, hlen, hne, _, _⟩ | ⟨hp, ho⟩
  · rw [hp, ho, GetNumFree_fixedNew]; rfl
  · rw [hp, GetNumFree_fixedLive, if_neg hne]
    omega
  · rw [hp, ho, GetNumFree_fixedDead]; rfl

theorem nextBlock_fixed {C : Nat} {st : MemoryPool × List Addr} (hF : FixedInv C st) :
    st.1.nextBlock ≤ 1 := by
  rcases hF with ⟨hp, _⟩ | ⟨fl, hp, _⟩ | ⟨hp, _⟩ <;> rw [hp] <;> simp [fixedNew, fixedLive, fixedDead]

end Mem

/-- The slot step with the Voronoi buffers does to the Triangulator and the work array what
`storeSlot` does. -/
theorem cellsSlot_fst {st st' : (Triangulator × List Nat) × VoronoiCells} {i : Nat}
    (h : cellsSlot st i = some st') : storeSlot st.1 i = some st'.1 := by
  unfold cellsSlot at h
  simp only [Option.bind_eq_bind, Option.bind_eq_some, Option.pure_def, Option.some.injEq]
    at h
  obtain ⟨_, _, st1, h1, rfl⟩ := h
  exact h1

theorem foldlM_cellsSlot_fst (l : List Nat) :
    ∀ (st st' : (Triangulator × List Nat) × VoronoiCells),
      l.foldlM cellsSlot st = some st' → l.foldlM storeSlot st.1 = some st'.1 := by
  induction l with
  | nil =>
    intro st st' h
    simp only [List.foldlM_nil, Option.pure_def, Option.some.injEq] at h ⊢
    rw [h]
  | cons i l ih =>
    intro st st' h
    simp only [List.foldlM_cons, Option.bind_eq_bind, Option.bind_eq_some] at h ⊢
    obtain ⟨st1, h1, h2⟩ := h
    exact ⟨st1.1, cellsSlot_fst h1, ih _ _ h2⟩

/-- The pass with the Voronoi buffers leaves the Triangulator that `GenerateNodeNeighbours`
leaves. -/
theorem GenerateNodeNeighboursCells_fst {t : Triangulator} {r : Triangulator × VoronoiCells}
    (h : GenerateNodeNeighboursCells t = some r) : GenerateNodeNeighbours t = some r.1 := by
  unfold GenerateNodeNeighboursCells at h
  unfold GenerateNodeNeighbours
  simp only [Option.bind_eq_bind, Option.bind_eq_some, Option.pure_def, Option.some.injEq]
    at h ⊢
  obtain ⟨s, hs, t1, h1, ⟨⟨t2, temp⟩, c⟩, h2, rfl⟩ := h
  refine ⟨s, hs, t1, h1, (t2, temp), ?_, rfl⟩
  exact foldlM_cellsSlot_fst _ _ _ h2

/-- The constructor with the Voronoi buffers leaves the Triangulator that the constructor
leaves. -/
theorem constructCells_fst {fuel : Nat} {s : List (Int × Int)} {attr : Nat}
    {superTriangle : List (Int × Int)} {r : Triangulator × VoronoiCells}
    (h : Triangulator.constructCells fuel s attr superTriangle = some r) :
    Triangulator.construct fuel s attr superTriangle = some r.1 := by
  unfold Triangulator.constructCells at h
  unfold Triangulator.construct
  by_cases hc : hasAttr attr Triangulator_TriangleIndices = true
  · simp only [hc, if_true, Option.bind_eq_bind, Option.bind_eq_some] at h ⊢
    obtain ⟨t0, h0, t1, h1, t2, h2, t3, h3, h4⟩ := h
    exact ⟨t0, h0, t1, h1, t2, h2, t3, h3, GenerateNodeNeighboursCells_fst h4⟩
  · simp only [hc, if_false, Option.bind_eq_bind, Option.bind_eq_some, Option.pure_def,
      Option.some.injEq, Bool.false_eq_true] at h ⊢
    obtain ⟨t0, h0, t1, h1, t2, h2, t3, h3, h4⟩ := h
    exact ⟨t0, h0, t1, h1, t2, h2, t3, h3, GenerateNodeNeighboursCells_fst h4⟩

/-- C8: whenever the constructor runs to completion, `m_nEdges`, which it computes as
`3 * m_nSites - m_dEdge.GetNumFree()`, is the number of quad-edge slots of the edge pool whose
attribute word is in use (`IsFree()` false), the free count is the same at the end of the
construction, and `GetNumFaces()` is `m_nEdges - m_nSites + 2`. -/
theorem C8_edge_accounting (fuel : Nat) (s : List (Int × Int)) (attr : Nat)
    (superTriangle : List (Int × Int)) (t : Triangulator)
    (h : Triangulator.construct fuel s attr superTriangle = some t) :
    t.m_nEdges = (t.inUseCount : Int) ∧
      t.m_nEdges = 3 * (t.m_nSites : Int) - (t.m_dEdge.pool.GetNumFree : Int) ∧
      t.GetNumFaces = t.m_nEdges - (t.m_nSites : Int) + 2 := by
  obtain ⟨t0, h0, ⟨fE, fF, fS, fP, fU⟩, ha⟩ := construct_frame h
  obtain ⟨⟨hI, hN⟩, hE, hFc⟩ := triangulate_spec h0
  obtain ⟨st, hst⟩ := Option.isSome_iff_exists.1 ha
  have hc := (hI st hst).count
  have hfree : t0.m_dEdge.pool.GetNumFree = st.length := by
    simp [MemoryPool.GetNumFree, hst]
  have hU : t.inUseCount = t0.inUseCount := by
    unfold Triangulator.inUseCount
    rw [fS]
    congr 1
    apply List.filter_congr
    intro q _
    rw [fU q]
  have hU0 : t0.inUseCount + st.length = t0.m_nSites * 3 := by
    unfold Triangulator.inUseCount
    rw [← hN]
    exact hc
  refine ⟨?_, ?_, ?_⟩
  · rw [fE, hE, hU, hfree]
    omega
  · rw [fE, hE, fS, fP, hfree]
    push_cast
    omega
  · show t.m_nFaces = _
    rw [fF, hFc, fE, fS]

set_option maxRecDepth 1000000 in
theorem C8_edge_accounting_witness :
    ∃ t, Triangulator.construct 20 [(0, 0), (4, 0), (0, 4), (1, 1)] 2 [] = some t ∧
      t.m_nEdges = (t.inUseCount : Int) ∧
      t.m_nEdges = 3 * (t.m_nSites : Int) - (t.m_dEdge.pool.GetNumFree : Int) ∧
      t.GetNumFaces = t.m_nEdges - (t.m_nSites : Int) + 2 ∧
      (t.m_nEdges, t.m_nSites, t.GetNumFaces) = (6, 4, 4) :=
  match h : Triangulator.construct 20 [(0, 0), (4, 0), (0, 4), (1, 1)] 2 [] with
  | some t =>
    have h3 := C8_edge_accounting 20 [(0, 0), (4, 0), (0, 4), (1, 1)] 2 [] t h
    ⟨t, rfl, h3.1, h3.2.1, h3.2.2, by
      have : (Triangulator.construct 20 [(0, 0), (4, 0), (0, 4), (1, 1)] 2 []).map
          (fun t => (t.m_nEdges, t.m_nSites, t.GetNumFaces)) = some (6, 4, 4) := by decide
      rw [h] at this
      simpa using this⟩
  | none => by
    have : (Triangulator.construct 20 [(0, 0), (4, 0), (0, 4), (1, 1)] 2 []).isSome = true := by
      decide
    rw [h] at this
    exact absurd this (by decide)

set_option maxRecDepth 1000000 in
/-- C6 (counterexample): two collinear inputs that are triangulated.

(1) The input (0,0), (3,4), (6,8) with the super-triangle option and
`Triangulator_VoronoiVertices`.  The coordinates are scaled by 2^20, which makes the corners
computed by `InitSuperTriangle` in single precision integers.  The three sites are triangulated
together with the three synthetic corners: 12 edges are in use and 8 circumcentres have been
computed, where the claim has a chain of 2 edges and no circumcentre.

(2) The input (0.1, 0.7), (0.1, 33.3), (0.1, 4096.5) in single precision, without the
super-triangle option, with `Triangulator_TriangleIndices` and `Triangulator_VoronoiVertices`.
The six `float` coordinates are the integers below times 2^-27, and the three points lie on
one vertical line.  The sort leaves the sites in the input order and `Site::CCW` stores
-184 * 2^-54 (about -1.02e-14) for them: the six products are doubles, and the differences
`bx*cy - by*cx` and `ax*cy - ay*cx` are rounded, by -512 and by -328 units of 2^-54.  As the
stored value is not 0.0, `Delaunay` closes the triangle with `Connect`: 3 edges are in use,
`GetNumTriangles()` is 2 and 2 circumcentres have been computed. -/
theorem C6_collinear_triangulated :
    ((Triangulator.construct 30
        [(0, 0), (3145728, 4194304), (6291456, 8388608)]
        (Triangulator_SuperTriangle + Triangulator_VoronoiVertices)
        [(-15016141, -6291456), (21307598, -6291456), (3145728, 25165824)]).map
        (fun t => (t.inUseCount, t.GetNumTriangles, t.GetNumVoronoiVertices))
      = some (12, 0, 8)
    ∧ orient (0, 0) (3145728, 4194304) (6291456, 8388608) = 0)
    ∧ ((Triangulator.construct 30
        [(13421773, 93952408), (13421773, 4469450240), (13421773, 549822922752)]
        (Triangulator_TriangleIndices + Triangulator_VoronoiVertices) []).map
        (fun t => (t.inUseCount, t.GetNumTriangles, t.GetNumVoronoiVertices))
      = some (3, 2, 2)
    ∧ hasAttr (Triangulator_TriangleIndices + Triangulator_VoronoiVertices)
        Triangulator_SuperTriangle = false
    ∧ orient (13421773, 93952408) (13421773, 4469450240) (13421773, 549822922752) = 0
    ∧ CCW (SortSites [⟨13421773, 93952408, 0⟩, ⟨13421773, 4469450240, 1⟩,
          ⟨13421773, 549822922752, 2⟩]) (some 0) (some 1) (some 2) = some (-184)) := by
  decide

/-- C6 (amended): for every three collinear input points for which `Site::CCW`, evaluated in
double precision on the three sorted sites, stores exactly 0.0, and every attribute word without
the super-triangle flag, the constructor returns a Triangulator in which exactly two quad-edge
slots are in use, joining `j` to `k` and `i` to `j` for an arrangement `i, j, k` of the three
input positions (an open chain: no edge joins `i` and `k`), `GetNumTriangles()` is 0,
`GetNumVoronoiVertices()` is 0, and, when `Triangulator_VoronoiVertices` is set, the Voronoi
pool exists and no vertex has been requested from it (`chunkToUse` is still unset), so that
`Circumcenter`, which is only called on a vertex just obtained from the pool, was not called.
For collinear points the stored value is 0.0 exactly when the rounding errors of the expression
cancel, as they do when no operation rounds: integer coordinates of magnitude below 2^25 are
such (`ccw_of_perm_collinear`).  The proof follows the branch `ct == 0.0` of `Delaunay` and
does not use the collinearity itself. -/
theorem C6_collinear_chain (p0 p1 p2 : Int × Int) (attr : Nat) (sup : List (Int × Int))
    (_hcol : orient p0 p1 p2 = 0)
    (hST : hasAttr attr Triangulator_SuperTriangle = false)
    (hccw : CCW (SortSites [⟨p0.1, p0.2, 0⟩, ⟨p1.1, p1.2, 1⟩, ⟨p2.1, p2.2, 2⟩])
      (some 0) (some 1) (some 2) = some 0) :
    ∃ t i j k, Triangulator.construct 20 [p0, p1, p2] attr sup = some t ∧
      [i, j, k].Perm [0, 1, 2] ∧
      t.inUseCount = 2 ∧ t.edgeList = [(some j, some k), (some i, some j)] ∧
      t.GetNumTriangles = 0 ∧ t.GetNumVoronoiVertices = 0 ∧
      (hasAttr attr Triangulator_VoronoiVertices = true →
        ∃ pool, t.m_vEdgePool = some pool ∧ pool.chunkToUse = none) := by
  have hperm : (SortSites [⟨p0.1, p0.2, 0⟩, ⟨p1.1, p1.2, 1⟩, ⟨p2.1, p2.2, 2⟩]).Perm
      [⟨p0.1, p0.2, 0⟩, ⟨p1.1, p1.2, 1⟩, ⟨p2.1, p2.2, 2⟩] := List.perm_insertionSort _ _
  have hids : ((SortSites [⟨p0.1, p0.2, 0⟩, ⟨p1.1, p1.2, 1⟩, ⟨p2.1, p2.2, 2⟩]).map
      Site.m_id).Perm [0, 1, 2] := hperm.map Site.m_id
  have hrun := chain_general hids hST hccw
  rw [construct_eq_afterSort, initialSites_plain _ _ hST]
  have hz : (List.range [p0, p1, p2].length).zipWith (fun i p => (⟨p.1, p.2, i⟩ : Site))
      [p0, p1, p2] = [⟨p0.1, p0.2, 0⟩, ⟨p1.1, p1.2, 1⟩, ⟨p2.1, p2.2, 2⟩] := rfl
  rw [hz]
  simp only [Option.some_bind, List.length_cons, List.length_nil]
  generalize (SortSites [⟨p0.1, p0.2, 0⟩, ⟨p1.1, p1.2, 1⟩, ⟨p2.1, p2.2, 2⟩]).map Site.m_id
    = ids at hids hrun
  cases hrt : afterSort 20 attr 3
      (SortSites [⟨p0.1, p0.2, 0⟩, ⟨p1.1, p1.2, 1⟩, ⟨p2.1, p2.2, 2⟩]) with
  | none => rw [hrt] at hrun; simp at hrun
  | some t =>
    rw [hrt] at hrun
    simp only [Option.map_some', Option.some.injEq, chainReport, Prod.mk.injEq] at hrun
    obtain ⟨⟨h1, h2⟩, h3, h4, h5⟩ := hrun
    have hlen : ids.length = 3 := hids.length_eq
    match ids, hlen, hids, h2, h5 with
    | [i, j, k], _, hids, h2, h5 =>
      refine ⟨t, i, j, k, rfl, hids, h1, h2, h3, h4, ?_⟩
      intro hv
      rw [hv] at h5
      cases hp : t.m_vEdgePool with
      | none => rw [hp] at h5; simp at h5
      | some pool =>
        rw [hp] at h5
        refine ⟨pool, rfl, ?_⟩
        simpa using h5

/-- C6 (witness): the amended claim at the collinear input (0,0), (3,4), (6,8) with
`Triangulator_TriangleIndices` and `Triangulator_VoronoiVertices`. -/
theorem C6_collinear_chain_witness :
    orient (0, 0) (3, 4) (6, 8) = 0 ∧ hasAttr 10 Triangulator_SuperTriangle = false ∧
    CCW (SortSites [⟨0, 0, 0⟩, ⟨3, 4, 1⟩, ⟨6, 8, 2⟩]) (some 0) (some 1) (some 2) = some 0 ∧
    ∃ t i j k, Triangulator.construct 20 [(0, 0), (3, 4), (6, 8)] 10 [] = some t ∧
      [i, j, k].Perm [0, 1, 2] ∧
      t.inUseCount = 2 ∧ t.edgeList = [(some j, some k), (some i, some j)] ∧
      t.GetNumTriangles = 0 ∧ t.GetNumVoronoiVertices = 0 ∧
      (hasAttr 10 Triangulator_VoronoiVertices = true →
        ∃ pool, t.m_vEdgePool = some pool ∧ pool.chunkToUse = none) :=
  ⟨by decide, by decide, by decide,
    C6_collinear_chain (0, 0) (3, 4) (6, 8) 10 [] (by decide) (by decide) (by decide)⟩

set_option maxRecDepth 100000 in
/-- C14 (code bug): a Dynamic pool with one element per chunk.  Eleven `NewObject` calls fill
eleven chunks, the directory having grown to 20 entries.  `DeleteObject` on the last pointer
releases chunk 10 and cuts the directory back to 10 entries, and `chunkToUse` becomes
`INVALID` as no chunk has a free slot.  The next `NewObject` therefore runs `CreateChunk(0)`
over the live chunk 0, whose block 0 is leaked (directory entry 0 now holds block 11).  The
pointer into block 0 is still held by the client, lies in no chunk of the pool any more, and
`DeleteObject` on it returns 0. -/
theorem C14_dynamic_chunk_overwritten :
    ((Mem.MemoryPool.init 1 Mem.MemoryPoolMode.Dynamic).bind fun p =>
      (Mem.calls 2 (p, [])
        (List.replicate 11 Mem.Call.new ++ [Mem.Call.delete 0, Mem.Call.new])).bind fun r =>
        (r.1.1.DeleteObject (some (0, 0))).map fun d =>
          (r.1.2, r.1.1.chunks.map (Option.map fun c => c.memory), d.2))
      = some ([(11, 0), (9, 0), (8, 0), (7, 0), (6, 0), (5, 0), (4, 0), (3, 0), (2, 0), (1, 0),
          (0, 0)],
          [some 11, some 1, some 2, some 3, some 4, some 5, some 6, some 7, some 8, some 9],
          false) := by
  decide

/-- C16: a Fixed pool of capacity `C >= 1` and `1 <= k <= C`.  `k` `NewObject` calls with no
`DeleteObject` return `k` non-null, pairwise distinct pointers, and afterwards
`GetNumFree()` is `C - k`. -/
theorem C16_fixed_allocations (C k fuel : Nat) (hk : 1 ≤ k) (hkC : k ≤ C) :
    Mem.MemoryPool.init C Mem.MemoryPoolMode.Fixed = some (Mem.fixedNew C) ∧
    ∃ st rs, ∃ ptrs : List Mem.Addr, Mem.calls (fuel + 1) (Mem.fixedNew C, []) (List.replicate k Mem.Call.new)
        = some (st, rs) ∧
      rs = ptrs.map (fun a => (some a, false)) ∧ ptrs.length = k ∧ ptrs.Nodup ∧
      st.1.GetNumFree = C - k := by
  have hC : 0 < C := by omega
  refine ⟨Mem.init_fixed hC, ?_⟩
  obtain ⟨st1, rs1, h1, hF1, _, ptrs, hrs1, hpl, hout1⟩ :=
    Mem.news_fixed fuel hC k (Mem.fixedNew C, []) (Mem.FixedInv_new C) (Mem.fixedNew_ne_dead C)
      (by simpa using hkC)
  have hI0 : Mem.PoolInv (Mem.fixedNew C, []) := (Mem.init_spec (Mem.init_fixed hC)).1
  have hI1 := (Mem.calls_spec _ _ _ _ _ hI0 h1).1
  have hnd : st1.2.Nodup := hI1.2.2.2.2.2.2
  rw [hout1, List.append_nil, List.nodup_reverse] at hnd
  refine ⟨st1, rs1, ptrs, h1, hrs1, hpl, hnd, ?_⟩
  rw [Mem.GetNumFree_fixed hF1]
  have hne : st1.2 ≠ [] := by
    intro hc
    have := congrArg List.length hout1
    rw [hc] at this
    simp [hpl] at this
    omega
  rw [if_neg hne, hout1]
  simp [hpl]

/-- C16 (witness): capacity 5, three allocations. -/
theorem C16_fixed_allocations_witness :
    1 ≤ 3 ∧ 3 ≤ 5 ∧
    Mem.MemoryPool.init 5 Mem.MemoryPoolMode.Fixed = some (Mem.fixedNew 5) ∧
    ∃ st rs, ∃ ptrs : List Mem.Addr, Mem.calls (0 + 1) (Mem.fixedNew 5, []) (List.replicate 3 Mem.Call.new)
        = some (st, rs) ∧
      rs = ptrs.map (fun a => (some a, false)) ∧ ptrs.length = 3 ∧ ptrs.Nodup ∧
      st.1.GetNumFree = 5 - 3 :=
  ⟨by decide, by decide, C16_fixed_allocations 5 3 0 (by decide) (by decide)⟩

/-- C17: a Fixed pool of capacity `C >= 1` and any sequence of `NewObject` calls and of
`DeleteObject` calls on pointers held by the client.  The sequence runs to completion; at
most one chunk has been created (`nextBlock`, the number of blocks requested for chunks, is
at most 1); and when the client holds `C` pointers, `NewObject` returns NULL and leaves the
state of the pool (chunk directory, free lists, `chunkToUse`, `numChunks`) as it is; it
returns before any write to memory. -/
theorem C17_fixed_exhausted (C fuel : Nat) (cs : List Mem.Call) (hC : 1 ≤ C) :
    Mem.MemoryPool.init C Mem.MemoryPoolMode.Fixed = some (Mem.fixedNew C) ∧
    ∃ st rs, Mem.calls (fuel + 1) (Mem.fixedNew C, []) cs = some (st, rs) ∧
      st.1.nextBlock ≤ 1 ∧
      (st.2.length = C → st.1.NewObject (fuel + 1) = some (st.1, none)) := by
  have hC' : 0 < C := by omega
  obtain ⟨st, rs, h, hF⟩ := Mem.calls_fixed fuel hC' cs (Mem.fixedNew C, [])
    (Mem.FixedInv_new C)
  refine ⟨Mem.init_fixed hC', st, rs, h, Mem.nextBlock_fixed hF, ?_⟩
  intro hlen
  rcases hF with ⟨_, ho⟩ | ⟨fl, hp, hl, _, _, _⟩ | ⟨_, ho⟩
  · rw [ho] at hlen
    simp at hlen
    omega
  · have hfl : fl = [] := List.eq_nil_of_length_eq_zero (by omega)
    subst hfl
    rw [hp]
    exact Mem.NewObject_fixedLive_nil _ _
  · rw [ho] at hlen
    simp at hlen
    omega

/-- C17 (witness): capacity 2, two allocations, one deletion and another allocation. -/
theorem C17_fixed_exhausted_witness :
    1 ≤ 2 ∧
    (Mem.MemoryPool.init 2 Mem.MemoryPoolMode.Fixed = some (Mem.fixedNew 2) ∧
    ∃ st rs, Mem.calls (0 + 1) (Mem.fixedNew 2, [])
        [Mem.Call.new, Mem.Call.new, Mem.Call.delete 1, Mem.Call.new] = some (st, rs) ∧
      st.1.nextBlock ≤ 1 ∧
      (st.2.length = 2 → st.1.NewObject (0 + 1) = some (st.1, none))) :=
  ⟨by decide,
    C17_fixed_exhausted 2 0 [Mem.Call.new, Mem.Call.new, Mem.Call.delete 1, Mem.Call.new]
      (by decide)⟩

/-- C18: a Dynamic pool after any sequence of `NewObject` calls and of `DeleteObject` calls on
pointers held by the client that has run to completion (`fuel + 2` bounds the passes through
`label:` in `NewObject`, two are enough).  The next `NewObject` returns a non-null address
that is none of the addresses held by the client. -/
theorem C18_dynamic_new_is_fresh (n fuel : Nat) (cs : List Mem.Call) (p0 : Mem.MemoryPool)
    (st : Mem.MemoryPool × List Mem.Addr) (rs : List (Option Mem.Addr × Bool))
    (h0 : Mem.MemoryPool.init n Mem.MemoryPoolMode.Dynamic = some p0)
    (h : Mem.calls (fuel + 2) (p0, []) cs = some (st, rs)) :
    ∃ p' a, st.1.NewObject (fuel + 2) = some (p', some a) ∧ a ∉ st.2 := by
  obtain ⟨hI0, hm0⟩ := Mem.init_spec h0
  obtain ⟨hI, hm, _⟩ := Mem.calls_spec _ _ _ _ _ hI0 h
  obtain ⟨⟨p', r⟩, hN⟩ := Mem.NewObject_total fuel hI
  obtain ⟨_, _, hcase⟩ := Mem.NewObject_spec hI hN
  rcases hcase with ⟨_, hfix, _⟩ | ⟨a, hr, hna, _⟩
  · rw [hm, hm0] at hfix
    cases hfix
  · subst hr
    exact ⟨p', a, hN, hna⟩

set_option maxRecDepth 100000 in
/-- C18 (witness): two elements per chunk; three allocations and one deletion. -/
theorem C18_dynamic_new_is_fresh_witness :
    Mem.MemoryPool.init 2 Mem.MemoryPoolMode.Dynamic
      = some ⟨Mem.MemoryPoolMode.Dynamic, 2, List.replicate 10 none, none, 0, 0⟩ ∧
    Mem.calls (0 + 2) (⟨Mem.MemoryPoolMode.Dynamic, 2, List.replicate 10 none, none, 0, 0⟩, [])
        [Mem.Call.new, Mem.Call.new, Mem.Call.new, Mem.Call.delete 1]
      = some ((⟨Mem.MemoryPoolMode.Dynamic, 2,
            some ⟨0, [0]⟩ :: some ⟨1, [0]⟩ :: List.replicate 8 none, some 1, 2, 2⟩,
          [(1, 1), (0, 1)]),
          [(some (0, 1), false), (some (0, 0), false), (some (1, 1), false), (none, true)]) ∧
    ∃ p' a, (⟨Mem.MemoryPoolMode.Dynamic, 2,
          some ⟨0, [0]⟩ :: some ⟨1, [0]⟩ :: List.replicate 8 none, some 1, 2, 2⟩
          : Mem.MemoryPool).NewObject (0 + 2) = some (p', some a) ∧
        a ∉ [(1, 1), ((0, 1) : Mem.Addr)] :=
  ⟨by decide, by decide,
    C18_dynamic_new_is_fresh 2 0 [Mem.Call.new, Mem.Call.new, Mem.Call.new, Mem.Call.delete 1]
      ⟨Mem.MemoryPoolMode.Dynamic, 2, List.replicate 10 none, none, 0, 0⟩
      (⟨Mem.MemoryPoolMode.Dynamic, 2,
          some ⟨0, [0]⟩ :: some ⟨1, [0]⟩ :: List.replicate 8 none, some 1, 2, 2⟩,
        [(1, 1), (0, 1)])
      [(some (0, 1), false), (some (0, 0), false), (some (1, 1), false), (none, true)]
      (by decide) (by decide)⟩

/-- Read of a record inside the live chunk after a write to record `j`. -/
theorem rd_wr {s s' : EdgeStore} {j : Nat} {f : Edge → Edge}
    (h : s.wr (some j) f = some s') (i : Nat) :
    s'.rd (some i) = (s.rd (some i)).map fun e => if i = j then f e else e := by
  unfold EdgeStore.wr at h
  simp only at h
  split at h
  · rename_i hc
    simp only [Option.some.injEq] at h
    subst h
    unfold EdgeStore.rd
    simp only
    split
    · simp only [Option.map_some', upd]
      split <;> rename_i hij
      · rw [hij]
      · rfl
    · rfl
  · cases h

/-- C20: an Edge record `e` at position `k` of the bundle in slot `q` of a live chunk, the four
records of the bundle carrying the role indices 0..3 in `m_num` as set by the `QuadEdge`
constructor.  Then `Rot` applied four times gives `e`; `Sym(e) = Rot(Rot(e))`;
`Sym(Sym(e)) = e`; `Tor(Rot(e)) = Rot(Tor(e)) = e`; `e`, `Rot(e)`, `Sym(e)` and `Tor(e)` have
the same `Qedge()`, slot `q`; `Org(e) = Dest(Sym(e))`; and `Dest_Set(site)` returns a store in
which `Dest(e) = site` and `Org(e)` is what it was. -/
theorem C20_edge_algebra (s : EdgeStore) (q k : Nat) (site : Ptr)
    (ha : s.pool.chunk0.isSome = true) (hq : q < s.pool.numElementsPerChunk) (hk : k < 4)
    (hm : ∀ j, j < 4 → (s.edge (4 * q + j)).m_num = j) :
    (((Rot s (some (4 * q + k))).bind (Rot s)).bind (Rot s)).bind (Rot s)
        = some (some (4 * q + k)) ∧
      (Sym s (some (4 * q + k))).isSome = true ∧
      Sym s (some (4 * q + k)) = (Rot s (some (4 * q + k))).bind (Rot s) ∧
      (Sym s (some (4 * q + k))).bind (Sym s) = some (some (4 * q + k)) ∧
      (Rot s (some (4 * q + k))).bind (Tor s) = some (some (4 * q + k)) ∧
      (Tor s (some (4 * q + k))).bind (Rot s) = some (some (4 * q + k)) ∧
      Qedge s (some (4 * q + k)) = some q ∧
      (Rot s (some (4 * q + k))).bind (Qedge s) = some q ∧
      (Sym s (some (4 * q + k))).bind (Qedge s) = some q ∧
      (Tor s (some (4 * q + k))).bind (Qedge s) = some q ∧
      (Org s (some (4 * q + k))).isSome = true ∧
      Org s (some (4 * q + k)) = (Sym s (some (4 * q + k))).bind (Dest s) ∧
      ∃ s', Dest_Set s (some (4 * q + k)) site = some s' ∧
        Dest s' (some (4 * q + k)) = some site ∧
        Org s' (some (4 * q + k)) = Org s (some (4 * q + k)) := by
  have hnum : ∀ i, i / 4 = q → (s.edge i).m_num = i % 4 := by
    intro i hi
    have h1 : i = 4 * q + i % 4 := by omega
    have h2 := hm (i % 4) (by omega)
    rw [← h1] at h2
    exact h2
  have hlt : ∀ i, i / 4 = q → i < 4 * s.pool.numElementsPerChunk := by
    intro i hi
    omega
  have hR : ∀ i, i / 4 = q → Rot s (some i) = some (some (rotI i)) :=
    fun i hi => Rot_of_num ha (hlt i hi) (hnum i hi)
  have hS : ∀ i, i / 4 = q → Sym s (some i) = some (some (symI i)) :=
    fun i hi => Sym_of_num ha (hlt i hi) (hnum i hi)
  have hT : ∀ i, i / 4 = q → Tor s (some i) = some (some (torI i)) :=
    fun i hi => Tor_of_num ha (hlt i hi) (hnum i hi)
  have hQ : ∀ i, i / 4 = q → Qedge s (some i) = some q := by
    intro i hi
    rw [Qedge_of_num ha (hlt i hi) (hnum i hi), hi]
  have hO : ∀ i, i / 4 = q → Org s (some i) = some (s.edge i).m_data0 := by
    intro i hi
    simp only [Org, bind, Option.bind, rd_of_lt ha (hlt i hi), pure]
  have he : (4 * q + k) / 4 = q := by omega
  have hr : rotI (4 * q + k) / 4 = q := by rw [rotI_div]; exact he
  have hs : symI (4 * q + k) / 4 = q := by rw [symI_div]; exact he
  have ht : torI (4 * q + k) / 4 = q := by rw [torI_div]; exact he
  have hrr : rotI (rotI (4 * q + k)) / 4 = q := by rw [rotI_div]; exact hr
  have hrrr : rotI (rotI (rotI (4 * q + k))) / 4 = q := by rw [rotI_div]; exact hrr
  have hss : symI (symI (4 * q + k)) / 4 = q := by rw [symI_div]; exact hs
  have hne : symI (4 * q + k) ≠ 4 * q + k := by unfold symI; split <;> omega
  refine ⟨?_, ?_, ?_, ?_, ?_, ?_, hQ _ he, ?_, ?_, ?_, ?_, ?_, ?_⟩
  · rw [hR _ he, Option.some_bind, hR _ hr, Option.some_bind, hR _ hrr, Option.some_bind,
      hR _ hrrr, rotI_rotI, rotI_rotI, symI_symI]
  · rw [hS _ he]; rfl
  · rw [hS _ he, hR _ he, Option.some_bind, hR _ hr, rotI_rotI]
  · rw [hS _ he, Option.some_bind, hS _ hs, symI_symI]
  · rw [hR _ he, Option.some_bind, hT _ hr, torI_rotI]
  · rw [hT _ he, Option.some_bind, hR _ ht, rotI_torI]
  · rw [hR _ he, Option.some_bind, hQ _ hr]
  · rw [hS _ he, Option.some_bind, hQ _ hs]
  · rw [hT _ he, Option.some_bind, hQ _ ht]
  · rw [hO _ he]; rfl
  · rw [hS _ he, Option.some_bind]
    simp only [Dest, bind, Option.bind]
    rw [hS _ hs, symI_symI]
  · obtain ⟨s', hw⟩ : ∃ s', s.wr (some (symI (4 * q + k)))
        (fun r => { r with m_data0 := site }) = some s' :=
      ⟨_, wr_of_lt (fun r => { r with m_data0 := site }) ha (hlt _ hs)⟩
    have hd : Dest_Set s (some (4 * q + k)) site = some s' := by
      simp only [Dest_Set, bind, Option.bind, hS _ he, Org_Set]
      exact hw
    refine ⟨s', hd, ?_, ?_⟩
    · have h1 := rd_wr hw (4 * q + k)
      have h2 := rd_wr hw (symI (4 * q + k))
      rw [rd_of_lt ha (hlt _ he)] at h1
      rw [rd_of_lt ha (hlt _ hs)] at h2
      simp only [Option.map_some', if_neg hne.symm, if_true] at h1 h2
      simp only [Dest, Sym, Org, bind, Option.bind, h1, h2, pure, hnum _ he]
      have hk4 : (4 * q + k) % 4 = k := by omega
      rw [hk4]
      by_cases hk2 : k < 2
      · have : symI (4 * q + k) = 4 * q + k + 2 := by unfold symI; rw [if_pos (by omega)]
        rw [this] at h2
        simp only [if_pos hk2, h2]
      · have : symI (4 * q + k) = 4 * q + k - 2 := by unfold symI; rw [if_neg (by omega)]
        rw [this] at h2
        simp only [if_neg hk2, if_pos (show 2 ≤ 4 * q + k by omega), h2]
    · have h1 := rd_wr hw (4 * q + k)
      rw [rd_of_lt ha (hlt _ he)] at h1
      simp only [Option.map_some', if_neg hne.symm] at h1
      simp only [Org, bind, Option.bind, h1, rd_of_lt ha (hlt _ he)]

/-- C20 (witness): record 2 of the bundle made by `MakeEdge` on a new pool of two slots. -/
theorem C20_edge_algebra_witness :
    ∃ p s, MakeEdge (EdgeStore.init 2) = some (p, s) ∧
      s.pool.chunk0.isSome = true ∧ 1 < s.pool.numElementsPerChunk ∧
      (∀ j, j < 4 → (s.edge (4 * 1 + j)).m_num = j) ∧
      (((Rot s (some (4 * 1 + 2))).bind (Rot s)).bind (Rot s)).bind (Rot s)
        = some (some (4 * 1 + 2)) ∧
      (Sym s (some (4 * 1 + 2))).isSome = true ∧
      Sym s (some (4 * 1 + 2)) = (Rot s (some (4 * 1 + 2))).bind (Rot s) ∧
      (Sym s (some (4 * 1 + 2))).bind (Sym s) = some (some (4 * 1 + 2)) ∧
      (Rot s (some (4 * 1 + 2))).bind (Tor s) = some (some (4 * 1 + 2)) ∧
      (Tor s (some (4 * 1 + 2))).bind (Rot s) = some (some (4 * 1 + 2)) ∧
      Qedge s (some (4 * 1 + 2)) = some 1 ∧
      (Rot s (some (4 * 1 + 2))).bind (Qedge s) = some 1 ∧
      (Sym s (some (4 * 1 + 2))).bind (Qedge s) = some 1 ∧
      (Tor s (some (4 * 1 + 2))).bind (Qedge s) = some 1 ∧
      (Org s (some (4 * 1 + 2))).isSome = true ∧
      Org s (some (4 * 1 + 2)) = (Sym s (some (4 * 1 + 2))).bind (Dest s) ∧
      ∃ s', Dest_Set s (some (4 * 1 + 2)) (some 7) = some s' ∧
        Dest s' (some (4 * 1 + 2)) = some (some 7) ∧
        Org s' (some (4 * 1 + 2)) = Org s (some (4 * 1 + 2)) :=
  match h : MakeEdge (EdgeStore.init 2) with
  | some (p, s) =>
    have ha : s.pool.chunk0.isSome = true := by
      have : (MakeEdge (EdgeStore.init 2)).map (fun r => r.2.pool.chunk0.isSome)
          = some true := by decide
      rw [h] at this
      simpa using this
    have hq : 1 < s.pool.numElementsPerChunk := by
      have : (MakeEdge (EdgeStore.init 2)).map (fun r => r.2.pool.numElementsPerChunk)
          = some 2 := by decide
      rw [h] at this
      simp only [Option.map_some', Option.some.injEq] at this
      omega
    have hm : ∀ j, j < 4 → (s.edge (4 * 1 + j)).m_num = j := by
      have : (MakeEdge (EdgeStore.init 2)).map (fun (r : Ptr × EdgeStore) =>
          ((r.2.edge 4).m_num, (r.2.edge 5).m_num, (r.2.edge 6).m_num, (r.2.edge 7).m_num))
          = some (0, 1, 2, 3) := by decide
      rw [h] at this
      simp only [Option.map_some', Option.some.injEq, Prod.mk.injEq] at this
      obtain ⟨h0, h1, h2, h3⟩ := this
      intro j hj
      interval_cases j
      · exact h0
      · exact h1
      · exact h2
      · exact h3
    ⟨p, s, rfl, ha, hq, hm, C20_edge_algebra s 1 2 (some 7) ha hq (by decide) hm⟩
  | none => by
    have : (MakeEdge (EdgeStore.init 2)).isSome = true := by decide
    rw [h] at this
    exact absurd this (by decide)

set_option maxRecDepth 1000000 in
/-- C13 (code bug): input (0,0), (0,2), (1,2), (3,4) with the super-triangle option, the
coordinates scaled by 2^21 (so `numeric_limits<float>::max()` is `(2^24 - 1) * 2^125`).  On
the constructed Triangulator `m_nSites` is 7 and `m_sites` holds the three synthetic corners
too, so `ComputeBound` returns the bounds of the super-triangle: x in
[-7.1602540016, 10.1602544785] and y in [-3, 12], whereas the input points span x in [0, 3]
and y in [0, 4]. -/
theorem C13_bound_covers_super_triangle :
    (Triangulator.construct 30
        [(0, 0), (0, 4194304), (2097152, 4194304), (6291456, 8388608)]
        Triangulator_SuperTriangle
        [(-15016141, -6291456), (21307598, -6291456), (3145728, 25165824)]).map
        (fun t => (t.m_nSites, t.ComputeBound (16777215 * 2 ^ 125)))
      = some (7, (-15016141, -6291456, 21307598, 25165824))
    ∧ ([(0, 0), (0, 4194304), (2097152, 4194304), ((6291456, 8388608) : Int × Int)].map
        fun p => (decide (0 ≤ p.1 ∧ p.1 ≤ 6291456), decide (0 ≤ p.2 ∧ p.2 ≤ 8388608)))
      = [(true, true), (true, true), (true, true), (true, true)] := by
  decide

set_option maxRecDepth 1000000 in
set_option maxHeartbeats 4000000 in
/-- C11 (code bug): the corners (0,0), (2,0), (2,2), (0,2) of a square and its centre (1,1)
with `Triangulator_VoronoiVertices | Triangulator_VoronoiSides`.  Site 4, the centre, has
four neighbours and each of its four edges has a Voronoi vertex on both sides, at distance
`sqrt 2`.  All four writes go to `m_voronoiSides[4][3]`: `--srcCount` decrements a local copy
of `nNeighboursTemp[4]`, and the work array itself is decremented only under
`Triangulator_NodeNeighbours`.  Slots 0, 1, 2 of the row keep the 0 of `memset`. -/
theorem C11_sides_share_a_slot :
    (Triangulator.constructCells 30 [(0, 0), (2, 0), (2, 2), (0, 2), (1, 1)]
        (Triangulator_VoronoiVertices ||| Triangulator_VoronoiSides) []).map
        (fun r => (r.1.GetNumNeighbours, GetVoronoiSides r 4))
      = some ([3, 3, 3, 3, 4],
          [SideLength.zero, SideLength.zero, SideLength.zero, SideLength.dist (some 2)]) := by
  decide!

set_option maxRecDepth 1000000 in
set_option maxHeartbeats 4000000 in
/-- C12 (code bug): the quadrilateral (0,0), (4,0), (5,5), (0,4) with
`Triangulator_VoronoiVertices | Triangulator_VoronoiCellAreas` and no super-triangle.  The
triangulation has the four hull edges and the diagonal between the sites 1 and 3; all four
sites have `GetHull()[i] = 1`.  The sentinel is assigned inside `if( vsrc && vdst )` only, and
a hull edge has no Voronoi vertex on its outer side, so the sites 0 and 2, which have hull
edges only, keep the 0 of `memset`; the sites 1 and 3 get the sentinel from the diagonal. -/
theorem C12_hull_site_without_sentinel :
    (Triangulator.constructCells 30 [(0, 0), (4, 0), (5, 5), (0, 4)]
        (Triangulator_VoronoiVertices ||| Triangulator_VoronoiCellAreas) []).map
        (fun r => (r.1.GetHull, r.1.edgeList, GetVoronoiCellAreas r))
      = some ([1, 1, 1, 1],
          [(some 2, some 3), (some 1, some 3), (some 1, some 0), (some 1, some 2),
            (some 0, some 3)],
          [CellArea.sum 0, CellArea.fltMax, CellArea.sum 0, CellArea.fltMax]) := by
  decide!

/-- C27: for every 32-bit attribute word `a`: `IncrementVisited`, `DecrementVisited` and
`ResetVisited` leave `IsFree()` as it is; `SetFree` and `SetInUse` leave `Visited()` as it is;
`ResetVisited` makes `Visited()` 0; and when `Visited()` is below 65535, `IncrementVisited`
raises it by exactly 1 and `DecrementVisited` after it gives the word back.  All results are
32-bit words. -/
theorem C27_attribute_fields_independent (a : Nat) (ha : a < 4294967296) :
    IsFree (IncrementVisited a) = IsFree a ∧ IsFree (DecrementVisited a) = IsFree a ∧
      IsFree (ResetVisited a) = IsFree a ∧
      Visited (SetFree a) = Visited a ∧ Visited (SetInUse a) = Visited a ∧
      Visited (ResetVisited a) = 0 ∧
      (Visited a < 65535 → Visited (IncrementVisited a) = Visited a + 1 ∧
        DecrementVisited (IncrementVisited a) = a) ∧
      IncrementVisited a < 4294967296 ∧ DecrementVisited a < 4294967296 ∧
      ResetVisited a < 4294967296 ∧ SetFree a < 4294967296 ∧ SetInUse a < 4294967296 := by
  unfold IsFree Visited IncrementVisited DecrementVisited ResetVisited SetFree SetInUse
  refine ⟨?_, ?_, ?_, ?_, ?_, ?_, ?_, ?_, ?_, ?_, ?_, ?_⟩
  · have : (a % 65536 + (a / 65536 + 1) * 65536) % 4294967296 % 65536 = a % 65536 := by omega
    rw [this]
  · have : ((((a % 65536 : Nat) : Int) + (((a / 65536 : Nat) : Int) - 1) * 65536)
        % 4294967296).toNat % 65536 = a % 65536 := by omega
    rw [this]
  · have : a % 65536 % 65536 = a % 65536 := by omega
    rw [this]
  · omega
  · split <;> omega
  · omega
  · intro h
    constructor
    · omega
    · omega
  · omega
  · omega
  · omega
  · omega
  · split <;> omega

/-- C27 (witness): the word of an in-use quad-edge visited twice. -/
theorem C27_attribute_fields_independent_witness :
    131073 < 4294967296 ∧ Visited 131073 = 2 ∧ IsFree 131073 = false ∧
      (IsFree (IncrementVisited 131073) = IsFree 131073 ∧
      IsFree (DecrementVisited 131073) = IsFree 131073 ∧
      IsFree (ResetVisited 131073) = IsFree 131073 ∧
      Visited (SetFree 131073) = Visited 131073 ∧ Visited (SetInUse 131073) = Visited 131073 ∧
      Visited (ResetVisited 131073) = 0 ∧
      (Visited 131073 < 65535 → Visited (IncrementVisited 131073) = Visited 131073 + 1 ∧
        DecrementVisited (IncrementVisited 131073) = 131073) ∧
      IncrementVisited 131073 < 4294967296 ∧ DecrementVisited 131073 < 4294967296 ∧
      ResetVisited 131073 < 4294967296 ∧ SetFree 131073 < 4294967296 ∧
      SetInUse 131073 < 4294967296) :=
  ⟨by decide, by decide, by decide, C27_attribute_fields_independent 131073 (by decide)⟩

/-! ## InCircle and Circumcenter in exact arithmetic -/

/-- The comparison of `Site::InCircle` as a sign test. -/
theorem inCircleVal_iff (a b c d : Site) :
    inCircleVal a b c d = true ↔
      ((d.y-a.y)*(b.x-c.x)+(d.x-a.x)*(b.y-c.y))*((d.x-c.x)*(b.x-a.x)-(d.y-c.y)*(b.y-a.y)) >
      ((d.y-c.y)*(b.x-a.x)+(d.x-c.x)*(b.y-a.y))*((d.x-a.x)*(b.x-c.x)-(d.y-a.y)*(b.y-c.y)) := by
  unfold inCircleVal
  simp only [decide_eq_true_eq]

/-- For a point at the same distance from `a`, `b` and `c`, the difference of the two products
compared by `InCircle` is `CCW(a, b, c)` times the difference of the squared distances of the
point to `a` and to `d`. -/
theorem inCircle_eq_of_centre (a b c d : Site) (ox oy : Rat)
    (h1 : distSq ox oy a = distSq ox oy b) (h2 : distSq ox oy a = distSq ox oy c) :
    ((((d.y-a.y)*(b.x-c.x)+(d.x-a.x)*(b.y-c.y))*((d.x-c.x)*(b.x-a.x)-(d.y-c.y)*(b.y-a.y)) -
      ((d.y-c.y)*(b.x-a.x)+(d.x-c.x)*(b.y-a.y))*((d.x-a.x)*(b.x-c.x)-(d.y-a.y)*(b.y-c.y))
        : Int) : Rat)
      = (ccwVal a b c : Rat) * (distSq ox oy a - distSq ox oy d) := by
  unfold distSq at h1 h2 ⊢
  unfold ccwVal
  push_cast
  linear_combination
    (((a.x : Rat) - d.x) * ((c.y : Rat) - d.y) - ((c.x : Rat) - d.x) * ((a.y : Rat) - d.y)) * h1
    - (((a.x : Rat) - d.x) * ((b.y : Rat) - d.y) - ((b.x : Rat) - d.x) * ((a.y : Rat) - d.y)) * h2

/-- What `Circumcenter` returns for a triangle of non-zero area, and the equal distances. -/
theorem Circumcenter_of_area (s1 s2 s3 : Site) (vs : VSite)
    (h : (s2.x - s1.x) * (s3.y - s1.y) - (s2.y - s1.y) * (s3.x - s1.x) ≠ 0) :
    ∃ x y : Rat, Circumcenter s1 s2 s3 vs = (true, ⟨some (x, y)⟩) ∧
      distSq x y s1 = distSq x y s2 ∧ distSq x y s1 = distSq x y s3 := by
  have hq : ((s2.x : Rat) - s1.x) * ((s3.y : Rat) - s1.y)
      - ((s2.y : Rat) - s1.y) * ((s3.x : Rat) - s1.x) ≠ 0 := by
    intro hc
    apply h
    have : (((s2.x - s1.x) * (s3.y - s1.y) - (s2.y - s1.y) * (s3.x - s1.x) : Int) : Rat) = 0 := by
      push_cast
      exact hc
    exact_mod_cast this
  have hd : (1 / 2 : Rat) / (((s2.x : Rat) - s1.x) * ((s3.y : Rat) - s1.y)
      - ((s2.y : Rat) - s1.y) * ((s3.x : Rat) - s1.x)) ≠ 0 := by
    apply div_ne_zero
    · norm_num
    · exact hq
  refine ⟨(((s3.y : Rat) - s1.y) * (((s2.x : Rat) - s1.x) * ((s2.x : Rat) - s1.x)
        + ((s2.y : Rat) - s1.y) * ((s2.y : Rat) - s1.y))
      - ((s2.y : Rat) - s1.y) * (((s3.x : Rat) - s1.x) * ((s3.x : Rat) - s1.x)
        + ((s3.y : Rat) - s1.y) * ((s3.y : Rat) - s1.y)))
      * ((1 / 2 : Rat) / (((s2.x : Rat) - s1.x) * ((s3.y : Rat) - s1.y)
        - ((s2.y : Rat) - s1.y) * ((s3.x : Rat) - s1.x))) + s1.x,
    (((s2.x : Rat) - s1.x) * (((s3.x : Rat) - s1.x) * ((s3.x : Rat) - s1.x)
        + ((s3.y : Rat) - s1.y) * ((s3.y : Rat) - s1.y))
      - ((s3.x : Rat) - s1.x) * (((s2.x : Rat) - s1.x) * ((s2.x : Rat) - s1.x)
        + ((s2.y : Rat) - s1.y) * ((s2.y : Rat) - s1.y)))
      * ((1 / 2 : Rat) / (((s2.x : Rat) - s1.x) * ((s3.y : Rat) - s1.y)
        - ((s2.y : Rat) - s1.y) * ((s3.x : Rat) - s1.x))) + s1.y, ?_, ?_, ?_⟩
  · unfold Circumcenter
    simp only [if_neg hq, if_neg hd]
  · unfold distSq
    field_simp
    ring
  · unfold distSq
    field_simp
    ring

/-- C21 (counterexample): the sites a = (0,0), b = (0,4), c = (4,0) are not collinear and
d = (1,1) lies strictly inside the circle through them (centre (2,2), squared radius 8, squared
distance of d to the centre 2), but `InCircle(a, b, c, d)` is false: a, b, c are in clockwise
order. -/
theorem C21_clockwise_inside_is_false :
    ccwVal ⟨0, 0, 0⟩ ⟨0, 4, 1⟩ ⟨4, 0, 2⟩ ≠ 0 ∧
      StrictlyInsideCircleThrough ⟨0, 0, 0⟩ ⟨0, 4, 1⟩ ⟨4, 0, 2⟩ ⟨1, 1, 3⟩ ∧
      inCircleVal ⟨0, 0, 0⟩ ⟨0, 4, 1⟩ ⟨4, 0, 2⟩ ⟨1, 1, 3⟩ = false := by
  refine ⟨by decide, ⟨2, 2, ?_, ?_, ?_⟩, by decide⟩
  · unfold distSq; norm_num
  · unfold distSq; norm_num
  · unfold distSq; norm_num

/-- In exact arithmetic, for sites `a`, `b`, `c` in counter-clockwise order, `InCircle` is the
test for `d` lying strictly inside the circle through them. -/
theorem inCircleVal_iff_inside (a b c d : Site) (h : 0 < ccwVal a b c) :
    inCircleVal a b c d = true ↔ StrictlyInsideCircleThrough a b c d := by
  have hpos : (0 : Rat) < (ccwVal a b c : Rat) := by exact_mod_cast h
  have key : ∀ ox oy : Rat, distSq ox oy a = distSq ox oy b → distSq ox oy a = distSq ox oy c →
      (inCircleVal a b c d = true ↔ distSq ox oy d < distSq ox oy a) := by
    intro ox oy h1 h2
    have he := inCircle_eq_of_centre a b c d ox oy h1 h2
    rw [inCircleVal_iff, gt_iff_lt, ← sub_pos]
    constructor
    · intro hE
      have hE' : (0 : Rat) < (ccwVal a b c : Rat) * (distSq ox oy a - distSq ox oy d) := by
        rw [← he]
        exact_mod_cast hE
      have := (mul_pos_iff_of_pos_left hpos).1 hE'
      linarith
    · intro hd
      have hE' : (0 : Rat) < (ccwVal a b c : Rat) * (distSq ox oy a - distSq ox oy d) :=
        mul_pos hpos (by linarith)
      rw [← he] at hE'
      exact_mod_cast hE'
  have harea : (b.x - a.x) * (c.y - a.y) - (b.y - a.y) * (c.x - a.x) ≠ 0 := by
    have : (b.x - a.x) * (c.y - a.y) - (b.y - a.y) * (c.x - a.x) = ccwVal a b c := by
      unfold ccwVal; ring
    rw [this]
    omega
  obtain ⟨x, y, _, h1, h2⟩ := Circumcenter_of_area a b c ⟨none⟩ harea
  constructor
  · intro hin
    exact ⟨x, y, h1, h2, (key x y h1 h2).1 hin⟩
  · rintro ⟨ox, oy, g1, g2, g3⟩
    exact (key ox oy g1 g2).2 g3

/-- C21 (amended): in exact arithmetic, for every three sites `a`, `b`, `c` in counter-clockwise
order (`CCW(a, b, c) > 0`) and every site `d`, `InCircle(a, b, c, d)` is true if and only if `d`
lies strictly inside the circle through `a`, `b` and `c`. -/
theorem C21_inCircle_counterclockwise (a b c d : Site) (h : 0 < ccwVal a b c) :
    inCircleVal a b c d = true ↔ StrictlyInsideCircleThrough a b c d :=
  inCircleVal_iff_inside a b c d h

/-- C21 (witness): a = (0,0), b = (4,0), c = (0,4) in counter-clockwise order, d = (1,1). -/
theorem C21_inCircle_counterclockwise_witness :
    0 < ccwVal ⟨0, 0, 0⟩ ⟨4, 0, 1⟩ ⟨0, 4, 2⟩ ∧
      inCircleVal ⟨0, 0, 0⟩ ⟨4, 0, 1⟩ ⟨0, 4, 2⟩ ⟨1, 1, 3⟩ = true ∧
      (inCircleVal ⟨0, 0, 0⟩ ⟨4, 0, 1⟩ ⟨0, 4, 2⟩ ⟨1, 1, 3⟩ = true ↔
        StrictlyInsideCircleThrough ⟨0, 0, 0⟩ ⟨4, 0, 1⟩ ⟨0, 4, 2⟩ ⟨1, 1, 3⟩) :=
  ⟨by decide, by decide,
    C21_inCircle_counterclockwise ⟨0, 0, 0⟩ ⟨4, 0, 1⟩ ⟨0, 4, 2⟩ ⟨1, 1, 3⟩ (by decide)⟩

/-- C22: in exact arithmetic, for every three sites with `x21*y31 - y21*x31` not zero,
`Circumcenter` returns true and writes a point whose squared distances to the three sites are
equal. -/
theorem C22_circumcenter_equidistant (s1 s2 s3 : Site) (vs : VSite)
    (h : (s2.x - s1.x) * (s3.y - s1.y) - (s2.y - s1.y) * (s3.x - s1.x) ≠ 0) :
    ∃ x y : Rat, Circumcenter s1 s2 s3 vs = (true, ⟨some (x, y)⟩) ∧
      distSq x y s1 = distSq x y s2 ∧ distSq x y s2 = distSq x y s3 := by
  obtain ⟨x, y, h0, h1, h2⟩ := Circumcenter_of_area s1 s2 s3 vs h
  exact ⟨x, y, h0, h1, h1.symm.trans h2⟩

/-- C22 (witness): the sites (0,0), (4,0), (0,4). -/
theorem C22_circumcenter_equidistant_witness :
    ((4 : Int) - 0) * (4 - 0) - (0 - 0) * (0 - 0) ≠ 0 ∧
      ∃ x y : Rat, Circumcenter ⟨0, 0, 0⟩ ⟨4, 0, 1⟩ ⟨0, 4, 2⟩ ⟨none⟩ = (true, ⟨some (x, y)⟩) ∧
        distSq x y ⟨0, 0, 0⟩ = distSq x y ⟨4, 0, 1⟩ ∧
        distSq x y ⟨4, 0, 1⟩ = distSq x y ⟨0, 4, 2⟩ :=
  ⟨by decide, C22_circumcenter_equidistant ⟨0, 0, 0⟩ ⟨4, 0, 1⟩ ⟨0, 4, 2⟩ ⟨none⟩ (by decide)⟩

/-- C23 (code bug): `Circumcenter` tests `denominator == 0`, where `denominator` is
`0.5 / (x21*y31 - y21*x31)`; a quotient with numerator 0.5 is never 0, and for a zero divisor it
is an infinity.  So `Circumcenter` returns true for every triple, and for the collinear sites
(0,0), (1,1), (2,2) it returns true and overwrites the vertex with coordinates that are not
finite numbers. -/
theorem C23_degenerate_triangle_not_reported :
    (∀ (s1 s2 s3 : Site) (vs : VSite), (Circumcenter s1 s2 s3 vs).1 = true) ∧
      ((1 : Int) - 0) * (2 - 0) - (1 - 0) * (2 - 0) = 0 ∧
      Circumcenter ⟨0, 0, 0⟩ ⟨1, 1, 1⟩ ⟨2, 2, 2⟩ ⟨some (5, 5)⟩ = (true, ⟨none⟩) := by
  refine ⟨?_, by decide, ?_⟩
  · intro s1 s2 s3 vs
    unfold Circumcenter
    simp only
    split
    · rfl
    · rename_i d hd
      split at hd
      · cases hd
      · rename_i hne
        simp only [Option.some.injEq] at hd
        have : d ≠ 0 := by
          rw [← hd]
          apply div_ne_zero
          · norm_num
          · exact hne
        rw [if_neg this]
  · unfold Circumcenter
    norm_num

/-- C29 (code bug): a field time series on two nodes with sample times 2 and 10, field (1, 1)
at time 2 and field (3, 5) at time 10.  `GetCurrentFieldValue` computes
`f*m_fieldValueLo[i] + (1.-f)*m_fieldValueHi[i]` with `f = (mt - t_lo)/(t_hi - t_lo)`, so the
weights are exchanged: at model time 2 (the first time step, which loads the two fields) it
returns the field of time 10, at model time 4 it returns (2.5, 4), and at model time 10 it
returns the field of time 2.  The linear interpolant is (1, 1), (1.5, 2) and (3, 5). -/
theorem C29_interpolation_weights_exchanged :
    (fieldSeries.GetCurrentFieldValue 2 2 []).map Prod.snd = some [3, 5] ∧
    (fieldSeries.GetCurrentFieldValue 4 4 []).map Prod.snd = some [5 / 2, 4] ∧
    ((fieldSeries.GetCurrentFieldValue 2 2 []).bind
        fun r => r.1.GetCurrentFieldValue 10 2 r.2).map Prod.snd = some [1, 1] := by
  decide!

/-- C30 (code bug): a 1D series with values 5 and 7 on three nodes.  The loop of
`GetFieldValueAtTime` is `for(int i=0; i<nn; i++) (*result)[i++] = m_values[idx];`: the index
is incremented twice in each pass, so only the entries 0 and 2 are set and entry 1 keeps what it
held (0 after `resize`).  The field returned by `GetCurrentFieldValue` at model time 1 (first
time step, sample times 0 and 10) is (6.8, 0, 6.8), not constant. -/
theorem C30_every_second_entry_set :
    valueSeries.GetFieldValueAtTime 0 [0, 0, 0] = some [5, 0, 5] ∧
    (valueSeries.GetCurrentFieldValue 1 1 []).map Prod.snd = some [34 / 5, 0, 34 / 5] := by
  decide!

/-! ## Visitation counters: reads of the scans on in-use records -/

theorem Visited_IncrementVisited {a : Nat} (h : Visited a < 65535) :
    Visited (IncrementVisited a) = Visited a + 1 := by
  unfold Visited IncrementVisited at *
  omega

theorem Visited_ResetVisited (a : Nat) : Visited (ResetVisited a) = 0 := by
  unfold Visited ResetVisited
  omega

theorem Org_inUse {s : EdgeStore} {st : List Nat} (hc : s.pool.chunk0 = some st) {j : Nat}
    (hj : InUse s j) : Org s (some j) = some (s.edge j).m_data0 := by
  simp only [Org, bind, Option.bind, rd_of_lt (WF.alive hc) hj.1, pure]

theorem Dest_inUse {s : EdgeStore} {st : List Nat} (hc : s.pool.chunk0 = some st)
    (hw : WF s st) {j : Nat} (hj : InUse s j) :
    Dest s (some j) = some (s.edge (symI j)).m_data0 := by
  simp only [Dest, Option.bind_eq_bind, WF.Sym_inUse hc hw hj, Option.some_bind]
  exact Org_inUse hc hj.symI

theorem Lnext_inUse {s : EdgeStore} {st : List Nat} (hc : s.pool.chunk0 = some st)
    (hw : WF s st) {j : Nat} (hj : InUse s j) :
    Lnext s (some j) = some (some (rotI (nxt s (torI j)))) := by
  simp only [Lnext, Option.bind_eq_bind, WF.Tor_inUse hc hw hj, Option.some_bind,
    WF.Onext_inUse hc hw hj.torI]
  exact WF.Rot_inUse hc hw (hw.next _ hj.torI).2.1

theorem visitedOf_inUse {s : EdgeStore} {st : List Nat} (hc : s.pool.chunk0 = some st)
    (hw : WF s st) {j : Nat} (hj : InUse s j) :
    visitedOf s (some j) = some (Visited (s.attr (j / 4))) := by
  simp only [visitedOf, Option.bind_eq_bind, Qedge_of_num (WF.alive hc) hj.1 (hw.num j hj),
    Option.some_bind, Option.pure_def]

theorem incVisited_inUse {s : EdgeStore} {st : List Nat} (hc : s.pool.chunk0 = some st)
    (hw : WF s st) {j : Nat} (hj : InUse s j) :
    incVisited s (some j)
      = some { s with attr := upd s.attr (j / 4) (IncrementVisited (s.attr (j / 4))) } := by
  simp only [incVisited, Option.bind_eq_bind, Qedge_of_num (WF.alive hc) hj.1 (hw.num j hj),
    Option.some_bind, Option.pure_def]

/-- What a successful face test says about the three edges. -/
theorem faceTest_true {s : EdgeStore} {st : List Nat} (hc : s.pool.chunk0 = some st)
    (hw : WF s st) {i eo el : Nat} (hi : InUse s i) (ho : InUse s eo) (hl : InUse s el)
    (h : faceTest s (some i) (some eo) (some el) = some true) :
    Visited (s.attr (i / 4)) < 2 ∧ Visited (s.attr (eo / 4)) < 2 ∧
      Visited (s.attr (el / 4)) < 2 ∧
      (s.edge el).m_data0 = (s.edge (symI i)).m_data0 ∧
      (s.edge (symI el)).m_data0 = (s.edge (symI eo)).m_data0 := by
  simp only [faceTest, unvisited, closes, Option.bind_eq_bind, visitedOf_inUse hc hw hi,
    visitedOf_inUse hc hw ho, visitedOf_inUse hc hw hl, Org_inUse hc hl, Dest_inUse hc hw hi,
    Dest_inUse hc hw hl, Dest_inUse hc hw ho, Option.some_bind, Option.pure_def] at h
  by_cases h1 : Visited (s.attr (i / 4)) < 2
  · by_cases h2 : Visited (s.attr (el / 4)) < 2
    · by_cases h3 : Visited (s.attr (eo / 4)) < 2
      · by_cases h4 : (s.edge el).m_data0 = (s.edge (symI i)).m_data0
        · by_cases h5 : (s.edge (symI el)).m_data0 = (s.edge (symI eo)).m_data0
          · exact ⟨h1, h3, h2, h4, h5⟩
          · simp [h1, h2, h3, h4, h5] at h
        · simp [h1, h2, h3, h4] at h
      · simp [h1, h2, h3] at h
    · simp [h1, h2] at h
  · simp [h1] at h

theorem even_same_slot {p q : Nat} (hp : p % 2 = 0) (hq : q % 2 = 0) (h : p / 4 = q / 4) :
    p = q ∨ p = symI q := by
  unfold symI
  split <;> omega

/-- The record reached by `Lnext` has `Sym` of the starting record as its `Onext`. -/
theorem WF.nxt_lnext {s : EdgeStore} {st : List Nat} (hw : WF s st) {i : Nat}
    (hi : InUse s i) : nxt s (rotI (nxt s (torI i))) = symI i := by
  have h := hw.e8 (torI i) hi.torI
  have h2 := congrArg torI h
  rw [torI_rotI] at h2
  rw [h2]
  unfold torI symI
  split <;> split <;> split <;> omega

/-- In a structure whose rings agree on `Org()` and whose edges join distinct sites, the three
edges of a face accepted by the scan lie in three different quad-edges. -/
theorem face_slots_distinct {s : EdgeStore} {st : List Nat} (hw : WF s st)
    (hR : RingOrg s) (hD : DistinctEnds s) {i : Nat} (hi : InUse s i) (he : i % 2 = 0)
    (h1 : (s.edge (rotI (nxt s (torI i)))).m_data0 = (s.edge (symI i)).m_data0)
    (h2 : (s.edge (symI (rotI (nxt s (torI i))))).m_data0
      = (s.edge (symI (nxt s i))).m_data0) :
    i / 4 ≠ nxt s i / 4 ∧ i / 4 ≠ rotI (nxt s (torI i)) / 4 ∧
      nxt s i / 4 ≠ rotI (nxt s (torI i)) / 4 := by
  have ho := (hw.next i hi).2.1
  have hoe : nxt s i % 2 = 0 := by rw [(hw.next i hi).2.2]; exact he
  have hl0 := (hw.next _ hi.torI).2.1
  have hl := hl0.rotI
  have hle : rotI (nxt s (torI i)) % 2 = 0 := by
    have a1 := rotI_mod2 (nxt s (torI i))
    have a2 := (hw.next _ hi.torI).2.2
    have a3 := torI_mod2 i
    omega
  have hnl := hw.nxt_lnext hi
  have ri := hR i hi.1 hi.2 he
  have ro := hR _ ho.1 ho.2 hoe
  have rl := hR _ hl.1 hl.2 hle
  rw [hnl] at rl
  have di := hD i hi.1 hi.2 he
  have dO := hD _ ho.1 ho.2 hoe
  have dl := hD _ hl.1 hl.2 hle
  refine ⟨?_, ?_, ?_⟩
  · intro h
    rcases even_same_slot hoe he h.symm with h' | h'
    · rw [h'] at h2
      exact dl (h1.trans h2.symm)
    · rw [h'] at ri
      exact di ri.symm
  · intro h
    rcases even_same_slot hle he h.symm with h' | h'
    · rw [h'] at h1
      exact di h1
    · rw [h', symI_symI] at h2
      rw [h2] at ri
      exact dO ri
  · intro h
    rcases even_same_slot hle hoe h.symm with h' | h'
    · rw [h'] at h1
      exact di ((ri.symm.trans h1))
    · rw [h', symI_symI] at h2
      exact dO h2

/-! ## One `IncrementVisited` and the three of a face -/

theorem Visited_IncrementVisited_le (a : Nat) :
    Visited (IncrementVisited a) ≤ Visited a + 1 := by
  unfold Visited IncrementVisited
  omega

theorem incVisited_step {s s' : EdgeStore} {j : Nat} (hG : Good s) (hj : InUse s j)
    (h : incVisited s (some j) = some s') :
    Good s' ∧ SameShape s s' ∧ s'.edge = s.edge ∧ (∀ q, q ≠ j / 4 → s'.attr q = s.attr q) ∧
      s'.attr (j / 4) = IncrementVisited (s.attr (j / 4)) := by
  obtain ⟨a, b⟩ := incVisited_good hG ⟨j, rfl, hj⟩ h
  simp only [incVisited, Option.bind_eq_bind, Option.bind_eq_some] at h
  obtain ⟨q, hq, h⟩ := h
  simp only [Option.pure_def, Option.some.injEq] at h
  subst h
  obtain ⟨j', hj', ha, _, hnum⟩ := Qedge_eq_some hq
  obtain rfl : j = j' := by simpa using hj'
  obtain ⟨st, hc⟩ := alive_some ha
  have := hnum ((hG.1 st hc).num j hj)
  subst this
  refine ⟨a, b, rfl, ?_, ?_⟩
  · intro q hq
    show upd s.attr (j / 4) _ q = _
    exact upd_ne _ _ hq
  · show upd s.attr (j / 4) _ (j / 4) = _
    exact upd_same _ _ _

theorem RingOrg_shape {s s' : EdgeStore} (h : SameShape s s')
    (hd : ∀ p, (s'.edge p).m_data0 = (s.edge p).m_data0) (hR : RingOrg s) : RingOrg s' := by
  intro p hp hf he
  have hn : nxt s' p = nxt s p := by unfold nxt; rw [(h.2.2 p).2]
  rw [hn, hd, hd]
  rw [h.1] at hp
  rw [h.2.1] at hf
  exact hR p hp hf he

theorem DistinctEnds_shape {s s' : EdgeStore} (h : SameShape s s')
    (hd : ∀ p, (s'.edge p).m_data0 = (s.edge p).m_data0) (hD : DistinctEnds s) :
    DistinctEnds s' := by
  intro p hp hf he
  rw [hd, hd]
  rw [h.1] at hp
  rw [h.2.1] at hf
  exact hD p hp hf he

theorem sum_map_range_step (f g : Nat → Nat) (q0 : Nat) (h0 : g q0 = f q0 + 1)
    (hne : ∀ q, q ≠ q0 → g q = f q) :
    ∀ n, ((List.range n).map g).sum
      = ((List.range n).map f).sum + (if q0 < n then 1 else 0) := by
  intro n
  induction n with
  | zero => simp
  | succ n ih =>
    rw [List.range_succ, List.map_append, List.map_append, List.sum_append, List.sum_append, ih]
    simp only [List.map_cons, List.map_nil, List.sum_cons, List.sum_nil, Nat.add_zero]
    by_cases h1 : q0 < n
    · rw [if_pos h1, if_pos (by omega), hne n (by omega)]
      omega
    · by_cases h2 : q0 = n
      · subst h2
        rw [if_neg h1, if_pos (by omega), h0]
        omega
      · rw [if_neg h1, if_neg (by omega), hne n (by omega)]
        omega

theorem incVisited_sum {s s' : EdgeStore} {j : Nat} (hG : Good s) (hj : InUse s j)
    (hv : Visited (s.attr (j / 4)) < 65535) (h : incVisited s (some j) = some s') :
    visitedSum s' = visitedSum s + 1 := by
  obtain ⟨_, b, _, hne, h0⟩ := incVisited_step hG hj h
  unfold visitedSum
  rw [b.1]
  have hlt : j / 4 < s.pool.numElementsPerChunk := by have := hj.1; omega
  have := sum_map_range_step (fun q => if IsFree (s.attr q) then 0 else Visited (s.attr q))
    (fun q => if IsFree (s'.attr q) then 0 else Visited (s'.attr q)) (j / 4)
    (by
      show (if IsFree (s'.attr (j / 4)) then 0 else Visited (s'.attr (j / 4))) = _
      rw [b.2.1, hj.2, h0, Visited_IncrementVisited hv]
      simp [hj.2])
    (by
      intro q hq
      show (if IsFree (s'.attr q) then 0 else Visited (s'.attr q)) = _
      rw [hne q hq])
    s.pool.numElementsPerChunk
  rw [this, if_pos hlt]

theorem incVisited_le {s s' : EdgeStore} {j : Nat} (hG : Good s) (hj : InUse s j)
    (h : incVisited s (some j) = some s') (q : Nat) :
    Visited (s'.attr q) ≤ Visited (s.attr q) + 1 := by
  obtain ⟨_, _, _, hne, h0⟩ := incVisited_step hG hj h
  by_cases hq : q = j / 4
  · subst hq
    rw [h0]
    exact Visited_IncrementVisited_le _
  · rw [hne q hq]
    omega

/-- The three increments of a face add 3 to the sum of the counters. -/
theorem markFace_sum {s s' : EdgeStore} {i eo el : Nat} (hG : Good s) (hi : InUse s i)
    (ho : InUse s eo) (hl : InUse s el) (h1 : Visited (s.attr (i / 4)) < 2)
    (h2 : Visited (s.attr (eo / 4)) < 2) (h3 : Visited (s.attr (el / 4)) < 2)
    (h : markFace s (some i) (some eo) (some el) = some s') :
    visitedSum s' = visitedSum s + 3 := by
  simp only [markFace, Option.bind_eq_bind, Option.bind_eq_some] at h
  obtain ⟨s1, g1, s2, g2, g3⟩ := h
  obtain ⟨a1, b1, _⟩ := incVisited_step hG hi g1
  have ho1 := (b1.inUse eo).2 ho
  have hl1 := (b1.inUse el).2 hl
  obtain ⟨a2, b2, _⟩ := incVisited_step a1 ho1 g2
  have hl2 := (b2.inUse el).2 hl1
  have c1 := incVisited_sum hG hi (by omega) g1
  have c2 := incVisited_sum a1 ho1 (by have := incVisited_le hG hi g1 (eo / 4); omega) g2
  have c3 := incVisited_sum a2 hl2 (by
    have := incVisited_le hG hi g1 (el / 4)
    have := incVisited_le a1 ho1 g2 (el / 4)
    omega) g3
  omega

/-- The three increments of a face whose edges lie in three different quad-edges keep the
counters at 2 at most. -/
theorem markFace_bound {s s' : EdgeStore} {i eo el : Nat} (hG : Good s) (hi : InUse s i)
    (ho : InUse s eo) (hl : InUse s el) (h1 : Visited (s.attr (i / 4)) < 2)
    (h2 : Visited (s.attr (eo / 4)) < 2) (h3 : Visited (s.attr (el / 4)) < 2)
    (d1 : i / 4 ≠ eo / 4) (d2 : i / 4 ≠ el / 4) (d3 : eo / 4 ≠ el / 4)
    (hV : VisitedAtMost 2 s) (h : markFace s (some i) (some eo) (some el) = some s') :
    VisitedAtMost 2 s' ∧ s'.edge = s.edge := by
  simp only [markFace, Option.bind_eq_bind, Option.bind_eq_some] at h
  obtain ⟨s1, g1, s2, g2, g3⟩ := h
  obtain ⟨a1, b1, e1, n1, v1⟩ := incVisited_step hG hi g1
  have ho1 := (b1.inUse eo).2 ho
  have hl1 := (b1.inUse el).2 hl
  obtain ⟨a2, b2, e2, n2, v2⟩ := incVisited_step a1 ho1 g2
  have hl2 := (b2.inUse el).2 hl1
  obtain ⟨a3, b3, e3, n3, v3⟩ := incVisited_step a2 hl2 g3
  refine ⟨?_, by rw [e3, e2, e1]⟩
  intro q hq
  rw [b3.1, b2.1, b1.1] at hq
  have hq0 := hV q hq
  by_cases q3 : q = el / 4
  · subst q3
    rw [v3, n2 _ (Ne.symm d3), n1 _ (Ne.symm d2), Visited_IncrementVisited (by omega)]
    omega
  · rw [n3 q q3]
    by_cases q2 : q = eo / 4
    · subst q2
      rw [v2, n1 _ (Ne.symm d1), Visited_IncrementVisited (by omega)]
      omega
    · rw [n2 q q2]
      by_cases q1 : q = i / 4
      · subst q1
        rw [v1, Visited_IncrementVisited (by omega)]
        omega
      · rw [n1 q q1]
        exact hq0

/-! ### Stores that differ in the Voronoi vertices only -/

theorem SameButVoronoi.shape {s s' : EdgeStore} (h : SameButVoronoi s s') : SameShape s s' :=
  ⟨h.1, fun q => by rw [h.2.1], fun p => ⟨(h.2.2 p).1, (h.2.2 p).2.1⟩⟩

theorem SameButVoronoi.vorTrans {a b c : EdgeStore} (h1 : SameButVoronoi a b)
    (h2 : SameButVoronoi b c) : SameButVoronoi a c :=
  ⟨h2.1.trans h1.1, h2.2.1.trans h1.2.1, fun p =>
    ⟨((h2.2.2 p).1).trans ((h1.2.2 p).1), ((h2.2.2 p).2.1).trans ((h1.2.2 p).2.1),
      ((h2.2.2 p).2.2).trans ((h1.2.2 p).2.2)⟩⟩

theorem VOrg_Set_voronoi {s s' : EdgeStore} {p vs : Ptr} (h : VOrg_Set s p vs = some s') :
    SameButVoronoi s s' := by
  have h' : s.wr p (fun r => { r with m_data1 := vs }) = some s' := h
  obtain ⟨i, rfl, _, _, rfl⟩ := wr_eq_some h'
  refine ⟨rfl, rfl, fun p => ?_⟩
  show (upd s.edge i _ p).m_num = _ ∧ (upd s.edge i _ p).m_next = _ ∧
    (upd s.edge i _ p).m_data0 = _
  unfold upd
  split
  · rename_i hp; subst hp; exact ⟨rfl, rfl, rfl⟩
  · exact ⟨rfl, rfl, rfl⟩

theorem VDest_Set_voronoi {s s' : EdgeStore} {p vs : Ptr} (h : VDest_Set s p vs = some s') :
    SameButVoronoi s s' := by
  simp only [VDest_Set, Option.bind_eq_bind, Option.bind_eq_some] at h
  obtain ⟨q, _, h⟩ := h
  exact VOrg_Set_voronoi h

theorem attachVertex_voronoi {s s' : EdgeStore} {e eo el vs : Ptr}
    (h : attachVertex s e eo el vs = some s') : SameButVoronoi s s' := by
  simp only [attachVertex, Option.bind_eq_bind, Option.bind_eq_some] at h
  obtain ⟨s1, h1, s2, h2, h3⟩ := h
  exact (VDest_Set_voronoi h1).vorTrans ((VOrg_Set_voronoi h2).vorTrans (VDest_Set_voronoi h3))

/-! ## The scans of triangle extraction and Voronoi generation keep the counters at 2 at most -/

/-- The three increments of a face accepted by the scan, in a structure whose rings agree on
`Org()` and whose edges join distinct sites. -/
theorem markFace_face {s s' : EdgeStore} {st : List Nat} (hc : s.pool.chunk0 = some st)
    (hG : Good s) (hR : RingOrg s) (hD : DistinctEnds s) (hV : VisitedAtMost 2 s) {i : Nat}
    (hi : InUse s i) (he : i % 2 = 0)
    (hf : Visited (s.attr (i / 4)) < 2 ∧ Visited (s.attr (nxt s i / 4)) < 2 ∧
      Visited (s.attr (rotI (nxt s (torI i)) / 4)) < 2 ∧
      (s.edge (rotI (nxt s (torI i)))).m_data0 = (s.edge (symI i)).m_data0 ∧
      (s.edge (symI (rotI (nxt s (torI i))))).m_data0 = (s.edge (symI (nxt s i))).m_data0)
    (h : markFace s (some i) (some (nxt s i)) (some (rotI (nxt s (torI i)))) = some s') :
    (Good s' ∧ RingOrg s' ∧ DistinctEnds s' ∧ VisitedAtMost 2 s') ∧ SameShape s s' := by
  have hw := hG.1 st hc
  have ho := (hw.next i hi).2.1
  have hl := ((hw.next _ hi.torI).2.1).rotI
  obtain ⟨v1, v2, v3, e1, e2⟩ := hf
  obtain ⟨d1, d2, d3⟩ := face_slots_distinct hw hR hD hi he e1 e2
  obtain ⟨a, b⟩ := markFace_good hG ⟨i, rfl, hi⟩ ⟨_, rfl, ho⟩ ⟨_, rfl, hl⟩ h
  obtain ⟨c, d⟩ := markFace_bound hG hi ho hl v1 v2 v3 d1 d2 d3 hV h
  have hd : ∀ p, (s'.edge p).m_data0 = (s.edge p).m_data0 := by intro p; rw [d]
  exact ⟨⟨a, RingOrg_shape b hd hR, DistinctEnds_shape b hd hD, c⟩, b⟩

theorem Live_even_Onext {s : EdgeStore} {st : List Nat} (hw : WF s st) {i : Nat}
    (hi : InUse s i) (he : i % 2 = 0) : EvenPtr (some (nxt s i)) := by
  intro j hj
  obtain rfl : nxt s i = j := by simpa using hj
  rw [(hw.next i hi).2.2]
  exact he

theorem triVisit_bound {t t' : Triangulator} {e eo : Ptr}
    (hJ : Good t.m_dEdge ∧ RingOrg t.m_dEdge ∧ DistinctEnds t.m_dEdge ∧
      VisitedAtMost 2 t.m_dEdge)
    (hl : Live t.m_dEdge e) (hev : EvenPtr e) (h : triVisit t e = some (t', eo)) :
    (Good t'.m_dEdge ∧ RingOrg t'.m_dEdge ∧ DistinctEnds t'.m_dEdge ∧
      VisitedAtMost 2 t'.m_dEdge) ∧ Live t'.m_dEdge eo ∧ EvenPtr eo := by
  obtain ⟨hG, hR, hD, hV⟩ := hJ
  obtain ⟨i, rfl, hi⟩ := hl
  have he := hev i rfl
  simp only [triVisit, Option.bind_eq_bind, Option.bind_eq_some] at h
  obtain ⟨eOnext, hon, eLnext, hln, c, hft, h⟩ := h
  obtain ⟨_, _, ha, _, _⟩ := Onext_eq_some hon
  obtain ⟨st, hc⟩ := alive_some ha
  have hw := hG.1 st hc
  rw [WF.Onext_inUse hc hw hi] at hon
  obtain rfl : some (nxt t.m_dEdge i) = eOnext := by simpa using hon
  rw [Lnext_inUse hc hw hi] at hln
  obtain rfl : some (rotI (nxt t.m_dEdge (torI i))) = eLnext := by simpa using hln
  have ho := (hw.next i hi).2.1
  have hll := ((hw.next _ hi.torI).2.1).rotI
  split at h
  · rename_i hct
    subst hct
    simp only [Option.bind_eq_some] at h
    obtain ⟨t1, h1, s1, h2, h⟩ := h
    simp only [Option.pure_def, Option.some.injEq, Prod.mk.injEq] at h
    obtain ⟨rfl, rfl⟩ := h
    obtain ⟨_, g2⟩ := emitTriangle_frame h1
    rw [g2] at h2
    obtain ⟨v1, v2, v3, e1, e2⟩ := faceTest_true hc hw hi ho hll hft
    obtain ⟨a, b⟩ := markFace_face hc hG hR hD hV hi he ⟨v1, v2, v3, e1, e2⟩ h2
    exact ⟨a, b.live ⟨_, rfl, ho⟩, Live_even_Onext hw hi he⟩
  · simp only [Option.pure_def, Option.some.injEq, Prod.mk.injEq] at h
    obtain ⟨rfl, rfl⟩ := h
    exact ⟨⟨hG, hR, hD, hV⟩, ⟨_, rfl, ho⟩, Live_even_Onext hw hi he⟩

theorem triRing_bound {eStart : Ptr} (fuel : Nat) :
    ∀ {t t' : Triangulator} {e : Ptr},
      (Good t.m_dEdge ∧ RingOrg t.m_dEdge ∧ DistinctEnds t.m_dEdge ∧
        VisitedAtMost 2 t.m_dEdge) → Live t.m_dEdge e → EvenPtr e →
      triRing eStart fuel t e = some t' →
      Good t'.m_dEdge ∧ RingOrg t'.m_dEdge ∧ DistinctEnds t'.m_dEdge ∧
        VisitedAtMost 2 t'.m_dEdge := by
  induction fuel with
  | zero => intro t t' e _ _ _ h; simp [triRing] at h
  | succ n ih =>
    intro t t' e hJ hl he h
    simp only [triRing] at h
    split at h
    · simp at h
    · rename_i t1 eo hv
      obtain ⟨g, l, l2⟩ := triVisit_bound hJ hl he hv
      split at h
      · exact ih g l l2 h
      · obtain rfl : t1 = t' := by simpa using h
        exact g

theorem even_four (i : Nat) : EvenPtr (some (4 * i)) := by
  intro j hj
  obtain rfl : 4 * i = j := by simpa using hj
  omega

theorem triSlot_bound {fuel : Nat} {t t' : Triangulator} {i : Nat}
    (hJ : Good t.m_dEdge ∧ RingOrg t.m_dEdge ∧ DistinctEnds t.m_dEdge ∧
      VisitedAtMost 2 t.m_dEdge)
    (h : triSlot fuel t i = some t') :
    Good t'.m_dEdge ∧ RingOrg t'.m_dEdge ∧ DistinctEnds t'.m_dEdge ∧
      VisitedAtMost 2 t'.m_dEdge := by
  simp only [triSlot, Option.bind_eq_bind, Option.bind_eq_some] at h
  obtain ⟨c, hc, h⟩ := h
  split at h
  · simp only [Option.pure_def, Option.some.injEq] at h
    subst h; exact hJ
  · rename_i hcf
    have hc' : isFreeOf t.m_dEdge (some (4 * i)) = some false := by
      rw [hc]; simpa using hcf
    exact triRing_bound _ hJ (Live_of_notFree hJ.1.2 hc') (even_four i) h

/-! ### The Voronoi pass -/

theorem faceFacts_voronoi {s s1 : EdgeStore} (b : SameButVoronoi s s1) {i : Nat}
    (hf : Visited (s.attr (i / 4)) < 2 ∧ Visited (s.attr (nxt s i / 4)) < 2 ∧
      Visited (s.attr (rotI (nxt s (torI i)) / 4)) < 2 ∧
      (s.edge (rotI (nxt s (torI i)))).m_data0 = (s.edge (symI i)).m_data0 ∧
      (s.edge (symI (rotI (nxt s (torI i))))).m_data0 = (s.edge (symI (nxt s i))).m_data0) :
    Visited (s1.attr (i / 4)) < 2 ∧ Visited (s1.attr (nxt s1 i / 4)) < 2 ∧
      Visited (s1.attr (rotI (nxt s1 (torI i)) / 4)) < 2 ∧
      (s1.edge (rotI (nxt s1 (torI i)))).m_data0 = (s1.edge (symI i)).m_data0 ∧
      (s1.edge (symI (rotI (nxt s1 (torI i))))).m_data0
        = (s1.edge (symI (nxt s1 i))).m_data0 := by
  have hn : ∀ p, nxt s1 p = nxt s p := by intro p; unfold nxt; rw [(b.2.2 p).2.1]
  have hd : ∀ p, (s1.edge p).m_data0 = (s.edge p).m_data0 := fun p => (b.2.2 p).2.2
  rw [b.2.1, hn, hn, hd, hd, hd, hd]
  exact hf

theorem emitVertex_bound {t t' : Triangulator} {st : List Nat} {i : Nat}
    (hc : t.m_dEdge.pool.chunk0 = some st)
    (hJ : Good t.m_dEdge ∧ RingOrg t.m_dEdge ∧ DistinctEnds t.m_dEdge ∧
      VisitedAtMost 2 t.m_dEdge)
    (hi : InUse t.m_dEdge i) (he : i % 2 = 0)
    (hf : faceTest t.m_dEdge (some i) (some (nxt t.m_dEdge i))
      (some (rotI (nxt t.m_dEdge (torI i)))) = some true)
    (h : emitVertex t (some i) (some (nxt t.m_dEdge i))
      (some (rotI (nxt t.m_dEdge (torI i)))) = some t') :
    (Good t'.m_dEdge ∧ RingOrg t'.m_dEdge ∧ DistinctEnds t'.m_dEdge ∧
      VisitedAtMost 2 t'.m_dEdge) ∧ SameShape t.m_dEdge t'.m_dEdge := by
  obtain ⟨hG, hR, hD, hV⟩ := hJ
  have hw := hG.1 st hc
  have ho := (hw.next i hi).2.1
  have hll := ((hw.next _ hi.torI).2.1).rotI
  have ff := faceTest_true hc hw hi ho hll hf
  simp only [emitVertex, Option.bind_eq_bind, Option.bind_eq_some] at h
  obtain ⟨_, _, _, _, _, _, ⟨vs, t1⟩, g1, h⟩ := h
  simp only [Option.bind_eq_some] at h
  obtain ⟨s1, g2, s2, g3, h⟩ := h
  simp only [Option.pure_def, Option.some.injEq] at h
  subst h
  obtain ⟨_, k⟩ := newVoronoiVertex_frame g1
  rw [k] at g2
  have b := attachVertex_voronoi g2
  obtain ⟨a1, b1⟩ := attachVertex_good hG g2
  have hn : ∀ p, nxt s1 p = nxt t.m_dEdge p := by
    intro p; unfold nxt; rw [(b.2.2 p).2.1]
  have hd : ∀ p, (s1.edge p).m_data0 = (t.m_dEdge.edge p).m_data0 := fun p => (b.2.2 p).2.2
  have hV1 : VisitedAtMost 2 s1 := by
    intro q hq
    rw [b.1] at hq
    rw [b.2.1]
    exact hV q hq
  have hc1 : s1.pool.chunk0 = some st := by rw [b.1]; exact hc
  have g3' : markFace s1 (some i) (some (nxt s1 i)) (some (rotI (nxt s1 (torI i)))) = some s2 := by
    rw [hn, hn]; exact g3
  obtain ⟨a2, b2⟩ := markFace_face hc1 a1 (RingOrg_shape b1 hd hR) (DistinctEnds_shape b1 hd hD)
    hV1 ((b1.inUse i).2 hi) he (faceFacts_voronoi b ff) g3'
  exact ⟨a2, b1.shapeTrans b2⟩

theorem vorVisit_bound {t t' : Triangulator} {e eo : Ptr}
    (hJ : Good t.m_dEdge ∧ RingOrg t.m_dEdge ∧ DistinctEnds t.m_dEdge ∧
      VisitedAtMost 2 t.m_dEdge)
    (hl : Live t.m_dEdge e) (hev : EvenPtr e) (h : vorVisit t e = some (t', eo)) :
    (Good t'.m_dEdge ∧ RingOrg t'.m_dEdge ∧ DistinctEnds t'.m_dEdge ∧
      VisitedAtMost 2 t'.m_dEdge) ∧ Live t'.m_dEdge eo ∧ EvenPtr eo := by
  have hG := hJ.1
  obtain ⟨i, rfl, hi⟩ := hl
  have he := hev i rfl
  simp only [vorVisit, Option.bind_eq_bind, Option.bind_eq_some] at h
  obtain ⟨eOnext, hon, eLnext, hln, c, hft, h⟩ := h
  obtain ⟨_, _, ha, _, _⟩ := Onext_eq_some hon
  obtain ⟨st, hc⟩ := alive_some ha
  have hw := hG.1 st hc
  rw [WF.Onext_inUse hc hw hi] at hon
  obtain rfl : some (nxt t.m_dEdge i) = eOnext := by simpa using hon
  rw [Lnext_inUse hc hw hi] at hln
  obtain rfl : some (rotI (nxt t.m_dEdge (torI i))) = eLnext := by simpa using hln
  have ho := (hw.next i hi).2.1
  split at h
  · rename_i hct
    subst hct
    simp only [Option.bind_eq_some] at h
    obtain ⟨t1, h1, h⟩ := h
    simp only [Option.pure_def, Option.some.injEq, Prod.mk.injEq] at h
    obtain ⟨rfl, rfl⟩ := h
    obtain ⟨a, b⟩ := emitVertex_bound hc hJ hi he hft h1
    exact ⟨a, b.live ⟨_, rfl, ho⟩, Live_even_Onext hw hi he⟩
  · simp only [Option.pure_def, Option.some.injEq, Prod.mk.injEq] at h
    obtain ⟨rfl, rfl⟩ := h
    exact ⟨hJ, ⟨_, rfl, ho⟩, Live_even_Onext hw hi he⟩

theorem vorRing_bound {eStart : Ptr} (fuel : Nat) :
    ∀ {t t' : Triangulator} {e : Ptr},
      (Good t.m_dEdge ∧ RingOrg t.m_dEdge ∧ DistinctEnds t.m_dEdge ∧
        VisitedAtMost 2 t.m_dEdge) → Live t.m_dEdge e → EvenPtr e →
      vorRing eStart fuel t e = some t' →
      Good t'.m_dEdge ∧ RingOrg t'.m_dEdge ∧ DistinctEnds t'.m_dEdge ∧
        VisitedAtMost 2 t'.m_dEdge := by
  induction fuel with
  | zero => intro t t' e _ _ _ h; simp [vorRing] at h
  | succ n ih =>
    intro t t' e hJ hl he h
    simp only [vorRing] at h
    split at h
    · simp at h
    · rename_i t1 eo hv
      obtain ⟨g, l, l2⟩ := vorVisit_bound hJ hl he hv
      split at h
      · exact ih g l l2 h
      · obtain rfl : t1 = t' := by simpa using h
        exact g

theorem vorSlot_bound {fuel : Nat} {t t' : Triangulator} {i : Nat}
    (hJ : Good t.m_dEdge ∧ RingOrg t.m_dEdge ∧ DistinctEnds t.m_dEdge ∧
      VisitedAtMost 2 t.m_dEdge)
    (h : vorSlot fuel t i = some t') :
    Good t'.m_dEdge ∧ RingOrg t'.m_dEdge ∧ DistinctEnds t'.m_dEdge ∧
      VisitedAtMost 2 t'.m_dEdge := by
  simp only [vorSlot, Option.bind_eq_bind, Option.bind_eq_some] at h
  obtain ⟨c, hc, h⟩ := h
  split at h
  · simp only [Option.pure_def, Option.some.injEq] at h
    subst h; exact hJ
  · rename_i hcf
    have hc' : isFreeOf t.m_dEdge (some (4 * i)) = some false := by
      rw [hc]; simpa using hcf
    exact vorRing_bound _ hJ (Live_of_notFree hJ.1.2 hc') (even_four i) h

/-! ## The reset at the start of a pass, and the neighbour pass -/

theorem resetVisited_reset {s s' : EdgeStore} (hG : Good s) (hR : RingOrg s)
    (hD : DistinctEnds s) (h : resetVisited s s.pool.numElementsPerChunk = some s') :
    (Good s' ∧ RingOrg s' ∧ DistinctEnds s') ∧ VisitedAtMost 0 s' := by
  obtain ⟨a, b⟩ := resetVisited_good hG h
  have hd : s'.edge = s.edge ∧ ∀ q, q < s.pool.numElementsPerChunk →
      Visited (s'.attr q) = 0 := by
    unfold resetVisited at h
    split at h
    · rename_i h0
      obtain rfl : s = s' := by simpa using h
      exact ⟨rfl, fun q hq => by omega⟩
    · split at h
      · obtain rfl := Option.some.inj h
        refine ⟨rfl, fun q hq => ?_⟩
        show Visited (if q < s.pool.numElementsPerChunk then ResetVisited (s.attr q)
          else s.attr q) = 0
        rw [if_pos hq]
        exact Visited_ResetVisited _
      · simp at h
  have hd0 : ∀ p, (s'.edge p).m_data0 = (s.edge p).m_data0 := by intro p; rw [hd.1]
  refine ⟨⟨a, RingOrg_shape b hd0 hR, DistinctEnds_shape b hd0 hD⟩, ?_⟩
  intro q hq
  rw [b.1] at hq
  rw [hd.2 q hq]

theorem VisitedAtMost.weaken {s : EdgeStore} {m n : Nat} (h : VisitedAtMost m s) (hmn : m ≤ n) :
    VisitedAtMost n s := fun q hq => Nat.le_trans (h q hq) hmn

theorem incVisited_bound {s s' : EdgeStore} {j : Nat} (hG : Good s) (hj : InUse s j)
    (hv : Visited (s.attr (j / 4)) < 2) (hV : VisitedAtMost 2 s)
    (h : incVisited s (some j) = some s') : VisitedAtMost 2 s' := by
  obtain ⟨_, b, _, hne, h0⟩ := incVisited_step hG hj h
  intro q hq
  rw [b.1] at hq
  by_cases hqj : q = j / 4
  · subst hqj
    rw [h0, Visited_IncrementVisited (by omega)]
    omega
  · rw [hne q hqj]
    exact hV q hq

theorem visitedOf_live {s : EdgeStore} (hG : Good s) {j v : Nat} (hj : InUse s j)
    (h : visitedOf s (some j) = some v) : v = Visited (s.attr (j / 4)) := by
  have h' := h
  simp only [visitedOf, Option.bind_eq_bind, Option.bind_eq_some] at h'
  obtain ⟨q, hq, _⟩ := h'
  obtain ⟨_, _, ha, _, _⟩ := Qedge_eq_some hq
  obtain ⟨st, hc⟩ := alive_some ha
  rw [visitedOf_inUse hc (hG.1 st hc) hj] at h
  exact (Option.some.inj h).symm

theorem countEdge_dEdge {t t' : Triangulator} {e : Ptr} (h : countEdge t e = some t') :
    incVisited t.m_dEdge e = some t'.m_dEdge := by
  simp only [countEdge, Option.bind_eq_bind, Option.bind_eq_some] at h
  obtain ⟨_, _, src, _, _, _, dst, _, s1, hs, h⟩ := h
  split at h
  · simp only [Option.bind_eq_some] at h
    obtain ⟨n1, _, n2, _, h⟩ := h
    simp only [Option.pure_def, Option.some.injEq] at h
    subst h; exact hs
  · simp only [Option.pure_def, Option.some.injEq] at h
    subst h; exact hs

theorem countSlot_bound {t t' : Triangulator} {i : Nat}
    (hJ : Good t.m_dEdge ∧ VisitedAtMost 2 t.m_dEdge) (h : countSlot t i = some t') :
    Good t'.m_dEdge ∧ VisitedAtMost 2 t'.m_dEdge := by
  refine ⟨countSlot_good hJ.1 h, ?_⟩
  simp only [countSlot, Option.bind_eq_bind, Option.bind_eq_some] at h
  obtain ⟨c, hc, h⟩ := h
  split at h
  · simp only [Option.pure_def, Option.some.injEq] at h
    subst h; exact hJ.2
  · rename_i hcf
    have hc' : isFreeOf t.m_dEdge (some (4 * i)) = some false := by
      rw [hc]; simpa using hcf
    obtain ⟨j, hj, hu⟩ := Live_of_notFree hJ.1.2 hc'
    obtain rfl : 4 * i = j := by simpa using hj
    simp only [Option.bind_eq_some] at h
    obtain ⟨v, hv, h⟩ := h
    have hv' := visitedOf_live hJ.1 hu hv
    split at h
    · rename_i hv0
      exact incVisited_bound hJ.1 hu (by omega) hJ.2 (countEdge_dEdge h)
    · simp only [Option.pure_def, Option.some.injEq] at h
      subst h; exact hJ.2

theorem storeVisit_bound {t t' : Triangulator} {temp temp' : List Nat} {j : Nat}
    (hJ : Good t.m_dEdge ∧ VisitedAtMost 2 t.m_dEdge) (hu : InUse t.m_dEdge j)
    (h : storeVisit t temp (some j) = some (t', temp')) : VisitedAtMost 2 t'.m_dEdge := by
  simp only [storeVisit, Option.bind_eq_bind, Option.bind_eq_some] at h
  obtain ⟨_, _, src, _, _, _, dst, _, _, _, _, _, v, hv, h⟩ := h
  have hv' := visitedOf_live hJ.1 hu hv
  split at h
  · rename_i hv1
    split at h
    · simp only [Option.bind_eq_some] at h
      obtain ⟨⟨t1, temp1⟩, h1, s1, hs, h⟩ := h
      simp only [Option.pure_def, Option.some.injEq, Prod.mk.injEq] at h
      obtain ⟨rfl, rfl⟩ := h
      obtain ⟨_, g1'⟩ := storeEdge_frame h1
      simp only [g1'] at hs
      exact incVisited_bound hJ.1 hu (by omega) hJ.2 hs
    · simp only [Option.pure_def, Option.some_bind, Option.bind_eq_some] at h
      obtain ⟨s1, hs, h⟩ := h
      simp only [Option.some.injEq, Prod.mk.injEq] at h
      obtain ⟨rfl, rfl⟩ := h
      exact incVisited_bound hJ.1 hu (by omega) hJ.2 hs
  · simp only [Option.pure_def, Option.some.injEq, Prod.mk.injEq] at h
    obtain ⟨rfl, rfl⟩ := h
    exact hJ.2

theorem storeSlot_bound {st st' : Triangulator × List Nat} {i : Nat}
    (hJ : Good st.1.m_dEdge ∧ VisitedAtMost 2 st.1.m_dEdge) (h : storeSlot st i = some st') :
    Good st'.1.m_dEdge ∧ VisitedAtMost 2 st'.1.m_dEdge := by
  refine ⟨storeSlot_good hJ.1 h, ?_⟩
  simp only [storeSlot, Option.bind_eq_bind, Option.bind_eq_some] at h
  obtain ⟨c, hc, h⟩ := h
  split at h
  · simp only [Option.pure_def, Option.some.injEq] at h
    subst h; exact hJ.2
  · rename_i hcf
    have hc' : isFreeOf st.1.m_dEdge (some (4 * i)) = some false := by
      rw [hc]; simpa using hcf
    obtain ⟨j, hj, hu⟩ := Live_of_notFree hJ.1.2 hc'
    obtain rfl : 4 * i = j := by simpa using hj
    exact storeVisit_bound hJ hu h

/-! ### The three passes -/

theorem allocTIndices_eq {t t1 : Triangulator} (h : allocTIndices t = some t1) :
    t1.m_dEdge = t.m_dEdge ∧ t1.m_nSites = t.m_nSites ∧ t1.m_attributes = t.m_attributes := by
  unfold allocTIndices at h
  split at h
  · simp only [Option.some.injEq] at h
    subst h; exact ⟨rfl, rfl, rfl⟩
  · simp at h

theorem GenerateTriangleIndices_eq_scan (fuel : Nat) (t : Triangulator) :
    GenerateTriangleIndices fuel t = triScan fuel t (t.m_nSites * 3) := by
  unfold GenerateTriangleIndices triScan
  cases h : allocTIndices t with
  | none => rfl
  | some t1 =>
    simp only [Option.bind_eq_bind, Option.some_bind, (allocTIndices_eq h).2.1, Nat.min_self]

theorem GenerateVoronoiVertices_eq_scan (fuel : Nat) (t : Triangulator) :
    GenerateVoronoiVertices fuel t = vorScan fuel t (t.m_nSites * 3) := by
  unfold GenerateVoronoiVertices vorScan
  simp only [Nat.min_self]

theorem GenerateNodeNeighbours_eq_scan (t : Triangulator) :
    GenerateNodeNeighbours t
      = (nnScan t (t.m_nSites * 3) (t.m_nSites * 3)).map Prod.fst := by
  unfold GenerateNodeNeighbours nnScan
  simp only [Nat.min_self, Nat.lt_irrefl, if_false, Option.bind_eq_bind]
  cases resetVisited t.m_dEdge (t.m_nSites * 3) with
  | none => rfl
  | some s =>
    simp only [Option.some_bind]
    cases List.foldlM countSlot
        { t with m_dEdge := s, m_nNeighbours := List.replicate t.m_nSites 0 }
        (List.range (t.m_nSites * 3)) with
    | none => rfl
    | some t1 =>
      simp only [Option.some_bind]
      cases List.foldlM storeSlot _ (List.range (t.m_nSites * 3)) with
      | none => rfl
      | some r => rfl

theorem triScan_bound {fuel : Nat} {t u : Triangulator} {k : Nat} (hG : Good t.m_dEdge)
    (hcap : t.m_dEdge.pool.numElementsPerChunk = t.m_nSites * 3) (hR : RingOrg t.m_dEdge)
    (hD : DistinctEnds t.m_dEdge) (h : triScan fuel t k = some u) :
    VisitedAtMost 2 u.m_dEdge ∧ (k = 0 → VisitedAtMost 0 u.m_dEdge) := by
  simp only [triScan, Option.bind_eq_bind, Option.bind_eq_some] at h
  obtain ⟨t1, h1, s1, h2, h3⟩ := h
  obtain ⟨g1, g2, _⟩ := allocTIndices_eq h1
  rw [g1, g2, ← hcap] at h2
  obtain ⟨⟨a, b, c⟩, d⟩ := resetVisited_reset hG hR hD h2
  refine ⟨?_, ?_⟩
  · exact (foldlM_inv (fun (u : Triangulator) => Good u.m_dEdge ∧ RingOrg u.m_dEdge ∧
      DistinctEnds u.m_dEdge ∧ VisitedAtMost 2 u.m_dEdge) (triSlot fuel)
      (fun _ _ _ hP hf => triSlot_bound hP hf) _ _ _
      ⟨a, b, c, d.weaken (by omega)⟩ h3).2.2.2
  · intro hk
    subst hk
    simp only [Nat.zero_min, List.range_zero, List.foldlM_nil, Option.pure_def,
      Option.some.injEq] at h3
    subst h3
    exact d

theorem vorScan_bound {fuel : Nat} {t u : Triangulator} {k : Nat} (hG : Good t.m_dEdge)
    (hcap : t.m_dEdge.pool.numElementsPerChunk = t.m_nSites * 3) (hR : RingOrg t.m_dEdge)
    (hD : DistinctEnds t.m_dEdge) (h : vorScan fuel t k = some u) :
    VisitedAtMost 2 u.m_dEdge ∧ (k = 0 → VisitedAtMost 0 u.m_dEdge) := by
  simp only [vorScan, Option.bind_eq_bind, Option.bind_eq_some] at h
  obtain ⟨s1, h2, h3⟩ := h
  rw [← hcap] at h2
  obtain ⟨⟨a, b, c⟩, d⟩ := resetVisited_reset hG hR hD h2
  refine ⟨?_, ?_⟩
  · exact (foldlM_inv (fun (u : Triangulator) => Good u.m_dEdge ∧ RingOrg u.m_dEdge ∧
      DistinctEnds u.m_dEdge ∧ VisitedAtMost 2 u.m_dEdge) (vorSlot fuel)
      (fun _ _ _ hP hf => vorSlot_bound hP hf) _ _ _
      ⟨a, b, c, d.weaken (by omega)⟩ h3).2.2.2
  · intro hk
    subst hk
    simp only [Nat.zero_min, List.range_zero, List.foldlM_nil, Option.pure_def,
      Option.some.injEq] at h3
    subst h3
    exact d

theorem resetVisited_zero {s s' : EdgeStore} (hG : Good s)
    (h : resetVisited s s.pool.numElementsPerChunk = some s') :
    Good s' ∧ s'.edge = s.edge ∧ s'.pool = s.pool ∧
      (∀ q, IsFree (s'.attr q) = IsFree (s.attr q)) ∧ VisitedAtMost 0 s' := by
  obtain ⟨a, b⟩ := resetVisited_good hG h
  have hd : s'.edge = s.edge ∧ ∀ q, q < s.pool.numElementsPerChunk →
      Visited (s'.attr q) = 0 := by
    unfold resetVisited at h
    split at h
    · rename_i h0
      obtain rfl : s = s' := by simpa using h
      exact ⟨rfl, fun q hq => by omega⟩
    · split at h
      · obtain rfl := Option.some.inj h
        refine ⟨rfl, fun q hq => ?_⟩
        show Visited (if q < s.pool.numElementsPerChunk then ResetVisited (s.attr q)
          else s.attr q) = 0
        rw [if_pos hq]
        exact Visited_ResetVisited _
      · simp at h
  refine ⟨a, hd.1, b.1, b.2.1, ?_⟩
  intro q hq
  rw [b.1] at hq
  rw [hd.2 q hq]

theorem nnScan_bound {t : Triangulator} {u : Triangulator × List Nat} {k1 k2 : Nat}
    (hG : Good t.m_dEdge) (hcap : t.m_dEdge.pool.numElementsPerChunk = t.m_nSites * 3)
    (h : nnScan t k1 k2 = some u) :
    VisitedAtMost 2 u.1.m_dEdge ∧ (k1 = 0 → k2 = 0 → VisitedAtMost 0 u.1.m_dEdge) := by
  simp only [nnScan, Option.bind_eq_bind, Option.bind_eq_some] at h
  obtain ⟨s1, h1, t1, h2, h3⟩ := h
  rw [← hcap] at h1
  obtain ⟨a, _, _, _, d⟩ := resetVisited_zero hG h1
  have g2 := foldlM_inv (fun (u : Triangulator) => Good u.m_dEdge ∧ VisitedAtMost 2 u.m_dEdge)
    countSlot (fun _ _ _ hP hf => countSlot_bound hP hf) _ _ _ ⟨a, d.weaken (by omega)⟩ h2
  refine ⟨?_, ?_⟩
  · split at h3
    · simp only [Option.pure_def, Option.some.injEq] at h3
      subst h3
      exact g2.2
    · exact (foldlM_inv
        (fun (u : Triangulator × List Nat) => Good u.1.m_dEdge ∧ VisitedAtMost 2 u.1.m_dEdge)
        storeSlot (fun _ _ _ hP hf => storeSlot_bound hP hf) _ _ _ g2 h3).2
  · intro hk1 hk2
    subst hk1 hk2
    simp only [Nat.zero_min, List.range_zero, List.foldlM_nil, Option.pure_def,
      Option.some.injEq] at h2 h3
    subst h2
    split at h3
    · simp only [Option.some.injEq] at h3
      subst h3
      exact d
    · simp only [Option.some.injEq] at h3
      subst h3
      exact d

/-- C25: in a structure whose edge store satisfies the invariant of the triangulation
(`Good`), whose pool has the `3 * m_nSites` slots that the reset loops cover, whose origin
rings agree on `Org()` and whose edges join distinct sites, each of the three passes
(`GenerateTriangleIndices`, `GenerateVoronoiVertices`, `GenerateNodeNeighbours`) is the scan
run for all `maxEdges` rounds, the state in which its first `for` loop over the slots starts
has every visitation counter at 0, and the state after any number of rounds of its `for`
loops has every visitation counter at 2 at most.  (The neighbour pass needs neither of the
two hypotheses on the sites: it increments a counter only when it reads 0, in the first loop,
or 1, in the second.) -/
theorem C25_visit_counters_at_most_two (fuel : Nat) (t : Triangulator)
    (hG : Good t.m_dEdge) (hcap : t.m_dEdge.pool.numElementsPerChunk = t.m_nSites * 3)
    (hR : RingOrg t.m_dEdge) (hD : DistinctEnds t.m_dEdge) :
    (GenerateTriangleIndices fuel t = triScan fuel t (t.m_nSites * 3) ∧
      (∀ u, triScan fuel t 0 = some u → VisitedAtMost 0 u.m_dEdge) ∧
      ∀ k u, triScan fuel t k = some u → VisitedAtMost 2 u.m_dEdge) ∧
    (GenerateVoronoiVertices fuel t = vorScan fuel t (t.m_nSites * 3) ∧
      (∀ u, vorScan fuel t 0 = some u → VisitedAtMost 0 u.m_dEdge) ∧
      ∀ k u, vorScan fuel t k = some u → VisitedAtMost 2 u.m_dEdge) ∧
    (GenerateNodeNeighbours t = (nnScan t (t.m_nSites * 3) (t.m_nSites * 3)).map Prod.fst ∧
      (∀ u, nnScan t 0 0 = some u → VisitedAtMost 0 u.1.m_dEdge) ∧
      ∀ k1 k2 u, nnScan t k1 k2 = some u → VisitedAtMost 2 u.1.m_dEdge) :=
  ⟨⟨GenerateTriangleIndices_eq_scan fuel t,
      fun _ h => (triScan_bound hG hcap hR hD h).2 rfl,
      fun _ _ h => (triScan_bound hG hcap hR hD h).1⟩,
    ⟨GenerateVoronoiVertices_eq_scan fuel t,
      fun _ h => (vorScan_bound hG hcap hR hD h).2 rfl,
      fun _ _ h => (vorScan_bound hG hcap hR hD h).1⟩,
    ⟨GenerateNodeNeighbours_eq_scan t,
      fun _ h => (nnScan_bound hG hcap h).2 rfl rfl,
      fun _ _ _ h => (nnScan_bound hG hcap h).1⟩⟩

set_option maxRecDepth 1000000 in
set_option maxHeartbeats 4000000 in
/-- C25 (witness): the four sites (0,0), (4,0), (5,5), (0,4), triangulated with five edges.
The structure has rings that agree on `Org()` and edges that join distinct sites, the
triangle pass returns, and its counters are 1 on the four hull edges and 2 on the diagonal. -/
theorem C25_visit_counters_at_most_two_witness :
    ∃ t0 t, triangulate 50 [(0, 0), (4, 0), (5, 5), (0, 4)] 2 [] = some t0 ∧
      MarkHull 50 t0 = some t ∧ RingOrg t.m_dEdge ∧ DistinctEnds t.m_dEdge ∧
      (GenerateTriangleIndices 50 t).map
        (fun u => (List.range 12).map (fun q => Visited (u.m_dEdge.attr q)))
        = some [0, 0, 0, 0, 0, 0, 0, 1, 2, 1, 1, 1] ∧
      (∀ u, triScan 50 t 0 = some u → VisitedAtMost 0 u.m_dEdge) ∧
      (∀ k u, triScan 50 t k = some u → VisitedAtMost 2 u.m_dEdge) ∧
      (∀ k u, vorScan 50 t k = some u → VisitedAtMost 2 u.m_dEdge) ∧
      ∀ k1 k2 u, nnScan t k1 k2 = some u → VisitedAtMost 2 u.1.m_dEdge :=
  match h0 : triangulate 50 [(0, 0), (4, 0), (5, 5), (0, 4)] 2 [] with
  | some t0 =>
    match h1 : MarkHull 50 t0 with
    | some t => by
      have key : ((triangulate 50 [(0, 0), (4, 0), (5, 5), (0, 4)] 2 []).bind
          (MarkHull 50)).map (fun t => (decide (RingOrg t.m_dEdge),
            decide (DistinctEnds t.m_dEdge),
            decide (t.m_dEdge.pool.numElementsPerChunk = t.m_nSites * 3),
            (GenerateTriangleIndices 50 t).map
              (fun u => (List.range 12).map (fun q => Visited (u.m_dEdge.attr q)))))
          = some (true, true, true, some [0, 0, 0, 0, 0, 0, 0, 1, 2, 1, 1, 1]) := by decide
      rw [h0, Option.some_bind, h1] at key
      simp only [Option.map_some', Option.some.injEq, Prod.mk.injEq, decide_eq_true_eq]
        at key
      obtain ⟨kR, kD, kc, kv⟩ := key
      have hG : Good t.m_dEdge := by rw [MarkHull_dEdge h1]; exact triangulate_good h0
      have h := C25_visit_counters_at_most_two 50 t hG kc kR kD
      exact ⟨t0, t, rfl, h1, kR, kD, kv, h.1.2.1, h.1.2.2, h.2.1.2.2, h.2.2.2.2⟩
    | none => by
      have : ((triangulate 50 [(0, 0), (4, 0), (5, 5), (0, 4)] 2 []).bind
          (MarkHull 50)).isSome = true := by decide
      rw [h0, Option.some_bind, h1] at this
      exact absurd this (by decide)
  | none => by
    have : (triangulate 50 [(0, 0), (4, 0), (5, 5), (0, 4)] 2 []).isSome = true := by decide
    rw [h0] at this
    exact absurd this (by decide)

/-! ## The sum of the counters after triangle extraction -/

theorem visitedSum_zero {s : EdgeStore} (h : VisitedAtMost 0 s) : visitedSum s = 0 := by
  unfold visitedSum
  apply List.sum_eq_zero
  intro x hx
  simp only [List.mem_map, List.mem_range] at hx
  obtain ⟨q, hq, rfl⟩ := hx
  have := h q hq
  split
  · rfl
  · omega

theorem writeTriangle_count {t t' : Triangulator} {e eo : Ptr}
    (h : writeTriangle t e eo = some t') :
    t'.m_attributes = t.m_attributes ∧ t'.m_nTriangles = t.m_nTriangles + 1 := by
  simp only [writeTriangle, Option.bind_eq_bind, Option.bind_eq_some] at h
  obtain ⟨_, _, a, _, _, _, b, _, _, _, c, _, rows, _, h⟩ := h
  split at h
  · simp only [Option.pure_def, Option.some.injEq] at h
    subst h; exact ⟨rfl, rfl⟩
  · simp at h

theorem emitTriangle_count {t t' : Triangulator} {e eo : Ptr}
    (h : emitTriangle t e eo = some t') :
    t'.m_attributes = t.m_attributes ∧
      (hasAttr t.m_attributes Triangulator_SuperTriangle = false →
        t'.m_nTriangles = t.m_nTriangles + 1) := by
  simp only [emitTriangle] at h
  split at h
  · rename_i hst
    simp only [Option.bind_eq_bind, Option.bind_eq_some] at h
    obtain ⟨c, _, h⟩ := h
    split at h
    · exact ⟨(writeTriangle_count h).1, fun hn => by rw [hst] at hn; cases hn⟩
    · simp only [Option.pure_def, Option.some.injEq] at h
      subst h
      exact ⟨rfl, fun hn => by rw [hst] at hn; cases hn⟩
  · exact ⟨(writeTriangle_count h).1, fun _ => (writeTriangle_count h).2⟩

theorem triVisit_attributes {t t' : Triangulator} {e eo : Ptr}
    (h : triVisit t e = some (t', eo)) : t'.m_attributes = t.m_attributes := by
  simp only [triVisit, Option.bind_eq_bind, Option.bind_eq_some] at h
  obtain ⟨eOnext, _, eLnext, _, c, _, h⟩ := h
  split at h
  · simp only [Option.bind_eq_some] at h
    obtain ⟨t1, h1, s1, h2, h⟩ := h
    simp only [Option.pure_def, Option.some.injEq, Prod.mk.injEq] at h
    obtain ⟨rfl, _⟩ := h
    exact (emitTriangle_count h1).1
  · simp only [Option.pure_def, Option.some.injEq, Prod.mk.injEq] at h
    obtain ⟨rfl, _⟩ := h
    rfl

theorem triRing_attributes {eStart : Ptr} (fuel : Nat) :
    ∀ {t t' : Triangulator} {e : Ptr}, triRing eStart fuel t e = some t' →
      t'.m_attributes = t.m_attributes := by
  induction fuel with
  | zero => intro t t' e h; simp [triRing] at h
  | succ n ih =>
    intro t t' e h
    simp only [triRing] at h
    split at h
    · simp at h
    · rename_i t1 eo hv
      have g := triVisit_attributes hv
      split at h
      · exact (ih h).trans g
      · obtain rfl : t1 = t' := by simpa using h
        exact g

theorem triSlot_attributes {fuel : Nat} {t t' : Triangulator} {i : Nat}
    (h : triSlot fuel t i = some t') : t'.m_attributes = t.m_attributes := by
  simp only [triSlot, Option.bind_eq_bind, Option.bind_eq_some] at h
  obtain ⟨c, hc, h⟩ := h
  split at h
  · simp only [Option.pure_def, Option.some.injEq] at h
    subst h; rfl
  · exact triRing_attributes _ h

theorem triVisitN_fst {st st' : Triangulator × Nat} {e eo : Ptr}
    (h : triVisitN st e = some (st', eo)) : triVisit st.1 e = some (st'.1, eo) := by
  simp only [triVisitN, Option.bind_eq_bind, Option.bind_eq_some] at h
  obtain ⟨_, _, _, _, found, _, ⟨t', eo'⟩, hv, h⟩ := h
  simp only [Option.pure_def, Option.some.injEq, Prod.mk.injEq] at h
  obtain ⟨rfl, rfl⟩ := h
  exact hv

theorem triVisitN_sum {st st' : Triangulator × Nat} {e eo : Ptr}
    (hK : Good st.1.m_dEdge ∧ visitedSum st.1.m_dEdge = 3 * st.2 ∧
      (hasAttr st.1.m_attributes Triangulator_SuperTriangle = false →
        st.1.m_nTriangles = st.2))
    (hl : Live st.1.m_dEdge e) (h : triVisitN st e = some (st', eo)) :
    (Good st'.1.m_dEdge ∧ visitedSum st'.1.m_dEdge = 3 * st'.2 ∧
      (hasAttr st'.1.m_attributes Triangulator_SuperTriangle = false →
        st'.1.m_nTriangles = st'.2)) ∧ Live st'.1.m_dEdge eo := by
  obtain ⟨t, n⟩ := st
  obtain ⟨hG, hS, hN⟩ := hK
  have hgood := triVisit_good hG hl (triVisitN_fst h)
  refine ⟨⟨hgood.1, ?_⟩, hgood.2⟩
  obtain ⟨i, rfl, hi⟩ := hl
  simp only [triVisitN, Option.bind_eq_bind, Option.bind_eq_some] at h
  obtain ⟨eOnext, hon, eLnext, hln, found, hft, ⟨t', eo'⟩, hv, h⟩ := h
  simp only [Option.pure_def, Option.some.injEq, Prod.mk.injEq] at h
  obtain ⟨rfl, rfl⟩ := h
  simp only at hS hN hon hln hft hv ⊢
  obtain ⟨_, _, ha, _, _⟩ := Onext_eq_some hon
  obtain ⟨st0, hc⟩ := alive_some ha
  have hw := hG.1 st0 hc
  have ho := (hw.next i hi).2.1
  have hll := ((hw.next _ hi.torI).2.1).rotI
  simp only [triVisit, Option.bind_eq_bind, hon, hln, hft, Option.some_bind] at hv
  rw [WF.Onext_inUse hc hw hi] at hon
  obtain rfl : some (nxt t.m_dEdge i) = eOnext := by simpa using hon
  rw [Lnext_inUse hc hw hi] at hln
  obtain rfl : some (rotI (nxt t.m_dEdge (torI i))) = eLnext := by simpa using hln
  cases found with
  | true =>
    simp only [if_true, Option.bind_eq_some] at hv
    obtain ⟨t1, h1, s1, h2, hv⟩ := hv
    simp only [Option.pure_def, Option.some.injEq, Prod.mk.injEq] at hv
    obtain ⟨rfl, _⟩ := hv
    obtain ⟨_, g2⟩ := emitTriangle_frame h1
    obtain ⟨k1, k2⟩ := emitTriangle_count h1
    rw [g2] at h2
    obtain ⟨v1, v2, v3, _, _⟩ := faceTest_true hc hw hi ho hll hft
    have hs := markFace_sum hG hi ho hll v1 v2 v3 h2
    refine ⟨?_, ?_⟩
    · show visitedSum s1 = 3 * (n + 1)
      rw [hs, hS]
      omega
    · intro hst
      show t1.m_nTriangles = n + 1
      have hst' : hasAttr t.m_attributes Triangulator_SuperTriangle = false := by
        rw [← k1]; exact hst
      rw [k2 hst', hN hst']
  | false =>
    simp only [Bool.false_eq_true, if_false, Option.pure_def, Option.some.injEq,
      Prod.mk.injEq] at hv
    obtain ⟨rfl, _⟩ := hv
    exact ⟨hS, hN⟩

theorem triRingN_sum {eStart : Ptr} (fuel : Nat) :
    ∀ {st st' : Triangulator × Nat} {e : Ptr},
      (Good st.1.m_dEdge ∧ visitedSum st.1.m_dEdge = 3 * st.2 ∧
        (hasAttr st.1.m_attributes Triangulator_SuperTriangle = false →
          st.1.m_nTriangles = st.2)) → Live st.1.m_dEdge e →
      triRingN eStart fuel st e = some st' →
      (Good st'.1.m_dEdge ∧ visitedSum st'.1.m_dEdge = 3 * st'.2 ∧
        (hasAttr st'.1.m_attributes Triangulator_SuperTriangle = false →
          st'.1.m_nTriangles = st'.2)) ∧ triRing eStart fuel st.1 e = some st'.1 := by
  induction fuel with
  | zero => intro st st' e _ _ h; simp [triRingN] at h
  | succ n ih =>
    intro st st' e hK hl h
    simp only [triRingN] at h
    split at h
    · simp at h
    · rename_i st1 eo hv
      obtain ⟨g, l⟩ := triVisitN_sum hK hl hv
      simp only [triRing, triVisitN_fst hv]
      split at h
      · rename_i hne
        rw [if_pos hne]
        exact ih g l h
      · rename_i hne
        rw [if_neg hne]
        obtain rfl : st1 = st' := by simpa using h
        exact ⟨g, rfl⟩

theorem triSlotN_sum {fuel : Nat} {st st' : Triangulator × Nat} {i : Nat}
    (hK : Good st.1.m_dEdge ∧ visitedSum st.1.m_dEdge = 3 * st.2 ∧
      (hasAttr st.1.m_attributes Triangulator_SuperTriangle = false →
        st.1.m_nTriangles = st.2))
    (h : triSlotN fuel st i = some st') :
    (Good st'.1.m_dEdge ∧ visitedSum st'.1.m_dEdge = 3 * st'.2 ∧
      (hasAttr st'.1.m_attributes Triangulator_SuperTriangle = false →
        st'.1.m_nTriangles = st'.2)) ∧ triSlot fuel st.1 i = some st'.1 := by
  simp only [triSlotN, Option.bind_eq_bind, Option.bind_eq_some] at h
  obtain ⟨c, hc, h⟩ := h
  simp only [triSlot, Option.bind_eq_bind, hc, Option.some_bind]
  split at h
  · rename_i hcf
    simp only [Option.pure_def, Option.some.injEq] at h
    subst h
    rw [if_pos hcf]
    exact ⟨hK, rfl⟩
  · rename_i hcf
    rw [if_neg hcf]
    have hc' : isFreeOf st.1.m_dEdge (some (4 * i)) = some false := by
      rw [hc]; simpa using hcf
    exact triRingN_sum _ hK (Live_of_notFree hK.1.2 hc') h

theorem foldlM_triSlotN (fuel : Nat) (l : List Nat) :
    ∀ (st st' : Triangulator × Nat),
      (Good st.1.m_dEdge ∧ visitedSum st.1.m_dEdge = 3 * st.2 ∧
        (hasAttr st.1.m_attributes Triangulator_SuperTriangle = false →
          st.1.m_nTriangles = st.2)) →
      l.foldlM (triSlotN fuel) st = some st' →
      (Good st'.1.m_dEdge ∧ visitedSum st'.1.m_dEdge = 3 * st'.2 ∧
        (hasAttr st'.1.m_attributes Triangulator_SuperTriangle = false →
          st'.1.m_nTriangles = st'.2)) ∧ l.foldlM (triSlot fuel) st.1 = some st'.1 := by
  induction l with
  | nil =>
    intro st st' hK h
    simp only [List.foldlM_nil, Option.pure_def, Option.some.injEq] at h ⊢
    subst h
    exact ⟨hK, rfl⟩
  | cons i l ih =>
    intro st st' hK h
    simp only [List.foldlM_cons, Option.bind_eq_bind, Option.bind_eq_some] at h ⊢
    obtain ⟨st1, h1, h2⟩ := h
    obtain ⟨k1, f1⟩ := triSlotN_sum hK h1
    obtain ⟨k2, f2⟩ := ih _ _ k1 h2
    exact ⟨k2, st1.1, f1, f2⟩

theorem GenerateTriangleIndicesN_sum {fuel : Nat} {t : Triangulator}
    {r : Triangulator × Nat} (hG : Good t.m_dEdge)
    (hcap : t.m_dEdge.pool.numElementsPerChunk = t.m_nSites * 3)
    (h : GenerateTriangleIndicesN fuel t = some r) :
    GenerateTriangleIndices fuel t = some r.1 ∧ visitedSum r.1.m_dEdge = 3 * r.2 ∧
      (hasAttr r.1.m_attributes Triangulator_SuperTriangle = false →
        r.1.m_nTriangles = r.2) ∧ r.1.m_attributes = t.m_attributes := by
  simp only [GenerateTriangleIndicesN, Option.bind_eq_bind, Option.bind_eq_some] at h
  obtain ⟨t1, h1, s1, h2, h3⟩ := h
  obtain ⟨g1, g2, g3⟩ := allocTIndices_eq h1
  have h2' := h2
  rw [g1, g2, ← hcap] at h2'
  obtain ⟨a, _, _, _, d⟩ := resetVisited_zero hG h2'
  obtain ⟨⟨_, k2, k3⟩, f⟩ := foldlM_triSlotN fuel _ _ _
    (show Good s1 ∧ visitedSum s1 = 3 * 0 ∧ _ from ⟨a, visitedSum_zero d, fun _ => rfl⟩) h3
  have hat : r.1.m_attributes = t.m_attributes := by
    have := foldlM_rel (fun (a b : Triangulator) => b.m_attributes = a.m_attributes)
      (fun _ => rfl) (fun _ _ _ x y => y.trans x) (triSlot fuel)
      (fun a i b hab => triSlot_attributes hab) _ _ _ f
    exact this.trans g3
  refine ⟨?_, k2, k3, hat⟩
  simp only [GenerateTriangleIndices, Option.bind_eq_bind, Option.bind_eq_some]
  exact ⟨t1, h1, s1, h2, f⟩

set_option maxRecDepth 1000000 in
set_option maxHeartbeats 4000000 in
/-- C26 (counterexample): the sites (0,0), (4,0), (5,5), (0,4) are triangulated with five
edges, of which only the diagonal is an interior edge (the other four have all the sites on
one side).  After `GenerateTriangleIndices`, which finds the two triangles, the visitation
counters of the in-use quad-edges sum to 6 = 3 * 2, not to 2 * 1. -/
theorem C26_sum_is_not_twice_interior_edges :
    (((triangulate 50 [(0, 0), (4, 0), (5, 5), (0, 4)] 2 []).bind (MarkHull 50)).bind
      (GenerateTriangleIndices 50)).map
        (fun t => (visitedSum t.m_dEdge, t.interiorEdges, t.inUseCount, t.GetNumTriangles))
      = some (6, 1, 5, 2) := by
  decide

/-- C26 (amended): for a structure whose edge store satisfies the invariant of the
triangulation and whose pool has `3 * m_nSites` slots, immediately after
`GenerateTriangleIndices` the sum of the visitation counters over the in-use quad-edges is
3 times the number of faces accepted by the scan (each accepted face increments the counters
of its three edges), which is `GetNumTriangles()` when the super-triangle option is off; and
when the origin rings agree on `Org()` and the edges join distinct sites, every counter is at
most 2, so every in-use edge has been counted for at most 2 triangles. -/
theorem C26_visit_sum_three_per_face (fuel : Nat) (t : Triangulator)
    (r : Triangulator × Nat) (hG : Good t.m_dEdge)
    (hcap : t.m_dEdge.pool.numElementsPerChunk = t.m_nSites * 3)
    (h : GenerateTriangleIndicesN fuel t = some r) :
    GenerateTriangleIndices fuel t = some r.1 ∧ visitedSum r.1.m_dEdge = 3 * r.2 ∧
      (hasAttr t.m_attributes Triangulator_SuperTriangle = false →
        r.1.GetNumTriangles = r.2) ∧
      (RingOrg t.m_dEdge → DistinctEnds t.m_dEdge → VisitedAtMost 2 r.1.m_dEdge) := by
  obtain ⟨a, b, c, d⟩ := GenerateTriangleIndicesN_sum hG hcap h
  refine ⟨a, b, ?_, ?_⟩
  · intro hst
    rw [← d] at hst
    exact c hst
  · intro hR hD
    rw [GenerateTriangleIndices_eq_scan] at a
    exact (triScan_bound hG hcap hR hD a).1

set_option maxRecDepth 1000000 in
set_option maxHeartbeats 4000000 in
/-- C26 (witness): the five sites (0,0), (4,0), (5,5), (0,4), (2,2): the scan accepts four
faces, the counters sum to 12, and no counter exceeds 2. -/
theorem C26_visit_sum_three_per_face_witness :
    ∃ t0 t r, triangulate 50 [(0, 0), (4, 0), (5, 5), (0, 4), (2, 2)] 2 [] = some t0 ∧
      MarkHull 50 t0 = some t ∧ GenerateTriangleIndicesN 50 t = some r ∧ r.2 = 4 ∧
      GenerateTriangleIndices 50 t = some r.1 ∧ visitedSum r.1.m_dEdge = 3 * r.2 ∧
      r.1.GetNumTriangles = r.2 ∧ VisitedAtMost 2 r.1.m_dEdge :=
  match h0 : triangulate 50 [(0, 0), (4, 0), (5, 5), (0, 4), (2, 2)] 2 [] with
  | some t0 =>
    match h1 : MarkHull 50 t0 with
    | some t =>
      match h2 : GenerateTriangleIndicesN 50 t with
      | some r => by
        have key : (((triangulate 50 [(0, 0), (4, 0), (5, 5), (0, 4), (2, 2)] 2 []).bind
            (MarkHull 50)).map (fun t => (decide (RingOrg t.m_dEdge),
              decide (DistinctEnds t.m_dEdge),
              decide (t.m_dEdge.pool.numElementsPerChunk = t.m_nSites * 3),
              hasAttr t.m_attributes Triangulator_SuperTriangle,
              (GenerateTriangleIndicesN 50 t).map Prod.snd)))
            = some (true, true, true, false, some 4) := by decide
        rw [h0, Option.some_bind, h1] at key
        simp only [Option.map_some', Option.some.injEq, Prod.mk.injEq, decide_eq_true_eq]
          at key
        obtain ⟨kR, kD, kc, ks, kn⟩ := key
        rw [h2] at kn
        have hG : Good t.m_dEdge := by rw [MarkHull_dEdge h1]; exact triangulate_good h0
        have h := C26_visit_sum_three_per_face 50 t r hG kc h2
        exact ⟨t0, t, r, rfl, h1, h2, by simpa using kn, h.1, h.2.1, h.2.2.1 ks,
          h.2.2.2 kR kD⟩
      | none => by
        have : (((triangulate 50 [(0, 0), (4, 0), (5, 5), (0, 4), (2, 2)] 2 []).bind
            (MarkHull 50)).bind (GenerateTriangleIndicesN 50)).isSome = true := by decide
        rw [h0, Option.some_bind, h1, Option.some_bind, h2] at this
        exact absurd this (by decide)
    | none => by
      have : ((triangulate 50 [(0, 0), (4, 0), (5, 5), (0, 4), (2, 2)] 2 []).bind
          (MarkHull 50)).isSome = true := by decide
      rw [h0, Option.some_bind, h1] at this
      exact absurd this (by decide)
  | none => by
    have : (triangulate 50 [(0, 0), (4, 0), (5, 5), (0, 4), (2, 2)] 2 []).isSome = true := by
      decide
    rw [h0] at this
    exact absurd this (by decide)

namespace Mesh

/-! ## InitializeNetwork: receivers and donors -/

theorem foldlM_range_inv {σ : Type} (P : Nat → σ → Prop) (f : σ → Nat → Option σ) (n : Nat)
    (hf : ∀ i a b, i < n → P i a → f a i = some b → P (i + 1) b) :
    ∀ (m : Nat), m ≤ n → ∀ (a b : σ), P 0 a → (List.range m).foldlM f a = some b → P m b := by
  intro m
  induction m with
  | zero =>
    intro _ a b hP h
    simp only [List.range_zero, List.foldlM_nil, Option.pure_def, Option.some.injEq] at h
    subst h
    exact hP
  | succ m ih =>
    intro hm a b hP h
    rw [List.range_succ, List.foldlM_append] at h
    simp only [Option.bind_eq_bind, Option.bind_eq_some, List.foldlM_cons, List.foldlM_nil,
      Option.pure_def, Option.bind_some] at h
    obtain ⟨c, hc, h⟩ := h
    exact hf m c b (by omega) (ih (by omega) a c hP hc) h

theorem receiversFrom_spec (st : SurfaceTopology) :
    ∀ (l rs : List Nat), receiversFrom st l = some rs →
      rs.length = l.length ∧
        ∀ (k i : Nat), l[k]? = some i → ∃ r, rs[k]? = some r ∧ findReceiver st i = some r := by
  intro l
  induction l with
  | nil =>
    intro rs h
    simp only [receiversFrom, Option.some.injEq] at h
    subst h
    exact ⟨rfl, fun k i hk => by simp at hk⟩
  | cons a l ih =>
    intro rs h
    simp only [receiversFrom, Option.bind_eq_bind, Option.bind_eq_some, Option.pure_def,
      Option.some.injEq] at h
    obtain ⟨r, hr, rs', hrs, rfl⟩ := h
    obtain ⟨h1, h2⟩ := ih rs' hrs
    refine ⟨by simp [h1], ?_⟩
    intro k i hk
    cases k with
    | zero =>
      simp only [List.getElem?_cons_zero, Option.some.injEq] at hk
      subst hk
      exact ⟨r, by simp, hr⟩
    | succ k =>
      simp only [List.getElem?_cons_succ] at hk ⊢
      exact h2 k i hk

theorem findReceiver_dirichlet {st : SurfaceTopology} {i r : Nat}
    (hb : st.B i = some DIRICHLET) (h : findReceiver st i = some r) : r = i := by
  simp only [findReceiver, Option.bind_eq_bind, hb, Option.some_bind, if_true, Option.pure_def,
    Option.some.injEq] at h
  exact h.symm

theorem mem_dirichletNodes {st : SurfaceTopology} {d : Nat} :
    d ∈ st.dirichletNodes ↔ d < st.m_nMeshPoints ∧ st.B d = some DIRICHLET := by
  simp [SurfaceTopology.dirichletNodes]

/-- A Dirichlet node is its own receiver. -/
theorem receivers_dirichlet {st : SurfaceTopology} {R : List Nat}
    (h : receiversFrom st (List.range st.m_nMeshPoints) = some R) :
    R.length = st.m_nMeshPoints ∧ ∀ d ∈ st.dirichletNodes, R[d]? = some d := by
  obtain ⟨h1, h2⟩ := receiversFrom_spec st _ _ h
  refine ⟨by simpa using h1, ?_⟩
  intro d hd
  obtain ⟨hlt, hb⟩ := mem_dirichletNodes.1 hd
  obtain ⟨r, hr, hf⟩ := h2 d d (by simp [List.getElem?_range, hlt])
  rw [findReceiver_dirichlet hb hf] at hr
  exact hr

theorem not_isDonor_dirichlet {st : SurfaceTopology} {R : List Nat}
    (h : receiversFrom st (List.range st.m_nMeshPoints) = some R) {d : Nat}
    (hd : d ∈ st.dirichletNodes) : ¬ IsDonor R d := by
  rintro ⟨r, hr, hne⟩
  rw [(receivers_dirichlet h).2 d hd] at hr
  exact hne (Option.some.inj hr).symm

/-- The rows of `m_donors` hold donors only. -/
theorem fillDonor_rows {R : List Nat} {n : Nat} {rows : List (List Nat)}
    (h : (List.range n).foldlM (fillDonor R) (List.replicate n []) = some rows) :
    rows.length = n ∧
      ∀ (k : Nat) (row : List Nat) (d : Nat), rows[k]? = some row → d ∈ row →
        R[d]? = some k ∧ k ≠ d := by
  refine foldlM_inv (fun (rows : List (List Nat)) => rows.length = n ∧
      ∀ (k : Nat) (row : List Nat) (d : Nat), rows[k]? = some row → d ∈ row →
        R[d]? = some k ∧ k ≠ d) (fillDonor R)
    ?_ _ _ _ ⟨by simp, ?_⟩ h
  · intro a i b ⟨hl, hP⟩ hf
    simp only [fillDonor, Option.bind_eq_bind, Option.bind_eq_some] at hf
    obtain ⟨r, hr, hf⟩ := hf
    split at hf
    · rename_i hne
      simp only [Option.bind_eq_some, Option.pure_def, Option.some.injEq] at hf
      obtain ⟨row0, hrow0, rfl⟩ := hf
      refine ⟨by simp [hl], ?_⟩
      intro k row d hk hd
      by_cases hkr : k = r
      · subst hkr
        have hlt : k < a.length := by
          by_contra hcon
          rw [List.getElem?_eq_none (by omega)] at hrow0
          cases hrow0
        rw [List.getElem?_set_self hlt] at hk
        simp only [Option.some.injEq] at hk
        subst hk
        rcases List.mem_append.1 hd with hd | hd
        · exact hP k row0 d hrow0 hd
        · obtain rfl : d = i := by simpa using hd
          exact ⟨hr, hne⟩
      · rw [List.getElem?_set_ne (Ne.symm hkr)] at hk
        exact hP k row d hk hd
    · simp only [Option.pure_def, Option.some.injEq] at hf
      subst hf
      exact ⟨hl, hP⟩
  · intro k row d hk hd
    rw [List.getElem?_replicate] at hk
    split at hk
    · obtain rfl : [] = row := by simpa using hk
      simp at hd
    · cases hk


/-! ## InitializeNetwork: which catchment ids the recursive functions write -/

theorem Tagged.tagRefl (id : Int) (Q : Nat → Prop) (ids : List Int) : Tagged id Q ids ids :=
  ⟨rfl, fun _ => Or.inl rfl⟩

theorem Tagged.tagTrans {id : Int} {Q : Nat → Prop} {a b c : List Int} (h1 : Tagged id Q a b)
    (h2 : Tagged id Q b c) : Tagged id Q a c := by
  refine ⟨h2.1.trans h1.1, fun k => ?_⟩
  rcases h2.2 k with h | h
  · rw [h]
    exact h1.2 k
  · exact Or.inr h

theorem Tagged.widen {id : Int} {Q : Nat → Prop} {a b : List Int} (h : Tagged id Q a b)
    (Q' : Nat → Prop) (hq : ∀ k, Q k → Q' k) : Tagged id Q' a b :=
  ⟨h.1, fun k => (h.2 k).imp (fun x => x) (fun x => ⟨x.1, hq k x.2⟩)⟩

theorem setInt_tagged {id : Int} {Q : Nat → Prop} {ids ids' : List Int} {j : Nat}
    (h : setInt ids j id = some ids') (hq : Q j) : Tagged id Q ids ids' := by
  unfold setInt at h
  split at h
  · rename_i hlt
    obtain rfl := Option.some.inj h
    refine ⟨by simp, fun k => ?_⟩
    by_cases hk : j = k
    · subst hk
      exact Or.inr ⟨List.getElem?_set_self hlt, hq⟩
    · exact Or.inl (List.getElem?_set_ne hk)
  · cases h

theorem InitializeStack_tagged {st : SurfaceTopology} {R : List Nat}
    (hrows : ∀ (k : Nat) (row : List Nat) (d : Nat), st.m_donors[k]? = some row → d ∈ row →
      IsDonor R d) (fuel : Nat) :
    ∀ (acc acc' : List Int × List Int) (node : Nat) (id : Int),
      InitializeStack st fuel acc node id = some acc' →
      Tagged id (fun k => k = node ∨ IsDonor R k) acc.2 acc'.2 := by
  induction fuel with
  | zero => intro acc acc' node id h; simp [InitializeStack] at h
  | succ n ih =>
    intro acc acc' node id h
    simp only [InitializeStack, Option.bind_eq_bind, Option.bind_eq_some] at h
    obtain ⟨ids1, h1, dn, _, h⟩ := h
    have t1 : Tagged id (fun k => k = node ∨ IsDonor R k) acc.2 ids1 :=
      setInt_tagged h1 (Or.inl rfl)
    refine foldlM_inv
      (fun (a : List Int × List Int) => Tagged id (fun k => k = node ∨ IsDonor R k) acc.2 a.2)
      _ ?_ _ _ _ t1 h
    intro a i b hP hf
    simp only [Option.bind_eq_bind, Option.bind_eq_some] at hf
    obtain ⟨row, hrow, donor, hdonor, ids2, h2, h3⟩ := hf
    have hd : IsDonor R donor := hrows node row donor hrow (List.getElem?_mem hdonor)
    have t2 : Tagged id (fun k => k = node ∨ IsDonor R k) a.2 ids2 :=
      setInt_tagged h2 (Or.inr hd)
    have t3 := (ih _ _ _ _ h3).widen (fun k => k = node ∨ IsDonor R k) (by
      intro k hk
      rcases hk with rfl | hk
      · exact Or.inr hd
      · exact Or.inr hk)
    exact hP.tagTrans (t2.tagTrans t3)

theorem Propagate_tagged {st : SurfaceTopology} {R : List Nat}
    (hrows : ∀ (k : Nat) (row : List Nat) (d : Nat), st.m_donors[k]? = some row → d ∈ row →
      IsDonor R d) (fuel : Nat) :
    ∀ (ids ids' : List Int) (node : Nat) (id : Int),
      PropagateCatchmentTagUpstream st fuel ids node id = some ids' →
      Tagged id (fun k => k = node ∨ IsDonor R k) ids ids' := by
  induction fuel with
  | zero => intro ids ids' node id h; simp [PropagateCatchmentTagUpstream] at h
  | succ n ih =>
    intro ids ids' node id h
    simp only [PropagateCatchmentTagUpstream, Option.bind_eq_bind, Option.bind_eq_some] at h
    obtain ⟨ids1, h1, dn, _, h⟩ := h
    have t1 : Tagged id (fun k => k = node ∨ IsDonor R k) ids ids1 :=
      setInt_tagged h1 (Or.inl rfl)
    refine foldlM_inv
      (fun (a : List Int) => Tagged id (fun k => k = node ∨ IsDonor R k) ids a)
      _ ?_ _ _ _ t1 h
    intro a i b hP hf
    simp only [Option.bind_eq_bind, Option.bind_eq_some] at hf
    obtain ⟨row, hrow, donor, hdonor, ids2, h2, h3⟩ := hf
    have hd : IsDonor R donor := hrows node row donor hrow (List.getElem?_mem hdonor)
    have t2 : Tagged id (fun k => k = node ∨ IsDonor R k) a ids2 :=
      setInt_tagged h2 (Or.inr hd)
    have t3 := (ih _ _ _ _ h3).widen (fun k => k = node ∨ IsDonor R k) (by
      intro k hk
      rcases hk with rfl | hk
      · exact Or.inr hd
      · exact Or.inr hk)
    exact hP.tagTrans (t2.tagTrans t3)

/-- Writes of a catchment id that is `ORPHAN` or a Dirichlet node, at nodes that are not
Dirichlet nodes, keep the invariant of `m_catchmentIds`. -/
theorem IdsInv_tagged {st : SurfaceTopology} {m : Nat} {ids ids' : List Int} {id : Int}
    {Q : Nat → Prop} (hI : IdsInv st m ids) (ht : Tagged id Q ids ids')
    (hid : id = ORPHAN ∨ ∃ d ∈ st.dirichletNodes, id = (d : Int))
    (hQ : ∀ d ∈ st.dirichletNodes, d < m → Q d → id = (d : Int)) : IdsInv st m ids' := by
  obtain ⟨h1, h2, h3⟩ := hI
  refine ⟨ht.1.trans h1, ?_, ?_⟩
  · intro k c hk
    rcases ht.2 k with h | h
    · rw [h] at hk
      exact h2 k c hk
    · rw [h.1] at hk
      obtain rfl := Option.some.inj hk
      exact hid
  · intro d hd hdm
    rcases ht.2 d with h | h
    · rw [h]
      exact h3 d hd hdm
    · rw [h.1, hQ d hd hdm h.2]


/-! ## InitializeNetwork: the invariant of the catchment ids -/

theorem IdsInv_init (st : SurfaceTopology) :
    IdsInv st 0 (List.replicate st.m_nMeshPoints ORPHAN) := by
  refine ⟨by simp, ?_, ?_⟩
  · intro k c hk
    rw [List.getElem?_replicate] at hk
    split at hk
    · exact Or.inl (Option.some.inj hk).symm
    · cases hk
  · intro d _ hd
    omega

theorem IdsInv_succ_of_not {st : SurfaceTopology} {i : Nat} {ids : List Int}
    (hI : IdsInv st i ids) (hi : i ∉ st.dirichletNodes) : IdsInv st (i + 1) ids := by
  refine ⟨hI.1, hI.2.1, ?_⟩
  intro d hd hlt
  by_cases hdi : d = i
  · subst hdi
    exact absurd hd hi
  · exact hI.2.2 d hd (by omega)

theorem IdsInv_set_dirichlet {st : SurfaceTopology} {i : Nat} {ids ids1 : List Int}
    (hI : IdsInv st i ids) (hi : i ∈ st.dirichletNodes)
    (h : setInt ids i (i : Int) = some ids1) : IdsInv st (i + 1) ids1 := by
  have ht : Tagged (i : Int) (fun k => k = i) ids ids1 := setInt_tagged h rfl
  refine ⟨ht.1.trans hI.1, ?_, ?_⟩
  · intro k c hk
    rcases ht.2 k with h' | h'
    · rw [h'] at hk
      exact hI.2.1 k c hk
    · rw [h'.1] at hk
      obtain rfl := Option.some.inj hk
      exact Or.inr ⟨i, hi, rfl⟩
  · intro d hd hlt
    rcases ht.2 d with h' | h'
    · rw [h']
      by_cases hdi : d = i
      · subst hdi
        unfold setInt at h
        split at h
        · rename_i hl
          obtain rfl := Option.some.inj h
          rw [List.getElem?_set_self hl] at h'
          rw [← h']
        · cases h
      · exact hI.2.2 d hd (by omega)
    · rw [h'.1, h'.2]

theorem stackRoot_inv {st : SurfaceTopology} {fuel i : Nat} {acc acc' : List Int × List Int}
    (hD : ∀ d ∈ st.dirichletNodes, ¬ IsDonor st.m_receivers d)
    (hrows : ∀ (k : Nat) (row : List Nat) (d : Nat), st.m_donors[k]? = some row → d ∈ row →
      IsDonor st.m_receivers d)
    (hi : i < st.m_nMeshPoints) (hI : IdsInv st i acc.2)
    (h : stackRoot st fuel acc i = some acc') : IdsInv st (i + 1) acc'.2 := by
  simp only [stackRoot, Option.bind_eq_bind, Option.bind_eq_some] at h
  obtain ⟨b, hb, r, hr, h⟩ := h
  have hmem : i ∈ st.dirichletNodes ↔ b = DIRICHLET := by
    rw [mem_dirichletNodes, hb]
    simp [hi]
  split at h
  · simp only [Option.bind_eq_some] at h
    obtain ⟨ids1, h1, c, hc, h⟩ := h
    have hI1 : IdsInv st (i + 1) ids1 ∧ (b = DIRICHLET → ids1[i]? = some (i : Int)) ∧
        (b ≠ DIRICHLET → ids1 = acc.2) := by
      split at h1
      · rename_i hbd
        have := IdsInv_set_dirichlet hI (hmem.2 hbd) h1
        exact ⟨this, fun _ => this.2.2 i (hmem.2 hbd) (by omega), fun hn => absurd hbd hn⟩
      · rename_i hbd
        obtain rfl := Option.some.inj h1
        exact ⟨IdsInv_succ_of_not hI (fun hm => hbd (hmem.1 hm)), fun hn => absurd hn hbd,
          fun _ => rfl⟩
    split at h
    · simp only [Option.bind_eq_some] at h
      obtain ⟨idv, hidv, h⟩ := h
      have ht := InitializeStack_tagged hrows fuel _ _ _ _ h
      refine IdsInv_tagged hI1.1 ht (hI1.1.2.1 i idv hidv) ?_
      intro d hd _ hq
      rcases hq with rfl | hq
      · have := hI1.2.1 (hmem.1 hd)
        rw [hidv] at this
        exact Option.some.inj this
      · exact absurd hq (hD d hd)
    · simp only [Option.pure_def, Option.some.injEq] at h
      subst h
      exact hI1.1
  · rename_i hcond
    simp only [Option.pure_def, Option.some.injEq] at h
    subst h
    exact IdsInv_succ_of_not hI (fun hm => hcond (Or.inl (hmem.1 hm)))

theorem ORPHAN_ne_nat (d : Nat) : ORPHAN ≠ (d : Int) := by
  unfold ORPHAN
  omega

theorem sweepNode_inv {st : SurfaceTopology} {fuel i : Nat} {acc acc' : List Nat × List Int}
    (hD : ∀ d ∈ st.dirichletNodes, ¬ IsDonor st.m_receivers d)
    (hrows : ∀ (k : Nat) (row : List Nat) (d : Nat), st.m_donors[k]? = some row → d ∈ row →
      IsDonor st.m_receivers d)
    (hI : IdsInv st st.m_nMeshPoints acc.2)
    (h : sweepNode st fuel acc i = some acc') : IdsInv st st.m_nMeshPoints acc'.2 := by
  simp only [sweepNode, Option.bind_eq_bind, Option.bind_eq_some] at h
  obtain ⟨v, hv, h⟩ := h
  split at h
  · rename_i hvo
    subst hvo
    simp only [Option.bind_eq_some] at h
    obtain ⟨row, _, x, _, h⟩ := h
    cases x with
    | none =>
      simp only [Option.pure_def, Option.some.injEq] at h
      subst h
      exact hI
    | some sill =>
      simp only [Option.bind_eq_some, Option.pure_def, Option.some.injEq] at h
      obtain ⟨c, hc, ids, hp, rfl⟩ := h
      have ht := Propagate_tagged hrows fuel _ _ _ _ hp
      refine IdsInv_tagged hI ht (hI.2.1 sill c hc) ?_
      intro d hd hlt hq
      rcases hq with rfl | hq
      · have := hI.2.2 d hd hlt
        rw [hv] at this
        exact absurd (Option.some.inj this) (ORPHAN_ne_nat d)
      · exact absurd hq (hD d hd)
  · simp only [Option.pure_def, Option.some.injEq] at h
    subst h
    exact hI

theorem orphanLoop_inv {st : SurfaceTopology} {fuel : Nat}
    (hD : ∀ d ∈ st.dirichletNodes, ¬ IsDonor st.m_receivers d)
    (hrows : ∀ (k : Nat) (row : List Nat) (d : Nat), st.m_donors[k]? = some row → d ∈ row →
      IsDonor st.m_receivers d) (k : Nat) :
    ∀ (acc acc' : List Nat × List Int), IdsInv st st.m_nMeshPoints acc.2 →
      orphanLoop st fuel k acc = some acc' →
      IdsInv st st.m_nMeshPoints acc'.2 ∧ CountOrphanNodes st.m_nMeshPoints acc'.2 = 0 := by
  induction k with
  | zero => intro acc acc' _ h; simp [orphanLoop] at h
  | succ k ih =>
    intro acc acc' hI h
    simp only [orphanLoop] at h
    split at h
    · split at h
      · cases h
      · rename_i acc1 hs
        have h1 := foldlM_inv
          (fun (a : List Nat × List Int) => IdsInv st st.m_nMeshPoints a.2) (sweepNode st fuel)
          (fun _ _ _ hP hf => sweepNode_inv hD hrows hP hf) _ _ _ hI hs
        exact ih _ _ h1 h
    · rename_i hc
      obtain rfl := Option.some.inj h
      exact ⟨hI, by simpa using hc⟩

theorem no_orphan_of_count {n : Nat} {ids : List Int} (hl : ids.length = n)
    (h : CountOrphanNodes n ids = 0) : ORPHAN ∉ ids := by
  intro hm
  obtain ⟨k, hk⟩ := List.getElem?_of_mem hm
  have hlt : k < n := by
    by_contra hcon
    rw [List.getElem?_eq_none (by omega)] at hk
    cases hk
  unfold CountOrphanNodes at h
  have h0 := List.length_eq_zero.1 h
  have : k ∈ (List.range n).filter (fun i => decide (ids[i]? = some ORPHAN)) := by
    simp [List.mem_filter, hlt, hk]
  rw [h0] at this
  cases this

/-! ### The set of catchments -/

theorem mem_setInsert {a x : Int} (l : List Int) : a ∈ setInsert x l ↔ a = x ∨ a ∈ l := by
  induction l with
  | nil => simp [setInsert]
  | cons y ys ih =>
    simp only [setInsert]
    split
    · simp
    · split
      · rename_i hxy
        subst hxy
        simp
      · simp only [List.mem_cons, ih]
        tauto

theorem sorted_setInsert {x : Int} (l : List Int) (h : l.Sorted (· < ·)) :
    (setInsert x l).Sorted (· < ·) := by
  induction l with
  | nil => simp [setInsert]
  | cons y ys ih =>
    simp only [setInsert]
    have hy := List.sorted_cons.1 h
    split
    · rename_i hlt
      refine List.sorted_cons.2 ⟨?_, h⟩
      intro b hb
      rcases List.mem_cons.1 hb with rfl | hb
      · exact hlt
      · exact lt_trans hlt (hy.1 b hb)
    · split
      · exact h
      · rename_i h1 h2
        refine List.sorted_cons.2 ⟨?_, ih hy.2⟩
        intro b hb
        rcases (mem_setInsert ys).1 hb with rfl | hb
        · omega
        · exact hy.1 b hb

theorem catchments_spec {n : Nat} {ids s : List Int}
    (h : (List.range n).foldlM (fun (s : List Int) i => do
      pure (setInsert (← ids[i]?) s)) [] = some s) :
    s.Sorted (· < ·) ∧ ∀ c, c ∈ s ↔ ∃ i, i < n ∧ ids[i]? = some c := by
  refine foldlM_range_inv
    (fun m (s : List Int) => s.Sorted (· < ·) ∧ ∀ c, c ∈ s ↔ ∃ i, i < m ∧ ids[i]? = some c)
    _ n ?_ n (Nat.le_refl n) _ _ ⟨by simp, by simp⟩ h
  intro i a b _ hP hf
  simp only [Option.bind_eq_bind, Option.bind_eq_some, Option.pure_def, Option.some.injEq]
    at hf
  obtain ⟨x, hx, rfl⟩ := hf
  refine ⟨sorted_setInsert a hP.1, fun c => ?_⟩
  rw [mem_setInsert, hP.2 c]
  constructor
  · rintro (rfl | ⟨j, hj, hc⟩)
    · exact ⟨i, by omega, hx⟩
    · exact ⟨j, by omega, hc⟩
  · rintro ⟨j, hj, hc⟩
    by_cases hji : j = i
    · subst hji
      rw [hx] at hc
      exact Or.inl (Option.some.inj hc).symm
    · exact Or.inr ⟨j, by omega, hc⟩


/-- What holds whenever `InitializeNetwork` returns: no catchment id is `ORPHAN`, and the
set of catchments is the set of Dirichlet nodes. -/
theorem InitializeNetwork_ids {fuel : Nat} {st st' : SurfaceTopology}
    (h : st.InitializeNetwork fuel = some st') :
    st'.m_catchmentIds.length = st.m_nMeshPoints ∧ ORPHAN ∉ st'.m_catchmentIds ∧
      (∀ c, c ∈ st'.m_catchments ↔ ∃ d ∈ st.dirichletNodes, c = (d : Int)) ∧
      st'.m_catchments.length = st.dirichletNodes.length := by
  simp only [SurfaceTopology.InitializeNetwork, Option.bind_eq_bind, Option.bind_eq_some] at h
  obtain ⟨R, hR, counts, _, rows, hrows, ⟨stack, ids⟩, hstack, ⟨sr, ids2⟩, hloop, cat, hcat, h⟩
    := h
  simp only [Option.pure_def, Option.some.injEq] at h
  subst h
  have hD : ∀ d ∈ st.dirichletNodes, ¬ IsDonor R d := fun d hd => not_isDonor_dirichlet hR hd
  have hrw : ∀ (k : Nat) (row : List Nat) (d : Nat), rows[k]? = some row → d ∈ row →
      IsDonor R d := by
    intro k row d hk hd
    obtain ⟨a, b⟩ := (fillDonor_rows hrows).2 k row d hk hd
    exact ⟨k, a, b⟩
  have hD1 : ∀ d ∈ (st.withDonors R counts rows).dirichletNodes,
      ¬ IsDonor (st.withDonors R counts rows).m_receivers d := hD
  have hrw1 : ∀ (k : Nat) (row : List Nat) (d : Nat),
      (st.withDonors R counts rows).m_donors[k]? = some row → d ∈ row →
      IsDonor (st.withDonors R counts rows).m_receivers d := hrw
  have h1 : IdsInv (st.withDonors R counts rows) st.m_nMeshPoints ids := by
    refine foldlM_range_inv
      (fun i (acc : List Int × List Int) => IdsInv (st.withDonors R counts rows) i acc.2) _
      st.m_nMeshPoints ?_ st.m_nMeshPoints (Nat.le_refl _) _ _ (IdsInv_init _) hstack
    intro i a b hi hP hf
    exact stackRoot_inv hD1 hrw1 hi hP hf
  have h23 := orphanLoop_inv hD1 hrw1 fuel (R, ids) (sr, ids2) h1 hloop
  have h2' : IdsInv st st.m_nMeshPoints ids2 := h23.1
  have h3' : CountOrphanNodes st.m_nMeshPoints ids2 = 0 := h23.2
  have hno := no_orphan_of_count h2'.1 h3'
  obtain ⟨hs, hm⟩ := catchments_spec hcat
  have hmem : ∀ c, c ∈ cat ↔ ∃ d ∈ st.dirichletNodes, c = (d : Int) := by
    intro c
    rw [hm c]
    constructor
    · rintro ⟨i, _, hc⟩
      rcases h2'.2.1 i c hc with rfl | hd
      · exact absurd (List.getElem?_mem hc) hno
      · exact hd
    · rintro ⟨d, hd, rfl⟩
      exact ⟨d, (mem_dirichletNodes.1 hd).1, h2'.2.2 d hd (mem_dirichletNodes.1 hd).1⟩
  refine ⟨h2'.1, hno, hmem, ?_⟩
  have n1 : cat.Nodup := hs.nodup
  have n2 : (st.dirichletNodes.map (fun (d : Nat) => (d : Int))).Nodup := by
    apply List.Nodup.map (fun a b hab => by exact_mod_cast hab)
    unfold SurfaceTopology.dirichletNodes
    exact (List.nodup_range _).filter _
  have hp : cat.Perm (st.dirichletNodes.map (fun (d : Nat) => (d : Int))) := by
    rw [List.perm_ext_iff_of_nodup n1 n2]
    intro c
    rw [hmem c, List.mem_map]
    constructor
    · rintro ⟨d, hd, rfl⟩
      exact ⟨d, hd, rfl⟩
    · rintro ⟨d, hd, rfl⟩
      exact ⟨d, hd, rfl⟩
  have := hp.length_eq
  simpa using this


/-! ## InitializeNetwork returns: receivers and donors -/

theorem foldlM_ok {σ : Type} (P : σ → Prop) (f : σ → Nat → Option σ) :
    ∀ (l : List Nat) (a : σ), (∀ a i, i ∈ l → P a → ∃ b, f a i = some b ∧ P b) → P a →
      ∃ b, l.foldlM f a = some b ∧ P b := by
  intro l
  induction l with
  | nil =>
    intro a _ hP
    exact ⟨a, rfl, hP⟩
  | cons i l ih =>
    intro a hf hP
    obtain ⟨c, hc, hPc⟩ := hf a i (List.mem_cons_self _ _) hP
    obtain ⟨b, hb, hPb⟩ := ih c (fun a j hj => hf a j (List.mem_cons_of_mem _ hj)) hPc
    refine ⟨b, ?_, hPb⟩
    simp only [List.foldlM_cons, Option.bind_eq_bind, hc, Option.some_bind]
    exact hb

theorem foldlM_range_ok {σ : Type} (P : Nat → σ → Prop) (f : σ → Nat → Option σ) (n : Nat)
    (hf : ∀ i a, i < n → P i a → ∃ b, f a i = some b ∧ P (i + 1) b) :
    ∀ (m : Nat), m ≤ n → ∀ (a : σ), P 0 a →
      ∃ b, (List.range m).foldlM f a = some b ∧ P m b := by
  intro m
  induction m with
  | zero =>
    intro _ a hP
    exact ⟨a, rfl, hP⟩
  | succ m ih =>
    intro hm a hP
    obtain ⟨c, hc, hPc⟩ := ih (by omega) a hP
    obtain ⟨b, hb, hPb⟩ := hf m c (by omega) hPc
    refine ⟨b, ?_, hPb⟩
    rw [List.range_succ, List.foldlM_append, hc]
    simp only [Option.bind_eq_bind, Option.some_bind, List.foldlM_cons, List.foldlM_nil, hb,
      Option.pure_def]

theorem height_of_Z {st : SurfaceTopology} {i : Nat} {z : Rat} (h : st.Z i = some z) :
    st.height i = z := by
  unfold SurfaceTopology.height
  rw [h]
  rfl

theorem lowestNeighbour_ok {st : SurfaceTopology} (hM : st.IsMesh) :
    ∀ (l : List Nat) (lowest : Nat), lowest < st.m_nMeshPoints →
      (∀ j ∈ l, j < st.m_nMeshPoints) →
      ∃ r, lowestNeighbour st l lowest = some r ∧ r < st.m_nMeshPoints ∧
        (r = lowest ∨ st.height r < st.height lowest) := by
  intro l
  induction l with
  | nil =>
    intro lowest hl _
    exact ⟨lowest, rfl, hl, Or.inl rfl⟩
  | cons nb rest ih =>
    intro lowest hl hj
    obtain ⟨⟨z1, hz1, _⟩, _, _⟩ := hM nb (hj nb (List.mem_cons_self _ _))
    obtain ⟨⟨z2, hz2, _⟩, _, _⟩ := hM lowest hl
    simp only [lowestNeighbour, Option.bind_eq_bind, hz1, hz2, Option.some_bind]
    by_cases hlt : z1 < z2
    · rw [if_pos hlt]
      obtain ⟨r, hr, hrn, hrz⟩ := ih nb (hj nb (List.mem_cons_self _ _))
        (fun j hjm => hj j (List.mem_cons_of_mem _ hjm))
      refine ⟨r, hr, hrn, Or.inr ?_⟩
      rw [height_of_Z hz2]
      rcases hrz with rfl | hrz
      · rw [height_of_Z hz1]
        exact hlt
      · rw [height_of_Z hz1] at hrz
        exact lt_trans hrz hlt
    · rw [if_neg hlt]
      exact ih lowest hl (fun j hjm => hj j (List.mem_cons_of_mem _ hjm))

theorem findReceiver_ok {st : SurfaceTopology} (hM : st.IsMesh) {i : Nat}
    (hi : i < st.m_nMeshPoints) :
    ∃ r, findReceiver st i = some r ∧ r < st.m_nMeshPoints ∧
      (r = i ∨ st.height r < st.height i) := by
  obtain ⟨_, hb, row, hrow, hj⟩ := hM i hi
  obtain ⟨b, hb⟩ := Option.isSome_iff_exists.1 hb
  simp only [findReceiver, Option.bind_eq_bind, hb, Option.some_bind]
  by_cases hd : b = DIRICHLET
  · rw [if_pos hd]
    exact ⟨i, rfl, hi, Or.inl rfl⟩
  · rw [if_neg hd]
    simp only [hrow, Option.some_bind]
    exact lowestNeighbour_ok hM row i hi hj

theorem receiversFrom_ok {st : SurfaceTopology} (hM : st.IsMesh) :
    ∀ (l : List Nat), (∀ i ∈ l, i < st.m_nMeshPoints) → ∃ rs, receiversFrom st l = some rs := by
  intro l
  induction l with
  | nil => intro _; exact ⟨[], rfl⟩
  | cons i rest ih =>
    intro hl
    obtain ⟨r, hr, _⟩ := findReceiver_ok hM (hl i (List.mem_cons_self _ _))
    obtain ⟨rs, hrs⟩ := ih (fun j hj => hl j (List.mem_cons_of_mem _ hj))
    exact ⟨r :: rs, by simp only [receiversFrom, Option.bind_eq_bind, hr, hrs,
      Option.some_bind, Option.pure_def]⟩

/-- On a mesh the loop "Find receivers" returns; every receiver is a node, and a receiver
other than the node itself is lower than the node. -/
theorem receivers_ok {st : SurfaceTopology} (hM : st.IsMesh) :
    ∃ R, receiversFrom st (List.range st.m_nMeshPoints) = some R ∧
      R.length = st.m_nMeshPoints ∧
      ∀ i, i < st.m_nMeshPoints → ∃ r, R[i]? = some r ∧ r < st.m_nMeshPoints ∧
        (r = i ∨ st.height r < st.height i) := by
  obtain ⟨R, hR⟩ := receiversFrom_ok hM (List.range st.m_nMeshPoints)
    (fun i hi => List.mem_range.1 hi)
  obtain ⟨h1, h2⟩ := receiversFrom_spec st _ _ hR
  refine ⟨R, hR, by simpa using h1, ?_⟩
  intro i hi
  obtain ⟨r, hr, hf⟩ := h2 i i (List.getElem?_range hi)
  obtain ⟨r', hr', hlt, hz⟩ := findReceiver_ok hM hi
  rw [hf] at hr'
  obtain rfl := Option.some.inj hr'
  exact ⟨r, hr, hlt, hz⟩

/-! ### The donor counts and the rows of donors -/

theorem donorsAmong_succ (R : List Nat) (m k : Nat) :
    donorsAmong R (m + 1) k
      = donorsAmong R m k ++ (if R[m]? = some k ∧ k ≠ m then [m] else []) := by
  unfold donorsAmong
  rw [List.range_succ, List.filter_append]
  congr 1
  by_cases h : R[m]? = some k ∧ k ≠ m
  · rw [if_pos h]
    simp [h]
  · rw [if_neg h]
    simp [h]

theorem countDonor_ok {R : List Nat} {n : Nat}
    (hR : ∀ i, i < n → ∃ r, R[i]? = some r ∧ r < n) :
    ∃ counts, (List.range n).foldlM (countDonor R) (List.replicate n 0) = some counts ∧
      counts.length = n ∧ ∀ k, k < n → counts[k]? = some (donorsAmong R n k).length := by
  refine foldlM_range_ok
    (fun m (cs : List Nat) => cs.length = n ∧
      ∀ k, k < n → cs[k]? = some (donorsAmong R m k).length)
    (countDonor R) n ?_ n (Nat.le_refl n) _ ⟨by simp, ?_⟩
  · intro i a hi ⟨hl, hP⟩
    obtain ⟨r, hr, hrn⟩ := hR i hi
    simp only [countDonor, Option.bind_eq_bind, hr, Option.some_bind]
    by_cases hne : r = i
    · subst hne
      simp only [ne_eq, not_true_eq_false, if_false, Option.pure_def]
      refine ⟨a, rfl, hl, fun k hk => ?_⟩
      rw [donorsAmong_succ, hP k hk]
      have : ¬ (R[r]? = some k ∧ k ≠ r) := by
        rintro ⟨h1, h2⟩
        rw [hr] at h1
        exact h2 (Option.some.inj h1).symm
      rw [if_neg this]
      simp
    · rw [if_pos hne]
      have hget := hP r hrn
      simp only [incrAt, Option.bind_eq_bind, hget, Option.some_bind, setAt]
      rw [if_pos (by omega)]
      refine ⟨_, rfl, by simp [hl], fun k hk => ?_⟩
      rw [donorsAmong_succ]
      by_cases hkr : k = r
      · subst hkr
        rw [List.getElem?_set_self (by omega), if_pos ⟨hr, hne⟩]
        simp
      · rw [List.getElem?_set_ne (Ne.symm hkr), hP k hk]
        have : ¬ (R[i]? = some k ∧ k ≠ i) := by
          rintro ⟨h1, _⟩
          rw [hr] at h1
          exact hkr (Option.some.inj h1).symm
        rw [if_neg this]
        simp
  · intro k hk
    rw [List.getElem?_replicate, if_pos hk]
    simp [donorsAmong]

theorem fillDonor_ok {R : List Nat} {n : Nat}
    (hR : ∀ i, i < n → ∃ r, R[i]? = some r ∧ r < n) :
    ∃ rows, (List.range n).foldlM (fillDonor R) (List.replicate n []) = some rows ∧
      rows.length = n ∧ ∀ k, k < n → rows[k]? = some (donorsAmong R n k) := by
  refine foldlM_range_ok
    (fun m (rs : List (List Nat)) => rs.length = n ∧
      ∀ k, k < n → rs[k]? = some (donorsAmong R m k))
    (fillDonor R) n ?_ n (Nat.le_refl n) _ ⟨by simp, ?_⟩
  · intro i a hi ⟨hl, hP⟩
    obtain ⟨r, hr, hrn⟩ := hR i hi
    simp only [fillDonor, Option.bind_eq_bind, hr, Option.some_bind]
    by_cases hne : r = i
    · subst hne
      simp only [ne_eq, not_true_eq_false, if_false, Option.pure_def]
      refine ⟨a, rfl, hl, fun k hk => ?_⟩
      rw [donorsAmong_succ, hP k hk]
      have : ¬ (R[r]? = some k ∧ k ≠ r) := by
        rintro ⟨h1, h2⟩
        rw [hr] at h1
        exact h2 (Option.some.inj h1).symm
      rw [if_neg this]
      simp
    · rw [if_pos hne]
      have hget := hP r hrn
      simp only [hget, Option.some_bind, Option.pure_def]
      refine ⟨_, rfl, by simp [hl], fun k hk => ?_⟩
      rw [donorsAmong_succ]
      by_cases hkr : k = r
      · subst hkr
        rw [List.getElem?_set_self (by omega), if_pos ⟨hr, hne⟩]
      · rw [List.getElem?_set_ne (Ne.symm hkr), hP k hk]
        have : ¬ (R[i]? = some k ∧ k ≠ i) := by
          rintro ⟨h1, _⟩
          rw [hr] at h1
          exact hkr (Option.some.inj h1).symm
        rw [if_neg this]
        simp
  · intro k hk
    rw [List.getElem?_replicate, if_pos hk]
    simp [donorsAmong]


/-! ## InitializeNetwork returns: the two recursive functions -/

theorem filter_length_lt {l : List Nat} {p q : Nat → Bool}
    (h1 : ∀ x ∈ l, p x = true → q x = true) (h2 : ∃ x ∈ l, q x = true ∧ p x = false) :
    (l.filter p).length < (l.filter q).length := by
  induction l with
  | nil =>
    obtain ⟨x, hx, _⟩ := h2
    cases hx
  | cons a l ih =>
    have hle : (l.filter p).length ≤ (l.filter q).length := by
      have := List.countP_mono_left (l := l) (p := p) (q := q)
        (fun x hx hp => h1 x (List.mem_cons_of_mem _ hx) hp)
      simpa [List.countP_eq_length_filter] using this
    obtain ⟨x, hx, hq, hp⟩ := h2
    rcases List.mem_cons.1 hx with rfl | hx
    · rw [List.filter_cons_of_neg (by simp [hp]), List.filter_cons_of_pos hq]
      simp only [List.length_cons]
      omega
    · have := ih (fun y hy hpy => h1 y (List.mem_cons_of_mem _ hy) hpy) ⟨x, hx, hq, hp⟩
      cases hpa : p a with
      | true =>
        rw [List.filter_cons_of_pos hpa,
          List.filter_cons_of_pos (h1 a (List.mem_cons_self _ _) hpa)]
        simp only [List.length_cons]
        omega
      | false =>
        rw [List.filter_cons_of_neg (by simp [hpa])]
        cases hqa : q a with
        | true =>
          rw [List.filter_cons_of_pos hqa]
          simp only [List.length_cons]
          omega
        | false =>
          rw [List.filter_cons_of_neg (by simp [hqa])]
          exact this

theorem mem_donorsAmong {R : List Nat} {n k d : Nat} :
    d ∈ donorsAmong R n k ↔ d < n ∧ R[d]? = some k ∧ k ≠ d := by
  simp [donorsAmong]

theorem rank_le (st : SurfaceTopology) (k : Nat) : st.rank k ≤ st.m_nMeshPoints := by
  unfold SurfaceTopology.rank
  have := List.length_filter_le (fun j => decide (st.height k < st.height j))
    (List.range st.m_nMeshPoints)
  simpa using this

/-- A donor is a node, and fewer nodes are higher than it than are higher than its
receiver. -/
theorem donor_rank {st : SurfaceTopology} (hN : st.HasNetwork) {k d : Nat}
    (hd : d ∈ donorsAmong st.m_receivers st.m_nMeshPoints k) :
    d < st.m_nMeshPoints ∧ st.rank d < st.rank k ∧ IsDonor st.m_receivers d := by
  obtain ⟨hdn, hr, hne⟩ := mem_donorsAmong.1 hd
  obtain ⟨r, hr', _, hz⟩ := hN.2.2.1 d hdn
  rw [hr] at hr'
  obtain rfl := Option.some.inj hr'
  have hlt : st.height k < st.height d := by
    rcases hz with h | h
    · exact absurd h hne
    · exact h
  refine ⟨hdn, ?_, ⟨k, hr, hne⟩⟩
  unfold SurfaceTopology.rank
  apply filter_length_lt
  · intro x _ hx
    simp only [decide_eq_true_eq] at hx ⊢
    exact lt_trans hlt hx
  · exact ⟨d, List.mem_range.2 hdn, by simpa using hlt, by simp⟩

theorem setInt_ok {ids : List Int} {j : Nat} (v : Int) (h : j < ids.length) :
    ∃ ids', setInt ids j v = some ids' ∧ ids'.length = ids.length := by
  unfold setInt
  rw [if_pos h]
  exact ⟨_, rfl, by simp⟩

theorem Propagate_ok {st : SurfaceTopology} (hN : st.HasNetwork) (fuel : Nat) :
    ∀ (ids : List Int) (node : Nat) (id : Int), st.rank node < fuel →
      node < st.m_nMeshPoints → ids.length = st.m_nMeshPoints →
      ∃ ids', PropagateCatchmentTagUpstream st fuel ids node id = some ids' ∧
        ids'.length = st.m_nMeshPoints := by
  induction fuel with
  | zero => intro ids node id h; omega
  | succ n ih =>
    intro ids node id hr hn hl
    obtain ⟨ids1, h1, hl1⟩ := setInt_ok id (show node < ids.length by omega)
    obtain ⟨hc, hrow⟩ := hN.2.2.2 node hn
    simp only [PropagateCatchmentTagUpstream, Option.bind_eq_bind, h1, hc, hrow,
      Option.some_bind]
    refine foldlM_ok (fun (a : List Int) => a.length = st.m_nMeshPoints) _ _ _ ?_
      (by omega)
    intro a i hi hP
    have hi' := List.mem_range.1 hi
    have hmem : (donorsAmong st.m_receivers st.m_nMeshPoints node)[i]
        ∈ donorsAmong st.m_receivers st.m_nMeshPoints node := List.getElem_mem _
    obtain ⟨hdn, hdr, _⟩ := donor_rank hN hmem
    obtain ⟨ids2, h2, hl2⟩ := setInt_ok id
      (show (donorsAmong st.m_receivers st.m_nMeshPoints node)[i] < a.length by omega)
    simp only [List.getElem?_eq_getElem hi', Option.bind_eq_bind, Option.some_bind, h2]
    exact ih ids2 _ id (by omega) hdn (by omega)

theorem InitializeStack_ok {st : SurfaceTopology} (hN : st.HasNetwork) (fuel : Nat) :
    ∀ (acc : List Int × List Int) (node : Nat) (id : Int), st.rank node < fuel →
      node < st.m_nMeshPoints → acc.2.length = st.m_nMeshPoints →
      ∃ acc', InitializeStack st fuel acc node id = some acc' ∧
        acc'.2.length = st.m_nMeshPoints := by
  induction fuel with
  | zero => intro acc node id h; omega
  | succ n ih =>
    intro acc node id hr hn hl
    obtain ⟨ids1, h1, hl1⟩ := setInt_ok id (show node < acc.2.length by omega)
    obtain ⟨hc, hrow⟩ := hN.2.2.2 node hn
    simp only [InitializeStack, Option.bind_eq_bind, h1, hc, hrow, Option.some_bind]
    refine foldlM_ok (fun (a : List Int × List Int) => a.2.length = st.m_nMeshPoints) _ _ _ ?_
      (by show ids1.length = _; omega)
    intro a i hi hP
    have hi' := List.mem_range.1 hi
    have hmem : (donorsAmong st.m_receivers st.m_nMeshPoints node)[i]
        ∈ donorsAmong st.m_receivers st.m_nMeshPoints node := List.getElem_mem _
    obtain ⟨hdn, hdr, _⟩ := donor_rank hN hmem
    obtain ⟨ids2, h2, hl2⟩ := setInt_ok id
      (show (donorsAmong st.m_receivers st.m_nMeshPoints node)[i] < a.2.length by omega)
    simp only [List.getElem?_eq_getElem hi', Option.bind_eq_bind, Option.some_bind, h2]
    exact ih (a.1, ids2) _ id (by omega) hdn (by show ids2.length = _; omega)

theorem hasNetwork_rows {st : SurfaceTopology} (hN : st.HasNetwork) :
    ∀ (k : Nat) (row : List Nat) (d : Nat), st.m_donors[k]? = some row → d ∈ row →
      IsDonor st.m_receivers d := by
  intro k row d hk hd
  have hlt : k < st.m_nMeshPoints := by
    by_contra hcon
    rw [List.getElem?_eq_none (by have := hN.2.1; omega)] at hk
    cases hk
  rw [(hN.2.2.2 k hlt).2] at hk
  obtain rfl := Option.some.inj hk
  exact (donor_rank hN hd).2.2


/-! ## InitializeNetwork returns: the loops over the nodes -/

theorem withDonors_hasNetwork {st : SurfaceTopology} (hM : st.IsMesh) {R counts : List Nat}
    {rows : List (List Nat)}
    (hR : receiversFrom st (List.range st.m_nMeshPoints) = some R)
    (hc : (List.range st.m_nMeshPoints).foldlM (countDonor R)
      (List.replicate st.m_nMeshPoints 0) = some counts)
    (hr : (List.range st.m_nMeshPoints).foldlM (fillDonor R)
      (List.replicate st.m_nMeshPoints []) = some rows) :
    (st.withDonors R counts rows).HasNetwork := by
  obtain ⟨R', hR', _, hrec⟩ := receivers_ok hM
  rw [hR] at hR'
  obtain rfl := Option.some.inj hR'
  have hR2 : ∀ i, i < st.m_nMeshPoints → ∃ r, R[i]? = some r ∧ r < st.m_nMeshPoints := by
    intro i hi
    obtain ⟨r, h1, h2, _⟩ := hrec i hi
    exact ⟨r, h1, h2⟩
  obtain ⟨c', hc', _, hcs⟩ := countDonor_ok hR2
  rw [hc] at hc'
  obtain rfl := Option.some.inj hc'
  obtain ⟨r', hr', hrl, hrs⟩ := fillDonor_ok hR2
  rw [hr] at hr'
  obtain rfl := Option.some.inj hr'
  exact ⟨hM, hrl, hrec, fun k hk => ⟨hcs k hk, hrs k hk⟩⟩

theorem getElem?_of_lt {ids : List Int} {k : Nat} (h : k < ids.length) :
    ∃ v, ids[k]? = some v := ⟨ids[k], List.getElem?_eq_getElem h⟩

theorem findSill_spec {st : SurfaceTopology} (hM : st.IsMesh) {ids : List Int}
    (hl : ids.length = st.m_nMeshPoints) :
    ∀ (l : List Nat) (sill : Option Nat) (h : Rat), (∀ j ∈ l, j < st.m_nMeshPoints) →
      ∃ x, findSill st ids l sill h = some x ∧
        (∀ s, x = some s → sill = some s ∨ (s ∈ l ∧ ids[s]? ≠ some ORPHAN)) ∧
        ((sill.isSome = true ∨ ∃ j ∈ l, ids[j]? ≠ some ORPHAN ∧ st.height j < h) →
          x.isSome = true) := by
  intro l
  induction l with
  | nil =>
    intro sill h _
    refine ⟨sill, rfl, fun s hs => Or.inl hs, ?_⟩
    rintro (hs | ⟨j, hj, _⟩)
    · exact hs
    · cases hj
  | cons nb rest ih =>
    intro sill h hj
    have hnb := hj nb (List.mem_cons_self _ _)
    have hrest : ∀ j ∈ rest, j < st.m_nMeshPoints :=
      fun j hjm => hj j (List.mem_cons_of_mem _ hjm)
    obtain ⟨v, hv⟩ := getElem?_of_lt (show nb < ids.length by omega)
    obtain ⟨⟨z, hz, _⟩, _, _⟩ := hM nb hnb
    simp only [findSill, Option.bind_eq_bind, hv, hz, Option.some_bind]
    by_cases hvo : v = ORPHAN
    · rw [if_pos hvo]
      obtain ⟨x, hx, h1, h2⟩ := ih sill h hrest
      refine ⟨x, hx, ?_, ?_⟩
      · intro s hs
        rcases h1 s hs with h' | h'
        · exact Or.inl h'
        · exact Or.inr ⟨List.mem_cons_of_mem _ h'.1, h'.2⟩
      · rintro (hs | ⟨j, hjm, hjo, hjz⟩)
        · exact h2 (Or.inl hs)
        · rcases List.mem_cons.1 hjm with rfl | hjm
          · rw [hv, hvo] at hjo
            exact absurd rfl hjo
          · exact h2 (Or.inr ⟨j, hjm, hjo, hjz⟩)
    · rw [if_neg hvo]
      by_cases hgt : h > z
      · rw [if_pos hgt]
        obtain ⟨x, hx, h1, h2⟩ := ih (some nb) z hrest
        refine ⟨x, hx, ?_, fun _ => h2 (Or.inl rfl)⟩
        intro s hs
        rcases h1 s hs with h' | h'
        · obtain rfl := Option.some.inj h'
          refine Or.inr ⟨List.mem_cons_self _ _, ?_⟩
          rw [hv]
          intro hcon
          exact hvo (Option.some.inj hcon)
        · exact Or.inr ⟨List.mem_cons_of_mem _ h'.1, h'.2⟩
      · rw [if_neg hgt]
        obtain ⟨x, hx, h1, h2⟩ := ih sill h hrest
        refine ⟨x, hx, ?_, ?_⟩
        · intro s hs
          rcases h1 s hs with h' | h'
          · exact Or.inl h'
          · exact Or.inr ⟨List.mem_cons_of_mem _ h'.1, h'.2⟩
        · rintro (hs | ⟨j, hjm, hjo, hjz⟩)
          · exact h2 (Or.inl hs)
          · rcases List.mem_cons.1 hjm with rfl | hjm
            · rw [height_of_Z hz] at hjz
              exact absurd hjz hgt
            · exact h2 (Or.inr ⟨j, hjm, hjo, hjz⟩)

/-- The node at which `PropagateCatchmentTagUpstream` starts ends with the catchment id. -/
theorem Propagate_self {st : SurfaceTopology} {R : List Nat}
    (hrows : ∀ (k : Nat) (row : List Nat) (d : Nat), st.m_donors[k]? = some row → d ∈ row →
      IsDonor R d) {fuel : Nat} {ids ids' : List Int} {node : Nat} {id : Int}
    (h : PropagateCatchmentTagUpstream st fuel ids node id = some ids') :
    ids'[node]? = some id := by
  cases fuel with
  | zero => simp [PropagateCatchmentTagUpstream] at h
  | succ n =>
    simp only [PropagateCatchmentTagUpstream, Option.bind_eq_bind, Option.bind_eq_some] at h
    obtain ⟨ids1, h1, dn, _, h⟩ := h
    have t1 : ids1[node]? = some id := by
      unfold setInt at h1
      split at h1
      · rename_i hlt
        obtain rfl := Option.some.inj h1
        exact List.getElem?_set_self hlt
      · cases h1
    refine foldlM_inv (fun (a : List Int) => a[node]? = some id) _ ?_ _ _ _ t1 h
    intro a i b hP hf
    simp only [Option.bind_eq_bind, Option.bind_eq_some] at hf
    obtain ⟨row, _, donor, _, ids2, h2, h3⟩ := hf
    have t2 : ids2[node]? = some id := by
      rcases (setInt_tagged (Q := fun _ => True) h2 trivial).2 node with h' | h'
      · rw [h', hP]
      · exact h'.1
    rcases (Propagate_tagged hrows n _ _ _ _ h3).2 node with h' | h'
    · rw [h', t2]
    · exact h'.1

theorem stackRoot_ok {st : SurfaceTopology} (hN : st.HasNetwork) {fuel i : Nat}
    (hf : st.m_nMeshPoints < fuel) (hi : i < st.m_nMeshPoints) {acc : List Int × List Int}
    (hl : acc.2.length = st.m_nMeshPoints) :
    ∃ acc', stackRoot st fuel acc i = some acc' ∧ acc'.2.length = st.m_nMeshPoints := by
  obtain ⟨_, hb, _⟩ := hN.1 i hi
  obtain ⟨b, hb⟩ := Option.isSome_iff_exists.1 hb
  obtain ⟨r, hr, _⟩ := hN.2.2.1 i hi
  obtain ⟨hc, _⟩ := hN.2.2.2 i hi
  simp only [stackRoot, Option.bind_eq_bind, hb, hr, hc, Option.some_bind]
  by_cases hcond : b = DIRICHLET ∨ r = i
  · rw [if_pos hcond]
    have h1 : ∃ ids1, (if b = DIRICHLET then setInt acc.2 i (i : Int) else some acc.2)
        = some ids1 ∧ ids1.length = st.m_nMeshPoints := by
      by_cases hbd : b = DIRICHLET
      · rw [if_pos hbd]
        obtain ⟨ids1, h1, hl1⟩ := setInt_ok (i : Int) (show i < acc.2.length by omega)
        exact ⟨ids1, h1, by omega⟩
      · rw [if_neg hbd]
        exact ⟨acc.2, rfl, hl⟩
    obtain ⟨ids1, h1, hl1⟩ := h1
    simp only [h1, Option.some_bind]
    split
    · obtain ⟨idv, hidv⟩ := getElem?_of_lt (show i < ids1.length by omega)
      simp only [hidv, Option.some_bind]
      exact InitializeStack_ok hN fuel (acc.1, ids1) i idv
        (by have := rank_le st i; omega) hi hl1
    · exact ⟨_, rfl, hl1⟩
  · rw [if_neg hcond]
    exact ⟨acc, rfl, hl⟩

/-- One round of the loop over the orphan nodes returns; no node becomes an orphan, and the
node of the round is not an orphan afterwards when it has a neighbour that is none. -/
theorem sweepNode_ok {st : SurfaceTopology} (hN : st.HasNetwork) {fuel i : Nat}
    (hf : st.m_nMeshPoints < fuel) (hi : i < st.m_nMeshPoints) {acc : List Nat × List Int}
    (hl : acc.2.length = st.m_nMeshPoints) :
    ∃ acc', sweepNode st fuel acc i = some acc' ∧ acc'.2.length = st.m_nMeshPoints ∧
      (∀ k : Nat, acc.2[k]? ≠ some ORPHAN → acc'.2[k]? ≠ some ORPHAN) ∧
      ((∃ row, st.neighbours[i]? = some row ∧ ∃ j ∈ row, acc.2[j]? ≠ some ORPHAN) →
        acc'.2[i]? ≠ some ORPHAN) := by
  obtain ⟨v, hv⟩ := getElem?_of_lt (show i < acc.2.length by omega)
  obtain ⟨_, _, row, hrow, hj⟩ := hN.1 i hi
  simp only [sweepNode, Option.bind_eq_bind, hv, hrow, Option.some_bind]
  by_cases hvo : v = ORPHAN
  · rw [if_pos hvo]
    obtain ⟨x, hx, h1, h2⟩ := findSill_spec hN.1 hl row none FLT_MAX hj
    simp only [hx, Option.some_bind]
    cases x with
    | none =>
      refine ⟨acc, rfl, hl, fun _ h => h, ?_⟩
      rintro ⟨row', hrow', j, hjm, hjo⟩
      obtain rfl : row = row' := Option.some.inj hrow'
      obtain ⟨⟨z, hz, hzl⟩, _, _⟩ := hN.1 j (hj j hjm)
      have := h2 (Or.inr ⟨j, hjm, hjo, by rw [height_of_Z hz]; exact hzl⟩)
      cases this
    | some sill =>
      rcases h1 sill rfl with h' | ⟨hsm, hso⟩
      · cases h'
      · obtain ⟨c, hc⟩ := getElem?_of_lt (show sill < acc.2.length by
          have := hj sill hsm; omega)
        have hco : c ≠ ORPHAN := by
          intro hcon
          rw [hc, hcon] at hso
          exact hso rfl
        obtain ⟨ids', hp, hl'⟩ := Propagate_ok hN fuel acc.2 i c
          (by have := rank_le st i; omega) hi hl
        simp only [hc, Option.some_bind, hp, Option.pure_def]
        refine ⟨_, rfl, hl', ?_, ?_⟩
        · intro k hk
          rcases (Propagate_tagged (hasNetwork_rows hN) fuel _ _ _ _ hp).2 k with h' | h'
          · show ids'[k]? ≠ _
            rw [h']
            exact hk
          · show ids'[k]? ≠ _
            rw [h'.1]
            intro hcon
            exact hco (Option.some.inj hcon)
        · intro _
          show ids'[i]? ≠ _
          rw [Propagate_self (hasNetwork_rows hN) hp]
          intro hcon
          exact hco (Option.some.inj hcon)
  · rw [if_neg hvo]
    refine ⟨acc, rfl, hl, fun _ h => h, fun _ => ?_⟩
    rw [hv]
    intro hcon
    exact hvo (Option.some.inj hcon)


/-! ## InitializeNetwork returns: the loop over the orphan nodes -/

/-- One pass of the `for` loop over the nodes inside `while (CountOrphanNodes())`. -/
theorem sweep_ok {st : SurfaceTopology} (hN : st.HasNetwork) {fuel : Nat}
    (hf : st.m_nMeshPoints < fuel) {acc : List Nat × List Int}
    (hl : acc.2.length = st.m_nMeshPoints) :
    ∃ acc', (List.range st.m_nMeshPoints).foldlM (sweepNode st fuel) acc = some acc' ∧
      acc'.2.length = st.m_nMeshPoints ∧
      (∀ k : Nat, acc.2[k]? ≠ some ORPHAN → acc'.2[k]? ≠ some ORPHAN) ∧
      ∀ i, i < st.m_nMeshPoints →
        (∃ row, st.neighbours[i]? = some row ∧ ∃ j ∈ row, acc.2[j]? ≠ some ORPHAN) →
        acc'.2[i]? ≠ some ORPHAN := by
  refine foldlM_range_ok
    (fun m (a : List Nat × List Int) => a.2.length = st.m_nMeshPoints ∧
      (∀ k : Nat, acc.2[k]? ≠ some ORPHAN → a.2[k]? ≠ some ORPHAN) ∧
      ∀ i, i < m →
        (∃ row, st.neighbours[i]? = some row ∧ ∃ j ∈ row, acc.2[j]? ≠ some ORPHAN) →
        a.2[i]? ≠ some ORPHAN)
    (sweepNode st fuel) st.m_nMeshPoints ?_ st.m_nMeshPoints (Nat.le_refl _) acc
    ⟨hl, fun _ h => h, fun i hi => by omega⟩
  intro i a hi ⟨hla, hmono, hprog⟩
  obtain ⟨b, hb, hlb, hm, hp⟩ := sweepNode_ok hN hf hi hla
  refine ⟨b, hb, hlb, fun k hk => hm k (hmono k hk), ?_⟩
  intro i0 hi0 hex
  by_cases h0 : i0 = i
  · subst h0
    obtain ⟨row, hrow, j, hj, hjo⟩ := hex
    exact hp ⟨row, hrow, j, hj, hmono j hjo⟩
  · exact hm i0 (hprog i0 (by omega) hex)

theorem mem_grow {nb : List (List Nat)} {S : List Nat} {j : Nat} :
    j ∈ grow nb S ↔ j ∈ S ∨ ∃ a ∈ S, j ∈ nb.getD a [] := by
  simp [grow, List.mem_flatMap]

theorem reach_closed {nb : List (List Nat)} {P : Nat → Prop}
    (hP : ∀ a b, P a → b ∈ nb.getD a [] → P b) :
    ∀ (k i j : Nat), P i → j ∈ reach nb k i → P j := by
  intro k
  induction k with
  | zero =>
    intro i j hi hj
    obtain rfl : j = i := by simpa [reach] using hj
    exact hi
  | succ k ih =>
    intro i j hi hj
    rcases mem_grow.1 hj with h | ⟨a, ha, hja⟩
    · exact ih i j hi h
    · exact hP a j (ih i a hi ha) hja

/-- In a connected mesh with an orphan node and a node that is none, an orphan node has a
neighbour that is none. -/
theorem exists_frontier {st : SurfaceTopology} (hM : st.IsMesh) (hC : st.Connected)
    {ids : List Int} {o d : Nat} (ho : o < st.m_nMeshPoints) (hoo : ids[o]? = some ORPHAN)
    (hd : d < st.m_nMeshPoints) (hdo : ids[d]? ≠ some ORPHAN) :
    ∃ i, i < st.m_nMeshPoints ∧ ids[i]? = some ORPHAN ∧
      ∃ row, st.neighbours[i]? = some row ∧ ∃ j ∈ row, ids[j]? ≠ some ORPHAN := by
  by_contra hno
  have hcl : ∀ a b, (a < st.m_nMeshPoints ∧ ids[a]? = some ORPHAN) →
      b ∈ st.neighbours.getD a [] → (b < st.m_nMeshPoints ∧ ids[b]? = some ORPHAN) := by
    intro a b ⟨ha, hao⟩ hb
    obtain ⟨_, _, row, hrow, hj⟩ := hM a ha
    have hrow' : st.neighbours.getD a [] = row := by
      rw [List.getD_eq_getElem?_getD, hrow]
      rfl
    rw [hrow'] at hb
    refine ⟨hj b hb, ?_⟩
    by_contra hbo
    exact hno ⟨a, ha, hao, row, hrow, b, hb, hbo⟩
  exact hdo (reach_closed hcl _ o d ⟨ho, hoo⟩ (hC o ho d hd)).2

theorem exists_orphan {n : Nat} {ids : List Int} (h : CountOrphanNodes n ids ≠ 0) :
    ∃ o, o < n ∧ ids[o]? = some ORPHAN := by
  unfold CountOrphanNodes at h
  obtain ⟨o, ho⟩ := List.exists_mem_of_length_pos (Nat.pos_of_ne_zero h)
  simp only [List.mem_filter, List.mem_range, decide_eq_true_eq] at ho
  exact ⟨o, ho.1, ho.2⟩

theorem count_le (n : Nat) (ids : List Int) : CountOrphanNodes n ids ≤ n := by
  unfold CountOrphanNodes
  have := List.length_filter_le (fun i => decide (ids[i]? = some ORPHAN)) (List.range n)
  simpa using this

theorem orphanLoop_ok {st : SurfaceTopology} (hN : st.HasNetwork) (hC : st.Connected)
    (hD : ∀ d ∈ st.dirichletNodes, ¬ IsDonor st.m_receivers d)
    {d0 : Nat} (hd0 : d0 ∈ st.dirichletNodes) {fuel : Nat} (hf : st.m_nMeshPoints < fuel)
    (k : Nat) :
    ∀ (acc : List Nat × List Int), IdsInv st st.m_nMeshPoints acc.2 →
      CountOrphanNodes st.m_nMeshPoints acc.2 < k →
      ∃ acc', orphanLoop st fuel k acc = some acc' := by
  induction k with
  | zero => intro acc _ h; omega
  | succ k ih =>
    intro acc hI hk
    simp only [orphanLoop]
    by_cases hc : CountOrphanNodes st.m_nMeshPoints acc.2 ≠ 0
    · rw [if_pos hc]
      obtain ⟨acc1, hs, hl1, hmono, hprog⟩ := sweep_ok hN hf hI.1
      rw [hs]
      have hI1 : IdsInv st st.m_nMeshPoints acc1.2 :=
        foldlM_inv (fun (a : List Nat × List Int) => IdsInv st st.m_nMeshPoints a.2)
          (sweepNode st fuel)
          (fun _ _ _ hP hf' => sweepNode_inv hD (hasNetwork_rows hN) hP hf') _ _ _ hI hs
      obtain ⟨o, ho, hoo⟩ := exists_orphan hc
      have hdlt := (mem_dirichletNodes.1 hd0).1
      have hdo : acc.2[d0]? ≠ some ORPHAN := by
        rw [hI.2.2 d0 hd0 hdlt]
        intro hcon
        exact ORPHAN_ne_nat d0 (Option.some.inj hcon).symm
      obtain ⟨i0, hi0, hio, hex⟩ := exists_frontier hN.1 hC ho hoo hdlt hdo
      have hlt : CountOrphanNodes st.m_nMeshPoints acc1.2
          < CountOrphanNodes st.m_nMeshPoints acc.2 := by
        unfold CountOrphanNodes
        apply filter_length_lt
        · intro x _ hx
          simp only [decide_eq_true_eq] at hx ⊢
          by_contra hcon
          exact hmono x hcon hx
        · refine ⟨i0, List.mem_range.2 hi0, by simpa using hio, ?_⟩
          simpa using hprog i0 hi0 hex
      exact ih acc1 hI1 (by omega)
    · rw [if_neg hc]
      exact ⟨acc, rfl⟩

/-- On a connected mesh with a Dirichlet node, `InitializeNetwork` returns when the fuel is
more than the number of nodes. -/
theorem InitializeNetwork_returns {st : SurfaceTopology} (hM : st.IsMesh) (hC : st.Connected)
    {d0 : Nat} (hd0 : d0 ∈ st.dirichletNodes) {fuel : Nat} (hf : st.m_nMeshPoints < fuel) :
    ∃ st', st.InitializeNetwork fuel = some st' := by
  obtain ⟨R, hR, hRl, hrec⟩ := receivers_ok hM
  have hR2 : ∀ i, i < st.m_nMeshPoints → ∃ r, R[i]? = some r ∧ r < st.m_nMeshPoints := by
    intro i hi
    obtain ⟨r, h1, h2, _⟩ := hrec i hi
    exact ⟨r, h1, h2⟩
  obtain ⟨counts, hc, _, _⟩ := countDonor_ok hR2
  obtain ⟨rows, hr, _, _⟩ := fillDonor_ok hR2
  have hN : (st.withDonors R counts rows).HasNetwork := withDonors_hasNetwork hM hR hc hr
  have hD : ∀ d ∈ (st.withDonors R counts rows).dirichletNodes,
      ¬ IsDonor (st.withDonors R counts rows).m_receivers d :=
    fun d hd => not_isDonor_dirichlet hR hd
  have hC1 : (st.withDonors R counts rows).Connected := hC
  have hd1 : d0 ∈ (st.withDonors R counts rows).dirichletNodes := hd0
  have hf1 : (st.withDonors R counts rows).m_nMeshPoints < fuel := hf
  obtain ⟨⟨stack, ids⟩, hs, hl1⟩ := foldlM_ok
    (fun (a : List Int × List Int) => a.2.length = st.m_nMeshPoints)
    (stackRoot (st.withDonors R counts rows) fuel) (List.range st.m_nMeshPoints)
    ([], List.replicate st.m_nMeshPoints ORPHAN)
    (fun a i hi hP => stackRoot_ok hN hf1 (List.mem_range.1 hi) hP) (by simp)
  have hI1 : IdsInv (st.withDonors R counts rows) st.m_nMeshPoints ids := by
    refine foldlM_range_inv
      (fun i (acc : List Int × List Int) => IdsInv (st.withDonors R counts rows) i acc.2) _
      st.m_nMeshPoints ?_ st.m_nMeshPoints (Nat.le_refl _) _ _ (IdsInv_init _) hs
    intro i a b hi hP hf'
    exact stackRoot_inv hD (hasNetwork_rows hN) hi hP hf'
  obtain ⟨⟨sr, ids2⟩, hloop⟩ := orphanLoop_ok hN hC1 hD hd1 hf1 fuel (R, ids) hI1
    (by have := count_le st.m_nMeshPoints ids; exact Nat.lt_of_le_of_lt this hf)
  have hI2 := (orphanLoop_inv hD (hasNetwork_rows hN) fuel (R, ids) (sr, ids2) hI1 hloop).1
  obtain ⟨cat, hcat, _⟩ := foldlM_ok (fun (_ : List Int) => True)
    (fun (s : List Int) i => do pure (setInsert (← ids2[i]?) s))
    (List.range st.m_nMeshPoints) [] (by
      intro a i hi _
      obtain ⟨v, hv⟩ := getElem?_of_lt (show i < ids2.length by
        have h1 : ids2.length = st.m_nMeshPoints := hI2.1
        have := List.mem_range.1 hi
        omega)
      exact ⟨setInsert v a, by simp [hv], trivial⟩) trivial
  apply Option.isSome_iff_exists.1
  simp only [Option.bind_eq_bind, Option.pure_def] at hcat
  simp only [SurfaceTopology.InitializeNetwork, Option.bind_eq_bind, hR, hc, hr,
    Option.some_bind, hs, hloop, hcat, Option.pure_def, Option.isSome_some]


/-- C28: on a mesh (every node has its height, below `FLT_MAX`, its boundary condition and
its row of neighbours, all of them nodes) whose neighbour graph is connected and that has a
Dirichlet node, `InitializeNetwork` returns as soon as the fuel, which bounds the depth of
`InitializeStack` and `PropagateCatchmentTagUpstream` and the rounds of the
`while (CountOrphanNodes())` loop, exceeds the number of nodes; and whenever it returns, with
any fuel, `m_catchmentIds` has one entry per node, none of them `ORPHAN`, the members of
`m_catchments` are exactly the Dirichlet nodes, and the number of catchments is the number
of Dirichlet nodes.  (The count of 316 for the reference mesh is not checked: the mesh file
of the test is not among the sources.) -/
theorem C28_catchments_are_dirichlet_nodes (fuel : Nat) (st : SurfaceTopology)
    (hM : st.IsMesh) (hC : st.Connected) (hd : st.dirichletNodes ≠ [])
    (hf : st.m_nMeshPoints < fuel) :
    (∃ st', st.InitializeNetwork fuel = some st') ∧
      ∀ f st', st.InitializeNetwork f = some st' →
        st'.m_catchmentIds.length = st.m_nMeshPoints ∧ ORPHAN ∉ st'.m_catchmentIds ∧
        (∀ c, c ∈ st'.m_catchments ↔ ∃ d ∈ st.dirichletNodes, c = (d : Int)) ∧
        st'.m_catchments.length = st.dirichletNodes.length := by
  obtain ⟨d0, hd0⟩ := List.exists_mem_of_ne_nil _ hd
  exact ⟨InitializeNetwork_returns hM hC hd0 hf, fun _ _ h => InitializeNetwork_ids h⟩

theorem sampleMesh_isMesh : sampleMesh.IsMesh := by
  intro i hi
  have hi' : i < 4 := hi
  interval_cases i
  · exact ⟨⟨5, rfl, by norm_num [FLT_MAX]⟩, rfl, [1], rfl, by decide⟩
  · exact ⟨⟨1, rfl, by norm_num [FLT_MAX]⟩, rfl, [0, 2], rfl, by decide⟩
  · exact ⟨⟨3, rfl, by norm_num [FLT_MAX]⟩, rfl, [1, 3], rfl, by decide⟩
  · exact ⟨⟨0, rfl, by norm_num [FLT_MAX]⟩, rfl, [2], rfl, by decide⟩

/-- C28 (witness): four nodes in a row of heights 5, 1, 3 and 0, the last a Dirichlet node
and the second a local minimum, which is an orphan until the loop over the orphan nodes gives
it the catchment of its neighbour: all four nodes end in catchment 3. -/
theorem C28_catchments_are_dirichlet_nodes_witness :
    ∃ st', sampleMesh.InitializeNetwork 5 = some st' ∧
      st'.m_catchmentIds = [3, 3, 3, 3] ∧ st'.m_catchments = [3] ∧
      ORPHAN ∉ st'.m_catchmentIds ∧
      (∀ c, c ∈ st'.m_catchments ↔ ∃ d ∈ sampleMesh.dirichletNodes, c = (d : Int)) ∧
      st'.m_catchments.length = sampleMesh.dirichletNodes.length := by
  have hd : sampleMesh.dirichletNodes ≠ [] :=
    List.ne_nil_of_mem (mem_dirichletNodes.2 ⟨(by decide : 3 < sampleMesh.m_nMeshPoints), rfl⟩)
  obtain ⟨⟨st', hs⟩, hall⟩ := C28_catchments_are_dirichlet_nodes 5 sampleMesh
    sampleMesh_isMesh (by decide) hd (by decide)
  have hv : (sampleMesh.InitializeNetwork 5).map
      (fun s => (s.m_catchmentIds, s.m_catchments)) = some ([3, 3, 3, 3], [3]) := by
    decide!
  rw [hs] at hv
  simp only [Option.map_some', Option.some.injEq, Prod.mk.injEq] at hv
  obtain ⟨_, h2, h3, h4⟩ := hall 5 st' hs
  exact ⟨st', hs, hv.1, hv.2, h2, h3, h4⟩

end Mesh

/-! ## InCircle as the sign of a determinant -/

/-- The difference of the two products compared by `InCircle` is the in-circle determinant. -/
theorem inCircleMatrix_det (a b c d : Site) :
    (inCircleMatrix a b c d).det =
      ((d.y-a.y)*(b.x-c.x)+(d.x-a.x)*(b.y-c.y))*((d.x-c.x)*(b.x-a.x)-(d.y-c.y)*(b.y-a.y)) -
      ((d.y-c.y)*(b.x-a.x)+(d.x-c.x)*(b.y-a.y))*((d.x-a.x)*(b.x-c.x)-(d.y-a.y)*(b.y-c.y)) := by
  unfold inCircleMatrix
  rw [Matrix.det_fin_three]
  simp only [Matrix.of_apply, Matrix.cons_val', Matrix.cons_val_zero, Matrix.cons_val_one,
    Matrix.cons_val_two, Matrix.head_cons, Matrix.tail_cons, Matrix.empty_val',
    Matrix.cons_val_fin_one, Matrix.head_fin_const]
  ring

/-- For a point at the same distance from `a`, `b`, `c` and `d`, `InCircle(a, b, c, d)` is
false. -/
theorem inCircleVal_on_circle (a b c d : Site) (ox oy : Rat)
    (h1 : distSq ox oy a = distSq ox oy b) (h2 : distSq ox oy a = distSq ox oy c)
    (h3 : distSq ox oy a = distSq ox oy d) : inCircleVal a b c d = false := by
  have he := inCircle_eq_of_centre a b c d ox oy h1 h2
  rw [h3, sub_self, mul_zero] at he
  have hz : ((d.y-a.y)*(b.x-c.x)+(d.x-a.x)*(b.y-c.y))*((d.x-c.x)*(b.x-a.x)-(d.y-c.y)*(b.y-a.y)) -
      ((d.y-c.y)*(b.x-a.x)+(d.x-c.x)*(b.y-a.y))*((d.x-a.x)*(b.x-c.x)-(d.y-a.y)*(b.y-c.y)) = 0 := by
    exact_mod_cast he
  cases hv : inCircleVal a b c d with
  | false => rfl
  | true =>
    have := (inCircleVal_iff a b c d).1 hv
    omega

/-- C33: in exact arithmetic, for all sites `a`, `b`, `c`, `d`, `InCircle(a, b, c, d)` is true if
and only if the determinant of the matrix with rows
`(p.x - d.x, p.y - d.y, (p.x - d.x)^2 + (p.y - d.y)^2)`, `p = a, b, c`, is strictly positive;
for `a`, `b`, `c` in counter-clockwise order it is true exactly when `d` lies strictly inside
the circle through them; it is false when `d` lies on that circle; and exchanging `b` and `c`
negates the determinant. -/
theorem C33_inCircle_determinant (a b c d : Site) :
    (inCircleVal a b c d = true ↔ 0 < (inCircleMatrix a b c d).det) ∧
    (0 < ccwVal a b c →
      (inCircleVal a b c d = true ↔ StrictlyInsideCircleThrough a b c d)) ∧
    (∀ ox oy : Rat, distSq ox oy a = distSq ox oy b → distSq ox oy a = distSq ox oy c →
      distSq ox oy a = distSq ox oy d → inCircleVal a b c d = false) ∧
    (inCircleMatrix a c b d).det = -(inCircleMatrix a b c d).det := by
  refine ⟨?_, inCircleVal_iff_inside a b c d, inCircleVal_on_circle a b c d, ?_⟩
  · rw [inCircleVal_iff, inCircleMatrix_det, gt_iff_lt, sub_pos]
  · rw [inCircleMatrix_det, inCircleMatrix_det]
    ring

/-- C33 (witness): a = (0,0), b = (4,0), c = (0,4) in counter-clockwise order; d = (1,1) lies
inside the circle through them and the determinant is 96; (4,4) lies on the circle (centre
(2,2)) and `InCircle` is false there. -/
theorem C33_inCircle_determinant_witness :
    0 < ccwVal ⟨0, 0, 0⟩ ⟨4, 0, 1⟩ ⟨0, 4, 2⟩ ∧
    inCircleVal ⟨0, 0, 0⟩ ⟨4, 0, 1⟩ ⟨0, 4, 2⟩ ⟨1, 1, 3⟩ = true ∧
    StrictlyInsideCircleThrough ⟨0, 0, 0⟩ ⟨4, 0, 1⟩ ⟨0, 4, 2⟩ ⟨1, 1, 3⟩ ∧
    (inCircleMatrix ⟨0, 0, 0⟩ ⟨4, 0, 1⟩ ⟨0, 4, 2⟩ ⟨1, 1, 3⟩).det = 96 ∧
    (inCircleMatrix ⟨0, 0, 0⟩ ⟨0, 4, 2⟩ ⟨4, 0, 1⟩ ⟨1, 1, 3⟩).det = -96 ∧
    inCircleVal ⟨0, 0, 0⟩ ⟨4, 0, 1⟩ ⟨0, 4, 2⟩ ⟨4, 4, 3⟩ = false := by
  have h := C33_inCircle_determinant ⟨0, 0, 0⟩ ⟨4, 0, 1⟩ ⟨0, 4, 2⟩ ⟨1, 1, 3⟩
  have h4 := (C33_inCircle_determinant ⟨0, 0, 0⟩ ⟨4, 0, 1⟩ ⟨0, 4, 2⟩ ⟨4, 4, 3⟩).2.2.1 2 2
    (by unfold distSq; norm_num) (by unfold distSq; norm_num) (by unfold distSq; norm_num)
  have hv : inCircleVal ⟨0, 0, 0⟩ ⟨4, 0, 1⟩ ⟨0, 4, 2⟩ ⟨1, 1, 3⟩ = true := by decide
  have hd : (inCircleMatrix ⟨0, 0, 0⟩ ⟨4, 0, 1⟩ ⟨0, 4, 2⟩ ⟨1, 1, 3⟩).det = 96 := by
    rw [inCircleMatrix_det]; decide
  refine ⟨by decide, hv, (h.2.1 (by decide)).1 hv, hd, ?_, h4⟩
  rw [h.2.2.2, hd]

/-! ## Splice is an involution -/

theorem spliceSwap_comm {a b al be : Nat} (h1 : al ≠ a) (h2 : al ≠ b) (h3 : be ≠ a)
    (h4 : be ≠ b) (p : Nat) : spliceSwap a b be al p = spliceSwap a b al be p := by
  unfold spliceSwap
  by_cases ha : p = a
  · simp [ha]
  · by_cases hb : p = b
    · simp [hb]
    · by_cases hal : p = al
      · subst hal
        by_cases hbe : p = be
        · simp [ha, hb, hbe]
        · simp [ha, hb, hbe]
      · by_cases hbe : p = be
        · subst hbe; simp [ha, hb, hal]
        · simp [ha, hb, hal, hbe]

theorem EdgeStore.ext_of {s s' : EdgeStore} (hp : s'.pool = s.pool) (ha : s'.attr = s.attr)
    (he : ∀ p, (s'.edge p).m_num = (s.edge p).m_num ∧ (s'.edge p).m_data0 = (s.edge p).m_data0 ∧
      (s'.edge p).m_data1 = (s.edge p).m_data1 ∧ (s'.edge p).m_next = (s.edge p).m_next) :
    s' = s := by
  cases s with
  | mk pool edge attr =>
    cases s' with
    | mk pool' edge' attr' =>
      simp only at hp ha he
      subst hp ha
      have : edge' = edge := by
        funext p
        obtain ⟨g1, g2, g3, g4⟩ := he p
        cases h : edge' p with
        | mk n x d0 d1 =>
          cases h' : edge p with
          | mk n' x' d0' d1' =>
            rw [h, h'] at g1 g2 g3 g4
            simp only at g1 g2 g3 g4
            rw [g1, g2, g3, g4]
      rw [this]

/-- On a well-formed store, `Splice(a, b)` on two in-use records of equal parity, done twice,
gives back the store. -/
theorem Splice_twice {s : EdgeStore} {st : List Nat} (hc : s.pool.chunk0 = some st)
    (hw : WF s st) {pa pb : Nat} (ha : InUse s pa) (hb : InUse s pb)
    (hpar : pa % 2 = pb % 2) :
    ∃ s1, Splice s (some pa) (some pb) = some s1 ∧ Splice s1 (some pa) (some pb) = some s := by
  obtain ⟨s1, hS1, hp1, hat1, hrec1⟩ := Splice_spec hc hw ha hb hpar
  obtain ⟨hw1, _, _, hnx1⟩ := Splice_WF hc hw ha hb hpar hS1
  have hc1 : s1.pool.chunk0 = some st := by rw [hp1]; exact hc
  have ha1 : InUse s1 pa := (InUse.congr hp1 hat1 pa).2 ha
  have hb1 : InUse s1 pb := (InUse.congr hp1 hat1 pb).2 hb
  obtain ⟨s2, hS2, hp2, hat2, hrec2⟩ := Splice_spec hc1 hw1 ha1 hb1 hpar
  obtain ⟨hna, hxa, hpa⟩ := hw.next pa ha
  obtain ⟨hnb, hxb, hpb⟩ := hw.next pb hb
  have hra := rotI_mod2 (nxt s pa)
  have hrb := rotI_mod2 (nxt s pb)
  have hala : rotI (nxt s pa) ≠ pa := by omega
  have halb : rotI (nxt s pa) ≠ pb := by omega
  have hbea : rotI (nxt s pb) ≠ pa := by omega
  have hbeb : rotI (nxt s pb) ≠ pb := by omega
  have e1 : nxt s1 pa = nxt s pb := by rw [hnx1, spliceSwap_a]
  have e2 : nxt s1 pb = nxt s pa := by rw [hnx1, spliceSwap_b]
  refine ⟨s1, hS1, ?_⟩
  rw [hS2]
  congr 1
  apply EdgeStore.ext_of (by rw [hp2, hp1]) (by rw [hat2, hat1])
  intro p
  obtain ⟨g1, g2, g3, g4⟩ := hrec2 p
  obtain ⟨k1, k2, k3, _⟩ := hrec1 p
  refine ⟨g1.trans k1, g2.trans k2, g3.trans k3, ?_⟩
  rw [g4, e1, e2, (hrec1 _).2.2.2, spliceSwap_comm hala halb hbea hbeb,
    spliceSwap_invol hala halb hbea hbeb]

/-! ## MakeEdge and Connect on a well-formed store -/

theorem rotI_base (q : Nat) : rotI (4 * q) = 4 * q + 1 := by unfold rotI; rw [if_pos (by omega)]
theorem rotI_base3 (q : Nat) : rotI (4 * q + 3) = 4 * q := by
  unfold rotI; rw [if_neg (by omega)]; omega
theorem rotI_base2 (q : Nat) : rotI (4 * q + 2) = 4 * q + 3 := by
  unfold rotI; rw [if_pos (by omega)]
theorem torI_base (q : Nat) : torI (4 * q) = 4 * q + 3 := by unfold torI; rw [if_neg (by omega)]
theorem symI_base (q : Nat) : symI (4 * q) = 4 * q + 2 := by unfold symI; rw [if_pos (by omega)]

/-- `MakeEdge` on a store whose chunk is in use and has the free slot `q` on top of its stack:
the new quad-edge takes slot `q`; every other record is left as it was. -/
theorem MakeEdge_spec {s : EdgeStore} {q : Nat} {rest : List Nat}
    (hc : s.pool.chunk0 = some (q :: rest)) (hu : s.pool.chunkToUse.isSome = true)
    (hw : WF s (q :: rest)) :
    ∃ s0, MakeEdge s = some (some (4 * q), s0) ∧
      s0.pool = { s.pool with chunk0 := some rest } ∧
      s0.attr = upd s.attr q (SetInUse 0) ∧
      WF s0 rest ∧ InUse s0 (4 * q) ∧
      nxt s0 (4 * q) = 4 * q ∧ nxt s0 (4 * q + 1) = 4 * q + 3 ∧
      nxt s0 (4 * q + 2) = 4 * q + 2 ∧ nxt s0 (4 * q + 3) = 4 * q + 1 ∧
      (∀ p, p / 4 ≠ q → s0.edge p = s.edge p) ∧
      (∀ p, InUse s p → p / 4 ≠ q ∧ InUse s0 p) ∧
      (∀ p, InUse s0 p ↔ (InUse s p ∨ p / 4 = q)) := by
  have hcu : s.pool.chunkToUse.isNone = false := by
    cases h : s.pool.chunkToUse with
    | none => rw [h] at hu; exact absurd hu (by decide)
    | some _ => rfl
  obtain ⟨s0, hs0⟩ : ∃ s0 : EdgeStore, s0 =
      ⟨{ s.pool with chunk0 := some rest },
        upd (upd (upd (upd s.edge
          (4 * q) ⟨0, some (4 * q), none, none⟩)
          (4 * q + 1) ⟨1, some (4 * q + 3), none, none⟩)
          (4 * q + 2) ⟨2, some (4 * q + 2), none, none⟩)
          (4 * q + 3) ⟨3, some (4 * q + 1), none, none⟩,
        upd s.attr q (SetInUse 0)⟩ := ⟨_, rfl⟩
  have hpop := @WF_pop s s0 q rest hw (by rw [hs0]) (by rw [hs0]) (by rw [hs0])
  have hmem := (hw.mem_free q).1 (List.mem_cons_self q rest)
  have hother : ∀ p, p / 4 ≠ q → s0.edge p = s.edge p := by
    intro p hp; rw [hs0]; show upd _ _ _ p = _; unfold upd
    rw [if_neg (by omega), if_neg (by omega), if_neg (by omega), if_neg (by omega)]
  have hold : ∀ p, InUse s p → p / 4 ≠ q := by
    intro p hp h
    have h2 := hp.2
    rw [h, hmem.2] at h2; exact Bool.noConfusion h2
  have hiu : ∀ p, InUse s0 p ↔ (InUse s p ∨ p / 4 = q) := by
    intro p
    have hat : s0.attr = upd s.attr q (SetInUse 0) := by rw [hs0]
    have hpl : s0.pool.numElementsPerChunk = s.pool.numElementsPerChunk := by rw [hs0]
    unfold InUse; rw [hpl, hat]; unfold upd
    by_cases hp : p / 4 = q
    · simp only [hp, if_true, IsFree_SetInUse_zero, and_true, or_true, iff_true]
      have := hmem.1; omega
    · simp [hp]
  refine ⟨s0, ?_, by rw [hs0], by rw [hs0], hpop.1, hpop.2, ?_, ?_, ?_, ?_, hother, ?_, hiu⟩
  · unfold MakeEdge
    simp only [MemoryPool.NewObject, hcu, hc, Bool.false_eq_true, if_false]
    rw [hs0]
  · rw [hs0]; unfold nxt; show (Edge.m_next (upd _ _ _ (4 * q))).getD 0 = _; unfold upd
    rw [if_neg (by omega), if_neg (by omega), if_neg (by omega), if_pos rfl]; rfl
  · rw [hs0]; unfold nxt; show (Edge.m_next (upd _ _ _ (4 * q + 1))).getD 0 = _; unfold upd
    rw [if_neg (by omega), if_neg (by omega), if_pos rfl]; rfl
  · rw [hs0]; unfold nxt; show (Edge.m_next (upd _ _ _ (4 * q + 2))).getD 0 = _; unfold upd
    rw [if_neg (by omega), if_pos rfl]; rfl
  · rw [hs0]; unfold nxt; show (Edge.m_next (upd _ _ _ (4 * q + 3))).getD 0 = _; unfold upd
    rw [if_pos rfl]; rfl
  · intro p hp
    exact ⟨hold p hp, (hiu p).2 (Or.inl hp)⟩

theorem Org_Set_spec {s : EdgeStore} {st : List Nat} (hc : s.pool.chunk0 = some st) {i : Nat}
    (hi : i < 4 * s.pool.numElementsPerChunk) (v : Ptr) :
    ∃ s', Org_Set s (some i) v = some s' ∧ s'.pool = s.pool ∧ s'.attr = s.attr ∧
      ∀ p, (s'.edge p).m_num = (s.edge p).m_num ∧ (s'.edge p).m_next = (s.edge p).m_next ∧
        (s'.edge p).m_data0 = if p = i then v else (s.edge p).m_data0 := by
  refine ⟨_, wr_of_lt _ (WF.alive hc) hi, rfl, rfl, ?_⟩
  intro p
  show (upd s.edge i _ p).m_num = _ ∧ (upd s.edge i _ p).m_next = _ ∧
    (upd s.edge i _ p).m_data0 = _
  unfold upd
  by_cases h : p = i
  · subst h; simp
  · simp [h]

theorem nxt_congr {s s' : EdgeStore} {p : Nat} (h : (s'.edge p).m_next = (s.edge p).m_next) :
    nxt s' p = nxt s p := by
  unfold nxt; rw [h]

/-- `Connect(a, b)` on two in-use primal records of a well-formed store with a free slot. -/
theorem Connect_spec {s : EdgeStore} {q : Nat} {rest : List Nat}
    (hc : s.pool.chunk0 = some (q :: rest)) (hu : s.pool.chunkToUse.isSome = true)
    (hw : WF s (q :: rest)) {a b : Nat} (ha : InUse s a) (hb : InUse s b)
    (hpa : a % 2 = 0) (hpb : b % 2 = 0) :
    ∃ s', Connect s (some a) (some b) = some (some (4 * q), s') ∧
      s'.pool = { s.pool with chunk0 := some rest } ∧ WF s' rest ∧
      (∀ p, InUse s' p ↔ (InUse s p ∨ p / 4 = q)) ∧
      (s'.edge (4 * q)).m_data0 = (s.edge (symI a)).m_data0 ∧
      (s'.edge (4 * q + 2)).m_data0 = (s.edge b).m_data0 ∧
      nxt s' (torI a) = 4 * q + 3 ∧ rotI (nxt s' (4 * q + 3)) = b := by
  obtain ⟨s0, hM, hp0, hat0, hw0, hE0, n0, n1, n2, n3, hoth, hold, hiu0⟩ :=
    MakeEdge_spec hc hu hw
  have hc0 : s0.pool.chunk0 = some rest := by rw [hp0]
  have ha0 := (hold a ha).2
  have hb0 := (hold b hb).2
  have haq := (hold a ha).1
  have hbq := (hold b hb).1
  -- the two writes of the end points
  have hD : Dest s0 (some a) = some (s.edge (symI a)).m_data0 := by
    rw [Dest_inUse hc0 hw0 ha0, hoth _ (by rw [symI_div]; exact haq)]
  obtain ⟨s0a, hO1, hp1, hat1, hr1⟩ := Org_Set_spec hc0 hE0.1 (s.edge (symI a)).m_data0
  have hc1 : s0a.pool.chunk0 = some rest := by rw [hp1]; exact hc0
  have hw1 : WF s0a rest := WF_congr hw0 hp1 hat1 (fun p => ⟨(hr1 p).1, (hr1 p).2.1⟩)
  have hiu1 : ∀ p, InUse s0a p ↔ InUse s0 p := InUse.congr hp1 hat1
  have hOb : Org s0a (some b) = some (s.edge b).m_data0 := by
    rw [Org_inUse hc1 ((hiu1 b).2 hb0), (hr1 b).2.2, if_neg (by omega), hoth _ hbq]
  have hSy1 : Sym s0a (some (4 * q)) = some (some (4 * q + 2)) := by
    rw [WF.Sym_inUse hc1 hw1 ((hiu1 _).2 hE0), symI_base]
  have hE2 : InUse s0a (4 * q + 2) := by
    have := ((hiu1 _).2 hE0).symI; rwa [symI_base] at this
  obtain ⟨s0b, hO2, hp2, hat2, hr2⟩ := Org_Set_spec hc1 hE2.1 (s.edge b).m_data0
  have hD2 : Dest_Set s0a (some (4 * q)) (s.edge b).m_data0 = some s0b := by
    simp only [Dest_Set, Option.bind_eq_bind, hSy1, Option.some_bind, hO2]
  have hc2 : s0b.pool.chunk0 = some rest := by rw [hp2]; exact hc1
  have hw2 : WF s0b rest := WF_congr hw1 hp2 hat2 (fun p => ⟨(hr2 p).1, (hr2 p).2.1⟩)
  have hiu2 : ∀ p, InUse s0b p ↔ InUse s0 p := fun p =>
    (InUse.congr hp2 hat2 p).trans (hiu1 p)
  have hnx2 : ∀ p, nxt s0b p = nxt s0 p := fun p =>
    (nxt_congr (hr2 p).2.1).trans (nxt_congr (hr1 p).2.1)
  have hnold : ∀ p, p / 4 ≠ q → nxt s0 p = nxt s p := by
    intro p hp; unfold nxt; rw [hoth p hp]
  have hd0 : (s0b.edge (4 * q)).m_data0 = (s.edge (symI a)).m_data0 := by
    rw [(hr2 _).2.2, if_neg (by omega), (hr1 _).2.2, if_pos rfl]
  have hd2 : (s0b.edge (4 * q + 2)).m_data0 = (s.edge b).m_data0 := by
    rw [(hr2 _).2.2, if_pos rfl]
  -- the first splice
  have haT : InUse s (torI a) := ha.torI
  have hTq : torI a / 4 ≠ q := by rw [torI_div]; exact haq
  obtain ⟨gx1, gx2, gx3⟩ := hw.next _ haT
  have hxq : rotI (nxt s (torI a)) / 4 ≠ q := by
    rw [rotI_div]; exact (hold _ gx2).1
  have hx0 : InUse s0b (rotI (nxt s (torI a))) := (hiu2 _).2 (hold _ gx2.rotI).2
  have hL : Lnext s0b (some a) = some (some (rotI (nxt s (torI a)))) := by
    rw [Lnext_inUse hc2 hw2 ((hiu2 a).2 ha0), hnx2, hnold _ hTq]
  have hEb : InUse s0b (4 * q) := (hiu2 _).2 hE0
  have hxpar : (4 * q) % 2 = rotI (nxt s (torI a)) % 2 := by
    have := rotI_mod2 (nxt s (torI a))
    have := torI_mod2 a
    omega
  obtain ⟨s1, hS1, hp3, hat3, hr3⟩ := Splice_spec hc2 hw2 hEb hx0 hxpar
  obtain ⟨hw3, _, _, hnx3⟩ := Splice_WF hc2 hw2 hEb hx0 hxpar hS1
  have hc3 : s1.pool.chunk0 = some rest := by rw [hp3]; exact hc2
  have hiu3 : ∀ p, InUse s1 p ↔ InUse s0 p := fun p =>
    (InUse.congr hp3 hat3 p).trans (hiu2 p)
  have hal1 : rotI (nxt s0b (4 * q)) = 4 * q + 1 := by rw [hnx2, n0, rotI_base]
  have hbe1 : rotI (nxt s0b (rotI (nxt s (torI a)))) = torI a := by
    rw [hnx2, hnold _ hxq]; exact hw.e8 _ haT
  rw [hal1, hbe1] at hnx3
  have hT1 : nxt s1 (torI a) = 4 * q + 3 := by
    rw [hnx3, spliceSwap_be (by have := torI_mod2 a; omega)
      (by have := torI_mod2 a; have := rotI_mod2 (nxt s (torI a)); omega), hnx2, n1]
  have hE21 : nxt s1 (4 * q + 2) = 4 * q + 2 := by
    rw [hnx3, spliceSwap_other (by omega) (by intro h; apply hxq; rw [← h]; omega) (by omega)
      (by intro h; apply hTq; rw [← h]; omega), hnx2, n2]
  -- the second splice
  have hSy3 : Sym s1 (some (4 * q)) = some (some (4 * q + 2)) := by
    rw [WF.Sym_inUse hc3 hw3 ((hiu3 _).2 hE0), symI_base]
  have hE23 : InUse s1 (4 * q + 2) := by
    have := ((hiu3 _).2 hE0).symI; rwa [symI_base] at this
  have hb3 : InUse s1 b := (hiu3 b).2 hb0
  obtain ⟨s2, hS2, hp4, hat4, hr4⟩ := Splice_spec hc3 hw3 hE23 hb3 (by omega)
  obtain ⟨hw4, _, _, hnx4⟩ := Splice_WF hc3 hw3 hE23 hb3 (by omega) hS2
  rw [hE21, rotI_base2] at hnx4
  obtain ⟨gb1, gb2, gb3⟩ := hw3.next b hb3
  have hbe2par := rotI_mod2 (nxt s1 b)
  have hT2 : nxt s2 (torI a) = 4 * q + 3 := by
    rw [hnx4, spliceSwap_other (by have := torI_mod2 a; omega)
      (by have := torI_mod2 a; omega) (by intro h; apply hTq; rw [h]; omega) ?_, hT1]
    intro h
    have h8 := hw3.e8 b hb3
    rw [← h, hT1, rotI_base3] at h8
    apply hbq; rw [← h8]; omega
  have hE32 : rotI (nxt s2 (4 * q + 3)) = b := by
    rw [hnx4, spliceSwap_al (by omega) (by omega)]
    exact hw3.e8 b hb3
  refine ⟨s2, ?_, ?_, hw4, ?_, ?_, ?_, hT2, hE32⟩
  · simp only [Connect, hM, Option.bind_eq_bind, Option.some_bind, hD, hO1, hOb, hD2, hL, hS1,
      hSy3, hS2, Option.pure_def]
  · rw [hp4, hp3, hp2, hp1, hp0]
  · intro p
    exact ((InUse.congr hp4 hat4 p).trans (hiu3 p)).trans (hiu0 p)
  · rw [(hr4 _).2.1, (hr3 _).2.1, hd0]
  · rw [(hr4 _).2.1, (hr3 _).2.1, hd2]

/-! ## Delete on a well-formed store -/

theorem symI_ne (e : Nat) : symI e ≠ e := by unfold symI; split <;> omega

/-- The conditional splice of `Delete` on an in-use record of either parity: `e` becomes a ring
of its own and the record before it is joined to the record after it. -/
theorem detach_spec {s : EdgeStore} {st : List Nat} (hc : s.pool.chunk0 = some st)
    (hw : WF s st) {e : Nat} (he : InUse s e) :
    ∃ s1, detach s (some e) = some s1 ∧ WF s1 st ∧ s1.pool = s.pool ∧ s1.attr = s.attr ∧
      nxt s1 e = e ∧
      ∀ p, InUse s p → p % 2 = e % 2 → p ≠ e →
        nxt s1 p = if nxt s p = e then nxt s e else nxt s p := by
  by_cases hfix : nxt s e = e
  · refine ⟨s, ?_, hw, rfl, rfl, hfix, ?_⟩
    · simp only [detach, WF.Onext_inUse hc hw he, Option.bind_eq_bind, Option.some_bind, hfix,
        ne_eq, not_true_eq_false, if_false, Option.pure_def]
    · intro p hp _ hpe
      rw [if_neg]
      intro h
      exact hpe (hw.inj p e hp he (h.trans hfix.symm))
  · have hub : InUse s (rotI (nxt s (rotI e))) := (hw.next _ he.rotI).2.1.rotI
    have hn1 := hw.next _ he.rotI
    have hr1 := rotI_mod2 e
    have hr2 := rotI_mod2 (nxt s (rotI e))
    have hpar : e % 2 = rotI (nxt s (rotI e)) % 2 := by omega
    obtain ⟨s1, hS, hp, hat, _⟩ := Splice_spec hc hw he hub hpar
    obtain ⟨hw1, _, _, hnx⟩ := Splice_WF hc hw he hub hpar hS
    have hback := hw.nxt_oprev he
    refine ⟨s1, ?_, hw1, hp, hat, ?_, ?_⟩
    · have hne : (some (nxt s e) : Ptr) ≠ some e := by
        intro h; exact hfix (by simpa using h)
      simp only [detach, WF.Onext_inUse hc hw he, Option.bind_eq_bind, Option.some_bind, ne_eq,
        hne, not_false_eq_true, if_true, WF.Oprev_inUse hc hw he, hS]
    · rw [hnx, spliceSwap_a, hback]
    · intro p hp' hpp hpe
      have hepar := (hw.next e he).2.2
      have hr3 := rotI_mod2 (nxt s e)
      by_cases hpb : p = rotI (nxt s (rotI e))
      · rw [hnx, hpb, spliceSwap_b, hback, if_pos rfl]
      · rw [hnx, spliceSwap_other hpe hpb (by omega) (by rw [hback]; omega), if_neg]
        intro h
        exact hpb (hw.inj p _ hp' hub (h.trans hback.symm))

/-- The release of an isolated bundle: the slot goes back on the free stack, the bundle and its
attribute word are zero-filled and every other record is left as it was. -/
theorem release_spec {s : EdgeStore} {st : List Nat} (hc : s.pool.chunk0 = some st)
    (hw : WF s st) {e : Nat} (he : InUse s e) (h1 : nxt s e = e)
    (h2 : nxt s (symI e) = symI e) :
    ∃ s', release s (some e) = some s' ∧
      s'.pool = ({ s.pool with chunk0 := some (e / 4 :: st) } : MemoryPool).Shrink ∧
      WF s' (e / 4 :: st) ∧ st.length < s.pool.numElementsPerChunk ∧
      (∀ q, IsFree (s'.attr q) = if q = e / 4 then true else IsFree (s.attr q)) ∧
      (∀ p, p / 4 ≠ e / 4 → s'.edge p = s.edge p) ∧
      (∀ p, p / 4 = e / 4 → s'.edge p = Edge.zero) ∧ s'.attr (e / 4) = 0 := by
  have hq : e / 4 < s.pool.numElementsPerChunk := by have := he.1; omega
  have hlen : st.length < s.pool.numElementsPerChunk := by
    have hcount := hw.count
    have hmem : e / 4 ∈ (List.range s.pool.numElementsPerChunk).filter
        (fun q => ! IsFree (s.attr q)) := by
      rw [List.mem_filter, List.mem_range]
      exact ⟨hq, by rw [he.2]; rfl⟩
    have := List.length_pos_of_mem hmem
    omega
  obtain ⟨s', hs'⟩ : ∃ s' : EdgeStore, s' =
      ⟨({ s.pool with chunk0 := some (e / 4 :: st) } : MemoryPool).Shrink,
        upd (upd (upd (upd s.edge (4 * (e / 4)) Edge.zero) (4 * (e / 4) + 1) Edge.zero)
          (4 * (e / 4) + 2) Edge.zero) (4 * (e / 4) + 3) Edge.zero,
        upd (upd s.attr (e / 4) (SetFree (s.attr (e / 4)))) (e / 4) 0⟩ := ⟨_, rfl⟩
  have hpool : s'.pool.numElementsPerChunk = s.pool.numElementsPerChunk := by
    rw [hs']; simp only [MemoryPool.Shrink]; split <;> rfl
  have hattr : ∀ q, IsFree (s'.attr q) = if q = e / 4 then true else IsFree (s.attr q) := by
    intro q; rw [hs']; exact IsFree_upd_zero _ _ _ _
  have hzero : ∀ p, p / 4 = e / 4 → s'.edge p = Edge.zero := by
    intro p hp
    rw [hs']
    show upd (upd (upd (upd s.edge _ _) _ _) _ _) _ _ p = _
    unfold upd
    split
    · rfl
    · split
      · rfl
      · split
        · rfl
        · split
          · rfl
          · omega
  have hother : ∀ p, p / 4 ≠ e / 4 → s'.edge p = s.edge p := by
    intro p hp
    rw [hs']
    show upd (upd (upd (upd s.edge _ _) _ _) _ _) _ _ p = _
    unfold upd
    rw [if_neg (by omega), if_neg (by omega), if_neg (by omega), if_neg (by omega)]
  refine ⟨s', ?_, by rw [hs'], ?_, hlen, hattr, hother, hzero, ?_⟩
  · simp only [release, Qedge_of_num (WF.alive hc) he.1 (hw.num e he), Option.bind_eq_bind,
      Option.some_bind, MemoryPool.DeleteObject, hc, hq, hlen, if_true, Option.pure_def]
    rw [hs']
  · exact WF_push hw he h1 h2 hpool hattr (fun p hp => by rw [hzero p hp]; rfl) hother
  · rw [hs']; show upd _ _ _ _ = 0; exact upd_same _ _ _

/-- `Delete(e)` on an in-use record of a well-formed store. -/
theorem Delete_spec {s : EdgeStore} {st : List Nat} (hc : s.pool.chunk0 = some st)
    (hw : WF s st) {e : Nat} (he : InUse s e) :
    ∃ s', Delete s (some e) = some s' ∧
      s'.pool = ({ s.pool with chunk0 := some (e / 4 :: st) } : MemoryPool).Shrink ∧
      WF s' (e / 4 :: st) ∧ st.length < s.pool.numElementsPerChunk ∧
      (∀ q, IsFree (s'.attr q) = if q = e / 4 then true else IsFree (s.attr q)) ∧
      s'.attr (e / 4) = 0 ∧ (∀ p, p / 4 = e / 4 → s'.edge p = Edge.zero) ∧
      ∀ p, InUse s p → p / 4 ≠ e / 4 → p % 2 = e % 2 →
        nxt s' p = skipNext s e (symI e) p := by
  have hf : InUse s (symI e) := he.symI
  have hfe := symI_ne e
  have hpf := symI_mod2 e
  obtain ⟨s1, hd1, hw1, hp1, hat1, hfix1, hn1⟩ := detach_spec hc hw he
  have hc1 : s1.pool.chunk0 = some st := by rw [hp1]; exact hc
  have hiu1 : ∀ p, InUse s1 p ↔ InUse s p := InUse.congr hp1 hat1
  obtain ⟨s2, hd2, hw2, hp2, hat2, hfix2, hn2⟩ := detach_spec hc1 hw1 ((hiu1 _).2 hf)
  have hc2 : s2.pool.chunk0 = some st := by rw [hp2]; exact hc1
  have hiu2 : ∀ p, InUse s2 p ↔ InUse s p := fun p => (InUse.congr hp2 hat2 p).trans (hiu1 p)
  have hfix1' : nxt s2 e = e := by
    rw [hn2 e ((hiu1 _).2 he) (by omega) (Ne.symm hfe), hfix1, if_neg (Ne.symm hfe)]
  obtain ⟨s', hr, hp', hw', hlen, hattr, hother, hzero, ha0⟩ :=
    release_spec hc2 hw2 ((hiu2 _).2 he) hfix1' hfix2
  refine ⟨s', ?_, ?_, hw', ?_, ?_, ha0, hzero, ?_⟩
  · simp only [Delete, WF.Sym_inUse hc hw he, Option.bind_eq_bind, Option.some_bind, hd1, hd2,
      hr]
  · rw [hp', hp2, hp1]
  · rw [hp2, hp1] at hlen; exact hlen
  · intro q; rw [hattr, hat2, hat1]
  · intro p hp hpq hpp
    have hpe : p ≠ e := by intro h; exact hpq (by rw [h])
    have hpf' : p ≠ symI e := by intro h; apply hpq; rw [h, symI_div]
    have e1 : nxt s' p = nxt s2 p := by unfold nxt; rw [hother p hpq]
    have e2 := hn2 p ((hiu1 _).2 hp) (by omega) hpf'
    have e3 := hn1 p hp hpp hpe
    have e4 := hn1 (symI e) hf hpf hfe
    have hinj : ∀ x y, InUse s x → InUse s y → nxt s x = nxt s y → x = y := hw.inj
    have hxp := (hw.next p hp).2.1
    rw [e1, e2, e3, e4]
    unfold skipNext
    by_cases c1 : nxt s p = e
    · have c2 : nxt s e ≠ e := by
        intro h; exact hpe (hinj p e hp he (c1.trans h.symm))
      have c3 : nxt s (symI e) ≠ e := by
        intro h; exact hpf' (hinj p _ hp hf (c1.trans h.symm))
      by_cases c4 : nxt s e = symI e
      · have c5 : nxt s (symI e) ≠ symI e := by
          intro h; exact hfe (hinj _ _ hf he (h.trans c4.symm))
        simp [c1, c2, c3, c4, c5, hfe, Ne.symm hfe]
      · simp [c1, c2, c3, c4, hfe, Ne.symm hfe]
    · by_cases c2 : nxt s p = symI e
      · have c3 : nxt s (symI e) ≠ symI e := by
          intro h; exact hpf' (hinj p _ hp hf (c2.trans h.symm))
        by_cases c4 : nxt s (symI e) = e
        · have c5 : nxt s e ≠ e := by
            intro h; exact hfe (hinj _ _ hf he (c4.trans h.symm))
          have c6 : nxt s e ≠ symI e := by
            intro h; exact hpe (hinj p e hp he (c2.trans h.symm))
          simp [c1, c2, c3, c4, c5, c6, hfe, Ne.symm hfe]
        · simp [c1, c2, c3, c4, hfe, Ne.symm hfe]
      · simp [c1, c2]

/-! ## The stores built from the empty pool -/

theorem mem_of_nodup_full {l : List Nat} {n : Nat} (hnd : l.Nodup) (hlt : ∀ x ∈ l, x < n)
    (hlen : l.length = n) : ∀ i, i < n → i ∈ l := by
  intro i hi
  have hsub : l.toFinset ⊆ Finset.range n := by
    intro x hx
    rw [Finset.mem_range]
    exact hlt x (List.mem_toFinset.1 hx)
  have hcard : (Finset.range n).card ≤ l.toFinset.card := by
    rw [List.toFinset_card_of_nodup hnd, Finset.card_range, hlen]
  have := Finset.eq_of_subset_of_card_le hsub hcard
  have hmem : i ∈ l.toFinset := by rw [this]; exact Finset.mem_range.2 hi
  exact List.mem_toFinset.1 hmem

theorem Built.chunk {s : EdgeStore} (hB : Built s) {p : Nat} (hp : InUse s p) :
    ∃ st, s.pool.chunk0 = some st ∧ WF s st := by
  cases h : s.pool.chunk0 with
  | none => exact absurd hp (hB.2.1 h p)
  | some st => exact ⟨st, rfl, hB.1 st h⟩

theorem Built.wellFormed {s : EdgeStore} (hB : Built s) {p : Nat} (hp : InUse s p) :
    WellFormed s := by
  obtain ⟨st, hc, hw⟩ := hB.chunk hp
  exact ⟨st, hc, hB.2.2 (by rw [hc]; rfl), hw⟩

theorem Built_init (cap : Nat) : Built (EdgeStore.init cap) := by
  refine ⟨(Inv_init cap).1, ?_, ?_⟩
  · intro _ p hp
    have := hp.2
    exact Bool.noConfusion (IsFree_zero.symm.trans this)
  · intro h; exact absurd h (by simp [EdgeStore.init, MemoryPool.init])

theorem MakeEdge_pool {s s' : EdgeStore} {e : Ptr} (h : MakeEdge s = some (e, s')) :
    s'.pool.chunk0.isSome = true ∧ s'.pool.chunkToUse.isSome = true := by
  unfold MakeEdge at h
  cases hcu : s.pool.chunkToUse with
  | some u =>
    cases hc0 : s.pool.chunk0 with
    | none => simp [MemoryPool.NewObject, hcu, hc0] at h
    | some st =>
      cases st with
      | nil => simp [MemoryPool.NewObject, hcu, hc0] at h
      | cons a rest =>
        simp only [MemoryPool.NewObject, hcu, hc0, Option.isNone_some, Bool.false_eq_true,
          if_false, Option.some.injEq, Prod.mk.injEq] at h
        obtain ⟨_, rfl⟩ := h
        exact ⟨rfl, by simp [hcu]⟩
  | none =>
    cases hl : (List.range s.pool.numElementsPerChunk).reverse with
    | nil => simp [MemoryPool.NewObject, MemoryPool.CreateChunk, hcu, hl] at h
    | cons a rest =>
      simp only [MemoryPool.NewObject, MemoryPool.CreateChunk, hcu, hl, Option.isNone_none,
        if_true, Option.some.injEq, Prod.mk.injEq] at h
      obtain ⟨_, rfl⟩ := h
      exact ⟨rfl, rfl⟩

theorem Built_of_live {s : EdgeStore} (hI : Inv s) (h1 : s.pool.chunk0.isSome = true)
    (h2 : s.pool.chunkToUse.isSome = true) : Built s := by
  refine ⟨hI, ?_, fun _ => h2⟩
  intro h; rw [h] at h1; exact absurd h1 (by decide)

theorem MakeEdge_built {s s' : EdgeStore} {e : Ptr} (hB : Built s)
    (h : MakeEdge s = some (e, s')) : Built s' :=
  Built_of_live (MakeEdge_inv hB.1 h).1 (MakeEdge_pool h).1 (MakeEdge_pool h).2

theorem Splice_built {s s' : EdgeStore} {a b : Nat} (hB : Built s) (hpar : a % 2 = b % 2)
    (h : Splice s (some a) (some b) = some s') : Built s' := by
  obtain ⟨pa, pb, st, ha, hb, hc, hua, hub⟩ := Splice_inUse hB.1 h
  obtain rfl : a = pa := by simpa using ha
  obtain rfl : b = pb := by simpa using hb
  obtain ⟨hw', hp, _, _⟩ := Splice_WF hc (hB.1 st hc) hua hub hpar h
  refine Built_of_live ?_ (by rw [hp, hc]; rfl) (by rw [hp]; exact hB.2.2 (by rw [hc]; rfl))
  intro st' hc'
  rw [hp, hc] at hc'
  obtain rfl : st = st' := by simpa using hc'
  exact hw'

theorem Connect_built {s s' : EdgeStore} {a b : Nat} {e : Ptr} (hB : Built s)
    (hpa : a % 2 = 0) (hpb : b % 2 = 0) (h : Connect s (some a) (some b) = some (e, s')) :
    Built s' := by
  have hI' := (Connect_inv hB.1 (EvenPtr_some hpa) (EvenPtr_some hpb) h).1
  simp only [Connect, Option.bind_eq_bind, Option.bind_eq_some] at h
  obtain ⟨⟨e1, s1⟩, hm, h⟩ := h
  simp only [Option.bind_eq_some] at h
  obtain ⟨d, _, s2, ho, o, _, s3, hd, y, hy, s4, hS1, f, hf, s5, hS2, hres⟩ := h
  simp only [Option.pure_def, Option.some.injEq, Prod.mk.injEq] at hres
  obtain ⟨rfl, rfl⟩ := hres
  obtain ⟨hI1, he1, _⟩ := MakeEdge_inv hB.1 hm
  obtain ⟨hI2, hp2, _⟩ := Org_Set_inv hI1 ho
  obtain ⟨hI3, hp3, _⟩ := Dest_Set_inv hI2 hd
  have hy' := Lnext_even hI3 hy (EvenPtr_some hpa)
  obtain ⟨hI4, hp4, _⟩ := Splice_inv hI3 he1 hy' hS1
  have hf' := Sym_even hf he1
  obtain ⟨hI5, hp5, _⟩ := Splice_inv hI4 hf' (EvenPtr_some hpb) hS2
  have hp : s5.pool = s1.pool := by rw [hp5, hp4, hp3, hp2]
  exact Built_of_live hI' (by rw [hp]; exact (MakeEdge_pool hm).1)
    (by rw [hp]; exact (MakeEdge_pool hm).2)

theorem Delete_built {s s' : EdgeStore} {e : Nat} (hB : Built s) (he : InUse s e)
    (h : Delete s (some e) = some s') : Built s' := by
  obtain ⟨st, hc, hw⟩ := hB.chunk he
  obtain ⟨s'', hD, hp, hw', hlen, hattr, _, _, _⟩ := Delete_spec hc hw he
  rw [h] at hD
  obtain rfl : s' = s'' := by simpa using hD
  have hcap : s'.pool.numElementsPerChunk = s.pool.numElementsPerChunk := by
    rw [hp]; simp only [MemoryPool.Shrink]; split <;> rfl
  by_cases hfull : (e / 4 :: st).length = s.pool.numElementsPerChunk
  · have hc' : s'.pool.chunk0 = none := by
      rw [hp]; simp only [MemoryPool.Shrink]; rw [if_pos hfull]
    refine ⟨?_, ?_, ?_⟩
    · intro st' h'; rw [hc'] at h'; exact absurd h' (by simp)
    · intro _ p hp'
      have hq : p / 4 < s'.pool.numElementsPerChunk := by have := hp'.1; omega
      have hall := mem_of_nodup_full hw'.nodup
        (fun x hx => ((hw'.mem_free x).1 hx).1) (by rw [hfull, hcap]) (p / 4) hq
      have := ((hw'.mem_free _).1 hall).2
      rw [hp'.2] at this
      exact Bool.noConfusion this
    · intro h'; rw [hc'] at h'; exact absurd h' (by decide)
  · have hc' : s'.pool.chunk0 = some (e / 4 :: st) := by
      rw [hp]; simp only [MemoryPool.Shrink]; rw [if_neg hfull]
    have hu : s'.pool.chunkToUse = s.pool.chunkToUse := by
      rw [hp]; simp only [MemoryPool.Shrink]; rw [if_neg hfull]
    refine Built_of_live ?_ (by rw [hc']; rfl) (by rw [hu]; exact hB.2.2 (by rw [hc]; rfl))
    intro st' h'
    rw [hc'] at h'
    obtain rfl : e / 4 :: st = st' := by simpa using h'
    exact hw'

theorem apply_built {s s' : EdgeStore} {op : EdgeOp} (hB : Built s) (hop : op.Primal)
    (h : op.apply s = some s') : Built s' := by
  cases op with
  | makeEdge =>
    simp only [EdgeOp.apply, Option.map_eq_some'] at h
    obtain ⟨⟨e, s1⟩, h1, h2⟩ := h
    simp only at h2
    subst h2
    exact MakeEdge_built hB h1
  | splice a b =>
    simp only [EdgeOp.apply] at h
    split at h
    · rename_i hc
      exact Splice_built hB hc.2.2 h
    · simp at h
  | connect a b =>
    simp only [EdgeOp.apply] at h
    split at h
    · simp only [Option.map_eq_some'] at h
      obtain ⟨⟨e, s1⟩, h1, h2⟩ := h
      simp only at h2
      subst h2
      exact Connect_built hB hop.1 hop.2 h1
    · simp at h
  | delete e =>
    simp only [EdgeOp.apply] at h
    split at h
    · rename_i hc
      exact Delete_built hB hc h
    · simp at h

/-- Every store built from the empty pool, with `Connect` on primal records, satisfies the
invariant. -/
theorem buildEdges_built (cap : Nat) (ops : List EdgeOp) (hprimal : ∀ op ∈ ops, op.Primal)
    {s : EdgeStore} (h : buildEdges cap ops = some s) : Built s := by
  unfold buildEdges at h
  have key : ∀ (l : List EdgeOp) (a b : EdgeStore), (∀ op ∈ l, op.Primal) → Built a →
      l.foldlM EdgeOp.apply a = some b → Built b := by
    intro l
    induction l with
    | nil =>
      intro a b _ hB h
      simp only [List.foldlM_nil, Option.pure_def, Option.some.injEq] at h
      subst h; exact hB
    | cons op l ih =>
      intro a b hpr hB h
      simp only [List.foldlM_cons, Option.bind_eq_bind, Option.bind_eq_some] at h
      obtain ⟨c, hc, h⟩ := h
      exact ih c b (fun o ho => hpr o (List.mem_cons_of_mem _ ho))
        (apply_built hB (hpr op (List.mem_cons_self _ _)) hc) h
  exact key ops _ _ hprimal (Built_init cap) h

/-! ## The derived operators on in-use records -/

theorem Lprev_inUse {s : EdgeStore} {st : List Nat} (hc : s.pool.chunk0 = some st)
    (hw : WF s st) {j : Nat} (hj : InUse s j) :
    Lprev s (some j) = some (some (symI (nxt s j))) := by
  simp only [Lprev, Option.bind_eq_bind, WF.Onext_inUse hc hw hj, Option.some_bind]
  exact WF.Sym_inUse hc hw (hw.next _ hj).2.1

theorem Rnext_inUse {s : EdgeStore} {st : List Nat} (hc : s.pool.chunk0 = some st)
    (hw : WF s st) {j : Nat} (hj : InUse s j) :
    Rnext s (some j) = some (some (torI (nxt s (rotI j)))) := by
  simp only [Rnext, Option.bind_eq_bind, WF.Rot_inUse hc hw hj, Option.some_bind,
    WF.Onext_inUse hc hw hj.rotI]
  exact WF.Tor_inUse hc hw (hw.next _ hj.rotI).2.1

theorem Rprev_inUse {s : EdgeStore} {st : List Nat} (hc : s.pool.chunk0 = some st)
    (hw : WF s st) {j : Nat} (hj : InUse s j) :
    Rprev s (some j) = some (some (nxt s (symI j))) := by
  simp only [Rprev, Option.bind_eq_bind, WF.Sym_inUse hc hw hj, Option.some_bind]
  exact WF.Onext_inUse hc hw hj.symI

theorem Dnext_inUse {s : EdgeStore} {st : List Nat} (hc : s.pool.chunk0 = some st)
    (hw : WF s st) {j : Nat} (hj : InUse s j) :
    Dnext s (some j) = some (some (symI (nxt s (symI j)))) := by
  simp only [Dnext, Option.bind_eq_bind, WF.Sym_inUse hc hw hj, Option.some_bind,
    WF.Onext_inUse hc hw hj.symI]
  exact WF.Sym_inUse hc hw (hw.next _ hj.symI).2.1

theorem Dprev_inUse {s : EdgeStore} {st : List Nat} (hc : s.pool.chunk0 = some st)
    (hw : WF s st) {j : Nat} (hj : InUse s j) :
    Dprev s (some j) = some (some (torI (nxt s (torI j)))) := by
  simp only [Dprev, Option.bind_eq_bind, WF.Tor_inUse hc hw hj, Option.some_bind,
    WF.Onext_inUse hc hw hj.torI]
  exact WF.Tor_inUse hc hw (hw.next _ hj.torI).2.1

theorem torI_symI (x : Nat) : torI (symI x) = rotI x := by
  unfold torI symI rotI; split <;> split <;> split <;> omega

theorem symI_torI (x : Nat) : symI (torI x) = rotI x := by
  unfold torI symI rotI; split <;> split <;> split <;> omega

theorem torI_torI (x : Nat) : torI (torI x) = symI x := by
  unfold torI symI; split <;> split <;> split <;> omega

theorem WF.nxt_rot_nxt {s : EdgeStore} {st : List Nat} (hw : WF s st) {i : Nat}
    (hi : InUse s i) : nxt s (rotI (nxt s i)) = torI i := by
  have h := congrArg torI (hw.e8 i hi)
  rwa [torI_rotI] at h

/-- The laws of the edge algebra on an in-use record of a well-formed store: `Onext` stays
among the in-use records, keeps the parity, is one-to-one and onto, and the derived operators
are inverse to each other. -/
theorem WF.algebra {s : EdgeStore} {st : List Nat} (hc : s.pool.chunk0 = some st)
    (hw : WF s st) {p : Nat} (hp : InUse s p) :
    (∃ q, Onext s (some p) = some (some q) ∧ InUse s q ∧ q % 2 = p % 2) ∧
    (∀ r, InUse s r → Onext s (some r) = Onext s (some p) → r = p) ∧
    (∃ r, InUse s r ∧ Onext s (some r) = some (some p)) ∧
    (((Rot s (some p)).bind (Onext s)).bind (Rot s)).bind (Onext s) = some (some p) ∧
    (Onext s (some p)).bind (Oprev s) = some (some p) ∧
    (Oprev s (some p)).bind (Onext s) = some (some p) ∧
    (Lnext s (some p)).bind (Lprev s) = some (some p) ∧
    (Lprev s (some p)).bind (Lnext s) = some (some p) ∧
    (Rnext s (some p)).bind (Rprev s) = some (some p) ∧
    (Rprev s (some p)).bind (Rnext s) = some (some p) ∧
    (Dnext s (some p)).bind (Dprev s) = some (some p) ∧
    (Dprev s (some p)).bind (Dnext s) = some (some p) := by
  obtain ⟨g1, g2, g3⟩ := hw.next p hp
  have hR := hp.rotI
  have hT := hp.torI
  have hS := hp.symI
  have nR := (hw.next _ hR).2.1
  have nT := (hw.next _ hT).2.1
  have nS := (hw.next _ hS).2.1
  have back := hw.nxt_oprev hp
  have e8 := hw.e8 p hp
  have backS : nxt s (rotI (nxt s (torI p))) = symI p := by
    have := hw.nxt_oprev hS
    rwa [rotI_symI] at this
  have fwdS : nxt s (rotI (nxt s (symI p))) = rotI p := by
    have := hw.nxt_rot_nxt hS
    rwa [torI_symI] at this
  refine ⟨⟨nxt s p, WF.Onext_inUse hc hw hp, g2, g3⟩, ?_, ?_, ?_, ?_, ?_, ?_, ?_, ?_, ?_, ?_, ?_⟩
  · intro r hr h
    rw [WF.Onext_inUse hc hw hr, WF.Onext_inUse hc hw hp] at h
    exact hw.inj r p hr hp (by simpa using h)
  · exact ⟨rotI (nxt s (rotI p)), nR.rotI, by rw [WF.Onext_inUse hc hw nR.rotI, back]⟩
  · rw [WF.Rot_inUse hc hw hp, Option.some_bind, WF.Onext_inUse hc hw hR, Option.some_bind,
      WF.Rot_inUse hc hw nR, Option.some_bind, WF.Onext_inUse hc hw nR.rotI, back]
  · rw [WF.Onext_inUse hc hw hp, Option.some_bind, WF.Oprev_inUse hc hw g2, e8]
  · rw [WF.Oprev_inUse hc hw hp, Option.some_bind, WF.Onext_inUse hc hw nR.rotI, back]
  · rw [Lnext_inUse hc hw hp, Option.some_bind, Lprev_inUse hc hw nT.rotI, backS, symI_symI]
  · rw [Lprev_inUse hc hw hp, Option.some_bind, Lnext_inUse hc hw g2.symI, torI_symI, e8]
  · rw [Rnext_inUse hc hw hp, Option.some_bind, Rprev_inUse hc hw nR.torI, symI_torI, back]
  · rw [Rprev_inUse hc hw hp, Option.some_bind, Rnext_inUse hc hw nS, fwdS, torI_rotI]
  · rw [Dnext_inUse hc hw hp, Option.some_bind, Dprev_inUse hc hw nS.symI, torI_symI, fwdS,
      torI_rotI]
  · rw [Dprev_inUse hc hw hp, Option.some_bind, Dnext_inUse hc hw nT.torI, symI_torI, backS,
      symI_symI]

set_option maxRecDepth 1000000 in
/-- C34 (counterexample): an edge pool of capacity 2; `MakeEdge` gives the quad-edge with the
records 4 to 7, and `Connect(a, a)` on its in-use dual record `a` = `m_e[1]` (record 5) gives
the quad-edge with the records 0 to 3.  In the structure reached, the in-use record 0 has role
index 0 and its `Onext` is record 7, of role index 3: `Onext` does not keep the role parity. -/
theorem C34_connect_on_dual_records :
    (buildEdges 2 [EdgeOp.makeEdge, EdgeOp.connect 5 5]).map
        (fun s => (decide (InUse s 0), Onext s (some 0), (s.edge 0).m_num, (s.edge 7).m_num))
      = some (true, some (some 7), 0, 3) := by
  decide

/-- C34 (amended): in every edge structure reached from the empty pool through `MakeEdge`,
`Splice(a, b)` on two in-use records of equal role parity, `Connect(a, b)` on two in-use primal
records and `Delete(e)` on an in-use record, `Onext` maps the records of the in-use quad-edges
one-to-one onto themselves and keeps the role parity, every such record `e` satisfies
`e.Rot().Onext().Rot().Onext() = e`, `Oprev` is the inverse of `Onext`, and `Lprev`, `Rprev`,
`Dprev` are the inverses of `Lnext`, `Rnext`, `Dnext`. -/
theorem C34_onext_bijection (cap : Nat) (ops : List EdgeOp) (s : EdgeStore)
    (hprimal : ∀ op ∈ ops, op.Primal) (h : buildEdges cap ops = some s) (p : Nat)
    (hp : InUse s p) :
    (∃ q, Onext s (some p) = some (some q) ∧ InUse s q ∧ q % 2 = p % 2) ∧
    (∀ r, InUse s r → Onext s (some r) = Onext s (some p) → r = p) ∧
    (∃ r, InUse s r ∧ Onext s (some r) = some (some p)) ∧
    (((Rot s (some p)).bind (Onext s)).bind (Rot s)).bind (Onext s) = some (some p) ∧
    (Onext s (some p)).bind (Oprev s) = some (some p) ∧
    (Oprev s (some p)).bind (Onext s) = some (some p) ∧
    (Lnext s (some p)).bind (Lprev s) = some (some p) ∧
    (Lprev s (some p)).bind (Lnext s) = some (some p) ∧
    (Rnext s (some p)).bind (Rprev s) = some (some p) ∧
    (Rprev s (some p)).bind (Rnext s) = some (some p) ∧
    (Dnext s (some p)).bind (Dprev s) = some (some p) ∧
    (Dprev s (some p)).bind (Dnext s) = some (some p) := by
  obtain ⟨st, hc, hw⟩ := (buildEdges_built cap ops hprimal h).chunk hp
  exact WF.algebra hc hw hp

theorem WellFormed.inv {s : EdgeStore} (hW : WellFormed s) : Built s := by
  obtain ⟨st, hc, hu, hw⟩ := hW
  refine Built_of_live ?_ (by rw [hc]; rfl) hu
  intro st' hc'
  rw [hc] at hc'
  obtain rfl : st = st' := by simpa using hc'
  exact hw

/-- C35: on a well-formed edge structure whose pool has a free slot, for in-use primal records
`a` and `b`, `Connect(a, b)` returns a record `e` of a quad-edge that was free before, exactly
that quad-edge is allocated (the free count falls by one), and afterwards `e.Org() = a.Dest()`,
`e.Dest() = b.Org()`, `a.Lnext() = e` and `e.Lnext() = b`. -/
theorem C35_connect (s : EdgeStore) (hW : WellFormed s) (a b : Nat) (ha : InUse s a)
    (hb : InUse s b) (hpa : a % 2 = 0) (hpb : b % 2 = 0) (hfree : 0 < s.pool.GetNumFree) :
    ∃ e s', Connect s (some a) (some b) = some (some e, s') ∧ WellFormed s' ∧
      ¬ InUse s e ∧ e % 4 = 0 ∧ (∀ p, InUse s' p ↔ (InUse s p ∨ p / 4 = e / 4)) ∧
      s'.pool.GetNumFree + 1 = s.pool.GetNumFree ∧
      Org s' (some e) = Dest s (some a) ∧ Dest s' (some e) = Org s (some b) ∧
      Lnext s' (some a) = some (some e) ∧ Lnext s' (some e) = some (some b) := by
  obtain ⟨st, hc, hu, hw⟩ := hW
  cases st with
  | nil => simp [MemoryPool.GetNumFree, hc] at hfree
  | cons q rest =>
    obtain ⟨s', hC, hp, hw', hiu, hd0, hd2, hT, hL⟩ := Connect_spec hc hu hw ha hb hpa hpb
    have hc' : s'.pool.chunk0 = some rest := by rw [hp]
    have hfq := (hw.mem_free q).1 (List.mem_cons_self q rest)
    have hE : InUse s' (4 * q) := (hiu _).2 (Or.inr (by omega))
    have ha' : InUse s' a := (hiu a).2 (Or.inl ha)
    refine ⟨4 * q, s', hC, ⟨rest, hc', by rw [hp]; exact hu, hw'⟩, ?_, by omega, ?_, ?_, ?_, ?_,
      ?_, ?_⟩
    · intro h
      have h2 := h.2
      rw [show 4 * q / 4 = q by omega, hfq.2] at h2
      exact Bool.noConfusion h2
    · intro p; rw [hiu p, show 4 * q / 4 = q by omega]
    · simp [MemoryPool.GetNumFree, hc, hc']
    · rw [Org_inUse hc' hE, hd0, Dest_inUse hc hw ha]
    · rw [Dest_inUse hc' hw' hE, symI_base, hd2, Org_inUse hc hb]
    · rw [Lnext_inUse hc' hw' ha', hT, rotI_base3]
    · rw [Lnext_inUse hc' hw' hE, torI_base, hL]

/-- C36: on a well-formed edge structure, for in-use records `a` and `b` of equal role parity,
`Splice(a, b)` done twice returns and gives back the structure it started from, so every
`Onext` pointer is restored. -/
theorem C36_splice_twice (s : EdgeStore) (hW : WellFormed s) (a b : Nat) (ha : InUse s a)
    (hb : InUse s b) (hpar : a % 2 = b % 2) :
    ∃ s1 s2, Splice s (some a) (some b) = some s1 ∧ Splice s1 (some a) (some b) = some s2 ∧
      (∀ p, Onext s2 (some p) = Onext s (some p)) ∧ s2 = s := by
  obtain ⟨st, hc, _, hw⟩ := hW
  obtain ⟨s1, h1, h2⟩ := Splice_twice hc hw ha hb hpar
  exact ⟨s1, s, h1, h2, fun _ => rfl, rfl⟩

theorem wellFormed_of_inv {s : EdgeStore} (hI : Inv s) (h1 : s.pool.chunk0.isSome = true)
    (h2 : s.pool.chunkToUse.isSome = true) : WellFormed s := by
  obtain ⟨st, hc⟩ := alive_some h1
  exact ⟨st, hc, h2, hI st hc⟩

set_option maxRecDepth 1000000 in
/-- C34 (witness): capacity 4; two quad-edges are made, joined by `Connect(12, 8)`, a third
quad-edge is made and spliced in at record 4, and the quad-edge of record 8 is deleted.  Record
0 is in use in the structure reached. -/
theorem C34_onext_bijection_witness :
    (∀ op ∈ [EdgeOp.makeEdge, EdgeOp.makeEdge, EdgeOp.connect 12 8, EdgeOp.makeEdge,
        EdgeOp.splice 0 4, EdgeOp.delete 8], op.Primal) ∧
    ∃ s, buildEdges 4 [EdgeOp.makeEdge, EdgeOp.makeEdge, EdgeOp.connect 12 8, EdgeOp.makeEdge,
        EdgeOp.splice 0 4, EdgeOp.delete 8] = some s ∧ InUse s 0 ∧
      Onext s (some 0) = some (some 14) ∧
      ((∃ q, Onext s (some 0) = some (some q) ∧ InUse s q ∧ q % 2 = 0 % 2) ∧
      (∀ r, InUse s r → Onext s (some r) = Onext s (some 0) → r = 0) ∧
      (∃ r, InUse s r ∧ Onext s (some r) = some (some 0)) ∧
      (((Rot s (some 0)).bind (Onext s)).bind (Rot s)).bind (Onext s) = some (some 0) ∧
      (Onext s (some 0)).bind (Oprev s) = some (some 0) ∧
      (Oprev s (some 0)).bind (Onext s) = some (some 0) ∧
      (Lnext s (some 0)).bind (Lprev s) = some (some 0) ∧
      (Lprev s (some 0)).bind (Lnext s) = some (some 0) ∧
      (Rnext s (some 0)).bind (Rprev s) = some (some 0) ∧
      (Rprev s (some 0)).bind (Rnext s) = some (some 0) ∧
      (Dnext s (some 0)).bind (Dprev s) = some (some 0) ∧
      (Dprev s (some 0)).bind (Dnext s) = some (some 0)) :=
  match h : buildEdges 4 [EdgeOp.makeEdge, EdgeOp.makeEdge, EdgeOp.connect 12 8,
      EdgeOp.makeEdge, EdgeOp.splice 0 4, EdgeOp.delete 8] with
  | some s =>
    have key : (buildEdges 4 [EdgeOp.makeEdge, EdgeOp.makeEdge, EdgeOp.connect 12 8,
        EdgeOp.makeEdge, EdgeOp.splice 0 4, EdgeOp.delete 8]).map
        (fun s => (decide (InUse s 0), Onext s (some 0))) = some (true, some (some 14)) := by
      decide
    have hk : InUse s 0 ∧ Onext s (some 0) = some (some 14) := by
      rw [h] at key
      simpa using key
    ⟨by decide, s, rfl, hk.1, hk.2, C34_onext_bijection 4 _ s (by decide) h 0 hk.1⟩
  | none => by
    have : (buildEdges 4 [EdgeOp.makeEdge, EdgeOp.makeEdge, EdgeOp.connect 12 8,
        EdgeOp.makeEdge, EdgeOp.splice 0 4, EdgeOp.delete 8]).isSome = true := by decide
    rw [h] at this
    exact absurd this (by decide)

set_option maxRecDepth 1000000 in
/-- C36 (witness): capacity 3 with two quad-edges made by `MakeEdge`; `Splice(8, 4)` joins the
two origin rings and a second `Splice(8, 4)` separates them again. -/
theorem C36_splice_twice_witness :
    ∃ s, buildEdges 3 [EdgeOp.makeEdge, EdgeOp.makeEdge] = some s ∧ WellFormed s ∧
      InUse s 8 ∧ InUse s 4 ∧ Onext s (some 8) = some (some 8) ∧
      ∃ s1 s2, Splice s (some 8) (some 4) = some s1 ∧ Splice s1 (some 8) (some 4) = some s2 ∧
        (∀ p, Onext s2 (some p) = Onext s (some p)) ∧ s2 = s :=
  match h : buildEdges 3 [EdgeOp.makeEdge, EdgeOp.makeEdge] with
  | some s =>
    have key : (buildEdges 3 [EdgeOp.makeEdge, EdgeOp.makeEdge]).map
        (fun s => (decide (InUse s 8), decide (InUse s 4), Onext s (some 8)))
        = some (true, true, some (some 8)) := by
      decide
    have hk : InUse s 8 ∧ InUse s 4 ∧ Onext s (some 8) = some (some 8) := by
      rw [h] at key
      simpa using key
    have hW : WellFormed s := (buildEdges_built 3 _ (by decide) h).wellFormed hk.1
    ⟨s, rfl, hW, hk.1, hk.2.1, hk.2.2, C36_splice_twice s hW 8 4 hk.1 hk.2.1 (by decide)⟩
  | none => by
    have : (buildEdges 3 [EdgeOp.makeEdge, EdgeOp.makeEdge]).isSome = true := by decide
    rw [h] at this
    exact absurd this (by decide)

set_option maxRecDepth 1000000 in
set_option maxHeartbeats 4000000 in
/-- C35 (witness): the sites (0,0), (4,0), (8,0) are triangulated into the chain of the edges
32 (site 0 to site 1) and 28 (site 1 to site 2); `Connect(28, 32)` adds the edge from site 2 to
site 0. -/
theorem C35_connect_witness :
    ∃ t, triangulate 30 [(0, 0), (4, 0), (8, 0)] 0 [] = some t ∧ WellFormed t.m_dEdge ∧
      InUse t.m_dEdge 28 ∧ InUse t.m_dEdge 32 ∧ 0 < t.m_dEdge.pool.GetNumFree ∧
      Dest t.m_dEdge (some 28) = some (some 2) ∧ Org t.m_dEdge (some 32) = some (some 0) ∧
      ∃ e s', Connect t.m_dEdge (some 28) (some 32) = some (some e, s') ∧ WellFormed s' ∧
        ¬ InUse t.m_dEdge e ∧ e % 4 = 0 ∧
        (∀ p, InUse s' p ↔ (InUse t.m_dEdge p ∨ p / 4 = e / 4)) ∧
        s'.pool.GetNumFree + 1 = t.m_dEdge.pool.GetNumFree ∧
        Org s' (some e) = Dest t.m_dEdge (some 28) ∧
        Dest s' (some e) = Org t.m_dEdge (some 32) ∧
        Lnext s' (some 28) = some (some e) ∧ Lnext s' (some e) = some (some 32) :=
  match h : triangulate 30 [(0, 0), (4, 0), (8, 0)] 0 [] with
  | some t =>
    have key : (triangulate 30 [(0, 0), (4, 0), (8, 0)] 0 []).map
        (fun t => ([decide (InUse t.m_dEdge 28), decide (InUse t.m_dEdge 32),
          t.m_dEdge.pool.chunk0.isSome, t.m_dEdge.pool.chunkToUse.isSome,
          decide (0 < t.m_dEdge.pool.GetNumFree)],
          [Dest t.m_dEdge (some 28), Org t.m_dEdge (some 32)]))
        = some ([true, true, true, true, true], [some (some 2), some (some 0)]) := by
      decide
    have hk : InUse t.m_dEdge 28 ∧ InUse t.m_dEdge 32 ∧ t.m_dEdge.pool.chunk0.isSome = true ∧
        t.m_dEdge.pool.chunkToUse.isSome = true ∧ 0 < t.m_dEdge.pool.GetNumFree ∧
        Dest t.m_dEdge (some 28) = some (some 2) ∧ Org t.m_dEdge (some 32) = some (some 0) := by
      rw [h] at key
      simpa [and_assoc] using key
    have hW : WellFormed t.m_dEdge :=
      wellFormed_of_inv (triangulate_spec h).1.1 hk.2.2.1 hk.2.2.2.1
    ⟨t, rfl, hW, hk.1, hk.2.1, hk.2.2.2.2.1, hk.2.2.2.2.2.1, hk.2.2.2.2.2.2,
      C35_connect t.m_dEdge hW 28 32 hk.1 hk.2.1 (by decide) (by decide) hk.2.2.2.2.1⟩
  | none => by
    have : (triangulate 30 [(0, 0), (4, 0), (8, 0)] 0 []).isSome = true := by decide
    rw [h] at this
    exact absurd this (by decide)

theorem DelaunayCalls_head : ∀ (fuel d sl sh : Nat) (c : List (Nat × Nat × Nat)),
    DelaunayCalls fuel d sl sh = some c → (d, sl, sh) ∈ c := by
  intro fuel
  cases fuel with
  | zero => intro d sl sh c h; simp [DelaunayCalls] at h
  | succ f =>
    intro d sl sh c h
    simp only [DelaunayCalls] at h
    split at h
    · obtain rfl : [(d, sl, sh)] = c := by simpa using h
      exact List.mem_singleton.2 rfl
    · split at h
      · obtain rfl : [(d, sl, sh)] = c := by simpa using h
        exact List.mem_singleton.2 rfl
      · split at h
        · simp at h
        · split at h
          · simp at h
          · obtain rfl := Option.some.inj h
            exact List.mem_cons_self _ _

theorem DelaunayCalls_mono : ∀ (fuel d sl sh : Nat) (c : List (Nat × Nat × Nat)),
    DelaunayCalls fuel d sl sh = some c → ∀ fuel', fuel ≤ fuel' →
      DelaunayCalls fuel' d sl sh = some c := by
  intro fuel
  induction fuel with
  | zero => intro d sl sh c h; simp [DelaunayCalls] at h
  | succ f ih =>
    intro d sl sh c h fuel' hle
    obtain ⟨g, rfl⟩ : ∃ g, fuel' = g + 1 := ⟨fuel' - 1, by omega⟩
    simp only [DelaunayCalls] at h ⊢
    split
    · rename_i h2; rw [if_pos h2] at h; exact h
    · rename_i h2
      rw [if_neg h2] at h
      split
      · rename_i h3; rw [if_pos h3] at h; exact h
      · rename_i h3
        rw [if_neg h3] at h
        cases hl : DelaunayCalls f (d + 1) sl ((sl + sh) / 2) with
        | none => rw [hl] at h; simp at h
        | some l =>
          rw [hl] at h
          cases hr : DelaunayCalls f (d + 1) ((sl + sh) / 2) sh with
          | none => rw [hr] at h; simp at h
          | some r =>
            rw [hr] at h
            rw [ih _ _ _ _ hl g (by omega), ih _ _ _ _ hr g (by omega)]
            exact h

theorem clog_half {n : Nat} (hn : 2 ≤ n) : Nat.clog 2 ((n + 1) / 2) + 1 = Nat.clog 2 n := by
  rw [Nat.clog_of_two_le (by decide) hn, show n + 2 - 1 = n + 1 by omega]

theorem clog_pos_of_two_le {n : Nat} (hn : 2 ≤ n) : 1 ≤ Nat.clog 2 n :=
  Nat.clog_pos (by decide) hn

/-- With fuel `ceil(log2(sh - sl))` the recursion below `Delaunay(sl, sh)`, `sh - sl >= 2`,
comes to an end, and every call in it is on a range of at least two sites inside `[sl, sh)`,
nested no deeper than `ceil(log2(sh - sl))` levels; a call on four sites or more makes its two
calls on strictly smaller ranges. -/
theorem DelaunayCalls_spec : ∀ (fuel d sl sh : Nat), sl + 2 ≤ sh → Nat.clog 2 (sh - sl) ≤ fuel →
    ∃ c, DelaunayCalls fuel d sl sh = some c ∧
      ∀ x ∈ c, x.2.1 + 2 ≤ x.2.2 ∧ sl ≤ x.2.1 ∧ x.2.2 ≤ sh ∧ d ≤ x.1 ∧
        x.1 + 1 ≤ d + Nat.clog 2 (sh - sl) ∧
        (x.2.2 = x.2.1 + 2 ∨ x.2.2 = x.2.1 + 3 ∨
          (x.2.1 + 4 ≤ x.2.2 ∧
            (x.2.1 + x.2.2) / 2 - x.2.1 < x.2.2 - x.2.1 ∧
            x.2.2 - (x.2.1 + x.2.2) / 2 < x.2.2 - x.2.1 ∧
            (x.1 + 1, x.2.1, (x.2.1 + x.2.2) / 2) ∈ c ∧
            (x.1 + 1, (x.2.1 + x.2.2) / 2, x.2.2) ∈ c)) := by
  intro fuel
  induction fuel with
  | zero =>
    intro d sl sh h2 hf
    have := clog_pos_of_two_le (show 2 ≤ sh - sl by omega)
    omega
  | succ f ih =>
    intro d sl sh h2 hf
    have hpos := clog_pos_of_two_le (show 2 ≤ sh - sl by omega)
    by_cases c2 : sh = sl + 2
    · refine ⟨[(d, sl, sh)], by simp [DelaunayCalls, c2], ?_⟩
      intro x hx
      obtain rfl := List.mem_singleton.1 hx
      exact ⟨by simp only; omega, le_refl _, le_refl _, le_refl _, by omega, Or.inl c2⟩
    · by_cases c3 : sh = sl + 3
      · refine ⟨[(d, sl, sh)], by simp [DelaunayCalls, c3], ?_⟩
        intro x hx
        obtain rfl := List.mem_singleton.1 hx
        exact ⟨by simp only; omega, le_refl _, le_refl _, le_refl _, by omega,
          Or.inr (Or.inl c3)⟩
      · have hhalf := clog_half (show 2 ≤ sh - sl by omega)
        have hl1 : (sl + sh) / 2 - sl ≤ (sh - sl + 1) / 2 := by omega
        have hr1 : sh - (sl + sh) / 2 ≤ (sh - sl + 1) / 2 := by omega
        have hlc := Nat.clog_mono_right 2 hl1
        have hrc := Nat.clog_mono_right 2 hr1
        obtain ⟨l, hl, hlp⟩ := ih (d + 1) sl ((sl + sh) / 2) (by omega) (by omega)
        obtain ⟨r, hr, hrp⟩ := ih (d + 1) ((sl + sh) / 2) sh (by omega) (by omega)
        refine ⟨(d, sl, sh) :: (l ++ r), by simp [DelaunayCalls, c2, c3, hl, hr], ?_⟩
        intro x hx
        rcases List.mem_cons.1 hx with hx | hx
        · subst hx
          dsimp only
          refine ⟨h2, le_refl _, le_refl _, le_refl _, by omega, Or.inr (Or.inr ⟨by omega,
            by omega, by omega, ?_, ?_⟩)⟩
          · exact List.mem_cons_of_mem _ (List.mem_append_left _ (DelaunayCalls_head _ _ _ _ _ hl))
          · exact List.mem_cons_of_mem _
              (List.mem_append_right _ (DelaunayCalls_head _ _ _ _ _ hr))
        · rcases List.mem_append.1 hx with hx | hx
          · obtain ⟨g1, g2, g3, g4, g5, g6⟩ := hlp x hx
            refine ⟨g1, g2, by omega, by omega, by omega, ?_⟩
            rcases g6 with g | g | ⟨k1, k2, k3, k4, k5⟩
            · exact Or.inl g
            · exact Or.inr (Or.inl g)
            · exact Or.inr (Or.inr ⟨k1, k2, k3,
                List.mem_cons_of_mem _ (List.mem_append_left _ k4),
                List.mem_cons_of_mem _ (List.mem_append_left _ k5)⟩)
          · obtain ⟨g1, g2, g3, g4, g5, g6⟩ := hrp x hx
            refine ⟨g1, by omega, g3, by omega, by omega, ?_⟩
            rcases g6 with g | g | ⟨k1, k2, k3, k4, k5⟩
            · exact Or.inl g
            · exact Or.inr (Or.inl g)
            · exact Or.inr (Or.inr ⟨k1, k2, k3,
                List.mem_cons_of_mem _ (List.mem_append_right _ k4),
                List.mem_cons_of_mem _ (List.mem_append_right _ k5)⟩)

/-- A run of `Delaunay` that returns has made the calls of `DelaunayCalls`. -/
theorem Delaunay_calls {sites : List Site} : ∀ (fuel : Nat) (s : EdgeStore) (sl sh d : Nat)
    (r : (Ptr × Ptr) × EdgeStore), Delaunay sites fuel s sl sh = some r →
      ∃ c, DelaunayCalls fuel d sl sh = some c := by
  intro fuel
  induction fuel with
  | zero => intro s sl sh d r h; simp [Delaunay] at h
  | succ f ih =>
    intro s sl sh d r h
    simp only [Delaunay] at h
    simp only [DelaunayCalls]
    split
    · exact ⟨_, rfl⟩
    · rename_i c2
      rw [if_neg c2] at h
      split
      · exact ⟨_, rfl⟩
      · rename_i c3
        rw [if_neg c3] at h
        cases h1 : Delaunay sites f s sl ((sl + sh) / 2) with
        | none => rw [h1] at h; simp at h
        | some r1 =>
          obtain ⟨⟨ldo, ldi⟩, s1⟩ := r1
          rw [h1] at h
          simp only at h
          cases h2 : Delaunay sites f s1 ((sl + sh) / 2) sh with
          | none => rw [h2] at h; simp at h
          | some r2 =>
            obtain ⟨l, hl⟩ := ih _ _ _ (d + 1) _ h1
            obtain ⟨r', hr'⟩ := ih _ _ _ (d + 1) _ h2
            rw [hl, hr']
            exact ⟨_, rfl⟩

/-- C40: for every site count `n >= 2`, with fuel `ceil(log2(n))` the recursion of
`Delaunay(0, n)` comes to an end; every call `Delaunay(sl, sh)` in it has `sh - sl >= 2` and
lies inside `[0, n)`, its nesting depth (1 for the outermost call) is at most `ceil(log2(n))`,
it is a 2-site or a 3-site base case or it has four sites or more, and then it makes its two
calls, both on strictly smaller ranges; a run of `Delaunay(0, n)` that returns has made exactly
these calls. -/
theorem C40_recursion_depth (n : Nat) (hn : 2 ≤ n) :
    ∃ c, DelaunayCalls (Nat.clog 2 n) 1 0 n = some c ∧
      (∀ x ∈ c, x.2.1 + 2 ≤ x.2.2 ∧ x.2.2 ≤ n ∧ 1 ≤ x.1 ∧ x.1 ≤ Nat.clog 2 n ∧
        (x.2.2 = x.2.1 + 2 ∨ x.2.2 = x.2.1 + 3 ∨
          (x.2.1 + 4 ≤ x.2.2 ∧
            (x.2.1 + x.2.2) / 2 - x.2.1 < x.2.2 - x.2.1 ∧
            x.2.2 - (x.2.1 + x.2.2) / 2 < x.2.2 - x.2.1 ∧
            (x.1 + 1, x.2.1, (x.2.1 + x.2.2) / 2) ∈ c ∧
            (x.1 + 1, (x.2.1 + x.2.2) / 2, x.2.2) ∈ c))) ∧
      ∀ (sites : List Site) (fuel : Nat) (s : EdgeStore) (r : (Ptr × Ptr) × EdgeStore),
        Delaunay sites fuel s 0 n = some r → DelaunayCalls fuel 1 0 n = some c := by
  obtain ⟨c, hc, hp⟩ := DelaunayCalls_spec (Nat.clog 2 n) 1 0 n (by omega) (le_refl _)
  refine ⟨c, hc, ?_, ?_⟩
  · intro x hx
    obtain ⟨g1, _, g3, g4, g5, g6⟩ := hp x hx
    rw [Nat.sub_zero] at g5
    exact ⟨g1, g3, g4, by omega, g6⟩
  · intro sites fuel s r h
    obtain ⟨c', hc'⟩ := Delaunay_calls fuel s 0 n 1 r h
    have h1 := DelaunayCalls_mono _ _ _ _ _ hc' (max fuel (Nat.clog 2 n)) (le_max_left _ _)
    have h2 := DelaunayCalls_mono _ _ _ _ _ hc (max fuel (Nat.clog 2 n)) (le_max_right _ _)
    rw [h1] at h2
    rw [hc', h2]

theorem clog_two_seven : Nat.clog 2 7 = 3 := by
  rw [Nat.clog_of_two_le (by decide) (by decide), Nat.clog_of_two_le (by decide) (by decide),
    Nat.clog_of_two_le (by decide) (by decide)]
  simp

/-- C40 (witness): seven sites; `ceil(log2(7))` is 3 and the calls are `Delaunay(0, 7)` at
depth 1, `Delaunay(0, 3)` and `Delaunay(3, 7)` at depth 2, `Delaunay(3, 5)` and
`Delaunay(5, 7)` at depth 3. -/
theorem C40_recursion_depth_witness :
    2 ≤ 7 ∧ Nat.clog 2 7 = 3 ∧
    DelaunayCalls 3 1 0 7 = some [(1, 0, 7), (2, 0, 3), (2, 3, 7), (3, 3, 5), (3, 5, 7)] ∧
    ∃ c, DelaunayCalls (Nat.clog 2 7) 1 0 7 = some c ∧
      (∀ x ∈ c, x.2.1 + 2 ≤ x.2.2 ∧ x.2.2 ≤ 7 ∧ 1 ≤ x.1 ∧ x.1 ≤ Nat.clog 2 7 ∧
        (x.2.2 = x.2.1 + 2 ∨ x.2.2 = x.2.1 + 3 ∨
          (x.2.1 + 4 ≤ x.2.2 ∧
            (x.2.1 + x.2.2) / 2 - x.2.1 < x.2.2 - x.2.1 ∧
            x.2.2 - (x.2.1 + x.2.2) / 2 < x.2.2 - x.2.1 ∧
            (x.1 + 1, x.2.1, (x.2.1 + x.2.2) / 2) ∈ c ∧
            (x.1 + 1, (x.2.1 + x.2.2) / 2, x.2.2) ∈ c))) ∧
      ∀ (sites : List Site) (fuel : Nat) (s : EdgeStore) (r : (Ptr × Ptr) × EdgeStore),
        Delaunay sites fuel s 0 7 = some r → DelaunayCalls fuel 1 0 7 = some c :=
  ⟨by decide, clog_two_seven, by decide, C40_recursion_depth 7 (by decide)⟩

/-! ## Allocation order of a Fixed pool and the Voronoi pass -/

/-- The pool after `k >= 1` allocations: the free stack holds the slots below `C - k`. -/
theorem MemoryPool.allocated_eq (C : Nat) : ∀ k, 1 ≤ k → k ≤ C →
    MemoryPool.allocated C k = ⟨C, some 0, some (List.range (C - k)).reverse⟩ := by
  intro k
  induction k with
  | zero => intro h; omega
  | succ k ih =>
    intro _ hk
    obtain ⟨m, hm⟩ : ∃ m, C - k = m + 1 := ⟨C - k - 1, by omega⟩
    have hm' : C - (k + 1) = m := by omega
    cases k with
    | zero =>
      rw [Nat.sub_zero] at hm
      subst hm
      simp only [MemoryPool.allocated, MemoryPool.NewObject, MemoryPool.init,
        MemoryPool.CreateChunk, Option.isNone_none, if_true]
      rw [Mem.range_reverse_succ]
      simp
    | succ j =>
      simp only [MemoryPool.allocated] at ih ⊢
      rw [ih (by omega) (by omega)]
      simp only [MemoryPool.NewObject, Option.isNone_some, Bool.false_eq_true, if_false]
      rw [hm, Mem.range_reverse_succ, hm']

/-- The `(k+1)`-th allocation of a Fixed pool of capacity `C` returns slot `C - (k+1)`; a chunk
is created by the first allocation only. -/
theorem MemoryPool.NewObject_allocated (C k : Nat) (hk : k < C) :
    (MemoryPool.allocated C k).NewObject
      = (MemoryPool.allocated C (k + 1), decide (k = 0), some (C - (k + 1))) := by
  obtain ⟨m, hm⟩ : ∃ m, C - k = m + 1 := ⟨C - k - 1, by omega⟩
  have hm' : C - (k + 1) = m := by omega
  have h1 := MemoryPool.allocated_eq C (k + 1) (by omega) (by omega)
  cases k with
  | zero =>
    rw [h1]
    rw [Nat.sub_zero] at hm
    subst hm
    simp only [MemoryPool.allocated, MemoryPool.NewObject, MemoryPool.init,
      MemoryPool.CreateChunk, Option.isNone_none, if_true]
    rw [Mem.range_reverse_succ]
    simp
  | succ j =>
    rw [h1, MemoryPool.allocated_eq C (j + 1) (by omega) (by omega)]
    simp only [MemoryPool.NewObject, Option.isNone_some, Bool.false_eq_true, if_false]
    rw [hm, Mem.range_reverse_succ, hm']
    simp

/-- A full pool returns NULL. -/
theorem MemoryPool.NewObject_full (C k : Nat) (hk : C ≤ k) :
    (MemoryPool.allocated C k).NewObject.2.2 = none := by
  have key : ∀ j, (MemoryPool.allocated C (C + j)).NewObject.2.2 = none ∧
      (C + j = 0 ∨ MemoryPool.allocated C (C + j) = ⟨C, some 0, some []⟩) := by
    intro j
    induction j with
    | zero =>
      by_cases hC : C = 0
      · subst hC
        refine ⟨?_, Or.inl rfl⟩
        simp [MemoryPool.allocated, MemoryPool.NewObject, MemoryPool.init,
          MemoryPool.CreateChunk]
      · have h1 := MemoryPool.allocated_eq C C (by omega) (le_refl _)
        rw [Nat.sub_self] at h1
        rw [Nat.add_zero, h1]
        exact ⟨by simp [MemoryPool.NewObject], Or.inr rfl⟩
    | succ j ih =>
      have hstep : MemoryPool.allocated C (C + (j + 1))
          = (MemoryPool.allocated C (C + j)).NewObject.1 := rfl
      rcases ih.2 with h0 | h0
      · have hC : C = 0 := by omega
        have hj : j = 0 := by omega
        subst hC hj
        have h2 : MemoryPool.allocated 0 (0 + (0 + 1)) = ⟨0, some 0, some []⟩ := by
          simp [MemoryPool.allocated, MemoryPool.NewObject, MemoryPool.init,
            MemoryPool.CreateChunk]
        rw [h2]
        exact ⟨by simp [MemoryPool.NewObject], Or.inr rfl⟩
      · have h2 : MemoryPool.allocated C (C + (j + 1)) = ⟨C, some 0, some []⟩ := by
          rw [hstep, h0]; simp [MemoryPool.NewObject]
        rw [h2]
        exact ⟨by simp [MemoryPool.NewObject], Or.inr rfl⟩
  obtain ⟨j, rfl⟩ : ∃ j, k = C + j := ⟨k - C, by omega⟩
  exact (key j).1

theorem siteAt_mem {sites : List Site} {p : Ptr} {a : Site} (h : siteAt sites p = some a) :
    a ∈ sites := by
  cases p with
  | none => simp [siteAt] at h
  | some i =>
    simp only [siteAt] at h
    exact List.getElem?_mem h

theorem newVoronoiVertex_vorInv {sites : List Site} {C : Nat} {t t' : Triangulator}
    {s1 s2 s3 vs : Ptr} (hI : VorInv sites C t)
    (h : newVoronoiVertex t s1 s2 s3 = some (vs, t')) : VorInv sites C t' := by
  obtain ⟨hs, k, hk, hp, hv⟩ := hI
  simp only [newVoronoiVertex, hp, Option.bind_eq_bind, Option.some_bind,
    Option.bind_eq_some] at h
  obtain ⟨a, ha, b, hb, c, hc, h⟩ := h
  by_cases hkC : k < C
  · rw [MemoryPool.NewObject_allocated C k hkC] at h
    simp only [Option.pure_def, Option.some.injEq, Prod.mk.injEq] at h
    obtain ⟨_, rfl⟩ := h
    refine ⟨hs, k + 1, by omega, rfl, ?_⟩
    intro w hw1 hw2
    by_cases hwv : w = C - (k + 1)
    · refine ⟨a, b, c,
        (if decide (k = 0) = true then fun _ => ⟨some (0, 0)⟩ else t.m_vsite) (C - (k + 1)),
        ?_, ?_, ?_, ?_⟩
      · rw [← hs]; exact siteAt_mem ha
      · rw [← hs]; exact siteAt_mem hb
      · rw [← hs]; exact siteAt_mem hc
      · show upd _ _ _ w = _
        rw [hwv, upd_same]
    · have hk0 : k ≠ 0 := by omega
      obtain ⟨a', b', c', z, g1, g2, g3, g4⟩ := hv w (by omega) hw2
      refine ⟨a', b', c', z, g1, g2, g3, ?_⟩
      show upd _ _ _ w = _
      rw [upd_ne _ _ hwv]
      simp only [hk0, decide_False, Bool.false_eq_true, if_false]
      exact g4
  · have := MemoryPool.NewObject_full C k (by omega)
    cases hN : (MemoryPool.allocated C k).NewObject with
    | mk p1 r =>
      cases r with
      | mk cr v =>
        rw [hN] at this h
        simp only at this
        subst this
        simp at h

theorem VorInv.dEdge {sites : List Site} {C : Nat} {t : Triangulator} (hI : VorInv sites C t)
    (s : EdgeStore) : VorInv sites C { t with m_dEdge := s } := hI

theorem emitVertex_vorInv {sites : List Site} {C : Nat} {t t' : Triangulator} {e eo el : Ptr}
    (hI : VorInv sites C t) (h : emitVertex t e eo el = some t') : VorInv sites C t' := by
  simp only [emitVertex, Option.bind_eq_bind, Option.bind_eq_some] at h
  obtain ⟨_, _, _, _, _, _, ⟨vs, t1⟩, h1, h⟩ := h
  simp only [Option.bind_eq_some] at h
  obtain ⟨s1, h2, s2, h3, h⟩ := h
  simp only [Option.pure_def, Option.some.injEq] at h
  subst h
  exact (newVoronoiVertex_vorInv hI h1).dEdge _

theorem vorVisit_vorInv {sites : List Site} {C : Nat} {t t' : Triangulator} {e eo : Ptr}
    (hI : VorInv sites C t) (h : vorVisit t e = some (t', eo)) : VorInv sites C t' := by
  simp only [vorVisit, Option.bind_eq_bind, Option.bind_eq_some] at h
  obtain ⟨eOnext, _, eLnext, _, c, _, h⟩ := h
  split at h
  · simp only [Option.bind_eq_some] at h
    obtain ⟨t1, h1, h⟩ := h
    simp only [Option.pure_def, Option.some.injEq, Prod.mk.injEq] at h
    obtain ⟨rfl, rfl⟩ := h
    exact emitVertex_vorInv hI h1
  · simp only [Option.pure_def, Option.some.injEq, Prod.mk.injEq] at h
    obtain ⟨rfl, rfl⟩ := h
    exact hI

theorem vorRing_vorInv {sites : List Site} {C : Nat} {eStart : Ptr} (fuel : Nat) :
    ∀ {t t' : Triangulator} {e : Ptr}, VorInv sites C t → vorRing eStart fuel t e = some t' →
      VorInv sites C t' := by
  induction fuel with
  | zero => intro t t' e _ h; simp [vorRing] at h
  | succ n ih =>
    intro t t' e hI h
    simp only [vorRing] at h
    split at h
    · simp at h
    · rename_i t1 eo hv
      have g := vorVisit_vorInv hI hv
      split at h
      · exact ih g h
      · obtain rfl : t1 = t' := by simpa using h
        exact g

theorem vorSlot_vorInv {sites : List Site} {C : Nat} {fuel : Nat} {t t' : Triangulator}
    {i : Nat} (hI : VorInv sites C t) (h : vorSlot fuel t i = some t') : VorInv sites C t' := by
  simp only [vorSlot, Option.bind_eq_bind, Option.bind_eq_some] at h
  obtain ⟨c, _, h⟩ := h
  split at h
  · simp only [Option.pure_def, Option.some.injEq] at h
    subst h; exact hI
  · exact vorRing_vorInv _ hI h

theorem GenerateVoronoiVertices_vorInv {sites : List Site} {C : Nat} {fuel : Nat}
    {t t' : Triangulator} (hI : VorInv sites C t)
    (h : GenerateVoronoiVertices fuel t = some t') : VorInv sites C t' := by
  simp only [GenerateVoronoiVertices, Option.bind_eq_bind, Option.bind_eq_some] at h
  obtain ⟨s1, _, h3⟩ := h
  exact foldlM_inv (VorInv sites C) (vorSlot fuel) (fun _ _ _ hP hf => vorSlot_vorInv hP hf)
    _ _ _ (hI.dEdge s1) h3

/-- C39: with `Triangulator_VoronoiVertices` set and the Voronoi pool as `AllocateStorage`
leaves it (capacity `C = 2 * m_nSites`, no chunk yet), when the Voronoi part of the constructor
returns, some number `k <= C` of vertices has been allocated and none deleted;
`GetNumVoronoiVertices()` is `k`; when `k` is 0 `GetVoronoiVertices()` is NULL, and otherwise it
points to slot `C - k`, which is `GetNumFree()`; the `(j+1)`-th allocation returned slot
`C - (j+1)`, so the allocated slots are those from `GetNumFree()` up to `C`; and each of these
slots holds what `Circumcenter` wrote for three of the sites. -/
theorem C39_voronoi_vertex_array (fuel : Nat) (t t' : Triangulator)
    (hattr : hasAttr t.m_attributes Triangulator_VoronoiVertices = true)
    (hpool : t.m_vEdgePool = some (MemoryPool.init (t.m_nSites * 2)))
    (h : voronoiPart fuel t = some t') :
    ∃ k, k ≤ t.m_nSites * 2 ∧
      t'.m_vEdgePool = some (MemoryPool.allocated (t.m_nSites * 2) k) ∧
      t'.GetNumVoronoiVertices = k ∧
      (k = 0 → t'.GetVoronoiVertices = none) ∧
      (0 < k → t'.GetVoronoiVertices = some (t.m_nSites * 2 - k) ∧
        (MemoryPool.allocated (t.m_nSites * 2) k).GetNumFree = t.m_nSites * 2 - k) ∧
      (∀ j, j < k → (MemoryPool.allocated (t.m_nSites * 2) j).NewObject.2.2
        = some (t.m_nSites * 2 - (j + 1))) ∧
      ∀ w, t.m_nSites * 2 - k ≤ w → w < t.m_nSites * 2 →
        ∃ a b c z, a ∈ t.m_sites ∧ b ∈ t.m_sites ∧ c ∈ t.m_sites ∧
          t'.m_vsite w = (Circumcenter a b c z).2 := by
  simp only [voronoiPart, hattr, if_true, Option.bind_eq_bind, Option.bind_eq_some] at h
  obtain ⟨t1, h1, pool, hp, h⟩ := h
  simp only [Option.pure_def, Option.some.injEq] at h
  subst h
  have hn : t1.m_nSites = t.m_nSites := (GenerateVoronoiVertices_frame h1).2.2.1
  have hI0 : VorInv t.m_sites (t.m_nSites * 2) t :=
    ⟨rfl, 0, Nat.zero_le _, hpool, fun w h1 h2 => absurd h2 (by omega)⟩
  obtain ⟨_, k, hk, hpk, hv⟩ := GenerateVoronoiVertices_vorInv hI0 h1
  rw [hpk] at hp
  obtain rfl : MemoryPool.allocated (t.m_nSites * 2) k = pool := by simpa using hp
  refine ⟨k, hk, hpk, ?_, ?_, ?_, ?_, hv⟩
  · simp only [Triangulator.GetNumVoronoiVertices, hpk, hn]
    by_cases hk0 : k = 0
    · subst hk0
      simp [MemoryPool.allocated, MemoryPool.init, MemoryPool.GetDataPointer]
    · rw [MemoryPool.allocated_eq _ k (by omega) hk]
      simp only [MemoryPool.GetDataPointer, MemoryPool.GetNumFree, Option.isSome_some, if_true,
        List.length_reverse, List.length_range]
      omega
  · intro hk0
    subst hk0
    simp [Triangulator.GetVoronoiVertices, hpk, MemoryPool.allocated, MemoryPool.init,
      MemoryPool.GetDataPointer]
  · intro hk0
    rw [MemoryPool.allocated_eq _ k (by omega) hk] at hpk ⊢
    simp [Triangulator.GetVoronoiVertices, hpk, MemoryPool.GetDataPointer,
      MemoryPool.GetNumFree]
  · intro j hj
    rw [MemoryPool.NewObject_allocated _ j (by omega)]

set_option maxRecDepth 1000000 in
set_option maxHeartbeats 4000000 in
/-- C39 (witness): the sites (0,0), (4,0), (0,4) with `Triangulator_VoronoiVertices`; the pool
has capacity 6, two faces are emitted, and the array starts at slot 4. -/
theorem C39_voronoi_vertex_array_witness :
    ∃ t t', (triangulate 30 [(0, 0), (4, 0), (0, 4)] 8 []).bind (MarkHull 30) = some t ∧
      voronoiPart 30 t = some t' ∧
      hasAttr t.m_attributes Triangulator_VoronoiVertices = true ∧
      t.m_vEdgePool = some (MemoryPool.init (t.m_nSites * 2)) ∧ t.m_nSites * 2 = 6 ∧
      t'.GetVoronoiVertices = some 4 ∧ t'.GetNumVoronoiVertices = 2 ∧
      ∃ k, k ≤ t.m_nSites * 2 ∧
        t'.m_vEdgePool = some (MemoryPool.allocated (t.m_nSites * 2) k) ∧
        t'.GetNumVoronoiVertices = k ∧
        (k = 0 → t'.GetVoronoiVertices = none) ∧
        (0 < k → t'.GetVoronoiVertices = some (t.m_nSites * 2 - k) ∧
          (MemoryPool.allocated (t.m_nSites * 2) k).GetNumFree = t.m_nSites * 2 - k) ∧
        (∀ j, j < k → (MemoryPool.allocated (t.m_nSites * 2) j).NewObject.2.2
          = some (t.m_nSites * 2 - (j + 1))) ∧
        ∀ w, t.m_nSites * 2 - k ≤ w → w < t.m_nSites * 2 →
          ∃ a b c z, a ∈ t.m_sites ∧ b ∈ t.m_sites ∧ c ∈ t.m_sites ∧
            t'.m_vsite w = (Circumcenter a b c z).2 :=
  match h1 : (triangulate 30 [(0, 0), (4, 0), (0, 4)] 8 []).bind (MarkHull 30) with
  | some t =>
    match h2 : voronoiPart 30 t with
    | some t' =>
      have key1 : ((triangulate 30 [(0, 0), (4, 0), (0, 4)] 8 []).bind (MarkHull 30)).map
          (fun t => (hasAttr t.m_attributes Triangulator_VoronoiVertices,
            decide (t.m_vEdgePool = some (MemoryPool.init (t.m_nSites * 2))),
            t.m_nSites * 2)) = some (true, true, 6) := by
        decide
      have key2 : (((triangulate 30 [(0, 0), (4, 0), (0, 4)] 8 []).bind (MarkHull 30)).bind
          (voronoiPart 30)).map
          (fun t' => (t'.GetVoronoiVertices, t'.GetNumVoronoiVertices))
          = some (some 4, 2) := by
        decide
      have hk1 : hasAttr t.m_attributes Triangulator_VoronoiVertices = true ∧
          t.m_vEdgePool = some (MemoryPool.init (t.m_nSites * 2)) ∧ t.m_nSites * 2 = 6 := by
        rw [h1] at key1
        simpa using key1
      have hk2 : t'.GetVoronoiVertices = some 4 ∧ t'.GetNumVoronoiVertices = 2 := by
        rw [h1, Option.some_bind, h2] at key2
        simpa using key2
      ⟨t, t', rfl, h2, hk1.1, hk1.2.1, hk1.2.2, hk2.1, hk2.2,
        C39_voronoi_vertex_array 30 t t' hk1.1 hk1.2.1 h2⟩
    | none => by
      have key : (((triangulate 30 [(0, 0), (4, 0), (0, 4)] 8 []).bind (MarkHull 30)).bind
          (voronoiPart 30)).isSome = true := by decide
      rw [h1, Option.some_bind, h2] at key
      exact absurd key (by decide)
  | none => by
    have key : ((triangulate 30 [(0, 0), (4, 0), (0, 4)] 8 []).bind (MarkHull 30)).isSome
        = true := by decide
    rw [h1] at key
    exact absurd key (by decide)

set_option maxRecDepth 1000000 in
set_option maxHeartbeats 4000000 in
/-- C38 (code bug): the six sites (0,0), (0,1), (1,0), (1,0), (1,1), (2,0), one of them
repeated, with `Triangulator_TriangleIndices`.  The triangulation has 7 edges: the triangles of
the sites 0, 1, 2 and of the sites 3, 4, 5 joined by the edge between the two equal sites, so
`GetNumFaces()` is 7 - 6 + 2 = 3 and `m_tIndices` has 3 rows.  The scan of
`GenerateTriangleIndices` counts the visits of a quad-edge, not of its two sides, and each of
the two triangles is found twice: after 16 slots the rows are (3,5,4), (5,4,3), (2,1,0) and
the buffer is full; in slot 16 the face test holds for the edge of record 70 (corners 1, 0, 2)
and the write of row 3 is past the end of the buffer, so the constructor does not return in
the model. -/
theorem C38_triangle_written_past_the_buffer :
    (triangulate 30 [(0, 0), (0, 1), (1, 0), (1, 0), (1, 1), (2, 0)] 2 []).map
        (fun t => (t.m_nSites, t.m_nEdges, t.GetNumFaces)) = some (6, 7, 3) ∧
    (((triangulate 30 [(0, 0), (0, 1), (1, 0), (1, 0), (1, 1), (2, 0)] 2 []).bind
        (MarkHull 30)).bind (fun t => triScan 30 t 16)).map
        (fun t => (t.m_nTriangles, t.m_tIndices))
      = some (3, some [[3, 5, 4], [5, 4, 3], [2, 1, 0]]) ∧
    (((triangulate 30 [(0, 0), (0, 1), (1, 0), (1, 0), (1, 1), (2, 0)] 2 []).bind
        (MarkHull 30)).bind (fun t => triScan 30 t 16)).map
        (fun t => (faceTest t.m_dEdge (some 70) (some 64) (some 62),
          [(Org t.m_dEdge (some 70)).bind (m_id t.m_sites),
           (Dest t.m_dEdge (some 70)).bind (m_id t.m_sites),
           (Dest t.m_dEdge (some 64)).bind (m_id t.m_sites)],
          (writeTriangle t (some 70) (some 64)).isSome))
      = some (some true, [some 1, some 0, some 2], false) ∧
    (Triangulator.construct 30 [(0, 0), (0, 1), (1, 0), (1, 0), (1, 1), (2, 0)] 2 []).isSome
      = false := by
  refine ⟨by decide, by decide, by decide, by decide⟩

namespace Mesh

/-- C31 (code bug): the mesh points (0,0), (1,0), (0,5) (with heights 1 and boundary codes
1, 0, 0).  The mesh reader leaves the bounding box lower = (0, 0), upper = (1, 5).
`ValidateBoundaryConditions` then calls `ComputeBound` with `&(m_upper[0])` for both `maxx` and
`maxy`: `m_upper[0]` receives the largest of all x and y values, 5, and `m_upper[1]` is not
written.  After construction `GetBounds` returns upper = (5, 5), whereas the largest x of the
mesh points is 1. -/
theorem C31_upper_x_is_largest_coordinate :
    GetBounds (readBounds [[0, 0, 1, 1], [1, 0, 1, 0], [0, 5, 1, 0]]) = ([1, 5], [0, 0]) ∧
    GetBounds (constructedBounds [[0, 0, 1, 1], [1, 0, 1, 0], [0, 5, 1, 0]])
      = ([5, 5], [0, 0]) := by
  decide!

end Mesh

namespace Config

set_option maxRecDepth 100000 in
/-- C32 (code bug): the config line `ab=1` with its newline: a name, no space before `=`, a
value.  `Split` takes `in.substr(0, pos-1)` as the name, which drops the character in front of
`=`: it yields the name `a` and the value `1`, so `m_symbols` gets the entry `a` and
`PString("ab")` finds nothing.  With one space before `=` the name is `ab`. -/
theorem C32_name_loses_last_character :
    Split ['a', 'b', chEquals, '1', chNewline] chEquals = (['a'], ['1']) ∧
    addLine [] ['a', 'b', chEquals, '1', chNewline] = [(['a'], ['1'])] ∧
    PString (addLine [] ['a', 'b', chEquals, '1', chNewline]) ['a', 'b'] = none ∧
    Split ['a', 'b', chSpace, chEquals, '1', chNewline] chEquals = (['a', 'b'], ['1']) ∧
    PString (addLine [] ['a', 'b', chSpace, chEquals, '1', chNewline]) ['a', 'b']
      = some ['1'] := by
  decide

end Config

end SPGM
